import Mathlib

/-!
Echll: the DSDE simulation kernel (`vle/dsde.hpp`, `vle/port.hpp`)

A shallow embedding of the kernel of `vle/dsde.hpp` and of the port bundle of
`vle/port.hpp`, followed by theorems about it.

Conventions of the embedding.

* A `Model*` is an address (`Nat`); `nullptr` and a default-constructed heap
  handle are `none`.  A `std::set <Model*>` is a strictly increasing list of
  addresses, iterated in increasing order.
* A coupled model or an executive holds the objects its `children()` hook (and
  `insert`) hand to the kernel in the list `kids`.
* The virtual hooks `init`, `delta`, `lambda`, `post` are user code: they are
  the fields of `Dynamics`, indexed by the address of the model they belong to.
* Every kernel function returns a `Run`: the object after the call, the log of
  the hooks and nested kernel calls it made, and the fault that ended it, if
  any.  A C++ exception, a failed `assert` and an operation whose behaviour is
  undefined (dereferencing an invalid handle, `top()` of an empty heap, a
  pointer to a model the coupled model does not hold) are faults.
* The kernel is embedded as compiled without `VLE_OPTIMIZE` and without
  `NDEBUG`, so the synchronization checks and the `assert`s are present.
* `start`, `output` and `transition` are virtual and recurse into the
  children; the recursion is driven by a depth counter (`Model.depth`).
-/

namespace vle

/-! ## Time -/

/-- Modelled from the spec: `vle/time.hpp` is not among the sources.  The time
trait is a totally ordered scalar type with `t + d`, `t - t'`, unary minus and
a designated `infinity` (`Time::infinity`, and `-Time::infinity`). -/
class TimeTrait (T : Type) extends LinearOrder T, Add T, Sub T, Neg T, Zero T where
  infinity : T

/-- The laws of the time trait that the kernel relies on: both infinities bound
every time, and a non-negative advance does not go back in time. -/
class LawfulTime (T : Type) [TimeTrait T] : Prop where
  le_infinity : ∀ t : T, t ≤ TimeTrait.infinity
  neg_infinity_le : ∀ t : T, -(TimeTrait.infinity : T) ≤ t
  le_add_of_nonneg : ∀ t d : T, 0 ≤ d → t ≤ t + d

/-- A concrete time domain: the integers with both infinities. -/
inductive ExtInt where
  | ninf
  | fin (z : Int)
  | pinf
deriving DecidableEq, Repr

namespace ExtInt

/-- Order of the extended integers, as a boolean test. -/
def leb : ExtInt → ExtInt → Bool
  | ninf, _ => true
  | _, pinf => true
  | fin a, fin b => decide (a ≤ b)
  | fin _, ninf => false
  | pinf, ninf => false
  | pinf, fin _ => false

/-- Sum; an infinite left operand absorbs the right one. -/
def add : ExtInt → ExtInt → ExtInt
  | fin a, fin b => fin (a + b)
  | fin _, ninf => ninf
  | fin _, pinf => pinf
  | ninf, _ => ninf
  | pinf, _ => pinf

/-- Opposite. -/
def neg : ExtInt → ExtInt
  | ninf => pinf
  | fin a => fin (-a)
  | pinf => ninf

instance : LE ExtInt := ⟨fun a b => leb a b = true⟩
instance : LT ExtInt := ⟨fun a b => leb a b = true ∧ ¬ leb b a = true⟩
instance : Add ExtInt := ⟨add⟩
instance : Neg ExtInt := ⟨neg⟩
instance : Sub ExtInt := ⟨fun a b => add a (neg b)⟩
instance : Zero ExtInt := ⟨fin 0⟩
instance (a b : ExtInt) : Decidable (a ≤ b) := inferInstanceAs (Decidable (leb a b = true))
instance (a b : ExtInt) : Decidable (a < b) :=
  inferInstanceAs (Decidable (leb a b = true ∧ ¬ leb b a = true))

instance : LinearOrder ExtInt where
  le_refl a := by
    change leb a a = true
    cases a <;> simp [leb]
  le_trans a b c h1 h2 := by
    change leb a b = true at h1
    change leb b c = true at h2
    change leb a c = true
    cases a <;> cases b <;> cases c <;> simp [leb] at * <;> omega
  le_antisymm a b h1 h2 := by
    change leb a b = true at h1
    change leb b a = true at h2
    cases a <;> cases b <;> simp [leb] at * <;> omega
  le_total a b := by
    change leb a b = true ∨ leb b a = true
    cases a <;> cases b <;> simp [leb] <;> omega
  lt_iff_le_not_le _ _ := Iff.rfl
  decidableLE := inferInstance
  decidableLT := inferInstance
  decidableEq := inferInstance

instance : TimeTrait ExtInt where
  infinity := pinf

instance : LawfulTime ExtInt where
  le_infinity t := by
    change leb t pinf = true
    cases t <;> rfl
  neg_infinity_le t := by
    change leb ninf t = true
    cases t <;> rfl
  le_add_of_nonneg t d h := by
    change leb (fin 0) d = true at h
    change leb t (add t d) = true
    cases t <;> cases d <;> simp [leb, add] at * <;> omega

end ExtInt

/-! ## Port bundles (`vle/port.hpp`) -/

/-- The port bundle `PortList <Value>`: the value lists of the ports, the
name-to-index map `accessor` and the flag `empty`. -/
structure PortList (V : Type) where
  ports : List (List V)
  accessor : List (String × Int)
  empty : Bool

namespace PortList

variable {V : Type}

/-- The default constructor `PortList()`. -/
def new : PortList V := ⟨[], [], true⟩

/-- The member `std::map::emplace`: the key is bound only when it is not bound yet. -/
def emplaceName (acc : List (String × Int)) (name : String) (i : Int) : List (String × Int) :=
  if acc.any (fun p => p.1 == name) then acc else acc ++ [(name, i)]

/-- The member `add(name)`: a new empty port at the end, registered under
`name`; returns the bundle and the index of the new port. -/
def add (p : PortList V) (name : String) : PortList V × Int :=
  let ports := p.ports ++ [[]]
  (⟨ports, emplaceName p.accessor name ((ports.length : Int) - 1), p.empty⟩,
    (ports.length : Int) - 1)

/-- The constructor `PortList(std::initializer_list <std::string>)`. -/
def ofNames (lst : List String) : PortList V :=
  lst.foldl (fun p name => (p.add name).1) new

/-- The member `clear()`. -/
def clear (p : PortList V) : PortList V :=
  ⟨p.ports.map (fun _ => []), p.accessor, true⟩

/-- The member `is_empty()`. -/
def is_empty (p : PortList V) : Bool := p.empty

/-- Every value list of the bundle is empty. -/
def allEmpty (p : PortList V) : Prop := ∀ l ∈ p.ports, l = []

/-- The flag does not overstate: when `is_empty()` holds every list is empty. -/
def Consistent (p : PortList V) : Prop := p.is_empty = true → p.allEmpty

end PortList

/-! ## Sets of model pointers -/

/-- The member `std::set::insert` on a set of pointers kept in increasing order. -/
def setInsert (a : Nat) (s : List Nat) : List Nat :=
  if a ∈ s then s else s.orderedInsert (fun x y => x ≤ y) a

/-- The member `std::set::erase`. -/
def setErase (a : Nat) (s : List Nat) : List Nat :=
  s.filter (fun b => b ≠ a)

/-- Insertion of a range of pointers into a set. -/
def setInsertAll (l : List Nat) (s : List Nat) : List Nat :=
  l.foldl (fun acc a => setInsert a acc) s

/-! ## The event-time heap -/

/-- The entry of the heap: `{ element, tn, heapid }`. -/
structure HeapElement (T : Type) where
  element : Nat
  tn : T
  heapid : Option Nat

/-- Modelled from the spec: `vle/heap.hpp` is not among the sources.
`HeapType` is a mutable-key min-heap on `tn` with stable handles.  The entries
are kept with their handle in the order of their `emplace`; the ordered
iteration sorts them by `tn`, entries of equal `tn` in that order. -/
structure HeapType (T : Type) where
  nodes : List (Nat × HeapElement T)
  next : Nat

namespace HeapType

variable {T : Type}

/-- The empty heap. -/
def new : HeapType T := ⟨[], 0⟩

/-- The member `emplace(element, tn)`: returns the heap and the new handle. -/
def emplace (h : HeapType T) (element : Nat) (tn : T) : HeapType T × Nat :=
  (⟨h.nodes ++ [(h.next, ⟨element, tn, none⟩)], h.next + 1⟩, h.next)

/-- Dereferencing a handle: `*id`. -/
def deref (h : HeapType T) (id : Nat) : Option (HeapElement T) :=
  (h.nodes.find? (fun n => n.1 == id)).map (fun n => n.2)

/-- Writing through a handle: `(*id).field = ...`. -/
def modify (h : HeapType T) (id : Nat) (f : HeapElement T → HeapElement T) : HeapType T :=
  ⟨h.nodes.map (fun n => if n.1 == id then (n.1, f n.2) else n), h.next⟩

/-- The member `update(handle)`: the order is recomputed from the keys at each
iteration, so there is nothing to restore. -/
def update (h : HeapType T) (_id : Nat) : HeapType T := h

/-- The member `erase(handle)`. -/
def erase (h : HeapType T) (id : Nat) : HeapType T :=
  ⟨h.nodes.filter (fun n => n.1 != id), h.next⟩

/-- The member `empty()`. -/
def empty (h : HeapType T) : Bool := h.nodes.isEmpty

/-- The member `size()`. -/
def size (h : HeapType T) : Nat := h.nodes.length

/-- The entries in the order of `ordered_begin()` .. `ordered_end()`. -/
def ordered [LinearOrder T] (h : HeapType T) : List (HeapElement T) :=
  (h.nodes.map (fun n => n.2)).insertionSort (fun a b => a.tn ≤ b.tn)

/-- The member `top()`; `none` on an empty heap. -/
def top [LinearOrder T] (h : HeapType T) : Option (HeapElement T) :=
  h.ordered.head?

/-- The statements `(*id).tn = tn; heap.update(id);`; `none` when the handle
designates no entry of the heap. -/
def setTn (h : HeapType T) (id : Option Nat) (tn : T) : Option (HeapType T) :=
  match id.bind h.deref with
  | none => none
  | some _ => some ((h.modify (id.getD 0) (fun e => { e with tn := tn })).update (id.getD 0))

end HeapType

/-! ## Models -/

/-- The data members of `Model <Time, Value>`: the bundles `x` and `y`, the
times `tl` and `tn`, the pointer `parent` and the handle `heapid`. -/
structure Core (T V : Type) where
  x : PortList V
  y : PortList V
  tl : T
  tn : T
  parent : Option Nat
  heapid : Option Nat

/-- The constructor `Model()`. -/
def Core.new {T V : Type} [TimeTrait T] : Core T V :=
  ⟨PortList.new, PortList.new, -TimeTrait.infinity, TimeTrait.infinity, none, none⟩

/-- The constructor `Model(lst_x, lst_y)`. -/
def Core.ofNames {T V : Type} [TimeTrait T] (lst_x lst_y : List String) : Core T V :=
  ⟨PortList.ofNames lst_x, PortList.ofNames lst_y, -TimeTrait.infinity, TimeTrait.infinity,
    none, none⟩

/-- The data members that `Executive` adds to `Model`, apart from its heap and
its `last_output_list`. -/
structure Chi (T V C : Type) where
  chi_tl : T
  chi_tn : T
  chi_heapid : Option Nat
  chi_x : PortList V
  chi_y : PortList V
  localcommon : C

/-- A model object, with its address.  `S` is the state the user's subclass
adds, `C` the type of the common data handed to `start`. -/
inductive Model (T V S C : Type) where
  | atomic (addr : Nat) (core : Core T V) (st : S)
  | coupled (addr : Nat) (core : Core T V) (st : S) (heap : HeapType T)
      (last_output_list : List Nat) (kids : List (Model T V S C))
  | executive (addr : Nat) (core : Core T V) (st : S) (chi : Chi T V C) (heap : HeapType T)
      (last_output_list : List Nat) (kids : List (Model T V S C))

namespace Model

variable {T V S C : Type}

/-- The address of the object. -/
def addr : Model T V S C → Nat
  | atomic a _ _ => a
  | coupled a _ _ _ _ _ => a
  | executive a _ _ _ _ _ _ => a

/-- The `Model` base of the object. -/
def core : Model T V S C → Core T V
  | atomic _ c _ => c
  | coupled _ c _ _ _ _ => c
  | executive _ c _ _ _ _ _ => c

/-- A write to the `Model` base of the object. -/
def mapCore (f : Core T V → Core T V) : Model T V S C → Model T V S C
  | atomic a c st => atomic a (f c) st
  | coupled a c st h l ks => coupled a (f c) st h l ks
  | executive a c st chi h l ks => executive a (f c) st chi h l ks

/-- The heap of a coupled model or executive. -/
def heap : Model T V S C → HeapType T
  | atomic _ _ _ => HeapType.new
  | coupled _ _ _ h _ _ => h
  | executive _ _ _ _ h _ _ => h

/-- The member `last_output_list` of a coupled model or executive. -/
def last_output_list : Model T V S C → List Nat
  | atomic _ _ _ => []
  | coupled _ _ _ _ l _ => l
  | executive _ _ _ _ _ l _ => l

/-- The objects a coupled model or executive holds. -/
def kids : Model T V S C → List (Model T V S C)
  | atomic _ _ _ => []
  | coupled _ _ _ _ _ ks => ks
  | executive _ _ _ _ _ _ ks => ks

mutual
/-- The nesting depth of the object. -/
def depth : Model T V S C → Nat
  | atomic _ _ _ => 0
  | coupled _ _ _ _ _ ks => depthList ks + 1
  | executive _ _ _ _ _ _ ks => depthList ks + 1
/-- The largest nesting depth in a list of objects. -/
def depthList : List (Model T V S C) → Nat
  | [] => 0
  | k :: ks => max (depth k) (depthList ks)
end

end Model

/-- The object at an address among the objects a coupled model holds. -/
def findKid {T V S C : Type} (kids : List (Model T V S C)) (a : Nat) : Option (Model T V S C) :=
  kids.find? (fun k => k.addr == a)

/-- A write to the object at an address (distinct objects have distinct
addresses). -/
def setKid {T V S C : Type} (kids : List (Model T V S C)) (a : Nat) (m : Model T V S C) :
    List (Model T V S C) :=
  kids.map (fun k => if k.addr == a then m else k)

/-- A write to the base of the object at an address. -/
def mapKid {T V S C : Type} (kids : List (Model T V S C)) (a : Nat)
    (f : Core T V → Core T V) : List (Model T V S C) :=
  kids.map (fun k => if k.addr == a then k.mapCore f else k)

/-! ## User code -/

/-- The bundles of a model, as the routing function sees them. -/
structure Ports (V : Type) where
  addr : Nat
  x : PortList V
  y : PortList V

/-- The bundles of a model. -/
def Model.ports {T V S C : Type} (m : Model T V S C) : Ports V :=
  ⟨m.addr, m.core.x, m.core.y⟩

/-- What a call of the routing function `post(out, in)` does: it writes the
input bundles of children (a function of the child's address and of its
current `x`), may write the own output bundle `y`, and inserts the recipients
into `in`. -/
structure PostEffect (V : Type) where
  selfY : PortList V
  kidX : Nat → PortList V → PortList V
  recipients : List Nat

/-- A structural operator called by the `delta` of an executive. -/
inductive Structural (T V S C : Type) where
  | insert (mdl : Model T V S C)
  | erase (addr : Nat)

/-- The user-supplied virtual functions, by the address of the object:
`init(common, time)` and `delta(e)` return the time advance and the new user
state (`delta` reads `x`); `lambda()` writes `y`; `post(out, in)` sees the
bundles of the model and of its children and the two sets; `structural` lists
the `insert` and `erase` calls that the `delta` of an executive makes, in
order (it sees, last, the addresses of the objects the executive holds). -/
structure Dynamics (T V S C : Type) where
  init : Nat → C → T → S → T × S
  delta : Nat → T → PortList V → S → T × S
  lambda : Nat → S → PortList V → PortList V
  post : Nat → S → Ports V → List (Ports V) → List Nat → List Nat → PostEffect V
  structural : Nat → T → PortList V → S → List Nat → List (Structural T V S C)

/-! ## Runs -/

/-- What ends a call abnormally: the `dsde_internal_error` "Synchronization
error", a failed `assert`, undefined behaviour, or an exhausted depth counter. -/
inductive Fault where
  | synchronization
  | assertion
  | undefined
  | fuel
deriving DecidableEq, Repr

/-- The calls a kernel function makes: user hooks, and nested kernel calls with
the log of what they did. -/
inductive Event (T : Type) where
  | init (addr : Nat) (time : T)
  | delta (addr : Nat) (e : T)
  | lambda (addr : Nat)
  | post (addr : Nat) (out : List Nat) (inp : List Nat)
  | start (addr : Nat) (time : T) (inner : List (Event T))
  | transition (addr : Nat) (time : T) (inner : List (Event T))
  | output (addr : Nat) (time : T) (inner : List (Event T))

/-- The result of a kernel call: the state it leaves, what it called, and the
fault that ended it (`none` for a normal return). -/
structure Run (σ T : Type) where
  state : σ
  log : List (Event T)
  fault : Option Fault

/-- The heap and the objects of a coupled model or executive: what the loops
over children work on. -/
structure Net (T V S C : Type) where
  heap : HeapType T
  kids : List (Model T V S C)

/-! ## Atomic models -/

section Kernel

variable {T V S C : Type} [TimeTrait T]

/-- The member `AtomicModel::start(common, time)`. -/
def AtomicModel.start (D : Dynamics T V S C) (addr : Nat) (core : Core T V) (st : S)
    (common : C) (time : T) : Run (Model T V S C) T :=
  let r := D.init addr common time st
  ⟨.atomic addr { core with tl := time, tn := time + r.1 } r.2, [.init addr time], none⟩

/-- The member `AtomicModel::transition(time)`. -/
def AtomicModel.transition (D : Dynamics T V S C) (addr : Nat) (core : Core T V) (st : S)
    (time : T) : Run (Model T V S C) T :=
  if ¬ (core.tl ≤ time ∧ time ≤ core.tn) then
    ⟨.atomic addr core st, [], some .synchronization⟩
  else if time < core.tn ∧ core.x.is_empty = true then
    ⟨.atomic addr core st, [], none⟩
  else
    let r := D.delta addr (time - core.tl) core.x st
    ⟨.atomic addr { core with tn := time + r.1, tl := time, x := core.x.clear } r.2,
      [.delta addr (time - core.tl)], none⟩

/-- The member `AtomicModel::output(time)`. -/
def AtomicModel.output (D : Dynamics T V S C) (addr : Nat) (core : Core T V) (st : S)
    (time : T) : Run (Model T V S C) T :=
  if time = core.tn then
    ⟨.atomic addr { core with y := D.lambda addr st core.y } st, [.lambda addr], none⟩
  else
    ⟨.atomic addr core st, [], none⟩

/-! ## Transition policies -/

/-- The type of a transition policy `policy(bag, time, heap)`; its first
argument is the virtual call `child->transition(time)`. -/
abbrev Policy (T V S C : Type) : Type :=
  (Model T V S C → T → Run (Model T V S C) T) → List Nat → T → Net T V S C →
    Run (Net T V S C) T

/-- The sequential policy `TransitionPolicyDefault::operator()`. -/
def TransitionPolicyDefault : Policy T V S C
  | _, [], _, n => ⟨n, [], none⟩
  | tr, a :: bag, time, n =>
    match findKid n.kids a with
    | none => ⟨n, [], some .undefined⟩
    | some child =>
      let r := tr child time
      match r.fault with
      | some f => ⟨⟨n.heap, setKid n.kids a r.state⟩, [.transition a time r.log], some f⟩
      | none =>
        let child1 := r.state.mapCore (fun c => { c with x := c.x.clear })
        match n.heap.setTn child1.core.heapid child1.core.tn with
        | none => ⟨⟨n.heap, setKid n.kids a child1⟩, [.transition a time r.log], some .undefined⟩
        | some heap =>
          let rest := TransitionPolicyDefault tr bag time ⟨heap, setKid n.kids a child1⟩
          ⟨rest.state, .transition a time r.log :: rest.log, rest.fault⟩

/-! ## Routing -/

/-- The state a call of `post` works on, and the event of the call. -/
structure Routed (T V S C : Type) where
  core : Core T V
  kids : List (Model T V S C)
  last_output_list : List Nat
  log : List (Event T)

/-- The call `post(out, last_output_list)` of the model at `addr`. -/
def applyPost (D : Dynamics T V S C) (addr : Nat) (st : S) (core : Core T V)
    (kids : List (Model T V S C)) (out lol : List Nat) : Routed T V S C :=
  let eff := D.post addr st ⟨addr, core.x, core.y⟩ (kids.map Model.ports) out lol
  ⟨{ core with y := eff.selfY },
    kids.map (fun k => k.mapCore (fun c => { c with x := eff.kidX k.addr c.x })),
    setInsertAll eff.recipients lol,
    [.post addr out lol]⟩

/-! ## Coupled models -/

/-- The entries that the loops `for (; it != et && (*it).tn == time; ++it)` visit. -/
def HeapType.imminent (h : HeapType T) (time : T) : List (HeapElement T) :=
  h.ordered.takeWhile (fun e => decide (e.tn = time))

/-- The entries that the loop `do .. while (it != et && it->tn == tn)` of
`output` visits: the first entry, then the following entries whose `tn` is `tn`. -/
def HeapType.outputEntries (h : HeapType T) (tn : T) : List (HeapElement T) :=
  match h.ordered with
  | [] => []
  | it :: rest => it :: rest.takeWhile (fun e => decide (e.tn = tn))

/-- The loop over `children()` of `CoupledModel::start` and `Executive::start`;
`start` is the virtual call `child->start(common, time)`. -/
def startChildren (start : Model T V S C → C → T → Run (Model T V S C) T) (self : Nat)
    (common : C) (time : T) : List Nat → Net T V S C → Run (Net T V S C) T
  | [], n => ⟨n, [], none⟩
  | a :: cs, n =>
    match findKid n.kids a with
    | none => ⟨n, [], some .undefined⟩
    | some child =>
      let r := start (child.mapCore (fun c => { c with parent := some self })) common time
      match r.fault with
      | some f => ⟨⟨n.heap, setKid n.kids a r.state⟩, [.start a time r.log], some f⟩
      | none =>
        let e := n.heap.emplace a r.state.core.tn
        let child1 := r.state.mapCore (fun c => { c with heapid := some e.2 })
        let heap := e.1.modify e.2 (fun el => { el with heapid := some e.2 })
        let rest := startChildren start self common time cs ⟨heap, setKid n.kids a child1⟩
        ⟨rest.state, .start a time r.log :: rest.log, rest.fault⟩

/-- The member `CoupledModel::start(common, time)`; `children(common)` returns
the objects of `kids`, in order. -/
def CoupledModel.start (start : Model T V S C → C → T → Run (Model T V S C) T)
    (addr : Nat) (core : Core T V) (st : S) (heap : HeapType T) (lol : List Nat)
    (kids : List (Model T V S C)) (common : C) (time : T) : Run (Model T V S C) T :=
  let r := startChildren start addr common time (kids.map Model.addr) ⟨heap, kids⟩
  match r.fault with
  | some f => ⟨.coupled addr core st r.state.heap lol r.state.kids, r.log, some f⟩
  | none =>
    match r.state.heap.top with
    | none =>
      ⟨.coupled addr { core with tl := time } st r.state.heap lol r.state.kids, r.log,
        some .undefined⟩
    | some e =>
      ⟨.coupled addr { core with tl := time, tn := e.tn } st r.state.heap lol r.state.kids,
        r.log, none⟩

/-- The external routing of `CoupledModel::transition`:
`if (not x.is_empty()) { post({this}, last_output_list); x.clear(); }`. -/
def CoupledModel.route (D : Dynamics T V S C) (addr : Nat) (core : Core T V) (st : S)
    (lol : List Nat) (kids : List (Model T V S C)) : Routed T V S C :=
  if core.x.is_empty = true then ⟨core, kids, lol, []⟩
  else
    let p := applyPost D addr st core kids [addr] lol
    ⟨{ p.core with x := p.core.x.clear }, p.kids, p.last_output_list, p.log⟩

/-- The bag of `CoupledModel::transition`: the elements of the imminent
entries, then the members of `last_output_list`. -/
def CoupledModel.bag (heap : HeapType T) (time : T) (lol : List Nat) : List Nat :=
  setInsertAll lol (setInsertAll ((heap.imminent time).map (fun e => e.element)) [])

/-- The member `CoupledModel::transition(time)`. -/
def CoupledModel.transition (D : Dynamics T V S C) (policy : Policy T V S C)
    (tr : Model T V S C → T → Run (Model T V S C) T)
    (addr : Nat) (core : Core T V) (st : S) (heap : HeapType T) (lol : List Nat)
    (kids : List (Model T V S C)) (time : T) : Run (Model T V S C) T :=
  if ¬ (core.tl ≤ time ∧ time ≤ core.tn) then
    ⟨.coupled addr core st heap lol kids, [], some .synchronization⟩
  else if time < core.tn ∧ core.x.is_empty = true then
    ⟨.coupled addr core st heap lol kids, [], none⟩
  else
    let rt := CoupledModel.route D addr core st lol kids
    let bag := CoupledModel.bag heap time rt.last_output_list
    if addr ∈ bag then
      ⟨.coupled addr rt.core st heap [] rt.kids, rt.log, some .assertion⟩
    else
      let r := policy tr bag time ⟨heap, rt.kids⟩
      match r.fault with
      | some f => ⟨.coupled addr rt.core st r.state.heap [] r.state.kids, rt.log ++ r.log, some f⟩
      | none =>
        match r.state.heap.top with
        | none =>
          ⟨.coupled addr { rt.core with tl := time } st r.state.heap [] r.state.kids,
            rt.log ++ r.log, some .undefined⟩
        | some e =>
          ⟨.coupled addr { rt.core with tl := time, tn := e.tn } st r.state.heap []
            r.state.kids, rt.log ++ r.log, none⟩

/-- The state of the loop of `output`: the own output bundle, the objects
held, and the local set `lst`. -/
structure OutState (T V S C : Type) where
  y : PortList V
  kids : List (Model T V S C)
  lst : List Nat

/-- The loop `do .. while` of `CoupledModel::output` and `Executive::output`
over the entries it visits; `out` is the virtual call `mdl->output(time)`.  For
an executive `self` is its address and the entry of the executive itself runs
`lambda()`; a coupled model has no such entry (`self` is `none`). -/
def outputChildren (D : Dynamics T V S C) (out : Model T V S C → T → Run (Model T V S C) T)
    (self : Option Nat) (st : S) (heap : HeapType T) (time : T) :
    List (HeapElement T) → OutState T V S C → Run (OutState T V S C) T
  | [], s => ⟨s, [], none⟩
  | it :: its, s =>
    match it.heapid with
    | none => ⟨s, [], some .undefined⟩
    | some id =>
      match heap.deref id with
      | none => ⟨s, [], some .undefined⟩
      | some el =>
        if self = some el.element then
          let y := D.lambda el.element st s.y
          let rest := outputChildren D out self st heap time its
            ⟨y, s.kids, if y.is_empty = true then s.lst else setInsert el.element s.lst⟩
          ⟨rest.state, .lambda el.element :: rest.log, rest.fault⟩
        else
          match findKid s.kids el.element with
          | none => ⟨s, [], some .undefined⟩
          | some mdl =>
            let r := out mdl time
            match r.fault with
            | some f =>
              ⟨⟨s.y, setKid s.kids el.element r.state, s.lst⟩,
                [.output el.element time r.log], some f⟩
            | none =>
              let rest := outputChildren D out self st heap time its
                ⟨s.y, setKid s.kids el.element r.state,
                  if r.state.core.y.is_empty = true then s.lst else setInsert el.element s.lst⟩
              ⟨rest.state, .output el.element time r.log :: rest.log, rest.fault⟩

/-- The loop `for (auto *child : lst) child->y.clear()` over the objects held. -/
def clearOutputs (lst : List Nat) (kids : List (Model T V S C)) : List (Model T V S C) :=
  kids.map (fun k => if k.addr ∈ lst then k.mapCore (fun c => { c with y := c.y.clear }) else k)

/-- The member `CoupledModel::output(time)`. -/
def CoupledModel.output (D : Dynamics T V S C)
    (out : Model T V S C → T → Run (Model T V S C) T)
    (addr : Nat) (core : Core T V) (st : S) (heap : HeapType T) (lol : List Nat)
    (kids : List (Model T V S C)) (time : T) : Run (Model T V S C) T :=
  match heap.top with
  | none => ⟨.coupled addr core st heap lol kids, [], some .undefined⟩
  | some top =>
    if ¬ (time = top.tn) then
      ⟨.coupled addr core st heap lol kids, [], some .synchronization⟩
    else if ¬ (core.tn = top.tn) then
      ⟨.coupled addr core st heap lol kids, [], some .synchronization⟩
    else if time = core.tn ∧ heap.empty = false then
      let r := outputChildren D out none st heap time (heap.outputEntries core.tn)
        ⟨core.y, kids, []⟩
      match r.fault with
      | some f =>
        ⟨.coupled addr { core with y := r.state.y } st heap lol r.state.kids, r.log, some f⟩
      | none =>
        let p := applyPost D addr st { core with y := r.state.y } r.state.kids r.state.lst lol
        ⟨.coupled addr p.core st heap p.last_output_list (clearOutputs r.state.lst p.kids),
          r.log ++ p.log, none⟩
    else
      ⟨.coupled addr core st heap lol kids, [], none⟩

/-! ## Executives -/

/-- The heap, the set `last_output_list` and the objects of an executive: what
its structural operators work on. -/
structure ExecNet (T V S C : Type) where
  heap : HeapType T
  last_output_list : List Nat
  kids : List (Model T V S C)

/-- The member `Executive::insert(mdl)`.  The pointer designates the object
already held at that address, or else the new object `mdl`. -/
def Executive.insert (start : Model T V S C → C → T → Run (Model T V S C) T) (self : Nat)
    (chi : Chi T V C) (mdl : Model T V S C) (n : ExecNet T V S C) :
    Run (ExecNet T V S C) T :=
  let a := mdl.addr
  let held := (findKid n.kids a).isSome
  let obj := (findKid n.kids a).getD mdl
  let kids := if held then n.kids else n.kids ++ [obj]
  let r := start (obj.mapCore (fun c => { c with parent := some self })) chi.localcommon
    chi.chi_tl
  match r.fault with
  | some f => ⟨⟨n.heap, n.last_output_list, setKid kids a r.state⟩,
      [.start a chi.chi_tl r.log], some f⟩
  | none =>
    let e := n.heap.emplace a r.state.core.tn
    let mdl1 := r.state.mapCore (fun c => { c with heapid := some e.2 })
    ⟨⟨e.1.modify e.2 (fun el => { el with heapid := some e.2 }), n.last_output_list,
        setKid kids a mdl1⟩,
      [.start a chi.chi_tl r.log], none⟩

/-- The member `Executive::erase(mdl)`. -/
def Executive.erase (a : Nat) (n : ExecNet T V S C) : Run (ExecNet T V S C) T :=
  let lol := setErase a n.last_output_list
  match findKid n.kids a with
  | none => ⟨⟨n.heap, lol, n.kids⟩, [], some .undefined⟩
  | some mdl =>
    match mdl.core.heapid with
    | none => ⟨⟨n.heap, lol, n.kids⟩, [], some .undefined⟩
    | some id =>
      match n.heap.deref id with
      | none => ⟨⟨n.heap, lol, n.kids⟩, [], some .undefined⟩
      | some _ =>
        ⟨⟨n.heap.erase id, lol, mapKid n.kids a (fun c => { c with parent := none })⟩, [],
          none⟩

/-- The structural operators that a call of `delta` makes, in order. -/
def Executive.structural (start : Model T V S C → C → T → Run (Model T V S C) T) (self : Nat)
    (chi : Chi T V C) : List (Structural T V S C) → ExecNet T V S C → Run (ExecNet T V S C) T
  | [], n => ⟨n, [], none⟩
  | op :: ops, n =>
    let r := match op with
      | .insert mdl => Executive.insert start self chi mdl n
      | .erase a => Executive.erase a n
    match r.fault with
    | some f => ⟨r.state, r.log, some f⟩
    | none =>
      let rest := Executive.structural start self chi ops r.state
      ⟨rest.state, r.log ++ rest.log, rest.fault⟩

/-- The member `Executive::start(common, time)`. -/
def Executive.start (D : Dynamics T V S C)
    (start : Model T V S C → C → T → Run (Model T V S C) T)
    (addr : Nat) (core : Core T V) (st : S) (chi : Chi T V C) (heap : HeapType T)
    (lol : List Nat) (kids : List (Model T V S C)) (common : C) (time : T) :
    Run (Model T V S C) T :=
  let i := D.init addr common time st
  let e := heap.emplace addr (time + i.1)
  let chi1 : Chi T V C :=
    { chi with localcommon := common, chi_tl := time, chi_tn := time + i.1,
               chi_heapid := some e.2 }
  let heap1 := e.1.modify e.2 (fun el => { el with heapid := some e.2 })
  let r := startChildren start addr common time (kids.map Model.addr) ⟨heap1, kids⟩
  match r.fault with
  | some f =>
    ⟨.executive addr core i.2 chi1 r.state.heap lol r.state.kids, .init addr time :: r.log,
      some f⟩
  | none =>
    match r.state.heap.top with
    | none =>
      ⟨.executive addr { core with tl := time } i.2 chi1 r.state.heap lol r.state.kids,
        .init addr time :: r.log, some .undefined⟩
    | some top =>
      ⟨.executive addr { core with tl := time, tn := top.tn, x := core.x.clear } i.2 chi1
          r.state.heap lol r.state.kids,
        .init addr time :: r.log, none⟩

/-- The external routing of `Executive::transition`:
`if (not x.is_empty()) post({this}, last_output_list);`. -/
def Executive.route (D : Dynamics T V S C) (addr : Nat) (core : Core T V) (st : S)
    (lol : List Nat) (kids : List (Model T V S C)) : Routed T V S C :=
  if core.x.is_empty = true then ⟨core, kids, lol, []⟩
  else applyPost D addr st core kids [addr] lol

/-- The flag `have_chi` of `Executive::transition`: the executive has an
imminent entry, or is in `last_output_list`. -/
def Executive.have_chi (addr : Nat) (heap : HeapType T) (time : T) (lol : List Nat) : Bool :=
  (heap.imminent time).any (fun e => e.element == addr) || lol.any (fun a => a == addr)

/-- The bag of `Executive::transition`: the elements of the imminent entries
and the members of `last_output_list`, the executive itself left out. -/
def Executive.bag (addr : Nat) (heap : HeapType T) (time : T) (lol : List Nat) : List Nat :=
  setInsertAll (lol.filter (fun a => a != addr))
    (setInsertAll (((heap.imminent time).map (fun e => e.element)).filter
      (fun a => a != addr)) [])

/-- The end of `Executive::transition`:
`tn = heap.top().tn; tl = time; x.clear();`. -/
def Executive.finish (addr : Nat) (core : Core T V) (st : S) (chi : Chi T V C)
    (n : ExecNet T V S C) (time : T) (log : List (Event T)) : Run (Model T V S C) T :=
  match n.heap.top with
  | none =>
    ⟨.executive addr core st chi n.heap n.last_output_list n.kids, log, some .undefined⟩
  | some top =>
    ⟨.executive addr { core with tn := top.tn, tl := time, x := core.x.clear } st chi n.heap
        n.last_output_list n.kids,
      log, none⟩

/-- The member `Executive::transition(time)`; `start` is the virtual call
`mdl->start(localcommon, chi_tl)` of `insert`. -/
def Executive.transition (D : Dynamics T V S C) (policy : Policy T V S C)
    (start : Model T V S C → C → T → Run (Model T V S C) T)
    (tr : Model T V S C → T → Run (Model T V S C) T)
    (addr : Nat) (core : Core T V) (st : S) (chi : Chi T V C) (heap : HeapType T)
    (lol : List Nat) (kids : List (Model T V S C)) (time : T) : Run (Model T V S C) T :=
  if ¬ (core.tl ≤ time ∧ time ≤ core.tn) then
    ⟨.executive addr core st chi heap lol kids, [], some .synchronization⟩
  else if time < core.tn ∧ core.x.is_empty = true then
    ⟨.executive addr core st chi heap lol kids, [], none⟩
  else
    let rt := Executive.route D addr core st lol kids
    let have_chi := Executive.have_chi addr heap time rt.last_output_list
    let bag := Executive.bag addr heap time rt.last_output_list
    let r := policy tr bag time ⟨heap, rt.kids⟩
    match r.fault with
    | some f =>
      ⟨.executive addr rt.core st chi r.state.heap [] r.state.kids, rt.log ++ r.log, some f⟩
    | none =>
      if have_chi = true then
        let e := time - chi.chi_tl
        let chi1 : Chi T V C := { chi with chi_tl := time }
        let d := D.delta addr e rt.core.x st
        let sr := Executive.structural start addr chi1
          (D.structural addr e rt.core.x st (r.state.kids.map Model.addr))
          ⟨r.state.heap, [], r.state.kids⟩
        match sr.fault with
        | some f =>
          ⟨.executive addr rt.core st chi1 sr.state.heap sr.state.last_output_list
              sr.state.kids,
            rt.log ++ r.log ++ (.delta addr e :: sr.log), some f⟩
        | none =>
          let chi2 : Chi T V C := { chi1 with chi_tn := time + d.1 }
          match sr.state.heap.setTn chi.chi_heapid (time + d.1) with
          | none =>
            ⟨.executive addr rt.core d.2 chi2 sr.state.heap sr.state.last_output_list
                sr.state.kids,
              rt.log ++ r.log ++ (.delta addr e :: sr.log), some .undefined⟩
          | some heap2 =>
            Executive.finish addr rt.core d.2 chi2
              ⟨heap2, sr.state.last_output_list, sr.state.kids⟩ time
              (rt.log ++ r.log ++ (.delta addr e :: sr.log))
      else
        Executive.finish addr rt.core st chi ⟨r.state.heap, [], r.state.kids⟩ time
          (rt.log ++ r.log)

/-- The member `Executive::output(time)`. -/
def Executive.output (D : Dynamics T V S C)
    (out : Model T V S C → T → Run (Model T V S C) T)
    (addr : Nat) (core : Core T V) (st : S) (chi : Chi T V C) (heap : HeapType T)
    (lol : List Nat) (kids : List (Model T V S C)) (time : T) : Run (Model T V S C) T :=
  match heap.top with
  | none => ⟨.executive addr core st chi heap lol kids, [], some .undefined⟩
  | some top =>
    if ¬ (time = top.tn) then
      ⟨.executive addr core st chi heap lol kids, [], some .synchronization⟩
    else if ¬ (core.tn = top.tn) then
      ⟨.executive addr core st chi heap lol kids, [], some .synchronization⟩
    else if time = core.tn ∧ heap.empty = false then
      let r := outputChildren D out (some addr) st heap time (heap.outputEntries core.tn)
        ⟨core.y, kids, []⟩
      match r.fault with
      | some f =>
        ⟨.executive addr { core with y := r.state.y } st chi heap lol r.state.kids, r.log,
          some f⟩
      | none =>
        let p := applyPost D addr st { core with y := r.state.y } r.state.kids r.state.lst lol
        let core2 : Core T V :=
          if addr ∈ r.state.lst then { p.core with y := p.core.y.clear } else p.core
        ⟨.executive addr core2 st chi heap p.last_output_list
            (clearOutputs r.state.lst p.kids),
          r.log ++ p.log, none⟩
    else
      ⟨.executive addr core st chi heap lol kids, [], none⟩

/-! ## The virtual calls -/

/-- The virtual call `model.start(common, time)`, with a depth counter. -/
def Model.startN (D : Dynamics T V S C) :
    Nat → Model T V S C → C → T → Run (Model T V S C) T
  | 0, m, _, _ => ⟨m, [], some .fuel⟩
  | _ + 1, .atomic a c st, common, time => AtomicModel.start D a c st common time
  | n + 1, .coupled a c st h l ks, common, time =>
    CoupledModel.start (Model.startN D n) a c st h l ks common time
  | n + 1, .executive a c st chi h l ks, common, time =>
    Executive.start D (Model.startN D n) a c st chi h l ks common time

/-- The virtual call `model.start(common, time)`. -/
def Model.start (D : Dynamics T V S C) (m : Model T V S C) (common : C) (time : T) :
    Run (Model T V S C) T :=
  Model.startN D (m.depth + 1) m common time

/-- The virtual call `model.output(time)`, with a depth counter. -/
def Model.outputN (D : Dynamics T V S C) :
    Nat → Model T V S C → T → Run (Model T V S C) T
  | 0, m, _ => ⟨m, [], some .fuel⟩
  | _ + 1, .atomic a c st, time => AtomicModel.output D a c st time
  | n + 1, .coupled a c st h l ks, time =>
    CoupledModel.output D (Model.outputN D n) a c st h l ks time
  | n + 1, .executive a c st chi h l ks, time =>
    Executive.output D (Model.outputN D n) a c st chi h l ks time

/-- The virtual call `model.output(time)`. -/
def Model.output (D : Dynamics T V S C) (m : Model T V S C) (time : T) :
    Run (Model T V S C) T :=
  Model.outputN D (m.depth + 1) m time

/-- The virtual call `model.transition(time)`, with a depth counter. -/
def Model.transitionN (D : Dynamics T V S C) (policy : Policy T V S C) :
    Nat → Model T V S C → T → Run (Model T V S C) T
  | 0, m, _ => ⟨m, [], some .fuel⟩
  | _ + 1, .atomic a c st, time => AtomicModel.transition D a c st time
  | n + 1, .coupled a c st h l ks, time =>
    CoupledModel.transition D policy (Model.transitionN D policy n) a c st h l ks time
  | n + 1, .executive a c st chi h l ks, time =>
    Executive.transition D policy (Model.start D) (Model.transitionN D policy n)
      a c st chi h l ks time

/-- The virtual call `model.transition(time)`. -/
def Model.transition (D : Dynamics T V S C) (policy : Policy T V S C) (m : Model T V S C)
    (time : T) : Run (Model T V S C) T :=
  Model.transitionN D policy (m.depth + 1) m time

end Kernel

/-! ## Reading the log -/

/-- The child and the time of a call `child->transition(time)` in a log. -/
def Event.transitionCall {T : Type} : Event T → Option (Nat × T)
  | .transition a t _ => some (a, t)
  | _ => none

/-- The child and the time of a call `child->output(time)` in a log. -/
def Event.outputCall {T : Type} : Event T → Option (Nat × T)
  | .output a t _ => some (a, t)
  | _ => none

/-- The arguments of a call of `post` in a log: the model, the set `out` and
the contents of the set `in` when the call is made. -/
def Event.postCall {T : Type} : Event T → Option (Nat × List Nat × List Nat)
  | .post a out inp => some (a, out, inp)
  | _ => none

/-- The calls `child->transition(time)` that a kernel function made itself, in order. -/
def transitionCalls {T : Type} (log : List (Event T)) : List (Nat × T) :=
  log.filterMap Event.transitionCall

/-- The calls `child->output(time)` that a kernel function made itself, in order. -/
def outputCalls {T : Type} (log : List (Event T)) : List (Nat × T) :=
  log.filterMap Event.outputCall

/-- The calls of `post` that a kernel function made itself, in order. -/
def postCalls {T : Type} (log : List (Event T)) : List (Nat × List Nat × List Nat) :=
  log.filterMap Event.postCall

/-! ## Simulation states -/

section States

variable {T V S C : Type} [TimeTrait T]

/-- The times of a freshly constructed model: `tl = -infinity`, `tn = infinity`. -/
def Core.Fresh (c : Core T V) : Prop :=
  c.tl = -TimeTrait.infinity ∧ c.tn = TimeTrait.infinity

/-- A freshly constructed model: its times are those of `Model()`, the heap and
`last_output_list` are empty, and the objects it holds are freshly constructed,
at addresses that differ from each other and from its own. -/
inductive Fresh : Model T V S C → Prop where
  | atomic (a : Nat) (c : Core T V) (st : S) : c.Fresh → Fresh (.atomic a c st)
  | coupled (a : Nat) (c : Core T V) (st : S) (hp : HeapType T) (ks : List (Model T V S C)) :
      c.Fresh → hp.nodes = [] → (ks.map Model.addr).Nodup → a ∉ ks.map Model.addr →
      (∀ k ∈ ks, Fresh k) → Fresh (.coupled a c st hp [] ks)
  | executive (a : Nat) (c : Core T V) (st : S) (chi : Chi T V C) (hp : HeapType T)
      (ks : List (Model T V S C)) :
      c.Fresh → hp.nodes = [] → (ks.map Model.addr).Nodup → a ∉ ks.map Model.addr →
      (∀ k ∈ ks, Fresh k) → Fresh (.executive a c st chi hp [] ks)

/-- Every `init` and every `delta` returns a non-negative time advance. -/
def Dynamics.NonNegative (D : Dynamics T V S C) : Prop :=
  (∀ a common t st, 0 ≤ (D.init a common t st).1) ∧ (∀ a e x st, 0 ≤ (D.delta a e x st).1)

/-- The model given to an `insert`, if the operator is one. -/
def Structural.inserted : Structural T V S C → Option (Model T V S C)
  | .insert mdl => some mdl
  | .erase _ => none

/-- The `delta` of every executive uses `insert` as the kernel expects: on
freshly constructed models, at addresses that differ from each other, from the
address of the executive and from those of the objects it holds. -/
def Dynamics.Disciplined (D : Dynamics T V S C) : Prop :=
  ∀ a e x st held,
    (((D.structural a e x st held).filterMap Structural.inserted).map Model.addr).Nodup ∧
    ∀ mdl ∈ (D.structural a e x st held).filterMap Structural.inserted,
      Fresh mdl ∧ mdl.addr ∉ held ∧ mdl.addr ≠ a

/-- The simulation states of a model: `start` on the freshly constructed model,
then any calls of `output` and `transition` that return normally, and any writes
of the environment to the input bundle `x`. -/
inductive Reachable (D : Dynamics T V S C) (policy : Policy T V S C) :
    Model T V S C → Prop where
  | start (m : Model T V S C) (common : C) (t : T) : Fresh m →
      (Model.start D m common t).fault = none → Reachable D policy (Model.start D m common t).state
  | output (m : Model T V S C) (t : T) : Reachable D policy m →
      (Model.output D m t).fault = none → Reachable D policy (Model.output D m t).state
  | transition (m : Model T V S C) (t : T) : Reachable D policy m →
      (Model.transition D policy m t).fault = none →
      Reachable D policy (Model.transition D policy m t).state
  | input (m : Model T V S C) (x : PortList V) : Reachable D policy m →
      Reachable D policy (m.mapCore (fun c => { c with x := x }))

/-- The object `m` is `root` or an object held, directly or not, by `root`. -/
inductive Within : Model T V S C → Model T V S C → Prop where
  | self (m : Model T V S C) : Within m m
  | kid (m k root : Model T V S C) : k ∈ root.kids → Within m k → Within m root

/-- The times of a model are in order: `tl ≤ tn`, the `tn` of a coupled model or
executive is not after the `tn` of any entry of its heap, and the same holds of
the objects held. -/
inductive TimeOk : Model T V S C → Prop where
  | atomic (a : Nat) (c : Core T V) (st : S) : c.tl ≤ c.tn → TimeOk (.atomic a c st)
  | coupled (a : Nat) (c : Core T V) (st : S) (hp : HeapType T) (l : List Nat)
      (ks : List (Model T V S C)) :
      c.tl ≤ c.tn → (∀ n ∈ hp.nodes, c.tn ≤ n.2.tn) → (∀ k ∈ ks, TimeOk k) →
      TimeOk (.coupled a c st hp l ks)
  | executive (a : Nat) (c : Core T V) (st : S) (chi : Chi T V C) (hp : HeapType T)
      (l : List Nat) (ks : List (Model T V S C)) :
      c.tl ≤ c.tn → (∀ n ∈ hp.nodes, c.tn ≤ n.2.tn) → (∀ k ∈ ks, TimeOk k) →
      TimeOk (.executive a c st chi hp l ks)

/-- What the heap of the parent records of a child: its address, its handle
`heapid` and its `tn`. -/
def Model.key (m : Model T V S C) : Nat × Option Nat × T :=
  (m.addr, m.core.heapid, m.core.tn)

/-- The heap of a coupled model or executive at address `me` agrees with the
children, given by their keys.  `own` is `(chi_heapid, chi_tn)` for an executive
and `none` for a coupled model.

* `handles`, `bound`: the handles of the entries differ and were issued by the heap.
* `elements`: no two entries have the same element.
* `addrs`, `notSelf`: the children have distinct addresses, none is `me`.
* `entry`: the `heapid` of an entry is its handle, and the entry is the own entry
  of the executive, with `tn = chi_tn`, or the entry of a child whose `heapid`
  is the handle and whose `tn` is the `tn` of the entry.
* `held`: a handle kept by a child was issued by the heap and designates no
  entry but the one of that child.
* `ownEntry`: an executive has an entry of its own. -/
structure HeapType.Scheduled (hp : HeapType T) (me : Nat) (own : Option (Option Nat × T))
    (keys : List (Nat × Option Nat × T)) : Prop where
  handles : (hp.nodes.map Prod.fst).Nodup
  bound : ∀ n ∈ hp.nodes, n.1 < hp.next
  elements : (hp.nodes.map (fun n => n.2.element)).Nodup
  addrs : (keys.map Prod.fst).Nodup
  notSelf : me ∉ keys.map Prod.fst
  entry : ∀ n ∈ hp.nodes, n.2.heapid = some n.1 ∧
    ((n.2.element = me ∧ own = some (some n.1, n.2.tn)) ∨
      (n.2.element, some n.1, n.2.tn) ∈ keys)
  held : ∀ k ∈ keys, ∀ id, k.2.1 = some id →
    id < hp.next ∧ ∀ n ∈ hp.nodes, n.1 = id → n.2.element = k.1
  ownEntry : ∀ p, own = some p → ∃ n ∈ hp.nodes, n.2.element = me ∧ p = (some n.1, n.2.tn)

/-- The heap of a coupled model or executive agrees with its children (for a
coupled model every child has an entry), and the `tn` of the model is the `tn` of
the top of the heap. -/
def Model.HeapOk : Model T V S C → Prop
  | .atomic _ _ _ => True
  | .coupled a c _ hp _ ks =>
    hp.Scheduled a none (ks.map Model.key) ∧
    (∀ k ∈ ks, ∃ n ∈ hp.nodes, n.2.element = k.addr) ∧
    (∀ e, hp.top = some e → c.tn = e.tn)
  | .executive a c _ chi hp _ ks =>
    hp.Scheduled a (some (chi.chi_heapid, chi.chi_tn)) (ks.map Model.key) ∧
    (∀ e, hp.top = some e → c.tn = e.tn)

/-- The hooks `lambda` and `post` write the output bundles through the accessors
of `PortList` (every write access lowers the flag `empty`): an output bundle whose
flag does not overstate is still so after the hook. -/
def Dynamics.FlagsKept (D : Dynamics T V S C) : Prop :=
  (∀ a st y, y.Consistent → (D.lambda a st y).Consistent) ∧
  (∀ a st (self : Ports V) kids out lol, self.y.Consistent →
    (D.post a st self kids out lol).selfY.Consistent)

/-- The `post` of the model at `a` does not write the output bundle of that
model. -/
def Dynamics.PostKeepsY (D : Dynamics T V S C) (a : Nat) : Prop :=
  ∀ st (self : Ports V) kids out lol, (D.post a st self kids out lol).selfY = self.y

/-- The address that designates the model itself in its own heap: an executive
is an entry of its own heap, a coupled model is not. -/
def Model.selfEntry : Model T V S C → Option Nat
  | .atomic _ _ _ => none
  | .coupled _ _ _ _ _ _ => none
  | .executive a _ _ _ _ _ _ => some a

/-- The loop of `output` over the entries `its` reaches the model at `a`:
`mdl = (*(*it).heapid).element` for an entry `it` of the loop. -/
def HeapType.Inspects (heap : HeapType T) (its : List (HeapElement T)) (a : Nat) : Prop :=
  ∃ it ∈ its, ∃ id el, it.heapid = some id ∧ heap.deref id = some el ∧ el.element = a

end States

/-! ## A sample network

A coupled model (address 0) with a generator (address 1) connected to an
accumulator (address 2).  Times are counted in halves of a time unit: the
generator fires every `2` (one time unit). -/

namespace Sample

/-- The hooks of the sample network. -/
def dynamics : Dynamics ExtInt Nat Nat Unit where
  init := fun a _ _ st => if a = 1 then (.fin 2, st) else (.pinf, st)
  delta := fun a _ x st =>
    if a = 1 then (.fin 2, st) else (.pinf, st + (x.ports.headD []).length)
  lambda := fun a _ y => if a = 1 then ⟨[[1]], y.accessor, false⟩ else y
  post := fun _ _ self kids out _ =>
    if 1 ∈ out then
      ⟨self.y,
        fun a x =>
          if a = 2 then
            ⟨[x.ports.headD [] ++
                ((kids.find? (fun k => k.addr == 1)).map (fun k => k.y.ports.headD [])).getD []],
              x.accessor, false⟩
          else x,
        [2]⟩
    else ⟨self.y, fun _ x => x, []⟩
  structural := fun _ _ _ _ _ => []

/-- The generator, freshly constructed. -/
def generator : Model ExtInt Nat Nat Unit :=
  .atomic 1 (Core.ofNames ["in"] ["out"]) 0

/-- The accumulator, freshly constructed. -/
def accumulator : Model ExtInt Nat Nat Unit :=
  .atomic 2 (Core.ofNames ["in"] ["out"]) 0

/-- The network, freshly constructed. -/
def network : Model ExtInt Nat Nat Unit :=
  .coupled 0 Core.new 0 HeapType.new [] [generator, accumulator]

/-- The network after `start(common, 0)`: its `tn` is `2` (one time unit). -/
def started : Model ExtInt Nat Nat Unit :=
  (Model.start dynamics network () (.fin 0)).state

/-- The generator after `start(common, 0)`. -/
def startedGenerator : Model ExtInt Nat Nat Unit :=
  (Model.start dynamics generator () (.fin 0)).state

/-- The started network after `output(2)`: the accumulator has received the
value of the generator and is in `last_output_list`. -/
def afterOutput : Model ExtInt Nat Nat Unit :=
  (Model.output dynamics started (.fin 2)).state

/-- The started network after a second call, `start(common, 10)`. -/
def restarted : Model ExtInt Nat Nat Unit :=
  (Model.start dynamics started () (.fin 10)).state

end Sample

/-! ## The engine -/

section Engine

variable {T V S C : Type} [TimeTrait T]

/-- The member `Engine::pre(model, time)`:
`model.start(*common, time); return model.tn;`.  The second component of the
state is the value returned, `none` when the call is ended by a fault. -/
def Engine.pre (D : Dynamics T V S C) (common : C) (model : Model T V S C) (time : T) :
    Run (Model T V S C × Option T) T :=
  let r := Model.start D model common time
  match r.fault with
  | some f => ⟨(r.state, none), [.start model.addr time r.log], some f⟩
  | none => ⟨(r.state, some r.state.core.tn), [.start model.addr time r.log], none⟩

/-- The member `Engine::run(model, time)`:
`model.output(time); model.transition(time); model.x.clear(); return model.tn;`.
The second component of the state is the value returned, `none` when the call is
ended by a fault. -/
def Engine.run (D : Dynamics T V S C) (policy : Policy T V S C) (model : Model T V S C)
    (time : T) : Run (Model T V S C × Option T) T :=
  let o := Model.output D model time
  match o.fault with
  | some f => ⟨(o.state, none), [.output model.addr time o.log], some f⟩
  | none =>
    let r := Model.transition D policy o.state time
    match r.fault with
    | some f =>
      ⟨(r.state, none), [.output model.addr time o.log, .transition model.addr time r.log],
        some f⟩
    | none =>
      let m := r.state.mapCore (fun c => { c with x := c.x.clear })
      ⟨(m, some m.core.tn), [.output model.addr time o.log, .transition model.addr time r.log],
        none⟩

/-- The member `Engine::post(model, time)`: `(void)model; (void)time;`. -/
def Engine.post (model : Model T V S C) (_time : T) : Run (Model T V S C) T :=
  ⟨model, [], none⟩

end Engine

/-! ## The loop of `start` in closed form -/

section Started

variable {T V S C : Type} [TimeTrait T]

/-- The child after the body of the loop of `start` (and of `insert`):
`child->parent = this; child->start(common, time); child->heapid = id;`. -/
def startedChild (start : Model T V S C → C → T → Run (Model T V S C) T) (self : Nat)
    (common : C) (time : T) (id : Nat) (child : Model T V S C) : Model T V S C :=
  (start (child.mapCore (fun c => { c with parent := some self })) common time).state.mapCore
    (fun c => { c with heapid := some id })

/-- The children after the loop of `start`, the handles being issued from
`next` on, in the order of the children. -/
def startedKids (start : Model T V S C → C → T → Run (Model T V S C) T) (self : Nat)
    (common : C) (time : T) (next : Nat) (kids : List (Model T V S C)) :
    List (Model T V S C) :=
  (kids.enumFrom next).map (fun p => startedChild start self common time p.1 p.2)

/-- The heap entries that the loop of `start` makes, one for each child:
`id = heap.emplace(child, child->tn); (*id).heapid = id;`. -/
def startedEntries (start : Model T V S C → C → T → Run (Model T V S C) T) (self : Nat)
    (common : C) (time : T) (next : Nat) (kids : List (Model T V S C)) :
    List (Nat × HeapElement T) :=
  (kids.enumFrom next).map (fun p =>
    (p.1, ⟨p.2.addr, (startedChild start self common time p.1 p.2).core.tn, some p.1⟩))

/-- The calls `child->start(common, time)` that the loop of `start` makes, with
what each of them did. -/
def startedLog (start : Model T V S C → C → T → Run (Model T V S C) T) (self : Nat)
    (common : C) (time : T) (kids : List (Model T V S C)) : List (Event T) :=
  kids.map (fun k => .start k.addr time
    (start (k.mapCore (fun c => { c with parent := some self })) common time).log)

end Started

/-! ## Reading the log: the hooks and `start` -/

/-- The model and the elapsed time of a call of `delta` in a log. -/
def Event.deltaCall {T : Type} : Event T → Option (Nat × T)
  | .delta a e => some (a, e)
  | _ => none

/-- The model of a call of `lambda` in a log. -/
def Event.lambdaCall {T : Type} : Event T → Option Nat
  | .lambda a => some a
  | _ => none

/-- The model and the time of a call `mdl->start(common, time)` in a log. -/
def Event.startCall {T : Type} : Event T → Option (Nat × T)
  | .start a t _ => some (a, t)
  | _ => none

/-- The calls of `delta` that a kernel function made itself, in order. -/
def deltaCalls {T : Type} (log : List (Event T)) : List (Nat × T) :=
  log.filterMap Event.deltaCall

/-- The calls of `lambda` that a kernel function made itself, in order. -/
def lambdaCalls {T : Type} (log : List (Event T)) : List Nat :=
  log.filterMap Event.lambdaCall

/-- The calls `mdl->start(common, time)` that a kernel function made itself, in
order. -/
def startCalls {T : Type} (log : List (Event T)) : List (Nat × T) :=
  log.filterMap Event.startCall

/-- The data members that an executive adds to `Model`; `none` for the other
models. -/
def Model.chiOf {T V S C : Type} : Model T V S C → Option (Chi T V C)
  | .executive _ _ _ chi _ _ _ => some chi
  | _ => none

/-! ## A sample executive

An executive (address 10) with two passive children (addresses 11 and 12).
Times are counted in halves of a time unit.  The executive has its event at `2`
(time `1.0`); its `delta` then inserts a third child (address 13) whose `init`
returns `1` (`0.5`), so that the new child has its event at `3` (time `1.5`),
where its `lambda` writes a value. -/

namespace Growth

/-- The child that the `delta` of the executive inserts, freshly constructed. -/
def newChild : Model ExtInt Nat Nat Unit :=
  .atomic 13 (Core.ofNames ["in"] ["out"]) 0

/-- The hooks of the sample executive and of its children. -/
def dynamics : Dynamics ExtInt Nat Nat Unit where
  init := fun a _ _ st =>
    if a = 10 then (.fin 2, st) else if a = 13 then (.fin 1, st) else (.pinf, st)
  delta := fun _ _ _ st => (.pinf, st + 1)
  lambda := fun a _ y => if a = 13 then ⟨[[7]], y.accessor, false⟩ else y
  post := fun _ _ self _ _ _ => ⟨self.y, fun _ x => x, []⟩
  structural := fun a _ _ _ held =>
    if a = 10 ∧ 13 ∉ held then [.insert newChild] else []

/-- The first declared child, freshly constructed. -/
def child1 : Model ExtInt Nat Nat Unit :=
  .atomic 11 (Core.ofNames ["in"] ["out"]) 0

/-- The second declared child, freshly constructed. -/
def child2 : Model ExtInt Nat Nat Unit :=
  .atomic 12 (Core.ofNames ["in"] ["out"]) 0

/-- The executive, freshly constructed. -/
def executive : Model ExtInt Nat Nat Unit :=
  .executive 10 Core.new 0 ⟨.ninf, .pinf, none, PortList.new, PortList.new, ()⟩ HeapType.new []
    [child1, child2]

/-- The executive after `start(common, 0)`: its event is at `2`. -/
def started : Model ExtInt Nat Nat Unit :=
  (Model.start dynamics executive () (.fin 0)).state

/-- The started executive after `output(2)`. -/
def afterOutput : Model ExtInt Nat Nat Unit :=
  (Model.output dynamics started (.fin 2)).state

/-- The executive after `transition(2)`: its `delta` has inserted the new child,
whose event is at `3`. -/
def grown : Model ExtInt Nat Nat Unit :=
  (Model.transition dynamics TransitionPolicyDefault afterOutput (.fin 2)).state

/-- The grown executive after `output(3)`. -/
def grownOutput : Model ExtInt Nat Nat Unit :=
  (Model.output dynamics grown (.fin 3)).state

end Growth

/-! ## More states of the sample network -/

/-- The accumulator of the sample network after `start(common, 0)`: its `init`
returns `infinity`, so `tl = 0` and `tn = infinity`. -/
def Sample.startedAccumulator : Model ExtInt Nat Nat Unit :=
  (Model.start Sample.dynamics Sample.accumulator () (.fin 0)).state

/-! ## Access to the ports (`vle/port.hpp`) -/

/-- What ends an access to a port abnormally: the exception `model_port_error`,
or undefined behaviour (`ports[i]` outside of the vector). -/
inductive PortFault where
  | model_port_error
  | undefined
deriving DecidableEq, Repr

/-- What the caller does with the port that a non-const accessor returns by
reference: it reads it, or it writes values to it. -/
inductive PortUse (V : Type) where
  | read
  | write (values : List V)

namespace PortList

variable {V : Type}

/-- The expression `ports[i]` for an `int i`: the position it designates, `none`
outside of the vector (a negative `i` converts to an index past the end). -/
def slot (p : PortList V) (i : Int) : Option Nat :=
  if 0 ≤ i ∧ i.toNat < p.ports.length then some i.toNat else none

/-- The lookup `accessor.find(name)`. -/
def find (p : PortList V) (name : String) : Option Int :=
  (p.accessor.find? (fun q => q.1 == name)).map (fun q => q.2)

/-- The member `operator[](int i) const`: `return ports[i];`. -/
def indexConst (p : PortList V) (i : Int) : Except PortFault (List V) :=
  match p.slot i with
  | none => .error .undefined
  | some k => .ok (p.ports.getD k [])

/-- The member `operator[](int i)`: `empty = false; return ports[i];`.  The
bundle after the call, and the position of the port returned by reference. -/
def index (p : PortList V) (i : Int) : PortList V × Except PortFault Nat :=
  ({ p with empty := false },
    match p.slot i with
    | none => .error .undefined
    | some k => .ok k)

/-- The member `at(int i) const`:
`if (i > ports.size()) throw model_port_error(i); return ports[i];`.  The
comparison is between unsigned values: a negative `i` is past every size. -/
def atConst (p : PortList V) (i : Int) : Except PortFault (List V) :=
  if i < 0 ∨ (p.ports.length : Int) < i then .error .model_port_error
  else
    match p.slot i with
    | none => .error .undefined
    | some k => .ok (p.ports.getD k [])

end PortList

/-- The member `at(int i)`:
`empty = false; if (i > ports.size()) throw model_port_error(i); return ports[i];`. -/
def PortList.at {V : Type} (p : PortList V) (i : Int) : PortList V × Except PortFault Nat :=
  ({ p with empty := false },
    if i < 0 ∨ (p.ports.length : Int) < i then .error .model_port_error
    else
      match p.slot i with
      | none => .error .undefined
      | some k => .ok k)

namespace PortList

variable {V : Type}

/-- The member `operator[](const std::string &name) const`. -/
def byNameConst (p : PortList V) (name : String) : Except PortFault (List V) :=
  match p.find name with
  | none => .error .model_port_error
  | some i =>
    match p.slot i with
    | none => .error .undefined
    | some k => .ok (p.ports.getD k [])

/-- The member `operator[](const std::string &name)`: `empty = false;`, then the
lookup. -/
def byName (p : PortList V) (name : String) : PortList V × Except PortFault Nat :=
  ({ p with empty := false },
    match p.find name with
    | none => .error .model_port_error
    | some i =>
      match p.slot i with
      | none => .error .undefined
      | some k => .ok k)

/-- A write of `values` through the reference to the port at position `k`. -/
def assign (p : PortList V) (k : Nat) (values : List V) : PortList V :=
  { p with ports := p.ports.set k values }

/-- What the caller does with the result of a non-const accessor. -/
def use (r : PortList V × Except PortFault Nat) (u : PortUse V) :
    PortList V × Option PortFault :=
  match r.2, u with
  | .error f, _ => (r.1, some f)
  | .ok _, .read => (r.1, none)
  | .ok k, .write values => (r.1.assign k values, none)

end PortList

/-- An operation on a port bundle: a member call, with what the caller does with
the port that a non-const accessor returns. -/
inductive PortOp (V : Type) where
  | add (name : String)
  | index (i : Int) (u : PortUse V)
  | atIndex (i : Int) (u : PortUse V)
  | byName (name : String) (u : PortUse V)
  | indexConst (i : Int)
  | atConst (i : Int)
  | byNameConst (name : String)
  | clear

namespace PortOp

variable {V : Type}

/-- The operation is a call of a non-const accessor. -/
def accesses : PortOp V → Bool
  | index _ _ => true
  | atIndex _ _ => true
  | byName _ _ => true
  | _ => false

/-- The operation is a call of a non-const accessor through which the caller
writes. -/
def writes : PortOp V → Bool
  | index _ (.write _) => true
  | atIndex _ (.write _) => true
  | byName _ (.write _) => true
  | _ => false

end PortOp

namespace PortList

variable {V : Type}

/-- One operation on a bundle: the bundle after it, and what ended it
abnormally. -/
def step (p : PortList V) : PortOp V → PortList V × Option PortFault
  | .add name => ((p.add name).1, none)
  | .index i u => use (p.index i) u
  | .atIndex i u => use (p.at i) u
  | .byName name u => use (p.byName name) u
  | .indexConst i =>
    (p, match p.indexConst i with
        | .error f => some f
        | .ok _ => none)
  | .atConst i =>
    (p, match p.atConst i with
        | .error f => some f
        | .ok _ => none)
  | .byNameConst name =>
    (p, match p.byNameConst name with
        | .error f => some f
        | .ok _ => none)
  | .clear => (p.clear, none)

/-- A sequence of operations.  The caller catches a `model_port_error` and goes
on; undefined behaviour ends the sequence (`none`). -/
def steps : PortList V → List (PortOp V) → Option (PortList V)
  | p, [] => some p
  | p, op :: ops =>
    match (p.step op).2 with
    | some .undefined => none
    | _ => steps (p.step op).1 ops

/-- A non-const accessor has been called since the last `clear()` of the
sequence (since its beginning when it has no `clear()`); `seen` is the answer
for the operations before the sequence. -/
def accessed : List (PortOp V) → Bool → Bool
  | [], seen => seen
  | .clear :: ops, _ => accessed ops false
  | op :: ops, seen => accessed ops (seen || op.accesses)

/-- The caller has written through a non-const accessor since the last
`clear()` of the sequence. -/
def written : List (PortOp V) → Bool → Bool
  | [], seen => seen
  | .clear :: ops, _ => written ops false
  | op :: ops, seen => written ops (seen || op.writes)

end PortList

/-! ## The generic coupled model: connections and `post` -/

namespace PortList

variable {V : Type}

/-- The statement `x[k].insert(x[k].end(), first, last)` on a bundle that is not
const: the non-const `operator[]` lowers the flag, the values are appended to
the port at position `k` (`k` is in range for the connections that the loader
records). -/
def append (p : PortList V) (k : Nat) (values : List V) : PortList V :=
  (p.index k).1.assign k (p.ports.getD k [] ++ values)

end PortList

namespace GenericCoupledModel

/-- The type `inputport`, `std::pair <Model*, int>`: a model and a port index. -/
abbrev inputport : Type := Nat × Nat

/-- The type `outputport`, `std::pair <Model*, int>`. -/
abbrev outputport : Type := Nat × Nat

/-- The type `edges`, the multimap `m_connections`: the entries in the order of
their `emplace`; the key is the first component. -/
abbrev edges : Type := List (inputport × outputport)

/-- The functor `hash_inputport`: the hash of the model pointer (the identity
stands for `std::hash`). -/
def hash_inputport (lhs : inputport) : Nat := lhs.1

/-- The functor `equalto_inputport`:
`lhs.first == rhs.first && lhs.second == lhs.second`. -/
def equalto_inputport (lhs rhs : inputport) : Bool := lhs.1 == rhs.1 && lhs.2 == lhs.2

/-- The member `equal_range(key)` of the multimap: the entries whose key is
equivalent to `key` under `equalto_inputport`. -/
def equal_range (m_connections : edges) (key : inputport) : edges :=
  m_connections.filter (fun c => equalto_inputport c.1 key)

/-- The loops of `post` over `out` (in the order of the set), over the output
ports `i` of each model and over `equal_range((model, i))` for a non-empty
port: the destination model, its port `portdst` and the values `model->y[i]`
of every `insert`, in order. -/
def deliveries {V : Type} (m_connections : edges) (models : List (Ports V)) (out : List Nat) :
    List (Nat × Nat × List V) :=
  out.flatMap (fun a =>
    match models.find? (fun m => m.addr == a) with
    | none => []
    | some model =>
      (List.range model.y.ports.length).flatMap (fun i =>
        if (model.y.ports.getD i []).isEmpty then []
        else (equal_range m_connections (a, i)).map
          (fun c => (c.2.1, c.2.2, model.y.ports.getD i []))))

/-- The accesses `model->y[i]` of `post` to the output bundle of a model of
`out`, for `i` from `0` to `y.size()`: the member `y` is `mutable`, so that the
accessor called through the pointer to a const model is the `operator[]` that is
not const, which lowers the flag; no value is written. -/
def reads {V : Type} (y : PortList V) : PortList V :=
  (List.range y.ports.length).foldl (fun y (i : Nat) => (y.index i).1) y

/-- The member `GenericCoupledModel::post(out, in)`, as a routing function of
`Dynamics`: every delivery is appended to the input bundle of its destination,
which is inserted into `in`.  The own output bundle is accessed when the model
itself is a member of `out` (the call `post({this}, ..)` of `transition`). -/
def post {V : Type} (m_connections : edges) (self : Ports V) (kids : List (Ports V))
    (out : List Nat) (_inp : List Nat) : PostEffect V :=
  let ds := deliveries m_connections (self :: kids) out
  ⟨if self.addr ∈ out then reads self.y else self.y,
    fun a x => (ds.filter (fun d => d.1 == a)).foldl (fun x d => x.append d.2.1 d.2.2) x,
    ds.map (fun d => d.1)⟩

/-- The bundles of one model after `post(out, in)`: the deliveries to the model
are appended to its input bundle; its output bundle is accessed when the model
is a member of `out`. -/
def postedOf {V : Type} (m_connections : edges) (models : List (Ports V)) (out : List Nat)
    (m : Ports V) : Ports V :=
  ⟨m.addr,
    ((deliveries m_connections models out).filter (fun d => d.1 == m.addr)).foldl
      (fun x d => x.append d.2.1 d.2.2) m.x,
    if m.addr ∈ out then reads m.y else m.y⟩

end GenericCoupledModel

/-! ## A model with two output ports

The model at address 1 has the output ports `0` and `1`; the connections are
`(1, port 0) → (2, port 0)` and `(1, port 1) → (3, port 0)`.  Only the output
port `0` holds a value. -/

namespace TwoPorts

/-- The connections. -/
def connections : GenericCoupledModel.edges := [((1, 0), (2, 0)), ((1, 1), (3, 0))]

/-- The bundles of the coupled model (address 0). -/
def self : Ports Nat := ⟨0, PortList.new, PortList.new⟩

/-- The bundles of the source: the value `7` on the output port `0`, nothing on
the output port `1`. -/
def source : Ports Nat := ⟨1, PortList.ofNames ["in"], ⟨[[7], []], [("a", 0), ("b", 1)], false⟩⟩

/-- The bundles of the two destinations. -/
def first : Ports Nat := ⟨2, PortList.ofNames ["in"], PortList.ofNames ["out"]⟩

/-- The bundles of the second destination. -/
def second : Ports Nat := ⟨3, PortList.ofNames ["in"], PortList.ofNames ["out"]⟩

end TwoPorts

/-! ## The loader of the generic coupled model -/

/-- Modelled from the C++ standard library: what `read` uses of
`std::istream`, the characters not yet extracted and the state bits `eofbit` and
`failbit`. -/
structure IStream where
  chars : List Char
  eofbit : Bool
  failbit : Bool
deriving DecidableEq, Repr

namespace IStream

/-- The member `good()`. -/
def good (is : IStream) : Bool := !is.eofbit && !is.failbit

/-- The function `std::isspace` in the "C" locale: space, `\t`, `\n`, `\v`,
`\f`, `\r`. -/
def isspace (c : Char) : Bool :=
  c == ' ' || c == '\t' || c == '\n' || c == Char.ofNat 11 || c == Char.ofNat 12 || c == '\r'

/-- The decimal digits. -/
def isdigit (c : Char) : Bool := '0' ≤ c && c ≤ '9'

/-- The sentry of a formatted input function: a stream that is not good gets
`failbit`; otherwise the leading whitespace is skipped, and a stream that ends
there gets `eofbit` and `failbit`.  The flag tells whether the extraction may
proceed. -/
def sentry (is : IStream) : IStream × Bool :=
  if is.good = false then ({ is with failbit := true }, false)
  else if (is.chars.dropWhile isspace).isEmpty then (⟨[], true, true⟩, false)
  else ({ is with chars := is.chars.dropWhile isspace }, true)

/-- The extraction `is >> str` of a `std::string`: the characters up to the next
whitespace or to the end of the input, where `eofbit` is set. -/
def readString (is : IStream) : IStream × Option String :=
  if is.sentry.2 = false then (is.sentry.1, none)
  else
    (⟨is.sentry.1.chars.dropWhile (fun c => !isspace c),
      (is.sentry.1.chars.dropWhile (fun c => !isspace c)).isEmpty, false⟩,
      some (String.mk (is.sentry.1.chars.takeWhile (fun c => !isspace c))))

/-- The value of a sequence of decimal digits. -/
def digitsValue (ds : List Char) : Nat :=
  ds.foldl (fun v c => 10 * v + (c.toNat - 48)) 0

/-- The largest `std::size_t` (of 64 bits). -/
def size_max : Nat := 2 ^ 64 - 1

/-- The extraction `is >> n` of a `std::size_t`: an optional sign and decimal
digits.  It fails, with `failbit`, when there is no digit or when the value does
not fit; a value with a minus sign is negated modulo `2 ^ 64`; `eofbit` is set
when the input ends with the number. -/
def readSize (is : IStream) : IStream × Option Nat :=
  if is.sentry.2 = false then (is.sentry.1, none)
  else
    let neg := is.sentry.1.chars.head? == some '-'
    let body :=
      if neg || is.sentry.1.chars.head? == some '+' then is.sentry.1.chars.tail
      else is.sentry.1.chars
    let ds := body.takeWhile isdigit
    let rest := body.dropWhile isdigit
    if ds.isEmpty || decide (size_max < digitsValue ds) then (⟨rest, rest.isEmpty, true⟩, none)
    else
      (⟨rest, rest.isEmpty, false⟩,
        some (if neg then (2 ^ 64 - digitsValue ds) % 2 ^ 64 else digitsValue ds))

/-- The extraction `is >> model_i >> model_j >> port_i >> port_j`: the stream
after the four extractions (after one has failed the next ones find a stream
that is not good) and the four values, when none has failed. -/
def readQuad (is : IStream) : IStream × Option (Nat × Nat × Nat × Nat) :=
  let r1 := is.readSize
  let r2 := r1.1.readSize
  let r3 := r2.1.readSize
  let r4 := r3.1.readSize
  (r4.1,
    match r1.2, r2.2, r3.2, r4.2 with
    | some model_i, some model_j, some port_i, some port_j =>
      some (model_i, model_j, port_i, port_j)
    | _, _, _, _ => none)

end IStream

/-- What ends the construction of a generic coupled model abnormally: the
exceptions `fileformat_error()`, `fileformat_error(idx, size)`,
`fileformat_error(idx)` and `factory_error(dynamicsname)`, or an exhausted loop
counter. -/
inductive ReadFault where
  | fileformat_error
  | fileformat_error_child (idx size : Nat)
  | fileformat_error_port (idx : Nat)
  | factory_error (dynamicsname : String)
  | fuel
deriving DecidableEq, Repr

/-- The structure `Factory`: the map `functions` from the name of a dynamics to
its constructor; a constructor is given the address of the object it
allocates. -/
structure Factory (T V S C : Type) where
  functions : List (String × (Nat → Model T V S C))

/-- The member `Factory::get(dynamicsname)`. -/
def Factory.get {T V S C : Type} (factory : Factory T V S C) (dynamicsname : String)
    (addr : Nat) : Except ReadFault (Model T V S C) :=
  match factory.functions.find? (fun p => p.1 == dynamicsname) with
  | some p => .ok (p.2 addr)
  | none => .error (.factory_error dynamicsname)

namespace GenericCoupledModel

variable {T V S C : Type}

/-- The first loop of `read`, over the names of the dynamics; the `n`-th object
is allocated at the address `base + n`. -/
def readChildren (factory : Factory T V S C) (base : Nat) :
    Nat → IStream → List (Model T V S C) → Except ReadFault (IStream × List (Model T V S C))
  | 0, _, _ => .error .fuel
  | fuel + 1, is, m_children =>
    if is.good = false then .ok (is, m_children)
    else
      match is.readString with
      | (_, none) => .error .fileformat_error
      | (is1, some dynamics) =>
        if dynamics.data.isEmpty = false ∧ dynamics.data.head? ≠ some '#' then
          match factory.get dynamics (base + m_children.length) with
          | .error e => .error e
          | .ok m => readChildren factory base fuel is1 (m_children ++ [m])
        else .ok (is1, m_children)

/-- The second loop of `read`, over the quadruples.  An extraction that fails
leaves `failbit`, which ends the loop.  `m_children[model_i]` is `none` when
`model_i >= m_children.size()`. -/
def readConnections (m_children : List (Model T V S C)) :
    Nat → IStream → edges → Except ReadFault (IStream × edges)
  | 0, _, _ => .error .fuel
  | fuel + 1, is, m_connections =>
    if is.good = false then .ok (is, m_connections)
    else
      match is.readQuad with
      | (is1, none) => .ok (is1, m_connections)
      | (is1, some (model_i, model_j, port_i, port_j)) =>
        match m_children.get? model_i with
        | none => .error (.fileformat_error_child model_i m_children.length)
        | some src =>
          match m_children.get? model_j with
          | none => .error (.fileformat_error_child model_j m_children.length)
          | some dst =>
            if port_i ≥ src.core.y.ports.length then .error (.fileformat_error_port port_i)
            else if port_j ≥ dst.core.x.ports.length then .error (.fileformat_error_port port_j)
            else
              readConnections m_children fuel is1
                (m_connections ++ [((src.addr, port_i), (dst.addr, port_j))])

/-- The member `GenericCoupledModel::read(is, factory)` on the members
`m_children` and `m_connections` of a model under construction, both empty. -/
def read (factory : Factory T V S C) (base : Nat) (is : IStream) :
    Except ReadFault (List (Model T V S C) × edges) :=
  match readChildren factory base (is.chars.length + 1) is [] with
  | .error e => .error e
  | .ok (is1, m_children) =>
    match readConnections m_children (is1.chars.length + 1) is1 [] with
    | .error e => .error e
    | .ok (_, m_connections) => .ok (m_children, m_connections)

/-- The member `GenericCoupledModel::children(common)`: the pointers to the
objects of `m_children`, in order. -/
def children (m_children : List (Model T V S C)) : List Nat :=
  m_children.map Model.addr

end GenericCoupledModel

/-- The stream of a text. -/
def IStream.ofString (s : String) : IStream := ⟨s.data, false, false⟩

/-! ## The text of a graph, token by token -/

/-- A token of a text, with the whitespace before it. -/
structure Token where
  ws : List Char
  chars : List Char
deriving DecidableEq, Repr

namespace Token

/-- The characters of the token and of the whitespace before it. -/
def text (tk : Token) : List Char := tk.ws ++ tk.chars

/-- The characters of a sequence of tokens. -/
def texts : List Token → List Char
  | [] => []
  | tk :: tks => tk.text ++ texts tks

/-- A word: whitespace, then at least one character, none of them whitespace. -/
def Word (tk : Token) : Prop :=
  (∀ c ∈ tk.ws, IStream.isspace c = true) ∧ tk.chars ≠ [] ∧
  ∀ c ∈ tk.chars, IStream.isspace c = false

/-- A number: whitespace, then at least one decimal digit, of a value that a
`std::size_t` holds. -/
def Number (tk : Token) : Prop :=
  (∀ c ∈ tk.ws, IStream.isspace c = true) ∧ tk.chars ≠ [] ∧
  (∀ c ∈ tk.chars, IStream.isdigit c = true) ∧ IStream.digitsValue tk.chars ≤ IStream.size_max

/-- The value of a number. -/
def value (tk : Token) : Nat := IStream.digitsValue tk.chars

instance (tk : Token) : Decidable tk.Word :=
  inferInstanceAs (Decidable ((∀ c ∈ tk.ws, IStream.isspace c = true) ∧ tk.chars ≠ [] ∧
    ∀ c ∈ tk.chars, IStream.isspace c = false))

instance (tk : Token) : Decidable tk.Number :=
  inferInstanceAs (Decidable ((∀ c ∈ tk.ws, IStream.isspace c = true) ∧ tk.chars ≠ [] ∧
    (∀ c ∈ tk.chars, IStream.isdigit c = true) ∧
    IStream.digitsValue tk.chars ≤ IStream.size_max))

end Token

/-- The four numbers of a quadruple `src dst src_port dst_port`. -/
structure Quad where
  model_i : Token
  model_j : Token
  port_i : Token
  port_j : Token
deriving DecidableEq, Repr

/-- The tokens of a quadruple. -/
def Quad.tokens (q : Quad) : List Token := [q.model_i, q.model_j, q.port_i, q.port_j]

/-- The tokens of a sequence of quadruples. -/
def Quad.allTokens : List Quad → List Token
  | [] => []
  | q :: qs => q.tokens ++ Quad.allTokens qs

/-- The text ends, or goes on with a whitespace. -/
def Ends (rest : List Char) : Prop := ∀ c, rest.head? = some c → IStream.isspace c = true

/-- The text makes the extraction of a number fail: it is whitespace to its end,
or it goes on, after whitespace, with a character that is no digit and no
sign. -/
def Stops (rest : List Char) : Prop :=
  ∃ ws body, rest = ws ++ body ∧ (∀ c ∈ ws, IStream.isspace c = true) ∧
    ∀ c, body.head? = some c →
      IStream.isspace c = false ∧ IStream.isdigit c = false ∧ c ≠ '+' ∧ c ≠ '-'

/-- The quadruple is a quadruple of numbers, the last three after whitespace. -/
def Quad.Numbers (q : Quad) : Prop :=
  q.model_i.Number ∧ q.model_j.Number ∧ q.port_i.Number ∧ q.port_j.Number ∧
  q.model_j.ws ≠ [] ∧ q.port_i.ws ≠ [] ∧ q.port_j.ws ≠ []

instance (q : Quad) : Decidable q.Numbers :=
  inferInstanceAs (Decidable (q.model_i.Number ∧ q.model_j.Number ∧ q.port_i.Number ∧
    q.port_j.Number ∧ q.model_j.ws ≠ [] ∧ q.port_i.ws ≠ [] ∧ q.port_j.ws ≠ []))

/-- The indices of the quadruple are in range for the children: `src` and `dst`
designate children, `src_port` an output port of the first and `dst_port` an
input port of the second. -/
def Quad.InRange {T V S C : Type} (m_children : List (Model T V S C)) (q : Quad) : Prop :=
  ∃ src dst, m_children.get? q.model_i.value = some src ∧
    m_children.get? q.model_j.value = some dst ∧
    q.port_i.value < src.core.y.ports.length ∧ q.port_j.value < dst.core.x.ports.length

/-- The connection `(child[src], src_port) → (child[dst], dst_port)` of a
quadruple, for the addresses of the children. -/
def Quad.connection (addrs : List Nat) (q : Quad) :
    GenericCoupledModel.inputport × GenericCoupledModel.outputport :=
  ((addrs.getD q.model_i.value 0, q.port_i.value), (addrs.getD q.model_j.value 0, q.port_j.value))

/-! ## A generator and a counter

The first scenario: a generator (address 1) fires every time unit and emits the
value `1` on its output port `0`, which is connected to the input port `0` of an
accumulator (address 2); the coupled model is at address 0.  Times are counted
in time units. -/

namespace Counter

/-- The constructor of the generator: no input port, one output port. -/
def generator (a : Nat) : Model ExtInt Nat Nat Unit :=
  .atomic a (Core.ofNames [] ["out"]) 0

/-- The constructor of the accumulator: one input port, no output port; its
counter is `0`. -/
def accumulator (a : Nat) : Model ExtInt Nat Nat Unit :=
  .atomic a (Core.ofNames ["in"] []) 0

/-- The factory of the two dynamics. -/
def factory : Factory ExtInt Nat Nat Unit :=
  ⟨[("Gen", generator), ("Acc", accumulator)]⟩

/-- The text of the graph. -/
def text : String := "Gen\nAcc\n#\n0 1 0 0\n"

/-- The connection `(Gen, port 0) → (Acc, port 0)`. -/
def connections : GenericCoupledModel.edges := [((1, 0), (2, 0))]

/-- The hooks: `init` and `delta` of the generator return `1`, its `lambda`
appends the value `1` to the output port `0`; `init` and `delta` of the
accumulator return `infinity`, its `delta` adds the number of the values
received to the counter; the routing is `GenericCoupledModel::post`. -/
def dynamics : Dynamics ExtInt Nat Nat Unit where
  init := fun a _ _ st => if a = 1 then (.fin 1, st) else (.pinf, st)
  delta := fun a _ x st =>
    if a = 1 then (.fin 1, st) else (.pinf, st + (x.ports.map List.length).sum)
  lambda := fun a _ y => if a = 1 then y.append 0 [1] else y
  post := fun _ _ self kids out inp => GenericCoupledModel.post connections self kids out inp
  structural := fun _ _ _ _ _ => []

/-- The coupled model, freshly constructed from the text. -/
def root : Model ExtInt Nat Nat Unit :=
  .coupled 0 Core.new 0 HeapType.new [] [generator 1, accumulator 2]

end Counter

/-! ## The parallel transition policy -/

section Thread

variable {T V S C : Type} [TimeTrait T]

/-- The member `TransitionPolicyThread::work(bag, time, idx)` of a pool of
`pool` workers on a bag of `size` members: the positions in the bag of the
members on which the worker `idx` calls `transition(time)`, in order, `idx`,
`idx + pool.size()`, and so on below `bag.size()`.  The counter bounds the
turns of the loop `for (;;)`. -/
def TransitionPolicyThread.work (pool size : Nat) : Nat → Nat → List Nat
  | 0, _ => []
  | fuel + 1, idx =>
    if idx ≥ size then [] else idx :: TransitionPolicyThread.work pool size fuel (idx + pool)

/-- The jobs of the workers `pool[0]`, .., `pool[pool.size() - 1]` that
`operator()` starts. -/
def TransitionPolicyThread.jobs (pool size : Nat) : List (List Nat) :=
  (List.range pool).map (fun idx => TransitionPolicyThread.work pool size size idx)

/-- An order in which the steps of sequences that run concurrently can take
place: an interleaving of the sequences. -/
inductive Interleaving {α : Type} : List (List α) → List α → Prop where
  | done (ls : List (List α)) : (∀ l ∈ ls, l = []) → Interleaving ls []
  | step (before : List (List α)) (a : α) (l : List α) (after : List (List α))
      (rest : List α) :
      Interleaving (before ++ l :: after) rest →
      Interleaving (before ++ (a :: l) :: after) (a :: rest)

/-- The phase of the workers of `TransitionPolicyThread::operator()`: the calls
`transition(time)` on the members of the bag at the positions `sched`, in this
order; each call works on its object alone.  An exception in a worker ends the
program. -/
def TransitionPolicyThread.workers (tr : Model T V S C → T → Run (Model T V S C) T)
    (bag : List Nat) (time : T) :
    List Nat → List (Model T V S C) → Run (List (Model T V S C)) T
  | [], kids => ⟨kids, [], none⟩
  | i :: sched, kids =>
    match bag.get? i with
    | none => ⟨kids, [], some .undefined⟩
    | some a =>
      match findKid kids a with
      | none => ⟨kids, [], some .undefined⟩
      | some child =>
        let r := tr child time
        match r.fault with
        | some f => ⟨setKid kids a r.state, [.transition a time r.log], some f⟩
        | none =>
          let rest := TransitionPolicyThread.workers tr bag time sched (setKid kids a r.state)
          ⟨rest.state, .transition a time r.log :: rest.log, rest.fault⟩

/-- The last loop of `TransitionPolicyThread::operator()`, after the workers
have joined: `(*child->heapid).tn = child->tn; heap.update(child->heapid);
child->x.clear();` for each child of the bag. -/
def TransitionPolicyThread.updates : List Nat → Net T V S C → Run (Net T V S C) T
  | [], n => ⟨n, [], none⟩
  | a :: bag, n =>
    match findKid n.kids a with
    | none => ⟨n, [], some .undefined⟩
    | some child =>
      match n.heap.setTn child.core.heapid child.core.tn with
      | none => ⟨n, [], some .undefined⟩
      | some heap =>
        TransitionPolicyThread.updates bag
          ⟨heap, setKid n.kids a (child.mapCore (fun c => { c with x := c.x.clear }))⟩

/-- The parallel policy `TransitionPolicyThread::operator()`, for the order
`sched` in which the calls of the workers take place (an interleaving of
`jobs pool bag.size()`).  A bag of one member is handled by the statements of
the sequential policy. -/
def TransitionPolicyThread (sched : List Nat) : Policy T V S C :=
  fun tr bag time n =>
    if bag.length = 1 then TransitionPolicyDefault tr bag time n
    else
      let w := TransitionPolicyThread.workers tr bag time sched n.kids
      match w.fault with
      | some f => ⟨⟨n.heap, w.state⟩, w.log, some f⟩
      | none =>
        let u := TransitionPolicyThread.updates bag ⟨n.heap, w.state⟩
        ⟨u.state, w.log ++ u.log, u.fault⟩

/-- The simulation loop: `t = pre(root, t0)`, then `n` times `t = run(root, t)`.
A fault ends it. -/
def Engine.simulate (D : Dynamics T V S C) (policy : Policy T V S C) (common : C)
    (root : Model T V S C) (t0 : T) : Nat → Run (Model T V S C × Option T) T
  | 0 => Engine.pre D common root t0
  | n + 1 =>
    let r := Engine.simulate D policy common root t0 n
    match r.fault, r.state.2 with
    | none, some t =>
      let r2 := Engine.run D policy r.state.1 t
      ⟨r2.state, r.log ++ r2.log, r2.fault⟩
    | _, _ => r

end Thread

/-- The state of the first scenario after `pre(root, 0)` and `n` calls of `run`:
the generator has `tl = n` and `tn = n + 1`, the accumulator has counted `n`
values. -/
def Counter.state (n : Nat) : Model ExtInt Nat Nat Unit :=
  .coupled 0 ⟨PortList.new, PortList.new, .fin n, .fin (n + 1), none, none⟩ 0
    ⟨[(0, ⟨1, .fin (n + 1), some 0⟩), (1, ⟨2, .pinf, some 1⟩)], 2⟩ []
    [.atomic 1 ⟨PortList.new, ⟨[[]], [("out", 0)], true⟩, .fin n, .fin (n + 1), some 0,
        some 0⟩ 0,
     .atomic 2 ⟨⟨[[]], [("in", 0)], true⟩, PortList.new, .fin n, .pinf, some 0, some 1⟩ n]

/-- The state of the first scenario after `n` calls of `run` and the call
`output(n + 1)` of the next one: the accumulator has received the value of the
generator on its input port and is in `last_output_list`. -/
def Counter.afterOutput (n : Nat) : Model ExtInt Nat Nat Unit :=
  .coupled 0 ⟨PortList.new, PortList.new, .fin n, .fin (n + 1), none, none⟩ 0
    ⟨[(0, ⟨1, .fin (n + 1), some 0⟩), (1, ⟨2, .pinf, some 1⟩)], 2⟩ [2]
    [.atomic 1 ⟨PortList.new, ⟨[[]], [("out", 0)], true⟩, .fin n, .fin (n + 1), some 0,
        some 0⟩ 0,
     .atomic 2 ⟨⟨[[1]], [("in", 0)], false⟩, PortList.new, .fin n, .pinf, some 0, some 1⟩ n]

/-! ## The bundles `chi_x` and `chi_y` of an executive -/

/-- A write to the bundles `chi_x` and `chi_y` of an executive (the other models
have no such members). -/
def Model.setChiPorts {T V S C : Type} (x y : PortList V) : Model T V S C → Model T V S C
  | .executive a c st chi h l ks => .executive a c st { chi with chi_x := x, chi_y := y } h l ks
  | m => m

/-! ## An executive that emits

An executive (address 20) without children, with one output port and the
bundles `chi_x` and `chi_y` of one port each.  Its event is at `1`; its `lambda`
writes the value `9` to its output port `0`. -/

namespace Herald

/-- The hooks of the executive: `init` and `delta` return `1`, `lambda` appends
the value `9` to the output port `0`, `post` routes nothing. -/
def dynamics : Dynamics ExtInt Nat Nat Unit where
  init := fun _ _ _ st => (.fin 1, st)
  delta := fun _ _ _ st => (.fin 1, st)
  lambda := fun _ _ y => y.append 0 [9]
  post := fun _ _ self _ _ _ => ⟨self.y, fun _ x => x, []⟩
  structural := fun _ _ _ _ _ => []

/-- The executive, freshly constructed by
`Executive({}, {"out"}, {"cx"}, {"cy"})`. -/
def executive : Model ExtInt Nat Nat Unit :=
  .executive 20 (Core.ofNames [] ["out"]) 0
    ⟨.ninf, .pinf, none, PortList.ofNames ["cx"], PortList.ofNames ["cy"], ()⟩ HeapType.new []
    []

/-- The executive after `start(common, 0)`: its event is at `1`. -/
def started : Model ExtInt Nat Nat Unit :=
  (Model.start dynamics executive () (.fin 0)).state

end Herald

/-! ## An executive whose `post` writes its own output

An executive (address 40) without children, with one output port.  Its event
is at `1`; its `lambda` writes nothing, its `post` appends the value `3` to the
own output port `0`. -/

namespace Relay

/-- The hooks of the executive: `init` and `delta` return `1`, `lambda` leaves
the output bundle as it is, `post` appends the value `3` to the own output
port `0` and routes nothing else. -/
def dynamics : Dynamics ExtInt Nat Nat Unit where
  init := fun _ _ _ st => (.fin 1, st)
  delta := fun _ _ _ st => (.fin 1, st)
  lambda := fun _ _ y => y
  post := fun _ _ self _ _ _ => ⟨self.y.append 0 [3], fun _ x => x, []⟩
  structural := fun _ _ _ _ _ => []

/-- The executive, freshly constructed by `Executive({}, {"out"})`. -/
def executive : Model ExtInt Nat Nat Unit :=
  .executive 40 (Core.ofNames [] ["out"]) 0
    ⟨.ninf, .pinf, none, PortList.new, PortList.new, ()⟩ HeapType.new [] []

/-- The executive after `start(common, 0)`: its event is at `1`. -/
def started : Model ExtInt Nat Nat Unit :=
  (Model.start dynamics executive () (.fin 0)).state

end Relay

/-- The state of the first scenario after `pre(root, 0)` and any positive
number of calls of `run` under the parallel policy with an empty pool: the
clock of the root is `1`, no child has been transitioned (`tl = 0`), the input
of the accumulator has been cleared unread and its counter is `0`. -/
def Counter.stuck : Model ExtInt Nat Nat Unit :=
  .coupled 0 ⟨PortList.new, PortList.new, .fin 1, .fin 1, none, none⟩ 0
    ⟨[(0, ⟨1, .fin 1, some 0⟩), (1, ⟨2, .pinf, some 1⟩)], 2⟩ []
    [.atomic 1 ⟨PortList.new, ⟨[[]], [("out", 0)], true⟩, .fin 0, .fin 1, some 0, some 0⟩ 0,
     .atomic 2 ⟨⟨[[]], [("in", 0)], true⟩, PortList.new, .fin 0, .pinf, some 0, some 1⟩ 0]


/-! ## An executive with two imminent children

An executive (address 50) with two children (addresses 51 and 52); times are
counted in halves of a time unit.  The executive has its event at `2` (time
`1.0`); its `delta` then inserts a third child (address 53) whose `init` returns
`1` (`0.5`) and returns `1` itself, so that at `3` (time `1.5`) the executive,
the child 51 (whose `init` returns `3`) and the new child all have their event:
the bag of `transition(3)` has two members. -/

namespace Crowd

/-- The child that the `delta` of the executive inserts, freshly constructed. -/
def newChild : Model ExtInt Nat Nat Unit :=
  .atomic 53 (Core.ofNames ["in"] ["out"]) 0

/-- The hooks of the executive and of its children. -/
def dynamics : Dynamics ExtInt Nat Nat Unit where
  init := fun a _ _ st =>
    if a = 50 then (.fin 2, st) else if a = 51 then (.fin 3, st)
    else if a = 53 then (.fin 1, st) else (.pinf, st)
  delta := fun a _ _ st => if a = 50 then (.fin 1, st + 1) else (.pinf, st + 1)
  lambda := fun _ _ y => y
  post := fun _ _ self _ _ _ => ⟨self.y, fun _ x => x, []⟩
  structural := fun a _ _ _ held =>
    if a = 50 ∧ 53 ∉ held then [.insert newChild] else []

/-- The first declared child, freshly constructed. -/
def child1 : Model ExtInt Nat Nat Unit :=
  .atomic 51 (Core.ofNames ["in"] ["out"]) 0

/-- The second declared child, freshly constructed. -/
def child2 : Model ExtInt Nat Nat Unit :=
  .atomic 52 (Core.ofNames ["in"] ["out"]) 0

/-- The executive, freshly constructed. -/
def executive : Model ExtInt Nat Nat Unit :=
  .executive 50 Core.new 0 ⟨.ninf, .pinf, none, PortList.new, PortList.new, ()⟩ HeapType.new []
    [child1, child2]

/-- The executive after `start(common, 0)`: its event is at `2`. -/
def started : Model ExtInt Nat Nat Unit :=
  (Model.start dynamics executive () (.fin 0)).state

/-- The started executive after `output(2)`. -/
def afterOutput : Model ExtInt Nat Nat Unit :=
  (Model.output dynamics started (.fin 2)).state

/-- The executive after `transition(2)` (the bag is empty, so that the policy
does not matter): its `delta` has inserted the new child. -/
def grown : Model ExtInt Nat Nat Unit :=
  (Model.transition dynamics (TransitionPolicyThread []) afterOutput (.fin 2)).state

/-- The grown executive after `output(3)`. -/
def grownOutput : Model ExtInt Nat Nat Unit :=
  (Model.output dynamics grown (.fin 3)).state

end Crowd
/-! ## Theorems -/

section Theorems

variable {T V S C : Type} [TimeTrait T]

/-- C1. An atomic model whose `tl ≤ t ≤ tn` and that is imminent (`t = tn`) or
has received input (`x` not `is_empty`): `transition(t)` returns normally, calls
`delta` once and nothing else, with `e = t - tl`, and leaves `tn = t + delta(e)`,
`tl = t`, and `x` cleared (flag set, every list empty); `delta` saw the input
bundle and its user state is the new state. -/
theorem C1_atomic_transition (D : Dynamics T V S C) (policy : Policy T V S C) (addr : Nat)
    (core : Core T V) (st : S) (t : T) (h1 : core.tl ≤ t) (h2 : t ≤ core.tn)
    (h3 : t = core.tn ∨ core.x.is_empty = false) :
    (Model.transition D policy (.atomic addr core st) t).fault = none ∧
    (Model.transition D policy (.atomic addr core st) t).log
      = [Event.delta addr (t - core.tl)] ∧
    (Model.transition D policy (.atomic addr core st) t).state.core.tn
      = t + (D.delta addr (t - core.tl) core.x st).1 ∧
    (Model.transition D policy (.atomic addr core st) t).state.core.tl = t ∧
    (Model.transition D policy (.atomic addr core st) t).state.core.x.is_empty = true ∧
    (Model.transition D policy (.atomic addr core st) t).state.core.x.allEmpty ∧
    (Model.transition D policy (.atomic addr core st) t).state
      = .atomic addr
          { core with tn := t + (D.delta addr (t - core.tl) core.x st).1, tl := t,
                      x := core.x.clear }
          (D.delta addr (t - core.tl) core.x st).2 := by
  have hg : ¬ (t < core.tn ∧ core.x.is_empty = true) := by
    rintro ⟨hlt, he⟩
    rcases h3 with h | h
    · exact absurd h (ne_of_lt hlt)
    · rw [he] at h; exact Bool.noConfusion h
  have hr : Model.transition D policy (.atomic addr core st) t
      = ⟨.atomic addr
          { core with tn := t + (D.delta addr (t - core.tl) core.x st).1, tl := t,
                      x := core.x.clear }
          (D.delta addr (t - core.tl) core.x st).2,
        [Event.delta addr (t - core.tl)], none⟩ := by
    simp only [Model.transition, Model.transitionN, AtomicModel.transition]
    rw [if_neg (not_not.2 ⟨h1, h2⟩), if_neg hg]
  rw [hr]
  refine ⟨rfl, rfl, rfl, rfl, rfl, ?_, rfl⟩
  intro l hl
  simp only [Model.core, PortList.clear, List.mem_map] at hl
  obtain ⟨_, _, rfl⟩ := hl
  rfl

/-- C1, on the started generator of the sample network at its `tn = 2`. -/
theorem C1_atomic_transition_witness :
    (Model.transition Sample.dynamics TransitionPolicyDefault Sample.startedGenerator
        (.fin 2)).fault = none ∧
    (Model.transition Sample.dynamics TransitionPolicyDefault Sample.startedGenerator
        (.fin 2)).state.core.tn = .fin 4 ∧
    (Model.transition Sample.dynamics TransitionPolicyDefault Sample.startedGenerator
        (.fin 2)).state.core.tl = .fin 2 :=
  have h := C1_atomic_transition Sample.dynamics TransitionPolicyDefault 1
    { (Core.ofNames ["in"] ["out"] : Core ExtInt Nat) with tl := .fin 0, tn := .fin 2 } 0
    (.fin 2) (by decide) (by decide) (Or.inl rfl)
  ⟨h.1, h.2.2.1, h.2.2.2.1⟩

/-- C2. For an atomic model, a coupled model and an executive alike: when `t`
violates `tl ≤ t ≤ tn`, `transition(t)` ends with the synchronization error, its
log is empty (no `delta`, no `post`, no transition of a child) and the object is
as before the call (`tl`, `tn`, `x`, the heap, `last_output_list`, the children). -/
theorem C2_transition_out_of_sync (D : Dynamics T V S C) (policy : Policy T V S C)
    (m : Model T V S C) (t : T) (h : ¬ (m.core.tl ≤ t ∧ t ≤ m.core.tn)) :
    Model.transition D policy m t = ⟨m, [], some Fault.synchronization⟩ := by
  cases m with
  | atomic a c st =>
    simp only [Model.core] at h
    simp only [Model.transition, Model.transitionN, AtomicModel.transition]
    rw [if_pos h]
  | coupled a c st hp l ks =>
    simp only [Model.core] at h
    simp only [Model.transition, Model.transitionN, CoupledModel.transition]
    rw [if_pos h]
  | executive a c st chi hp l ks =>
    simp only [Model.core] at h
    simp only [Model.transition, Model.transitionN, Executive.transition]
    rw [if_pos h]

/-- C2, on the started sample network: `tn = 2` (time 1.0) and `t = 3` (time 1.5). -/
theorem C2_transition_out_of_sync_witness :
    Sample.started.core.tn = .fin 2 ∧
    Model.transition Sample.dynamics TransitionPolicyDefault Sample.started (.fin 3)
      = ⟨Sample.started, [], some Fault.synchronization⟩ :=
  ⟨by decide,
    C2_transition_out_of_sync Sample.dynamics TransitionPolicyDefault Sample.started (.fin 3)
      (by decide)⟩

/-- C3. For an atomic model, a coupled model and an executive alike: when
`tl ≤ t < tn` and `x.is_empty()`, `transition(t)` returns normally, its log is
empty (no `delta`, no `post`, no transition of a child) and the object is as
before the call. -/
theorem C3_transition_noop (D : Dynamics T V S C) (policy : Policy T V S C)
    (m : Model T V S C) (t : T) (h1 : m.core.tl ≤ t) (h2 : t < m.core.tn)
    (h3 : m.core.x.is_empty = true) :
    Model.transition D policy m t = ⟨m, [], none⟩ := by
  cases m with
  | atomic a c st =>
    simp only [Model.core] at h1 h2 h3
    simp only [Model.transition, Model.transitionN, AtomicModel.transition]
    rw [if_neg (not_not.2 ⟨h1, le_of_lt h2⟩), if_pos ⟨h2, h3⟩]
  | coupled a c st hp l ks =>
    simp only [Model.core] at h1 h2 h3
    simp only [Model.transition, Model.transitionN, CoupledModel.transition]
    rw [if_neg (not_not.2 ⟨h1, le_of_lt h2⟩), if_pos ⟨h2, h3⟩]
  | executive a c st chi hp l ks =>
    simp only [Model.core] at h1 h2 h3
    simp only [Model.transition, Model.transitionN, Executive.transition]
    rw [if_neg (not_not.2 ⟨h1, le_of_lt h2⟩), if_pos ⟨h2, h3⟩]

/-- C3, on the started sample network: `tn = 2` (time 1.0), `t = 1` (time 0.5)
and `x` empty. -/
theorem C3_transition_noop_witness :
    Sample.started.core.tn = .fin 2 ∧
    Model.transition Sample.dynamics TransitionPolicyDefault Sample.started (.fin 1)
      = ⟨Sample.started, [], none⟩ :=
  ⟨by decide,
    C3_transition_noop Sample.dynamics TransitionPolicyDefault Sample.started (.fin 1)
      (by decide) (by decide) (by decide)⟩

/-- The input bundle after the external routing of a coupled model is flagged empty. -/
theorem CoupledModel.route_x_is_empty (D : Dynamics T V S C) (addr : Nat) (core : Core T V)
    (st : S) (lol : List Nat) (kids : List (Model T V S C)) :
    (CoupledModel.route D addr core st lol kids).core.x.is_empty = true := by
  unfold CoupledModel.route
  split
  · assumption
  · rfl

/-- The input bundle after the external routing of a coupled model has only
empty lists, when the flag of the bundle did not overstate before. -/
theorem CoupledModel.route_x_allEmpty (D : Dynamics T V S C) (addr : Nat) (core : Core T V)
    (st : S) (lol : List Nat) (kids : List (Model T V S C)) (hc : core.x.Consistent) :
    (CoupledModel.route D addr core st lol kids).core.x.allEmpty := by
  unfold CoupledModel.route
  split
  · rename_i h; exact hc h
  · intro l hl
    simp only [PortList.clear, List.mem_map] at hl
    obtain ⟨_, _, rfl⟩ := hl
    rfl

/-- A cleared bundle has only empty lists. -/
theorem PortList.clear_allEmpty {V : Type} (p : PortList V) : p.clear.allEmpty := by
  intro l hl
  simp only [PortList.clear, List.mem_map] at hl
  obtain ⟨_, _, rfl⟩ := hl
  rfl

/-- C9, the claim as stated fails: on the started generator of the sample
network (`tl = 0`, `tn = 2`, `x` empty) `transition(1)` returns without error and
`tl` is still `0`, not `1`. -/
theorem C9_counterexample :
    (Model.transition Sample.dynamics TransitionPolicyDefault Sample.startedGenerator
        (.fin 1)).fault = none ∧
    (Model.transition Sample.dynamics TransitionPolicyDefault Sample.startedGenerator
        (.fin 1)).state.core.tl = .fin 0 ∧
    (Model.transition Sample.dynamics TransitionPolicyDefault Sample.startedGenerator
        (.fin 1)).state.core.tl ≠ .fin 1 := by
  decide

/-- What `C9_after_transition` states, for `AtomicModel::transition`. -/
theorem AtomicModel.after_transition_atomic (D : Dynamics T V S C) (a : Nat) (c : Core T V) (st : S)
    (t : T) (h : (AtomicModel.transition D a c st t).fault = none) :
    (AtomicModel.transition D a c st t).state.core.x.is_empty = true ∧
    (c.x.Consistent → (AtomicModel.transition D a c st t).state.core.x.allEmpty) ∧
    (¬ (t < c.tn ∧ c.x.is_empty = true) →
      (AtomicModel.transition D a c st t).state.core.tl = t) ∧
    (t < c.tn ∧ c.x.is_empty = true →
      (AtomicModel.transition D a c st t).state = .atomic a c st) := by
  unfold AtomicModel.transition at h ⊢
  by_cases hg : ¬ (c.tl ≤ t ∧ t ≤ c.tn)
  · rw [if_pos hg] at h; exact absurd h (by simp)
  · rw [if_neg hg]
    by_cases hn : t < c.tn ∧ c.x.is_empty = true
    · rw [if_pos hn]
      exact ⟨hn.2, fun hc => hc hn.2, fun hh => absurd hn hh, fun _ => rfl⟩
    · rw [if_neg hn]
      exact ⟨rfl, fun _ => PortList.clear_allEmpty _, fun _ => rfl, fun hh => absurd hh hn⟩

/-- What `C9_after_transition` states, for `CoupledModel::transition`. -/
theorem CoupledModel.after_transition_coupled (D : Dynamics T V S C) (policy : Policy T V S C)
    (tr : Model T V S C → T → Run (Model T V S C) T) (a : Nat) (c : Core T V) (st : S)
    (hp : HeapType T) (l : List Nat) (ks : List (Model T V S C)) (t : T)
    (h : (CoupledModel.transition D policy tr a c st hp l ks t).fault = none) :
    (CoupledModel.transition D policy tr a c st hp l ks t).state.core.x.is_empty = true ∧
    (c.x.Consistent →
      (CoupledModel.transition D policy tr a c st hp l ks t).state.core.x.allEmpty) ∧
    (¬ (t < c.tn ∧ c.x.is_empty = true) →
      (CoupledModel.transition D policy tr a c st hp l ks t).state.core.tl = t) ∧
    (t < c.tn ∧ c.x.is_empty = true →
      (CoupledModel.transition D policy tr a c st hp l ks t).state = .coupled a c st hp l ks) := by
  unfold CoupledModel.transition at h ⊢
  by_cases hg : ¬ (c.tl ≤ t ∧ t ≤ c.tn)
  · rw [if_pos hg] at h; exact absurd h (by simp)
  · rw [if_neg hg] at h ⊢
    by_cases hn : t < c.tn ∧ c.x.is_empty = true
    · rw [if_pos hn]
      exact ⟨hn.2, fun hc => hc hn.2, fun hh => absurd hn hh, fun _ => rfl⟩
    · rw [if_neg hn] at h ⊢
      simp only at h ⊢
      by_cases hb : a ∈ CoupledModel.bag hp t (CoupledModel.route D a c st l ks).last_output_list
      · rw [if_pos hb] at h; exact absurd h (by simp)
      · rw [if_neg hb] at h ⊢
        cases hf : (policy tr
            (CoupledModel.bag hp t (CoupledModel.route D a c st l ks).last_output_list) t
            ⟨hp, (CoupledModel.route D a c st l ks).kids⟩).fault with
        | some f => simp only [hf] at h; exact absurd h (by simp)
        | none =>
          simp only [hf] at h ⊢
          cases he : (policy tr
              (CoupledModel.bag hp t (CoupledModel.route D a c st l ks).last_output_list) t
              ⟨hp, (CoupledModel.route D a c st l ks).kids⟩).state.heap.top with
          | none => simp only [he] at h; exact absurd h (by simp)
          | some e =>
            simp only [he]
            exact ⟨CoupledModel.route_x_is_empty D a c st l ks,
              fun hc => CoupledModel.route_x_allEmpty D a c st l ks hc,
              fun _ => rfl, fun hh => absurd hh hn⟩

/-- A normal return of the end of `Executive::transition` leaves `tl = time` and
`x` cleared. -/
theorem Executive.finish_ok (addr : Nat) (core : Core T V) (st : S) (chi : Chi T V C)
    (n : ExecNet T V S C) (time : T) (log : List (Event T))
    (h : (Executive.finish addr core st chi n time log).fault = none) :
    ∃ top, n.heap.top = some top ∧
      Executive.finish addr core st chi n time log
        = ⟨.executive addr { core with tn := top.tn, tl := time, x := core.x.clear } st chi
            n.heap n.last_output_list n.kids, log, none⟩ := by
  unfold Executive.finish at h ⊢
  cases he : n.heap.top with
  | none => simp only [he] at h; exact absurd h (by simp)
  | some top => exact ⟨top, rfl, rfl⟩

/-- What `C9_after_transition` states, for `Executive::transition`. -/
theorem Executive.after_transition_executive (D : Dynamics T V S C) (policy : Policy T V S C)
    (start : Model T V S C → C → T → Run (Model T V S C) T)
    (tr : Model T V S C → T → Run (Model T V S C) T) (a : Nat) (c : Core T V) (st : S)
    (chi : Chi T V C) (hp : HeapType T) (l : List Nat) (ks : List (Model T V S C)) (t : T)
    (h : (Executive.transition D policy start tr a c st chi hp l ks t).fault = none) :
    (Executive.transition D policy start tr a c st chi hp l ks t).state.core.x.is_empty
      = true ∧
    (c.x.Consistent →
      (Executive.transition D policy start tr a c st chi hp l ks t).state.core.x.allEmpty) ∧
    (¬ (t < c.tn ∧ c.x.is_empty = true) →
      (Executive.transition D policy start tr a c st chi hp l ks t).state.core.tl = t) ∧
    (t < c.tn ∧ c.x.is_empty = true →
      (Executive.transition D policy start tr a c st chi hp l ks t).state
        = .executive a c st chi hp l ks) := by
  unfold Executive.transition at h ⊢
  by_cases hg : ¬ (c.tl ≤ t ∧ t ≤ c.tn)
  · rw [if_pos hg] at h; exact absurd h (by simp)
  · rw [if_neg hg] at h ⊢
    by_cases hn : t < c.tn ∧ c.x.is_empty = true
    · rw [if_pos hn]
      exact ⟨hn.2, fun hc => hc hn.2, fun hh => absurd hn hh, fun _ => rfl⟩
    · rw [if_neg hn] at h ⊢
      simp only at h ⊢
      cases hf : (policy tr
          (Executive.bag a hp t (Executive.route D a c st l ks).last_output_list) t
          ⟨hp, (Executive.route D a c st l ks).kids⟩).fault with
      | some f => simp only [hf] at h; exact absurd h (by simp)
      | none =>
        simp only [hf] at h ⊢
        by_cases hc : Executive.have_chi a hp t (Executive.route D a c st l ks).last_output_list
            = true
        · rw [if_pos hc] at h ⊢
          revert h
          cases hs : (Executive.structural start a { chi with chi_tl := t }
              (D.structural a (t - chi.chi_tl) (Executive.route D a c st l ks).core.x st
                ((policy tr
                  (Executive.bag a hp t (Executive.route D a c st l ks).last_output_list) t
                  ⟨hp, (Executive.route D a c st l ks).kids⟩).state.kids.map Model.addr))
              ⟨(policy tr
                  (Executive.bag a hp t (Executive.route D a c st l ks).last_output_list) t
                  ⟨hp, (Executive.route D a c st l ks).kids⟩).state.heap, [],
                (policy tr
                  (Executive.bag a hp t (Executive.route D a c st l ks).last_output_list) t
                  ⟨hp, (Executive.route D a c st l ks).kids⟩).state.kids⟩).fault with
          | some f => intro h; simp only at h; exact absurd h (by simp)
          | none =>
            simp only
            split
            · intro h; exact absurd h (by simp)
            · intro h
              obtain ⟨top, _, heq⟩ := Executive.finish_ok _ _ _ _ _ _ _ h
              rw [heq]
              exact ⟨rfl, fun _ => PortList.clear_allEmpty _, fun _ => rfl,
                fun hh => absurd hh hn⟩
        · rw [if_neg hc] at h ⊢
          obtain ⟨top, _, heq⟩ := Executive.finish_ok _ _ _ _ _ _ _ h
          rw [heq]
          exact ⟨rfl, fun _ => PortList.clear_allEmpty _, fun _ => rfl,
            fun hh => absurd hh hn⟩

/-- C9, amended. For an atomic model, a coupled model and an executive alike,
when `transition(t)` returns without error: `x.is_empty()` holds (and every list
of `x` is empty, if the flag of `x` did not overstate before the call); `tl = t`
unless the call took the no-op return (`t < tn` and `x.is_empty()` on entry), and
then the object, `tl` included, is as before the call. -/
theorem C9_after_transition (D : Dynamics T V S C) (policy : Policy T V S C)
    (m : Model T V S C) (t : T) (h : (Model.transition D policy m t).fault = none) :
    (Model.transition D policy m t).state.core.x.is_empty = true ∧
    (m.core.x.Consistent → (Model.transition D policy m t).state.core.x.allEmpty) ∧
    (¬ (t < m.core.tn ∧ m.core.x.is_empty = true) →
      (Model.transition D policy m t).state.core.tl = t) ∧
    (t < m.core.tn ∧ m.core.x.is_empty = true →
      (Model.transition D policy m t).state = m) := by
  cases m with
  | atomic a c st => exact AtomicModel.after_transition_atomic D a c st t h
  | coupled a c st hp l ks => exact CoupledModel.after_transition_coupled D policy _ a c st hp l ks t h
  | executive a c st chi hp l ks =>
    exact Executive.after_transition_executive D policy _ _ a c st chi hp l ks t h

/-- C9 amended, on the started sample network at its `tn = 2`. -/
theorem C9_after_transition_witness :
    (Model.transition Sample.dynamics TransitionPolicyDefault Sample.started (.fin 2)).fault
      = none ∧
    (Model.transition Sample.dynamics TransitionPolicyDefault Sample.started
      (.fin 2)).state.core.tl = .fin 2 :=
  ⟨by decide,
    (C9_after_transition Sample.dynamics TransitionPolicyDefault Sample.started (.fin 2)
      (by decide)).2.2.1 (by decide)⟩

/-! ### Sets of pointers -/

theorem mem_setInsert {a x : Nat} {s : List Nat} : x ∈ setInsert a s ↔ x = a ∨ x ∈ s := by
  unfold setInsert
  by_cases h : a ∈ s
  · rw [if_pos h]
    constructor
    · exact Or.inr
    · rintro (rfl | hx)
      · exact h
      · exact hx
  · rw [if_neg h, List.mem_orderedInsert]

theorem nodup_setInsert {a : Nat} {s : List Nat} (hs : s.Nodup) : (setInsert a s).Nodup := by
  unfold setInsert
  by_cases h : a ∈ s
  · rw [if_pos h]; exact hs
  · rw [if_neg h]
    exact (List.perm_orderedInsert (fun x y => x ≤ y) a s).nodup_iff.2 (List.nodup_cons.2 ⟨h, hs⟩)

theorem mem_setInsertAll {l : List Nat} {x : Nat} {s : List Nat} :
    x ∈ setInsertAll l s ↔ x ∈ l ∨ x ∈ s := by
  unfold setInsertAll
  induction l generalizing s with
  | nil => simp
  | cons a l ih =>
    rw [List.foldl_cons, ih, mem_setInsert, List.mem_cons]
    tauto

theorem nodup_setInsertAll {l : List Nat} {s : List Nat} (hs : s.Nodup) :
    (setInsertAll l s).Nodup := by
  unfold setInsertAll
  induction l generalizing s with
  | nil => exact hs
  | cons a l ih =>
    rw [List.foldl_cons]
    exact ih (nodup_setInsert hs)

/-! ### The heap in order -/

/-- The ordered iteration visits the entries in nondecreasing `tn`. -/
theorem HeapType.ordered_sorted (h : HeapType T) :
    (h.ordered).Sorted (fun a b => a.tn ≤ b.tn) := by
  haveI : IsTotal (HeapElement T) (fun a b => a.tn ≤ b.tn) := ⟨fun a b => le_total a.tn b.tn⟩
  haveI : IsTrans (HeapElement T) (fun a b => a.tn ≤ b.tn) :=
    ⟨fun a b c hab hbc => le_trans hab hbc⟩
  exact List.sorted_insertionSort _ _

/-- The ordered iteration visits exactly the entries of the heap. -/
theorem HeapType.mem_ordered (h : HeapType T) (e : HeapElement T) :
    e ∈ h.ordered ↔ ∃ n ∈ h.nodes, n.2 = e := by
  unfold HeapType.ordered
  rw [List.mem_insertionSort, List.mem_map]

/-- On a list in nondecreasing order of a key, all of whose keys are at least
`t`, the leading run of the entries with key `t` holds every entry with key `t`. -/
theorem takeWhile_eq_filter_of_sorted {α : Type} (key : α → T) (t : T) :
    ∀ l : List α, l.Sorted (fun a b => key a ≤ key b) → (∀ a ∈ l, t ≤ key a) →
      l.takeWhile (fun e => decide (key e = t)) = l.filter (fun e => decide (key e = t))
  | [], _, _ => rfl
  | a :: l, hs, hge => by
    have hs2 := List.sorted_cons.1 hs
    by_cases ha : key a = t
    · rw [List.takeWhile_cons_of_pos (by simpa using ha),
        List.filter_cons_of_pos (by simpa using ha),
        takeWhile_eq_filter_of_sorted key t l hs2.2
          (fun b hb => hge b (List.mem_cons_of_mem _ hb))]
    · rw [List.takeWhile_cons_of_neg (by simpa using ha),
        List.filter_cons_of_neg (by simpa using ha)]
      symm
      rw [List.filter_eq_nil_iff]
      intro b hb
      have h1 : t < key a := lt_of_le_of_ne (hge a (List.mem_cons_self _ _)) (Ne.symm ha)
      have h2 : key a ≤ key b := hs2.1 b hb
      simpa using ne_of_gt (lt_of_lt_of_le h1 h2)

/-- When `time` is not after the `tn` of the top of the heap, the loop
`for (; it != et && (*it).tn == time; ++it)` visits exactly the entries whose
`tn` is `time`. -/
theorem HeapType.mem_imminent (h : HeapType T) (time : T)
    (htop : ∀ e, h.top = some e → time ≤ e.tn) (e : HeapElement T) :
    e ∈ h.imminent time ↔ (∃ n ∈ h.nodes, n.2 = e) ∧ e.tn = time := by
  have hsorted := h.ordered_sorted
  have hge : ∀ a ∈ h.ordered, time ≤ a.tn := by
    intro a ha
    unfold HeapType.top at htop
    cases ho : h.ordered with
    | nil => rw [ho] at ha; cases ha
    | cons b l =>
      rw [ho] at htop ha hsorted
      have hb : time ≤ b.tn := htop b rfl
      rcases List.mem_cons.1 ha with rfl | hl
      · exact hb
      · exact le_trans hb ((List.sorted_cons.1 hsorted).1 a hl)
  unfold HeapType.imminent
  rw [takeWhile_eq_filter_of_sorted (fun e : HeapElement T => e.tn) time h.ordered hsorted hge,
    List.mem_filter, h.mem_ordered]
  simp

/-! ### The sequential policy -/

/-- A run of the sequential policy that ends normally called `transition(time)`
on the members of the bag, one call per member, in the order of the bag, and
nothing else. -/
theorem TransitionPolicyDefault.calls (tr : Model T V S C → T → Run (Model T V S C) T)
    (time : T) : ∀ (bag : List Nat) (n : Net T V S C),
      (TransitionPolicyDefault tr bag time n).fault = none →
      transitionCalls (TransitionPolicyDefault tr bag time n).log
        = bag.map (fun k => (k, time)) ∧
      (TransitionPolicyDefault tr bag time n).log.length = bag.length
  | [], n, _ => ⟨rfl, rfl⟩
  | a :: bag, n, h => by
    unfold TransitionPolicyDefault at h ⊢
    cases hk : findKid n.kids a with
    | none => simp only [hk] at h; exact absurd h (by simp)
    | some child =>
      simp only [hk] at h ⊢
      cases hf : (tr child time).fault with
      | some f => simp only [hf] at h; exact absurd h (by simp)
      | none =>
        simp only [hf] at h ⊢
        revert h
        cases hs : n.heap.setTn
            ((tr child time).state.mapCore (fun c => { c with x := c.x.clear })).core.heapid
            ((tr child time).state.mapCore (fun c => { c with x := c.x.clear })).core.tn with
        | none => intro h; simp only at h; exact absurd h (by simp)
        | some heap =>
          intro h
          simp only at h ⊢
          have ih := TransitionPolicyDefault.calls tr time bag _ h
          refine ⟨?_, ?_⟩
          · simp only [transitionCalls, List.filterMap_cons, Event.transitionCall, List.map_cons]
            exact congrArg _ ih.1
          · simp only [List.length_cons, ih.2]

/-- The external routing of a coupled model calls no transition. -/
theorem CoupledModel.route_calls (D : Dynamics T V S C) (a : Nat) (c : Core T V) (st : S)
    (l : List Nat) (ks : List (Model T V S C)) :
    transitionCalls (CoupledModel.route D a c st l ks).log = [] := by
  unfold CoupledModel.route
  by_cases hx : c.x.is_empty = true
  · rw [if_pos hx]; rfl
  · rw [if_neg hx]; rfl

/-- The calls and the final `last_output_list` of a `CoupledModel::transition`
under the sequential policy that passes both guards and returns normally. -/
theorem CoupledModel.transition_calls (D : Dynamics T V S C)
    (tr : Model T V S C → T → Run (Model T V S C) T) (a : Nat) (c : Core T V) (st : S)
    (hp : HeapType T) (l : List Nat) (ks : List (Model T V S C)) (t : T)
    (h1 : c.tl ≤ t) (h2 : t ≤ c.tn) (h3 : ¬ (t < c.tn ∧ c.x.is_empty = true))
    (hok : (CoupledModel.transition D TransitionPolicyDefault tr a c st hp l ks t).fault
      = none) :
    transitionCalls (CoupledModel.transition D TransitionPolicyDefault tr a c st hp l ks t).log
      = (CoupledModel.bag hp t (CoupledModel.route D a c st l ks).last_output_list).map
          (fun k => (k, t)) ∧
    (CoupledModel.transition D TransitionPolicyDefault tr a c st hp l ks t).state.last_output_list
      = [] := by
  unfold CoupledModel.transition at hok ⊢
  rw [if_neg (not_not.2 ⟨h1, h2⟩), if_neg h3] at hok ⊢
  simp only at hok ⊢
  by_cases hb : a ∈ CoupledModel.bag hp t (CoupledModel.route D a c st l ks).last_output_list
  · rw [if_pos hb] at hok; exact absurd hok (by simp)
  · rw [if_neg hb] at hok ⊢
    cases hf : (TransitionPolicyDefault tr
        (CoupledModel.bag hp t (CoupledModel.route D a c st l ks).last_output_list) t
        ⟨hp, (CoupledModel.route D a c st l ks).kids⟩).fault with
    | some f => simp only [hf] at hok; exact absurd hok (by simp)
    | none =>
      simp only [hf] at hok ⊢
      cases he : (TransitionPolicyDefault tr
          (CoupledModel.bag hp t (CoupledModel.route D a c st l ks).last_output_list) t
          ⟨hp, (CoupledModel.route D a c st l ks).kids⟩).state.heap.top with
      | none => simp only [he] at hok; exact absurd hok (by simp)
      | some e =>
        simp only [he]
        refine ⟨?_, rfl⟩
        have hcalls := (TransitionPolicyDefault.calls tr t _ _ hf).1
        have hrt := CoupledModel.route_calls D a c st l ks
        unfold transitionCalls at hcalls hrt ⊢
        rw [List.filterMap_append, hrt, hcalls, List.nil_append]

/-- A `CoupledModel::transition(t)` under the sequential policy that passes
both guards and returns normally, on a coupled model whose `tn` is the `tn` of
the top of its heap: the children on which it calls `transition(t)` are the
members of the bag, one call each, and the bag, computed from the state on entry,
holds no child twice and is the set of the elements of the heap entries with
`tn = t` together with the members of `last_output_list` after the external
routing (the former members and, when `x` is not empty, what `post({this}, ..)`
inserted); `last_output_list` is empty on return. -/
theorem CoupledModel.transition_bag_sequential (D : Dynamics T V S C) (a : Nat) (c : Core T V)
    (st : S)
    (hp : HeapType T) (l : List Nat) (ks : List (Model T V S C)) (t : T)
    (h1 : c.tl ≤ t) (h2 : t ≤ c.tn) (h3 : ¬ (t < c.tn ∧ c.x.is_empty = true))
    (hinv : ∀ e, hp.top = some e → c.tn = e.tn)
    (hok : (Model.transition D TransitionPolicyDefault (.coupled a c st hp l ks) t).fault
      = none) :
    transitionCalls (Model.transition D TransitionPolicyDefault (.coupled a c st hp l ks) t).log
      = (CoupledModel.bag hp t (CoupledModel.route D a c st l ks).last_output_list).map
          (fun k => (k, t)) ∧
    (CoupledModel.bag hp t (CoupledModel.route D a c st l ks).last_output_list).Nodup ∧
    (∀ k, k ∈ CoupledModel.bag hp t (CoupledModel.route D a c st l ks).last_output_list ↔
      (∃ n ∈ hp.nodes, n.2.tn = t ∧ n.2.element = k) ∨
      k ∈ (CoupledModel.route D a c st l ks).last_output_list) ∧
    (∀ k, k ∈ (CoupledModel.route D a c st l ks).last_output_list ↔
      k ∈ l ∨ (c.x.is_empty = false ∧
        k ∈ (D.post a st ⟨a, c.x, c.y⟩ (ks.map Model.ports) [a] l).recipients)) ∧
    (Model.transition D TransitionPolicyDefault (.coupled a c st hp l ks) t).state.last_output_list
      = [] := by
  have hbag : ∀ k, k ∈ CoupledModel.bag hp t (CoupledModel.route D a c st l ks).last_output_list ↔
      (∃ n ∈ hp.nodes, n.2.tn = t ∧ n.2.element = k) ∨
      k ∈ (CoupledModel.route D a c st l ks).last_output_list := by
    intro k
    unfold CoupledModel.bag
    rw [mem_setInsertAll, mem_setInsertAll, List.mem_map]
    have htop : ∀ e, hp.top = some e → t ≤ e.tn := fun e he => (hinv e he) ▸ h2
    constructor
    · rintro (hk | ⟨e, he, rfl⟩ | hk)
      · exact Or.inr hk
      · obtain ⟨⟨n, hn, rfl⟩, het⟩ := (hp.mem_imminent t htop e).1 he
        exact Or.inl ⟨n, hn, het, rfl⟩
      · cases hk
    · rintro (⟨n, hn, het, rfl⟩ | hk)
      · exact Or.inr (Or.inl ⟨n.2, (hp.mem_imminent t htop n.2).2 ⟨⟨n, hn, rfl⟩, het⟩, rfl⟩)
      · exact Or.inl hk
  have hlol : ∀ k, k ∈ (CoupledModel.route D a c st l ks).last_output_list ↔
      k ∈ l ∨ (c.x.is_empty = false ∧
        k ∈ (D.post a st ⟨a, c.x, c.y⟩ (ks.map Model.ports) [a] l).recipients) := by
    intro k
    unfold CoupledModel.route
    by_cases hx : c.x.is_empty = true
    · rw [if_pos hx]; simp [hx]
    · rw [if_neg hx]
      simp only [applyPost, mem_setInsertAll]
      have hx2 : c.x.is_empty = false := by simpa using hx
      simp only [hx2, true_and]
      tauto
  have hc := CoupledModel.transition_calls D _ a c st hp l ks t h1 h2 h3 hok
  exact ⟨hc.1, nodup_setInsertAll (nodup_setInsertAll List.nodup_nil), hbag, hlol, hc.2⟩

/-! ### Writes to the base of a model -/

@[simp] theorem Model.addr_mapCore (f : Core T V → Core T V) (m : Model T V S C) :
    (m.mapCore f).addr = m.addr := by
  cases m <;> rfl

@[simp] theorem Model.core_mapCore (f : Core T V → Core T V) (m : Model T V S C) :
    (m.mapCore f).core = f m.core := by
  cases m <;> rfl

@[simp] theorem Model.kids_mapCore (f : Core T V → Core T V) (m : Model T V S C) :
    (m.mapCore f).kids = m.kids := by
  cases m <;> rfl

@[simp] theorem Model.heap_mapCore (f : Core T V → Core T V) (m : Model T V S C) :
    (m.mapCore f).heap = m.heap := by
  cases m <;> rfl

theorem TimeOk.timeOk_tl_le_tn {m : Model T V S C} (h : TimeOk m) : m.core.tl ≤ m.core.tn := by
  cases h <;> assumption

theorem TimeOk.mapCore_timeOk {m : Model T V S C} (h : TimeOk m) (f : Core T V → Core T V)
    (hf : ∀ c, (f c).tl = c.tl ∧ (f c).tn = c.tn) : TimeOk (m.mapCore f) := by
  cases h with
  | atomic a c st h1 =>
    exact TimeOk.atomic a (f c) st (by rw [(hf c).1, (hf c).2]; exact h1)
  | coupled a c st hp l ks h1 h2 h3 =>
    exact TimeOk.coupled a (f c) st hp l ks (by rw [(hf c).1, (hf c).2]; exact h1)
      (fun n hn => by rw [(hf c).2]; exact h2 n hn) h3
  | executive a c st chi hp l ks h1 h2 h3 =>
    exact TimeOk.executive a (f c) st chi hp l ks (by rw [(hf c).1, (hf c).2]; exact h1)
      (fun n hn => by rw [(hf c).2]; exact h2 n hn) h3

theorem Fresh.mapCore_fresh {m : Model T V S C} (h : Fresh m) (f : Core T V → Core T V)
    (hf : ∀ c, (f c).tl = c.tl ∧ (f c).tn = c.tn) : Fresh (m.mapCore f) := by
  cases h with
  | atomic a c st h1 =>
    exact Fresh.atomic a (f c) st ⟨by rw [(hf c).1]; exact h1.1, by rw [(hf c).2]; exact h1.2⟩
  | coupled a c st hp ks h1 h2 h3 h4 h5 =>
    exact Fresh.coupled a (f c) st hp ks
      ⟨by rw [(hf c).1]; exact h1.1, by rw [(hf c).2]; exact h1.2⟩ h2 h3 h4 h5
  | executive a c st chi hp ks h1 h2 h3 h4 h5 =>
    exact Fresh.executive a (f c) st chi hp ks
      ⟨by rw [(hf c).1]; exact h1.1, by rw [(hf c).2]; exact h1.2⟩ h2 h3 h4 h5

/-! ### Objects by address -/

theorem findKid_mem {ks : List (Model T V S C)} {a : Nat} {k : Model T V S C}
    (h : findKid ks a = some k) : k ∈ ks ∧ k.addr = a := by
  unfold findKid at h
  exact ⟨List.mem_of_find?_eq_some h, by simpa using List.find?_some h⟩

theorem findKid_eq_none {ks : List (Model T V S C)} {a : Nat} :
    findKid ks a = none ↔ a ∉ ks.map Model.addr := by
  unfold findKid
  rw [List.find?_eq_none, List.mem_map]
  constructor
  · rintro h ⟨k, hk, rfl⟩
    exact h k hk (by simp)
  · intro h k hk hka
    exact h ⟨k, hk, by simpa using hka⟩

theorem mem_setKid {ks : List (Model T V S C)} {a : Nat} {m k : Model T V S C}
    (h : k ∈ setKid ks a m) : (k = m ∧ a ∈ ks.map Model.addr) ∨ (k ∈ ks ∧ k.addr ≠ a) := by
  unfold setKid at h
  rw [List.mem_map] at h
  obtain ⟨k0, hk0, rfl⟩ := h
  by_cases hka : k0.addr = a
  · left
    rw [if_pos (by simpa using hka)]
    exact ⟨rfl, List.mem_map.2 ⟨k0, hk0, hka⟩⟩
  · right
    rw [if_neg (by simpa using hka)]
    exact ⟨hk0, hka⟩

theorem map_addr_setKid {ks : List (Model T V S C)} {a : Nat} {m : Model T V S C}
    (hm : m.addr = a) : (setKid ks a m).map Model.addr = ks.map Model.addr := by
  unfold setKid
  rw [List.map_map]
  apply List.map_congr_left
  intro k _
  by_cases hka : k.addr = a
  · simp [hka, hm]
  · simp [hka]

/-! ### The kernel calls keep the address of the object -/

theorem CoupledModel.start_addr_coupled (start : Model T V S C → C → T → Run (Model T V S C) T)
    (a : Nat) (c : Core T V) (st : S) (hp : HeapType T) (l : List Nat)
    (ks : List (Model T V S C)) (common : C) (t : T) :
    (CoupledModel.start start a c st hp l ks common t).state.addr = a := by
  simp only [CoupledModel.start]
  repeat' split
  all_goals rfl

theorem Executive.start_addr_executive (D : Dynamics T V S C)
    (start : Model T V S C → C → T → Run (Model T V S C) T)
    (a : Nat) (c : Core T V) (st : S) (chi : Chi T V C) (hp : HeapType T) (l : List Nat)
    (ks : List (Model T V S C)) (common : C) (t : T) :
    (Executive.start D start a c st chi hp l ks common t).state.addr = a := by
  simp only [Executive.start]
  repeat' split
  all_goals rfl

theorem Model.startN_addr (D : Dynamics T V S C) (n : Nat) (m : Model T V S C) (common : C)
    (t : T) : (Model.startN D n m common t).state.addr = m.addr := by
  cases n with
  | zero => rfl
  | succ n =>
    cases m with
    | atomic a c st => rfl
    | coupled a c st hp l ks => exact CoupledModel.start_addr_coupled _ a c st hp l ks common t
    | executive a c st chi hp l ks => exact Executive.start_addr_executive D _ a c st chi hp l ks common t

theorem CoupledModel.output_addr_coupled (D : Dynamics T V S C)
    (out : Model T V S C → T → Run (Model T V S C) T)
    (a : Nat) (c : Core T V) (st : S) (hp : HeapType T) (l : List Nat)
    (ks : List (Model T V S C)) (t : T) :
    (CoupledModel.output D out a c st hp l ks t).state.addr = a := by
  simp only [CoupledModel.output]
  repeat' split
  all_goals rfl

theorem Executive.output_addr_executive (D : Dynamics T V S C)
    (out : Model T V S C → T → Run (Model T V S C) T)
    (a : Nat) (c : Core T V) (st : S) (chi : Chi T V C) (hp : HeapType T) (l : List Nat)
    (ks : List (Model T V S C)) (t : T) :
    (Executive.output D out a c st chi hp l ks t).state.addr = a := by
  simp only [Executive.output]
  repeat' split
  all_goals rfl

theorem Model.outputN_addr (D : Dynamics T V S C) (n : Nat) (m : Model T V S C) (t : T) :
    (Model.outputN D n m t).state.addr = m.addr := by
  cases n with
  | zero => rfl
  | succ n =>
    cases m with
    | atomic a c st =>
      simp only [Model.outputN, AtomicModel.output]
      split <;> rfl
    | coupled a c st hp l ks => exact CoupledModel.output_addr_coupled D _ a c st hp l ks t
    | executive a c st chi hp l ks => exact Executive.output_addr_executive D _ a c st chi hp l ks t

theorem CoupledModel.transition_addr_coupled (D : Dynamics T V S C) (policy : Policy T V S C)
    (tr : Model T V S C → T → Run (Model T V S C) T)
    (a : Nat) (c : Core T V) (st : S) (hp : HeapType T) (l : List Nat)
    (ks : List (Model T V S C)) (t : T) :
    (CoupledModel.transition D policy tr a c st hp l ks t).state.addr = a := by
  simp only [CoupledModel.transition]
  repeat' split
  all_goals rfl

theorem Executive.finish_addr (a : Nat) (c : Core T V) (st : S) (chi : Chi T V C)
    (n : ExecNet T V S C) (t : T) (log : List (Event T)) :
    (Executive.finish a c st chi n t log).state.addr = a := by
  unfold Executive.finish
  split <;> rfl

theorem Executive.transition_addr_executive (D : Dynamics T V S C) (policy : Policy T V S C)
    (start : Model T V S C → C → T → Run (Model T V S C) T)
    (tr : Model T V S C → T → Run (Model T V S C) T)
    (a : Nat) (c : Core T V) (st : S) (chi : Chi T V C) (hp : HeapType T) (l : List Nat)
    (ks : List (Model T V S C)) (t : T) :
    (Executive.transition D policy start tr a c st chi hp l ks t).state.addr = a := by
  simp only [Executive.transition]
  repeat' split
  all_goals first | rfl | exact Executive.finish_addr _ _ _ _ _ _ _

theorem Model.transitionN_addr (D : Dynamics T V S C) (policy : Policy T V S C) (n : Nat)
    (m : Model T V S C) (t : T) : (Model.transitionN D policy n m t).state.addr = m.addr := by
  cases n with
  | zero => rfl
  | succ n =>
    cases m with
    | atomic a c st =>
      simp only [Model.transitionN, AtomicModel.transition]
      repeat' split
      all_goals rfl
    | coupled a c st hp l ks => exact CoupledModel.transition_addr_coupled D policy _ a c st hp l ks t
    | executive a c st chi hp l ks =>
      exact Executive.transition_addr_executive D policy _ _ a c st chi hp l ks t

/-! ### The top of the heap -/

theorem HeapType.top_mem {h : HeapType T} {e : HeapElement T} (he : h.top = some e) :
    ∃ n ∈ h.nodes, n.2 = e := by
  unfold HeapType.top at he
  exact (h.mem_ordered e).1 (List.mem_of_mem_head? he)

theorem HeapType.top_le {h : HeapType T} {e : HeapElement T} (he : h.top = some e) :
    ∀ n ∈ h.nodes, e.tn ≤ n.2.tn := by
  intro n hn
  have hs := h.ordered_sorted
  have hm : n.2 ∈ h.ordered := (h.mem_ordered n.2).2 ⟨n, hn, rfl⟩
  unfold HeapType.top at he
  cases ho : h.ordered with
  | nil => rw [ho] at hm; cases hm
  | cons b l =>
    rw [ho] at he hm hs
    simp only [List.head?_cons, Option.some.injEq] at he
    subst he
    rcases List.mem_cons.1 hm with hb | hl
    · rw [hb]
    · exact (List.sorted_cons.1 hs).1 _ hl

theorem HeapType.top_isSome {h : HeapType T} (hne : h.nodes ≠ []) : ∃ e, h.top = some e := by
  unfold HeapType.top
  cases ho : h.ordered with
  | nil =>
    exfalso
    cases hn : h.nodes with
    | nil => exact hne hn
    | cons n ns =>
      have : n.2 ∈ h.ordered := (h.mem_ordered n.2).2 ⟨n, by rw [hn]; exact List.mem_cons_self _ _, rfl⟩
      rw [ho] at this
      cases this
  | cons b l => exact ⟨b, rfl⟩

/-! ### Writes to the heap -/

theorem HeapType.mem_modify {h : HeapType T} {id : Nat} {f : HeapElement T → HeapElement T}
    {n : Nat × HeapElement T} :
    n ∈ (h.modify id f).nodes ↔
      ∃ n0 ∈ h.nodes, n = if n0.1 = id then (n0.1, f n0.2) else n0 := by
  unfold HeapType.modify
  simp only [List.mem_map, beq_iff_eq]
  constructor
  · rintro ⟨n0, h0, rfl⟩; exact ⟨n0, h0, rfl⟩
  · rintro ⟨n0, h0, rfl⟩; exact ⟨n0, h0, rfl⟩

/-- After `(*id).tn = tn; heap.update(id)` every entry has its former `tn` or `tn`. -/
theorem HeapType.setTn_tn {h h2 : HeapType T} {id : Option Nat} {tn : T}
    (hs : h.setTn id tn = some h2) :
    ∀ n ∈ h2.nodes, (∃ n0 ∈ h.nodes, n.2.tn = n0.2.tn) ∨ n.2.tn = tn := by
  unfold HeapType.setTn at hs
  split at hs
  · cases hs
  · simp only [Option.some.injEq] at hs
    subst hs
    intro n hn
    unfold HeapType.update at hn
    obtain ⟨n0, h0, rfl⟩ := HeapType.mem_modify.1 hn
    by_cases hid : n0.1 = id.getD 0
    · rw [if_pos hid]; exact Or.inr rfl
    · rw [if_neg hid]; exact Or.inl ⟨n0, h0, rfl⟩

/-- After `id = heap.emplace(element, tn); (*id).heapid = id` every entry has its
former `tn`, or is the new entry with `tn`. -/
theorem HeapType.emplace_tn {h : HeapType T} {a : Nat} {tn : T} :
    ∀ n ∈ ((h.emplace a tn).1.modify (h.emplace a tn).2
        (fun el => { el with heapid := some (h.emplace a tn).2 })).nodes,
      (∃ n0 ∈ h.nodes, n.2.tn = n0.2.tn) ∨ n.2.tn = tn := by
  intro n hn
  obtain ⟨n0, h0, rfl⟩ := HeapType.mem_modify.1 hn
  simp only [HeapType.emplace, List.mem_append, List.mem_singleton] at h0
  rcases h0 with h0 | rfl
  · left
    refine ⟨n0, h0, ?_⟩
    split <;> rfl
  · right
    split <;> rfl

/-! ### The times after `start` -/

/-- The loop of `start` over freshly constructed children leaves the children
with their times in order and no entry of the heap before `t`. -/
theorem startChildren_timeOk (start : Model T V S C → C → T → Run (Model T V S C) T)
    (self : Nat) (common : C) (t : T)
    (hst : ∀ k, Fresh k → (start k common t).fault = none →
      TimeOk (start k common t).state ∧ t ≤ (start k common t).state.core.tn)
    (haddr : ∀ k, (start k common t).state.addr = k.addr) :
    ∀ (cs : List Nat) (n : Net T V S C), cs.Nodup →
      (∀ k ∈ n.kids, (k.addr ∈ cs → Fresh k) ∧ (k.addr ∉ cs → TimeOk k)) →
      (∀ nd ∈ n.heap.nodes, t ≤ nd.2.tn) →
      (startChildren start self common t cs n).fault = none →
      (∀ k ∈ (startChildren start self common t cs n).state.kids, TimeOk k) ∧
      (∀ nd ∈ (startChildren start self common t cs n).state.heap.nodes, t ≤ nd.2.tn)
  | [], n, _, hk, hh, _ => ⟨fun k hkm => (hk k hkm).2 (List.not_mem_nil _), hh⟩
  | a :: cs, n, hnd, hk, hh, hok => by
    unfold startChildren at hok ⊢
    cases hf : findKid n.kids a with
    | none => simp only [hf] at hok; exact absurd hok (by simp)
    | some child =>
      simp only [hf] at hok ⊢
      have hchild := findKid_mem hf
      have hfresh : Fresh (child.mapCore (fun c => { c with parent := some self })) :=
        ((hk child hchild.1).1 (by rw [hchild.2]; exact List.mem_cons_self _ _)).mapCore_fresh _
          (fun _ => ⟨rfl, rfl⟩)
      cases hr : (start (child.mapCore (fun c => { c with parent := some self })) common
          t).fault with
      | some f => simp only [hr] at hok; exact absurd hok (by simp)
      | none =>
        simp only [hr] at hok ⊢
        have h1 := hst _ hfresh hr
        have ha1 : (start (child.mapCore (fun c => { c with parent := some self })) common
            t).state.addr = a := by
          rw [haddr, Model.addr_mapCore, hchild.2]
        have hnd2 := List.nodup_cons.1 hnd
        refine startChildren_timeOk start self common t hst haddr cs _ hnd2.2 ?_ ?_ hok
        · intro k hkm
          rcases mem_setKid hkm with ⟨rfl, _⟩ | ⟨hkold, hne⟩
          · constructor
            · intro hin
              rw [Model.addr_mapCore, ha1] at hin
              exact absurd hin hnd2.1
            · intro _
              exact h1.1.mapCore_timeOk _ (fun _ => ⟨rfl, rfl⟩)
          · constructor
            · intro hin
              exact (hk k hkold).1 (List.mem_cons_of_mem _ hin)
            · intro hnin
              exact (hk k hkold).2 (by
                intro hin
                rcases List.mem_cons.1 hin with h | h
                · exact hne h
                · exact hnin h)
        · intro nd hndm
          rcases HeapType.emplace_tn nd hndm with ⟨n0, h0, he⟩ | he
          · rw [he]; exact hh n0 h0
          · rw [he]; exact h1.2

/-- The times after `start` on a freshly constructed model, when the hooks
return non-negative advances: `tl = t ≤ tn`, and the times of the model are in
order. -/
theorem Model.startN_timeOk [LawfulTime T] (D : Dynamics T V S C) (hD : D.NonNegative)
    (common : C) (t : T) : ∀ (n : Nat) (m : Model T V S C), Fresh m →
      (Model.startN D n m common t).fault = none →
      TimeOk (Model.startN D n m common t).state ∧
      t ≤ (Model.startN D n m common t).state.core.tn
  | 0, m, _, hok => by
    simp only [Model.startN] at hok
    exact absurd hok (by simp)
  | n + 1, .atomic a c st, _, _ => by
    simp only [Model.startN, AtomicModel.start, Model.core]
    have h := LawfulTime.le_add_of_nonneg t _ (hD.1 a common t st)
    exact ⟨TimeOk.atomic _ _ _ h, h⟩
  | n + 1, .coupled a c st hp l ks, hfr, hok => by
    cases hfr with
    | coupled _ _ _ _ _ hc hnodes hnd hself hkids =>
      simp only [Model.startN, CoupledModel.start] at hok ⊢
      have hloop := startChildren_timeOk (Model.startN D n) a common t
        (fun k hk hf => Model.startN_timeOk D hD common t n k hk hf)
        (fun k => Model.startN_addr D n k common t)
        (ks.map Model.addr) ⟨hp, ks⟩ hnd
        (fun k hk => ⟨fun _ => hkids k hk, fun h => absurd (List.mem_map_of_mem _ hk) h⟩)
        (fun nd hn => by rw [hnodes] at hn; cases hn)
      cases hf : (startChildren (Model.startN D n) a common t (ks.map Model.addr)
          ⟨hp, ks⟩).fault with
      | some f => simp only [hf] at hok; exact absurd hok (by simp)
      | none =>
        simp only [hf] at hok ⊢
        have hl := hloop hf
        cases he : (startChildren (Model.startN D n) a common t (ks.map Model.addr)
            ⟨hp, ks⟩).state.heap.top with
        | none => simp only [he] at hok; exact absurd hok (by simp)
        | some e =>
          simp only [he, Model.core]
          obtain ⟨nd, hnd1, hnd2⟩ := HeapType.top_mem he
          have hte : t ≤ e.tn := by rw [← hnd2]; exact hl.2 nd hnd1
          exact ⟨TimeOk.coupled _ _ _ _ _ _ hte (HeapType.top_le he) hl.1, hte⟩
  | n + 1, .executive a c st chi hp l ks, hfr, hok => by
    cases hfr with
    | executive _ _ _ _ _ _ hc hnodes hnd hself hkids =>
      simp only [Model.startN, Executive.start] at hok ⊢
      have h0 := LawfulTime.le_add_of_nonneg t _ (hD.1 a common t st)
      have hloop := startChildren_timeOk (Model.startN D n) a common t
        (fun k hk hf => Model.startN_timeOk D hD common t n k hk hf)
        (fun k => Model.startN_addr D n k common t)
        (ks.map Model.addr)
        ⟨(hp.emplace a (t + (D.init a common t st).1)).1.modify
            (hp.emplace a (t + (D.init a common t st).1)).2
            (fun el => { el with heapid := some (hp.emplace a (t + (D.init a common t st).1)).2 }),
          ks⟩ hnd
        (fun k hk => ⟨fun _ => hkids k hk, fun h => absurd (List.mem_map_of_mem _ hk) h⟩)
        (fun nd hn => by
          rcases HeapType.emplace_tn nd hn with ⟨n0, hn0, _⟩ | he
          · rw [hnodes] at hn0; cases hn0
          · rw [he]; exact h0)
      revert hok
      cases hf : (startChildren (Model.startN D n) a common t (ks.map Model.addr)
        ⟨(hp.emplace a (t + (D.init a common t st).1)).1.modify
            (hp.emplace a (t + (D.init a common t st).1)).2
            (fun el => { el with heapid := some (hp.emplace a (t + (D.init a common t st).1)).2 }),
          ks⟩).fault with
      | some f => intro hok; simp only at hok; exact absurd hok (by simp)
      | none =>
        simp only
        have hl := hloop hf
        split
        · intro hok; exact absurd hok (by simp)
        · rename_i e he
          intro _
          simp only [Model.core]
          obtain ⟨nd, hnd1, hnd2⟩ := HeapType.top_mem he
          have hte : t ≤ e.tn := by rw [← hnd2]; exact hl.2 nd hnd1
          exact ⟨TimeOk.executive _ _ _ _ _ _ _ hte (HeapType.top_le he) hl.1, hte⟩

/-! ### The times after `output` -/

theorem applyPost_kids_timeOk (D : Dynamics T V S C) (a : Nat) (st : S) (c : Core T V)
    (ks : List (Model T V S C)) (out l : List Nat) (hk : ∀ k ∈ ks, TimeOk k) :
    ∀ k ∈ (applyPost D a st c ks out l).kids, TimeOk k := by
  intro k hkm
  simp only [applyPost, List.mem_map] at hkm
  obtain ⟨k0, hk0, rfl⟩ := hkm
  exact (hk k0 hk0).mapCore_timeOk _ (fun _ => ⟨rfl, rfl⟩)

theorem clearOutputs_timeOk (lst : List Nat) (ks : List (Model T V S C))
    (hk : ∀ k ∈ ks, TimeOk k) : ∀ k ∈ clearOutputs lst ks, TimeOk k := by
  intro k hkm
  simp only [clearOutputs, List.mem_map] at hkm
  obtain ⟨k0, hk0, rfl⟩ := hkm
  split
  · exact (hk k0 hk0).mapCore_timeOk _ (fun _ => ⟨rfl, rfl⟩)
  · exact hk k0 hk0

theorem setKid_timeOk {ks : List (Model T V S C)} {a : Nat} {m : Model T V S C}
    (hk : ∀ k ∈ ks, TimeOk k) (hm : TimeOk m) : ∀ k ∈ setKid ks a m, TimeOk k := by
  intro k hkm
  rcases mem_setKid hkm with ⟨rfl, _⟩ | ⟨h, _⟩
  · exact hm
  · exact hk k h

/-- The loop of `output` keeps the times of the children in order. -/
theorem outputChildren_timeOk (D : Dynamics T V S C)
    (out : Model T V S C → T → Run (Model T V S C) T) (self : Option Nat) (st : S)
    (heap : HeapType T) (t : T) (hout : ∀ k, TimeOk k → TimeOk (out k t).state) :
    ∀ (its : List (HeapElement T)) (s : OutState T V S C), (∀ k ∈ s.kids, TimeOk k) →
      ∀ k ∈ (outputChildren D out self st heap t its s).state.kids, TimeOk k
  | [], s, hk => hk
  | it :: its, s, hk => by
    simp only [outputChildren]
    split
    · exact hk
    · split
      · exact hk
      · split
        · exact outputChildren_timeOk D out self st heap t hout its _ hk
        · split
          · exact hk
          · rename_i mdl hfind
            have hm := hout mdl (hk mdl (findKid_mem hfind).1)
            split
            · exact setKid_timeOk hk hm
            · exact outputChildren_timeOk D out self st heap t hout its _
                (setKid_timeOk hk hm)

theorem CoupledModel.output_timeOk_coupled (D : Dynamics T V S C)
    (out : Model T V S C → T → Run (Model T V S C) T) (a : Nat) (c : Core T V) (st : S)
    (hp : HeapType T) (l : List Nat) (ks : List (Model T V S C)) (t : T)
    (hout : ∀ k, TimeOk k → TimeOk (out k t).state) (h : TimeOk (.coupled a c st hp l ks)) :
    TimeOk (CoupledModel.output D out a c st hp l ks t).state := by
  cases h with
  | coupled _ _ _ _ _ _ h1 h2 h3 =>
    have hloop := outputChildren_timeOk D out none st hp t hout (hp.outputEntries c.tn)
      ⟨c.y, ks, []⟩ h3
    simp only [CoupledModel.output]
    repeat' split
    all_goals first
      | exact TimeOk.coupled _ _ _ _ _ _ h1 h2 h3
      | exact TimeOk.coupled _ _ _ _ _ _ h1 h2 hloop
      | exact TimeOk.coupled _ _ _ _ _ _ h1 h2
          (clearOutputs_timeOk _ _ (applyPost_kids_timeOk D _ _ _ _ _ _ hloop))

theorem Executive.output_timeOk_executive (D : Dynamics T V S C)
    (out : Model T V S C → T → Run (Model T V S C) T) (a : Nat) (c : Core T V) (st : S)
    (chi : Chi T V C) (hp : HeapType T) (l : List Nat) (ks : List (Model T V S C)) (t : T)
    (hout : ∀ k, TimeOk k → TimeOk (out k t).state)
    (h : TimeOk (.executive a c st chi hp l ks)) :
    TimeOk (Executive.output D out a c st chi hp l ks t).state := by
  cases h with
  | executive _ _ _ _ _ _ _ h1 h2 h3 =>
    have hloop := outputChildren_timeOk D out (some a) st hp t hout (hp.outputEntries c.tn)
      ⟨c.y, ks, []⟩ h3
    simp only [Executive.output]
    repeat' split
    all_goals first
      | exact TimeOk.executive _ _ _ _ _ _ _ h1 h2 h3
      | exact TimeOk.executive _ _ _ _ _ _ _ h1 h2 hloop
      | exact TimeOk.executive _ _ _ _ _ _ _ h1 h2
          (clearOutputs_timeOk _ _ (applyPost_kids_timeOk D _ _ _ _ _ _ hloop))

/-- A call of `output` keeps the times of a model in order. -/
theorem Model.outputN_timeOk (D : Dynamics T V S C) (t : T) :
    ∀ (n : Nat) (m : Model T V S C), TimeOk m → TimeOk (Model.outputN D n m t).state
  | 0, _, h => h
  | n + 1, .atomic a c st, h => by
    simp only [Model.outputN, AtomicModel.output]
    cases h with
    | atomic _ _ _ h1 =>
      split
      · exact TimeOk.atomic _ _ _ h1
      · exact TimeOk.atomic _ _ _ h1
  | n + 1, .coupled a c st hp l ks, h =>
    CoupledModel.output_timeOk_coupled D _ a c st hp l ks t (Model.outputN_timeOk D t n) h
  | n + 1, .executive a c st chi hp l ks, h =>
    Executive.output_timeOk_executive D _ a c st chi hp l ks t (Model.outputN_timeOk D t n) h

/-! ### The times after `transition` -/

theorem CoupledModel.route_times_coupled (D : Dynamics T V S C) (a : Nat) (c : Core T V) (st : S)
    (l : List Nat) (ks : List (Model T V S C)) :
    (CoupledModel.route D a c st l ks).core.tl = c.tl ∧
    (CoupledModel.route D a c st l ks).core.tn = c.tn := by
  unfold CoupledModel.route
  split <;> exact ⟨rfl, rfl⟩

theorem CoupledModel.route_kids_timeOk_coupled (D : Dynamics T V S C) (a : Nat) (c : Core T V)
    (st : S) (l : List Nat) (ks : List (Model T V S C)) (hk : ∀ k ∈ ks, TimeOk k) :
    ∀ k ∈ (CoupledModel.route D a c st l ks).kids, TimeOk k := by
  unfold CoupledModel.route
  split
  · exact hk
  · exact applyPost_kids_timeOk D _ _ _ _ _ _ hk

theorem Executive.route_times_executive (D : Dynamics T V S C) (a : Nat) (c : Core T V) (st : S)
    (l : List Nat) (ks : List (Model T V S C)) :
    (Executive.route D a c st l ks).core.tl = c.tl ∧
    (Executive.route D a c st l ks).core.tn = c.tn := by
  unfold Executive.route
  split <;> exact ⟨rfl, rfl⟩

theorem Executive.route_kids_timeOk_executive (D : Dynamics T V S C) (a : Nat) (c : Core T V)
    (st : S) (l : List Nat) (ks : List (Model T V S C)) (hk : ∀ k ∈ ks, TimeOk k) :
    ∀ k ∈ (Executive.route D a c st l ks).kids, TimeOk k := by
  unfold Executive.route
  split
  · exact hk
  · exact applyPost_kids_timeOk D _ _ _ _ _ _ hk

/-- The sequential policy keeps the times of the children in order and leaves no
entry of the heap before `t`. -/
theorem TransitionPolicyDefault.policy_timeOk (tr : Model T V S C → T → Run (Model T V S C) T)
    (t : T)
    (htr : ∀ k, TimeOk k → (tr k t).fault = none →
      TimeOk (tr k t).state ∧ t ≤ (tr k t).state.core.tn) :
    ∀ (bag : List Nat) (n : Net T V S C), (∀ k ∈ n.kids, TimeOk k) →
      (∀ nd ∈ n.heap.nodes, t ≤ nd.2.tn) →
      (TransitionPolicyDefault tr bag t n).fault = none →
      (∀ k ∈ (TransitionPolicyDefault tr bag t n).state.kids, TimeOk k) ∧
      (∀ nd ∈ (TransitionPolicyDefault tr bag t n).state.heap.nodes, t ≤ nd.2.tn)
  | [], n, hk, hh, _ => ⟨hk, hh⟩
  | a :: bag, n, hk, hh, hok => by
    unfold TransitionPolicyDefault at hok ⊢
    cases hf : findKid n.kids a with
    | none => simp only [hf] at hok; exact absurd hok (by simp)
    | some child =>
      simp only [hf] at hok ⊢
      cases hr : (tr child t).fault with
      | some f => simp only [hr] at hok; exact absurd hok (by simp)
      | none =>
        simp only [hr] at hok ⊢
        have h1 := htr child (hk child (findKid_mem hf).1) hr
        revert hok
        cases hs : n.heap.setTn
            ((tr child t).state.mapCore (fun c => { c with x := c.x.clear })).core.heapid
            ((tr child t).state.mapCore (fun c => { c with x := c.x.clear })).core.tn with
        | none => intro hok; simp only at hok; exact absurd hok (by simp)
        | some heap =>
          intro hok
          simp only at hok ⊢
          refine TransitionPolicyDefault.policy_timeOk tr t htr bag _ ?_ ?_ hok
          · exact setKid_timeOk hk (h1.1.mapCore_timeOk _ (fun _ => ⟨rfl, rfl⟩))
          · intro nd hnd
            rcases HeapType.setTn_tn hs nd hnd with ⟨n0, h0, he⟩ | he
            · rw [he]; exact hh n0 h0
            · rw [he, Model.core_mapCore]; exact h1.2

theorem CoupledModel.transition_timeOk_coupled (D : Dynamics T V S C)
    (tr : Model T V S C → T → Run (Model T V S C) T) (a : Nat) (c : Core T V) (st : S)
    (hp : HeapType T) (l : List Nat) (ks : List (Model T V S C)) (t : T)
    (htr : ∀ k, TimeOk k → (tr k t).fault = none →
      TimeOk (tr k t).state ∧ t ≤ (tr k t).state.core.tn)
    (h : TimeOk (.coupled a c st hp l ks))
    (hok : (CoupledModel.transition D TransitionPolicyDefault tr a c st hp l ks t).fault
      = none) :
    TimeOk (CoupledModel.transition D TransitionPolicyDefault tr a c st hp l ks t).state ∧
    t ≤ (CoupledModel.transition D TransitionPolicyDefault tr a c st hp l ks t).state.core.tn := by
  cases h with
  | coupled _ _ _ _ _ _ h1 h2 h3 =>
    unfold CoupledModel.transition at hok ⊢
    by_cases hg : ¬ (c.tl ≤ t ∧ t ≤ c.tn)
    · rw [if_pos hg] at hok; exact absurd hok (by simp)
    · rw [if_neg hg] at hok ⊢
      have hg2 := not_not.1 hg
      by_cases hn : t < c.tn ∧ c.x.is_empty = true
      · rw [if_pos hn]
        exact ⟨TimeOk.coupled _ _ _ _ _ _ h1 h2 h3, le_of_lt hn.1⟩
      · rw [if_neg hn] at hok ⊢
        simp only at hok ⊢
        by_cases hb : a ∈ CoupledModel.bag hp t (CoupledModel.route D a c st l ks).last_output_list
        · rw [if_pos hb] at hok; exact absurd hok (by simp)
        · rw [if_neg hb] at hok ⊢
          cases hf : (TransitionPolicyDefault tr
              (CoupledModel.bag hp t (CoupledModel.route D a c st l ks).last_output_list) t
              ⟨hp, (CoupledModel.route D a c st l ks).kids⟩).fault with
          | some f => simp only [hf] at hok; exact absurd hok (by simp)
          | none =>
            simp only [hf] at hok ⊢
            have hl := TransitionPolicyDefault.policy_timeOk tr t htr _ ⟨hp, _⟩
              (CoupledModel.route_kids_timeOk_coupled D a c st l ks h3)
              (fun nd hnd => le_trans hg2.2 (h2 nd hnd)) hf
            cases he : (TransitionPolicyDefault tr
                (CoupledModel.bag hp t (CoupledModel.route D a c st l ks).last_output_list) t
                ⟨hp, (CoupledModel.route D a c st l ks).kids⟩).state.heap.top with
            | none => simp only [he] at hok; exact absurd hok (by simp)
            | some e =>
              simp only [he, Model.core]
              obtain ⟨nd, hnd1, hnd2⟩ := HeapType.top_mem he
              have hte : t ≤ e.tn := by rw [← hnd2]; exact hl.2 nd hnd1
              exact ⟨TimeOk.coupled _ _ _ _ _ _ hte (HeapType.top_le he) hl.1, hte⟩

theorem mem_mapKid {ks : List (Model T V S C)} {a : Nat} {f : Core T V → Core T V}
    {k : Model T V S C} (h : k ∈ mapKid ks a f) : ∃ k0 ∈ ks, k = k0 ∨ k = k0.mapCore f := by
  unfold mapKid at h
  rw [List.mem_map] at h
  obtain ⟨k0, hk0, rfl⟩ := h
  refine ⟨k0, hk0, ?_⟩
  split
  · exact Or.inr rfl
  · exact Or.inl rfl

theorem map_addr_mapKid (ks : List (Model T V S C)) (a : Nat) (f : Core T V → Core T V) :
    (mapKid ks a f).map Model.addr = ks.map Model.addr := by
  unfold mapKid
  rw [List.map_map]
  apply List.map_congr_left
  intro k _
  simp only [Function.comp]
  split <;> simp

theorem HeapType.mem_erase {h : HeapType T} {id : Nat} {n : Nat × HeapElement T}
    (hn : n ∈ (h.erase id).nodes) : n ∈ h.nodes ∧ n.1 ≠ id := by
  unfold HeapType.erase at hn
  simp only [List.mem_filter, bne_iff_ne, ne_eq] at hn
  exact hn

/-- The operator `insert`, on a freshly constructed model at an address the
executive does not hold, keeps the times in order. -/
theorem Executive.insert_timeOk (start : Model T V S C → C → T → Run (Model T V S C) T)
    (self : Nat) (chi : Chi T V C) (mdl : Model T V S C) (n : ExecNet T V S C)
    (hst : ∀ k, Fresh k → (start k chi.localcommon chi.chi_tl).fault = none →
      TimeOk (start k chi.localcommon chi.chi_tl).state ∧
      chi.chi_tl ≤ (start k chi.localcommon chi.chi_tl).state.core.tn)
    (haddr : ∀ k, (start k chi.localcommon chi.chi_tl).state.addr = k.addr)
    (hfr : Fresh mdl) (hnew : mdl.addr ∉ n.kids.map Model.addr)
    (hk : ∀ k ∈ n.kids, TimeOk k) (hh : ∀ nd ∈ n.heap.nodes, chi.chi_tl ≤ nd.2.tn)
    (hok : (Executive.insert start self chi mdl n).fault = none) :
    (∀ k ∈ (Executive.insert start self chi mdl n).state.kids, TimeOk k) ∧
    (∀ nd ∈ (Executive.insert start self chi mdl n).state.heap.nodes, chi.chi_tl ≤ nd.2.tn) ∧
    (Executive.insert start self chi mdl n).state.kids.map Model.addr
      = n.kids.map Model.addr ++ [mdl.addr] := by
  have hnone : findKid n.kids mdl.addr = none := findKid_eq_none.2 hnew
  simp only [Executive.insert, hnone, Option.isSome_none, Option.getD_none] at hok ⊢
  have hfresh : Fresh (mdl.mapCore (fun c => { c with parent := some self })) :=
    hfr.mapCore_fresh _ (fun _ => ⟨rfl, rfl⟩)
  cases hr : (start (mdl.mapCore (fun c => { c with parent := some self })) chi.localcommon
      chi.chi_tl).fault with
  | some f => simp only [hr] at hok; exact absurd hok (by simp)
  | none =>
    simp only [hr] at hok ⊢
    have h1 := hst _ hfresh hr
    have ha1 : (start (mdl.mapCore (fun c => { c with parent := some self })) chi.localcommon
        chi.chi_tl).state.addr = mdl.addr := by
      rw [haddr, Model.addr_mapCore]
    refine ⟨?_, ?_, ?_⟩
    · intro k hkm
      rcases mem_setKid hkm with ⟨rfl, _⟩ | ⟨hkold, hne⟩
      · exact h1.1.mapCore_timeOk _ (fun _ => ⟨rfl, rfl⟩)
      · simp only [Bool.false_eq_true, ↓reduceIte, List.mem_append, List.mem_singleton]
          at hkold
        rcases hkold with h | rfl
        · exact hk k h
        · exact absurd rfl hne
    · intro nd hndm
      rcases HeapType.emplace_tn nd hndm with ⟨n0, h0, he⟩ | he
      · rw [he]; exact hh n0 h0
      · rw [he]; exact h1.2
    · rw [map_addr_setKid (by rw [Model.addr_mapCore, ha1])]
      simp

/-- The operator `erase` keeps the times in order. -/
theorem Executive.erase_timeOk (a : Nat) (n : ExecNet T V S C) (t : T)
    (hk : ∀ k ∈ n.kids, TimeOk k) (hh : ∀ nd ∈ n.heap.nodes, t ≤ nd.2.tn) :
    (∀ k ∈ (Executive.erase a n).state.kids, TimeOk k) ∧
    (∀ nd ∈ (Executive.erase a n).state.heap.nodes, t ≤ nd.2.tn) ∧
    (Executive.erase a n).state.kids.map Model.addr = n.kids.map Model.addr := by
  simp only [Executive.erase]
  repeat' split
  all_goals first
    | exact ⟨hk, hh, rfl⟩
    | (refine ⟨?_, ?_, map_addr_mapKid _ _ _⟩
       · intro k hkm
         obtain ⟨k0, hk0, rfl | rfl⟩ := mem_mapKid hkm
         · exact hk _ hk0
         · exact (hk _ hk0).mapCore_timeOk _ (fun _ => ⟨rfl, rfl⟩)
       · intro nd hnd
         exact hh nd (HeapType.mem_erase hnd).1)

/-- The structural operators of a disciplined `delta` keep the times in order. -/
theorem Executive.structural_timeOk (start : Model T V S C → C → T → Run (Model T V S C) T)
    (self : Nat) (chi : Chi T V C)
    (hst : ∀ k, Fresh k → (start k chi.localcommon chi.chi_tl).fault = none →
      TimeOk (start k chi.localcommon chi.chi_tl).state ∧
      chi.chi_tl ≤ (start k chi.localcommon chi.chi_tl).state.core.tn)
    (haddr : ∀ k, (start k chi.localcommon chi.chi_tl).state.addr = k.addr) :
    ∀ (ops : List (Structural T V S C)) (n : ExecNet T V S C),
      ((ops.filterMap Structural.inserted).map Model.addr).Nodup →
      (∀ mdl ∈ ops.filterMap Structural.inserted,
        Fresh mdl ∧ mdl.addr ∉ n.kids.map Model.addr) →
      (∀ k ∈ n.kids, TimeOk k) → (∀ nd ∈ n.heap.nodes, chi.chi_tl ≤ nd.2.tn) →
      (Executive.structural start self chi ops n).fault = none →
      (∀ k ∈ (Executive.structural start self chi ops n).state.kids, TimeOk k) ∧
      (∀ nd ∈ (Executive.structural start self chi ops n).state.heap.nodes,
        chi.chi_tl ≤ nd.2.tn)
  | [], n, _, _, hk, hh, _ => ⟨hk, hh⟩
  | .insert mdl :: ops, n, hnd, hins, hk, hh, hok => by
    simp only [Executive.structural] at hok ⊢
    simp only [List.filterMap_cons, Structural.inserted, List.map_cons, List.nodup_cons]
      at hnd
    have hm := hins mdl (by simp [Structural.inserted])
    cases hr : (Executive.insert start self chi mdl n).fault with
    | some f => simp only [hr] at hok; exact absurd hok (by simp)
    | none =>
      simp only [hr] at hok ⊢
      have h1 := Executive.insert_timeOk start self chi mdl n hst haddr hm.1 hm.2 hk hh hr
      refine Executive.structural_timeOk start self chi hst haddr ops _ hnd.2 ?_ h1.1 h1.2.1
        hok
      intro m2 hm2
      have h2 := hins m2 (by simp [Structural.inserted, hm2])
      refine ⟨h2.1, ?_⟩
      rw [h1.2.2, List.mem_append, List.mem_singleton]
      rintro (h | h)
      · exact h2.2 h
      · exact hnd.1 (h ▸ List.mem_map_of_mem _ hm2)
  | .erase a :: ops, n, hnd, hins, hk, hh, hok => by
    simp only [Executive.structural] at hok ⊢
    simp only [List.filterMap_cons, Structural.inserted] at hnd hins
    have h1 := Executive.erase_timeOk a n chi.chi_tl hk hh
    cases hr : (Executive.erase a n).fault with
    | some f => simp only [hr] at hok; exact absurd hok (by simp)
    | none =>
      simp only [hr] at hok ⊢
      refine Executive.structural_timeOk start self chi hst haddr ops _ hnd ?_ h1.1 h1.2.1 hok
      intro m2 hm2
      rw [h1.2.2]
      exact hins m2 hm2

theorem Executive.finish_timeOk (a : Nat) (c : Core T V) (st : S) (chi : Chi T V C)
    (n : ExecNet T V S C) (t : T) (log : List (Event T))
    (hk : ∀ k ∈ n.kids, TimeOk k) (hh : ∀ nd ∈ n.heap.nodes, t ≤ nd.2.tn)
    (hok : (Executive.finish a c st chi n t log).fault = none) :
    TimeOk (Executive.finish a c st chi n t log).state ∧
    t ≤ (Executive.finish a c st chi n t log).state.core.tn := by
  obtain ⟨top, htop, heq⟩ := Executive.finish_ok a c st chi n t log hok
  rw [heq]
  obtain ⟨nd, hnd1, hnd2⟩ := HeapType.top_mem htop
  have hte : t ≤ top.tn := by rw [← hnd2]; exact hh nd hnd1
  exact ⟨TimeOk.executive _ _ _ _ _ _ _ hte (HeapType.top_le htop) hk, hte⟩

theorem Executive.transition_timeOk_executive [LawfulTime T] (D : Dynamics T V S C)
    (hD : D.NonNegative) (hS : D.Disciplined)
    (start : Model T V S C → C → T → Run (Model T V S C) T)
    (tr : Model T V S C → T → Run (Model T V S C) T) (a : Nat) (c : Core T V) (st : S)
    (chi : Chi T V C) (hp : HeapType T) (l : List Nat) (ks : List (Model T V S C)) (t : T)
    (hst : ∀ k common, Fresh k → (start k common t).fault = none →
      TimeOk (start k common t).state ∧ t ≤ (start k common t).state.core.tn)
    (haddr : ∀ k common, (start k common t).state.addr = k.addr)
    (htr : ∀ k, TimeOk k → (tr k t).fault = none →
      TimeOk (tr k t).state ∧ t ≤ (tr k t).state.core.tn)
    (h : TimeOk (.executive a c st chi hp l ks))
    (hok : (Executive.transition D TransitionPolicyDefault start tr a c st chi hp l ks t).fault
      = none) :
    TimeOk (Executive.transition D TransitionPolicyDefault start tr a c st chi hp l ks t).state ∧
    t ≤ (Executive.transition D TransitionPolicyDefault start tr a c st chi hp l ks
      t).state.core.tn := by
  cases h with
  | executive _ _ _ _ _ _ _ h1 h2 h3 =>
    unfold Executive.transition at hok ⊢
    by_cases hg : ¬ (c.tl ≤ t ∧ t ≤ c.tn)
    · rw [if_pos hg] at hok; exact absurd hok (by simp)
    · rw [if_neg hg] at hok ⊢
      have hg2 := not_not.1 hg
      by_cases hn : t < c.tn ∧ c.x.is_empty = true
      · rw [if_pos hn]
        exact ⟨TimeOk.executive _ _ _ _ _ _ _ h1 h2 h3, le_of_lt hn.1⟩
      · rw [if_neg hn] at hok ⊢
        simp only at hok ⊢
        cases hf : (TransitionPolicyDefault tr
            (Executive.bag a hp t (Executive.route D a c st l ks).last_output_list) t
            ⟨hp, (Executive.route D a c st l ks).kids⟩).fault with
        | some f => simp only [hf] at hok; exact absurd hok (by simp)
        | none =>
          simp only [hf] at hok ⊢
          have hl := TransitionPolicyDefault.policy_timeOk tr t htr _ ⟨hp, _⟩
            (Executive.route_kids_timeOk_executive D a c st l ks h3)
            (fun nd hnd => le_trans hg2.2 (h2 nd hnd)) hf
          by_cases hc : Executive.have_chi a hp t
              (Executive.route D a c st l ks).last_output_list = true
          · rw [if_pos hc] at hok ⊢
            have hdisc := hS a (t - chi.chi_tl) (Executive.route D a c st l ks).core.x st
              ((TransitionPolicyDefault tr
                (Executive.bag a hp t (Executive.route D a c st l ks).last_output_list) t
                ⟨hp, (Executive.route D a c st l ks).kids⟩).state.kids.map Model.addr)
            have hstr := Executive.structural_timeOk start a
              ({ chi with chi_tl := t } : Chi T V C)
              (fun k hk hf => hst k _ hk hf) (fun k => haddr k _)
              (D.structural a (t - chi.chi_tl) (Executive.route D a c st l ks).core.x st
                ((TransitionPolicyDefault tr
                  (Executive.bag a hp t (Executive.route D a c st l ks).last_output_list) t
                  ⟨hp, (Executive.route D a c st l ks).kids⟩).state.kids.map Model.addr))
              ⟨(TransitionPolicyDefault tr
                  (Executive.bag a hp t (Executive.route D a c st l ks).last_output_list) t
                  ⟨hp, (Executive.route D a c st l ks).kids⟩).state.heap, [],
                (TransitionPolicyDefault tr
                  (Executive.bag a hp t (Executive.route D a c st l ks).last_output_list) t
                  ⟨hp, (Executive.route D a c st l ks).kids⟩).state.kids⟩
              hdisc.1 (fun mdl hm => ⟨(hdisc.2 mdl hm).1, (hdisc.2 mdl hm).2.1⟩) hl.1 hl.2
            revert hok
            cases hs : (Executive.structural start a { chi with chi_tl := t }
                (D.structural a (t - chi.chi_tl) (Executive.route D a c st l ks).core.x st
                  ((TransitionPolicyDefault tr
                    (Executive.bag a hp t (Executive.route D a c st l ks).last_output_list) t
                    ⟨hp, (Executive.route D a c st l ks).kids⟩).state.kids.map Model.addr))
                ⟨(TransitionPolicyDefault tr
                    (Executive.bag a hp t (Executive.route D a c st l ks).last_output_list) t
                    ⟨hp, (Executive.route D a c st l ks).kids⟩).state.heap, [],
                  (TransitionPolicyDefault tr
                    (Executive.bag a hp t (Executive.route D a c st l ks).last_output_list) t
                    ⟨hp, (Executive.route D a c st l ks).kids⟩).state.kids⟩).fault with
            | some f => intro hok; simp only at hok; exact absurd hok (by simp)
            | none =>
              simp only
              have hstr2 := hstr hs
              split
              · intro hok; exact absurd hok (by simp)
              · rename_i heap2 hset
                intro hok
                refine Executive.finish_timeOk _ _ _ _ _ _ _ hstr2.1 ?_ hok
                intro nd hnd
                rcases HeapType.setTn_tn hset nd hnd with ⟨n0, h0, he⟩ | he
                · rw [he]; exact hstr2.2 n0 h0
                · rw [he]; exact LawfulTime.le_add_of_nonneg t _ (hD.2 _ _ _ _)
          · rw [if_neg hc] at hok ⊢
            exact Executive.finish_timeOk _ _ _ _ _ _ _ hl.1 hl.2 hok

/-- The times after a `transition(t)` that returns normally on a model whose
times are in order, under the sequential policy, when the hooks return
non-negative advances and use `insert` as expected: the times are in order and
`t ≤ tn`. -/
theorem Model.transitionN_timeOk [LawfulTime T] (D : Dynamics T V S C)
    (hD : D.NonNegative) (hS : D.Disciplined) (t : T) :
    ∀ (n : Nat) (m : Model T V S C), TimeOk m →
      (Model.transitionN D TransitionPolicyDefault n m t).fault = none →
      TimeOk (Model.transitionN D TransitionPolicyDefault n m t).state ∧
      t ≤ (Model.transitionN D TransitionPolicyDefault n m t).state.core.tn
  | 0, m, _, hok => by
    simp only [Model.transitionN] at hok
    exact absurd hok (by simp)
  | n + 1, .atomic a c st, h, hok => by
    simp only [Model.transitionN, AtomicModel.transition] at hok ⊢
    cases h with
    | atomic _ _ _ h1 =>
      by_cases hg : ¬ (c.tl ≤ t ∧ t ≤ c.tn)
      · rw [if_pos hg] at hok; exact absurd hok (by simp)
      · rw [if_neg hg]
        by_cases hn : t < c.tn ∧ c.x.is_empty = true
        · rw [if_pos hn]
          exact ⟨TimeOk.atomic _ _ _ h1, le_of_lt hn.1⟩
        · rw [if_neg hn]
          have h := LawfulTime.le_add_of_nonneg t _ (hD.2 a (t - c.tl) c.x st)
          exact ⟨TimeOk.atomic _ _ _ h, h⟩
  | n + 1, .coupled a c st hp l ks, h, hok =>
    CoupledModel.transition_timeOk_coupled D _ a c st hp l ks t
      (fun k hk hf => Model.transitionN_timeOk D hD hS t n k hk hf) h hok
  | n + 1, .executive a c st chi hp l ks, h, hok =>
    Executive.transition_timeOk_executive D hD hS _ _ a c st chi hp l ks t
      (fun k common hk hf => Model.startN_timeOk D hD common t _ k hk hf)
      (fun k common => Model.startN_addr D _ k common t)
      (fun k hk hf => Model.transitionN_timeOk D hD hS t n k hk hf) h hok

/-- The times of every simulation state are in order. -/
theorem Reachable.reachable_timeOk [LawfulTime T] (D : Dynamics T V S C) (hD : D.NonNegative)
    (hS : D.Disciplined) {m : Model T V S C} (h : Reachable D TransitionPolicyDefault m) :
    TimeOk m := by
  induction h with
  | start m common t hfr hok => exact (Model.startN_timeOk D hD common t _ m hfr hok).1
  | output m t _ _ ih => exact Model.outputN_timeOk D t _ m ih
  | transition m t _ hok ih => exact (Model.transitionN_timeOk D hD hS t _ m ih hok).1
  | input m x _ ih => exact ih.mapCore_timeOk _ (fun _ => ⟨rfl, rfl⟩)

theorem TimeOk.within_timeOk {m root : Model T V S C} (hw : Within m root) (h : TimeOk root) :
    TimeOk m := by
  induction hw with
  | self => exact h
  | kid k root hk _ ih =>
    apply ih
    cases h with
    | atomic _ _ _ _ => cases hk
    | coupled _ _ _ _ _ _ _ _ h3 => exact h3 k hk
    | executive _ _ _ _ _ _ _ _ _ h3 => exact h3 k hk

theorem Fresh.within_fresh {m root : Model T V S C} (hw : Within m root) (h : Fresh root) :
    Fresh m := by
  induction hw with
  | self => exact h
  | kid k root hk _ ih =>
    apply ih
    cases h with
    | atomic _ _ _ _ => cases hk
    | coupled _ _ _ _ _ _ _ _ _ h5 => exact h5 k hk
    | executive _ _ _ _ _ _ _ _ _ _ h5 => exact h5 k hk

theorem Fresh.fresh_tl_le_tn [LawfulTime T] {m : Model T V S C} (h : Fresh m) :
    m.core.tl ≤ m.core.tn := by
  have hc : m.core.Fresh := by cases h <;> assumption
  rw [hc.1]
  exact LawfulTime.neg_infinity_le _

/-! ### The sample network is well behaved -/

theorem Sample.nonNegative : Sample.dynamics.NonNegative := by
  constructor
  · intro a _ _ _
    show (0 : ExtInt) ≤ (if a = 1 then _ else _ : ExtInt × Nat).1
    split
    · show (0 : ExtInt) ≤ .fin 2
      decide
    · show (0 : ExtInt) ≤ .pinf
      decide
  · intro a _ _ _
    show (0 : ExtInt) ≤ (if a = 1 then _ else _ : ExtInt × Nat).1
    split
    · show (0 : ExtInt) ≤ .fin 2
      decide
    · show (0 : ExtInt) ≤ .pinf
      decide

theorem Sample.disciplined : Sample.dynamics.Disciplined := by
  intro a e x st held
  exact ⟨List.nodup_nil, fun _ h => absurd h (List.not_mem_nil _)⟩

theorem Sample.fresh_network : Fresh Sample.network :=
  Fresh.coupled 0 _ 0 _ _ ⟨rfl, rfl⟩ rfl (by decide) (by decide) (fun k hk => by
    simp only [List.mem_cons, List.mem_singleton, List.not_mem_nil, or_false] at hk
    rcases hk with rfl | rfl
    · exact Fresh.atomic 1 _ 0 ⟨rfl, rfl⟩
    · exact Fresh.atomic 2 _ 0 ⟨rfl, rfl⟩)

theorem Sample.reachable_started :
    Reachable Sample.dynamics TransitionPolicyDefault Sample.started :=
  Reachable.start Sample.network () (.fin 0) Sample.fresh_network (by decide)

theorem Sample.reachable_afterOutput :
    Reachable Sample.dynamics TransitionPolicyDefault Sample.afterOutput :=
  Reachable.output Sample.started (.fin 2) Sample.reachable_started (by decide)

/-- C8, the claim as stated fails: the freshly constructed sample network after
`start(0)` and `start(10)`, two calls that do not fail, has `tl = 10` and
`tn = 2` (the heap still holds the entries of the first `start`). -/
theorem C8_counterexample :
    (Model.start Sample.dynamics Sample.network () (.fin 0)).fault = none ∧
    (Model.start Sample.dynamics Sample.started () (.fin 10)).fault = none ∧
    (Model.start Sample.dynamics Sample.started () (.fin 10)).state.core.tl = .fin 10 ∧
    (Model.start Sample.dynamics Sample.started () (.fin 10)).state.core.tn = .fin 2 ∧
    ¬ ((Model.start Sample.dynamics Sample.started () (.fin 10)).state.core.tl
        ≤ (Model.start Sample.dynamics Sample.started () (.fin 10)).state.core.tn) := by
  decide

/-- C8, amended. When every `init` and `delta` returns a non-negative time
advance and the executives insert freshly constructed models that they do not
hold yet, every model (the root or a model held, directly or not, by the root;
atomic, coupled or executive) has `tl ≤ tn` in the freshly constructed state and
in every state reached by `start`, called once on the freshly constructed root,
followed by any calls of `output` and `transition` (sequential policy) that
return normally and any writes of the environment to the input bundle. -/
theorem C8_tl_le_tn [LawfulTime T] (D : Dynamics T V S C) (hD : D.NonNegative)
    (hS : D.Disciplined) (root m : Model T V S C)
    (hr : Fresh root ∨ Reachable D TransitionPolicyDefault root) (hw : Within m root) :
    m.core.tl ≤ m.core.tn := by
  rcases hr with hr | hr
  · exact (hr.within_fresh hw).fresh_tl_le_tn
  · exact ((Reachable.reachable_timeOk D hD hS hr).within_timeOk hw).timeOk_tl_le_tn

/-- C8 amended, on the sample network after `start(0)`, `output(2)` and
`transition(2)`, for the generator. -/
theorem C8_tl_le_tn_witness :
    ∃ m, m.addr = 1 ∧
      Within m (Model.transition Sample.dynamics TransitionPolicyDefault Sample.afterOutput
        (.fin 2)).state ∧
      m.core.tl ≤ m.core.tn :=
  ⟨.atomic 1 _ _, rfl, Within.kid _ _ _ (List.mem_cons_self _ _) (Within.self _),
    C8_tl_le_tn Sample.dynamics Sample.nonNegative Sample.disciplined
      (Model.transition Sample.dynamics TransitionPolicyDefault Sample.afterOutput
        (.fin 2)).state _
      (Or.inr (Reachable.transition Sample.afterOutput (.fin 2) Sample.reachable_afterOutput
        (by decide)))
      (Within.kid _ _ _ (List.mem_cons_self _ _) (Within.self _))⟩

/-! ### The heap and the children: writes that keep them in agreement -/

theorem eq_of_map_nodup {α β : Type} {f : α → β} {l : List α} (h : (l.map f).Nodup)
    {x y : α} (hx : x ∈ l) (hy : y ∈ l) (hxy : f x = f y) : x = y :=
  List.inj_on_of_nodup_map h hx hy hxy

theorem HeapType.deref_some {h : HeapType T} {id : Nat} {el : HeapElement T}
    (hd : h.deref id = some el) : (id, el) ∈ h.nodes := by
  unfold HeapType.deref at hd
  rw [Option.map_eq_some'] at hd
  obtain ⟨n, hn, rfl⟩ := hd
  have h1 := List.mem_of_find?_eq_some hn
  have h2 : n.1 = id := by simpa using List.find?_some hn
  rw [← h2]
  exact h1

theorem HeapType.deref_of_mem {h : HeapType T} (hnd : (h.nodes.map Prod.fst).Nodup)
    {n : Nat × HeapElement T} (hn : n ∈ h.nodes) : h.deref n.1 = some n.2 := by
  unfold HeapType.deref
  cases hf : h.nodes.find? (fun m => m.1 == n.1) with
  | none =>
    rw [List.find?_eq_none] at hf
    exact absurd (by simp) (hf n hn)
  | some m =>
    have h1 := List.mem_of_find?_eq_some hf
    have h2 : m.1 = n.1 := by simpa using List.find?_some hf
    rw [eq_of_map_nodup hnd h1 hn h2]
    rfl

/-- What `(*id).tn = tn; heap.update(id)` does when the handle is valid. -/
theorem HeapType.setTn_eq {h h2 : HeapType T} {hid : Option Nat} {tn : T}
    (hs : h.setTn hid tn = some h2) :
    ∃ id el, hid = some id ∧ (id, el) ∈ h.nodes ∧ h2.next = h.next ∧
      h2.nodes = h.nodes.map (fun n => if n.1 = id then (n.1, { n.2 with tn := tn }) else n) := by
  unfold HeapType.setTn at hs
  cases hid with
  | none => simp at hs
  | some id =>
    cases hd : h.deref id with
    | none => simp [hd] at hs
    | some el =>
      have hb : (some id).bind h.deref = some el := hd
      simp only [hb, Option.getD_some, Option.some.injEq] at hs
      subst hs
      refine ⟨id, el, rfl, HeapType.deref_some hd, rfl, ?_⟩
      simp only [HeapType.update, HeapType.modify, beq_iff_eq]

/-- The nodes after `id = heap.emplace(element, tn); (*id).heapid = id`. -/
theorem HeapType.emplace_nodes {h : HeapType T} (hb : ∀ n ∈ h.nodes, n.1 < h.next) (a : Nat)
    (tn : T) :
    ((h.emplace a tn).1.modify (h.emplace a tn).2
        (fun el => { el with heapid := some (h.emplace a tn).2 })).nodes
      = h.nodes ++ [(h.next, ⟨a, tn, some h.next⟩)] ∧
    ((h.emplace a tn).1.modify (h.emplace a tn).2
        (fun el => { el with heapid := some (h.emplace a tn).2 })).next = h.next + 1 := by
  refine ⟨?_, rfl⟩
  simp only [HeapType.emplace, HeapType.modify, List.map_append, List.map_cons, List.map_nil,
    beq_self_eq_true, ↓reduceIte]
  congr 1
  conv_rhs => rw [← List.map_id h.nodes]
  apply List.map_congr_left
  intro n hn
  have := hb n hn
  have hne : ¬ n.1 = h.next := by omega
  simp [hne]

theorem HeapType.scheduled_setTn_child {hp hp2 : HeapType T} {self : Nat}
    {own : Option (Option Nat × T)} {keys : List (Nat × Option Nat × T)}
    (h : hp.Scheduled self own keys) {a : Nat} {hid : Option Nat} {tn0 tn1 : T}
    (hk : (a, hid, tn0) ∈ keys) (hs : hp.setTn hid tn1 = some hp2) :
    hp2.Scheduled self own (keys.map (fun k => if k.1 = a then (a, hid, tn1) else k)) ∧
    hp2.nodes.map (fun n => n.2.element) = hp.nodes.map (fun n => n.2.element) := by
  obtain ⟨id, el, rfl, hel, hnext, hnodes⟩ := HeapType.setTn_eq hs
  have hfst : hp2.nodes.map Prod.fst = hp.nodes.map Prod.fst := by
    rw [hnodes, List.map_map]
    apply List.map_congr_left
    intro n _
    simp only [Function.comp]
    split <;> rfl
  have helem : hp2.nodes.map (fun n => n.2.element) = hp.nodes.map (fun n => n.2.element) := by
    rw [hnodes, List.map_map]
    apply List.map_congr_left
    intro n _
    simp only [Function.comp]
    split <;> rfl
  have hkfst : (keys.map (fun k => if k.1 = a then (a, some id, tn1) else k)).map Prod.fst
      = keys.map Prod.fst := by
    rw [List.map_map]
    apply List.map_congr_left
    intro k _
    simp only [Function.comp]
    split
    · rename_i hka; exact hka.symm
    · rfl
  have haself : a ≠ self := by
    rintro rfl
    exact h.notSelf (List.mem_map.2 ⟨_, hk, rfl⟩)
  have hela : el.element = a := (h.held _ hk id rfl).2 _ hel rfl
  refine ⟨⟨by rw [hfst]; exact h.handles, ?_, by rw [helem]; exact h.elements,
    by rw [hkfst]; exact h.addrs, by rw [hkfst]; exact h.notSelf, ?_, ?_, ?_⟩, helem⟩
  · intro n hn
    rw [hnodes, List.mem_map] at hn
    obtain ⟨n0, hn0, rfl⟩ := hn
    rw [hnext]
    split <;> exact h.bound n0 hn0
  · intro n hn
    rw [hnodes, List.mem_map] at hn
    obtain ⟨n0, hn0, rfl⟩ := hn
    have he0 := h.entry n0 hn0
    by_cases hid : n0.1 = id
    · rw [if_pos hid]
      have hn0el : n0 = (id, el) := eq_of_map_nodup h.handles hn0 hel hid
      subst hn0el
      refine ⟨he0.1, Or.inr ?_⟩
      rw [List.mem_map]
      exact ⟨(a, some id, tn0), hk, by simp [hela]⟩
    · rw [if_neg hid]
      refine ⟨he0.1, ?_⟩
      rcases he0.2 with ho | hkey
      · exact Or.inl ho
      · right
        rw [List.mem_map]
        refine ⟨_, hkey, ?_⟩
        have hne : ¬ n0.2.element = a := by
          intro hea
          have : (n0.2.element, some n0.1, n0.2.tn) = (a, some id, tn0) :=
            eq_of_map_nodup h.addrs hkey hk hea
          simp only [Prod.mk.injEq, Option.some.injEq] at this
          exact hid this.2.1
        simp [hne]
  · intro k hkm idk hidk
    rw [List.mem_map] at hkm
    obtain ⟨k0, hk0, rfl⟩ := hkm
    rw [hnext]
    by_cases hka : k0.1 = a
    · rw [if_pos hka] at hidk ⊢
      simp only [Option.some.injEq] at hidk
      subst hidk
      refine ⟨(h.held _ hk id rfl).1, ?_⟩
      intro n hn hnid
      rw [hnodes, List.mem_map] at hn
      obtain ⟨n0, hn0, rfl⟩ := hn
      have h1 : n0.1 = id := by
        split at hnid <;> exact hnid
      have := (h.held _ hk id rfl).2 n0 hn0 h1
      split <;> exact this
    · rw [if_neg hka] at hidk ⊢
      refine ⟨(h.held _ hk0 idk hidk).1, ?_⟩
      intro n hn hnid
      rw [hnodes, List.mem_map] at hn
      obtain ⟨n0, hn0, rfl⟩ := hn
      have h1 : n0.1 = idk := by
        split at hnid <;> exact hnid
      have := (h.held _ hk0 idk hidk).2 n0 hn0 h1
      split <;> exact this
  · intro p hp
    obtain ⟨n, hn, hns, hpn⟩ := h.ownEntry p hp
    refine ⟨n, ?_, hns, hpn⟩
    rw [hnodes, List.mem_map]
    refine ⟨n, hn, ?_⟩
    have hne : ¬ n.1 = id := by
      intro hnid
      have : n = (id, el) := eq_of_map_nodup h.handles hn hel hnid
      subst this
      exact haself (hela.symm.trans hns)
    rw [if_neg hne]

theorem HeapType.scheduled_setTn_own {hp hp2 : HeapType T} {self : Nat}
    {hid : Option Nat} {tn0 tn1 : T} {keys : List (Nat × Option Nat × T)}
    (h : hp.Scheduled self (some (hid, tn0)) keys) (hs : hp.setTn hid tn1 = some hp2) :
    hp2.Scheduled self (some (hid, tn1)) keys ∧
    hp2.nodes.map (fun n => n.2.element) = hp.nodes.map (fun n => n.2.element) := by
  obtain ⟨id, el, rfl, hel, hnext, hnodes⟩ := HeapType.setTn_eq hs
  obtain ⟨nown, hnown, hownself, hownp⟩ := h.ownEntry _ rfl
  simp only [Prod.mk.injEq, Option.some.injEq] at hownp
  have hnownel : nown = (id, el) := eq_of_map_nodup h.handles hnown hel hownp.1.symm
  subst hnownel
  have hfst : hp2.nodes.map Prod.fst = hp.nodes.map Prod.fst := by
    rw [hnodes, List.map_map]
    apply List.map_congr_left
    intro n _
    simp only [Function.comp]
    split <;> rfl
  have helem : hp2.nodes.map (fun n => n.2.element) = hp.nodes.map (fun n => n.2.element) := by
    rw [hnodes, List.map_map]
    apply List.map_congr_left
    intro n _
    simp only [Function.comp]
    split <;> rfl
  refine ⟨⟨by rw [hfst]; exact h.handles, ?_, by rw [helem]; exact h.elements, h.addrs,
    h.notSelf, ?_, ?_, ?_⟩, helem⟩
  · intro n hn
    rw [hnodes, List.mem_map] at hn
    obtain ⟨n0, hn0, rfl⟩ := hn
    rw [hnext]
    split <;> exact h.bound n0 hn0
  · intro n hn
    rw [hnodes, List.mem_map] at hn
    obtain ⟨n0, hn0, rfl⟩ := hn
    have he0 := h.entry n0 hn0
    by_cases hid : n0.1 = id
    · rw [if_pos hid]
      have hn0el : n0 = (id, el) := eq_of_map_nodup h.handles hn0 hel hid
      subst hn0el
      exact ⟨he0.1, Or.inl ⟨hownself, rfl⟩⟩
    · rw [if_neg hid]
      refine ⟨he0.1, ?_⟩
      rcases he0.2 with ho | hkey
      · exfalso
        have := ho.2
        simp only [Option.some.injEq, Prod.mk.injEq] at this
        exact hid this.1.symm
      · exact Or.inr hkey
  · intro k hk idk hidk
    rw [hnext]
    refine ⟨(h.held k hk idk hidk).1, ?_⟩
    intro n hn hnid
    rw [hnodes, List.mem_map] at hn
    obtain ⟨n0, hn0, rfl⟩ := hn
    have h1 : n0.1 = idk := by
      split at hnid <;> exact hnid
    have := (h.held k hk idk hidk).2 n0 hn0 h1
    split <;> exact this
  · intro p hp
    simp only [Option.some.injEq] at hp
    subst hp
    refine ⟨(id, { el with tn := tn1 }), ?_, hownself, rfl⟩
    rw [hnodes, List.mem_map]
    exact ⟨(id, el), hel, by simp⟩

/-- The heap and the keys after a child at a new address is scheduled:
`id = heap.emplace(child, child->tn); child->heapid = id; (*id).heapid = id`. -/
theorem HeapType.scheduled_emplace {hp : HeapType T} {self : Nat}
    {own : Option (Option Nat × T)} {keys keys2 : List (Nat × Option Nat × T)}
    (h : hp.Scheduled self own keys) (a : Nat) (tn : T) (hself : a ≠ self)
    (hnew : a ∉ keys.map Prod.fst)
    (hmem : ∀ k, k ∈ keys2 ↔ k ∈ keys ∨ k = (a, some hp.next, tn))
    (hnd : (keys2.map Prod.fst).Nodup) :
    ((hp.emplace a tn).1.modify (hp.emplace a tn).2
      (fun el => { el with heapid := some (hp.emplace a tn).2 })).Scheduled self own keys2 := by
  obtain ⟨hnodes, hnext⟩ := HeapType.emplace_nodes h.bound a tn
  have helold : ∀ n ∈ hp.nodes, n.2.element ≠ a := by
    intro n hn hna
    rcases (h.entry n hn).2 with ho | hkey
    · exact hself (hna.symm.trans ho.1)
    · exact hnew (List.mem_map.2 ⟨_, hkey, hna⟩)
  refine ⟨?_, ?_, ?_, hnd, ?_, ?_, ?_, ?_⟩
  · rw [hnodes, List.map_append, List.nodup_append]
    refine ⟨h.handles, List.nodup_singleton _, ?_⟩
    intro x hx hx2
    simp only [List.map_cons, List.map_nil, List.mem_singleton] at hx2
    obtain ⟨n, hn, rfl⟩ := List.mem_map.1 hx
    have := h.bound n hn
    omega
  · intro n hn
    rw [hnodes, List.mem_append, List.mem_singleton] at hn
    rw [hnext]
    rcases hn with hn | rfl
    · have := h.bound n hn; omega
    · exact Nat.lt_succ_self _
  · rw [hnodes, List.map_append, List.nodup_append]
    refine ⟨h.elements, List.nodup_singleton _, ?_⟩
    intro x hx hx2
    simp only [List.map_cons, List.map_nil, List.mem_singleton] at hx2
    obtain ⟨n, hn, rfl⟩ := List.mem_map.1 hx
    exact helold n hn hx2
  · intro hin
    obtain ⟨k, hk, hks⟩ := List.mem_map.1 hin
    rcases (hmem k).1 hk with hk | rfl
    · exact h.notSelf (List.mem_map.2 ⟨k, hk, hks⟩)
    · exact hself hks
  · intro n hn
    rw [hnodes, List.mem_append, List.mem_singleton] at hn
    rcases hn with hn | rfl
    · refine ⟨(h.entry n hn).1, ?_⟩
      rcases (h.entry n hn).2 with ho | hkey
      · exact Or.inl ho
      · exact Or.inr ((hmem _).2 (Or.inl hkey))
    · exact ⟨rfl, Or.inr ((hmem _).2 (Or.inr rfl))⟩
  · intro k hk id hid
    rw [hnext, hnodes]
    rcases (hmem k).1 hk with hk | rfl
    · have h1 := h.held k hk id hid
      refine ⟨by omega, ?_⟩
      intro n hn hnid
      rw [List.mem_append, List.mem_singleton] at hn
      rcases hn with hn | rfl
      · exact h1.2 n hn hnid
      · exfalso
        have := h1.1
        simp only at hnid
        omega
    · simp only [Option.some.injEq] at hid
      subst hid
      refine ⟨Nat.lt_succ_self _, ?_⟩
      intro n hn hnid
      rw [List.mem_append, List.mem_singleton] at hn
      rcases hn with hn | rfl
      · have := h.bound n hn
        omega
      · rfl
  · intro p hp
    obtain ⟨n, hn, hns, hpn⟩ := h.ownEntry p hp
    exact ⟨n, by rw [hnodes]; exact List.mem_append_left _ hn, hns, hpn⟩

/-- The heap and the keys after `heap.erase(mdl->heapid)` on a child. -/
theorem HeapType.scheduled_erase {hp : HeapType T} {self : Nat}
    {own : Option (Option Nat × T)} {keys : List (Nat × Option Nat × T)}
    (h : hp.Scheduled self own keys) {a id : Nat} {tn0 : T}
    (hk : (a, some id, tn0) ∈ keys) :
    (hp.erase id).Scheduled self own keys := by
  have hsub : ∀ n, n ∈ (hp.erase id).nodes → n ∈ hp.nodes ∧ n.1 ≠ id :=
    fun n hn => HeapType.mem_erase hn
  have hsl : (hp.erase id).nodes.Sublist hp.nodes := List.filter_sublist _
  have haself : a ≠ self := by
    rintro rfl
    exact h.notSelf (List.mem_map.2 ⟨_, hk, rfl⟩)
  refine ⟨(hsl.map _).nodup h.handles, fun n hn => h.bound n (hsub n hn).1,
    (hsl.map _).nodup h.elements, h.addrs, h.notSelf,
    fun n hn => h.entry n (hsub n hn).1, ?_, ?_⟩
  · intro k hkm idk hidk
    exact ⟨(h.held k hkm idk hidk).1,
      fun n hn hnid => (h.held k hkm idk hidk).2 n (hsub n hn).1 hnid⟩
  · intro p hp
    obtain ⟨n, hn, hns, hpn⟩ := h.ownEntry p hp
    refine ⟨n, ?_, hns, hpn⟩
    unfold HeapType.erase
    simp only [List.mem_filter, bne_iff_ne, ne_eq]
    refine ⟨hn, ?_⟩
    intro hnid
    exact haself (((h.held _ hk id rfl).2 n hn hnid).symm.trans hns)

/-- An empty heap agrees with no child. -/
theorem HeapType.scheduled_empty {hp : HeapType T} (h : hp.nodes = []) (self : Nat) :
    hp.Scheduled self none [] := by
  refine ⟨by rw [h]; exact List.nodup_nil, ?_, by rw [h]; exact List.nodup_nil,
    List.nodup_nil, List.not_mem_nil _, ?_, ?_, ?_⟩
  · intro n hn; rw [h] at hn; cases hn
  · intro n hn; rw [h] at hn; cases hn
  · intro k hk; cases hk
  · intro p hp; cases hp

/-- The heap after an executive has scheduled itself:
`id = heap.emplace(this, chi_tn); chi_heapid = id; (*id).heapid = id`. -/
theorem HeapType.scheduled_own {hp : HeapType T} (h : hp.nodes = []) (self : Nat) (tn : T) :
    ((hp.emplace self tn).1.modify (hp.emplace self tn).2
      (fun el => { el with heapid := some (hp.emplace self tn).2 })).Scheduled self
      (some (some (hp.emplace self tn).2, tn)) [] := by
  obtain ⟨hnodes, hnext⟩ := HeapType.emplace_nodes (h := hp)
    (fun n hn => by rw [h] at hn; cases hn) self tn
  rw [h, List.nil_append] at hnodes
  refine ⟨by rw [hnodes]; exact List.nodup_singleton _, ?_,
    by rw [hnodes]; exact List.nodup_singleton _, List.nodup_nil, List.not_mem_nil _, ?_, ?_, ?_⟩
  · intro n hn
    rw [hnodes, List.mem_singleton] at hn
    subst hn
    rw [hnext]
    exact Nat.lt_succ_self _
  · intro n hn
    rw [hnodes, List.mem_singleton] at hn
    subst hn
    exact ⟨rfl, Or.inl ⟨rfl, rfl⟩⟩
  · intro k hk; cases hk
  · intro p hp
    simp only [Option.some.injEq] at hp
    subst hp
    exact ⟨_, by rw [hnodes]; exact List.mem_singleton_self _, rfl, rfl⟩

/-! ### The keys of the children -/

theorem Model.key_mapCore (f : Core T V → Core T V) (m : Model T V S C)
    (hf : (f m.core).heapid = m.core.heapid ∧ (f m.core).tn = m.core.tn) :
    (m.mapCore f).key = m.key := by
  simp only [Model.key, Model.addr_mapCore, Model.core_mapCore, hf.1, hf.2]

theorem map_fst_key (ks : List (Model T V S C)) :
    (ks.map Model.key).map Prod.fst = ks.map Model.addr := by
  rw [List.map_map]
  rfl

theorem map_key_setKid (ks : List (Model T V S C)) (a : Nat) (m : Model T V S C) :
    (setKid ks a m).map Model.key
      = (ks.map Model.key).map (fun k => if k.1 = a then m.key else k) := by
  unfold setKid
  rw [List.map_map, List.map_map]
  apply List.map_congr_left
  intro k _
  simp only [Function.comp, Model.key, beq_iff_eq]
  split <;> rfl

/-- Writing back a child whose key is unchanged leaves the keys as they are. -/
theorem map_key_setKid_same {ks : List (Model T V S C)} (hnd : (ks.map Model.addr).Nodup)
    {a : Nat} {k m : Model T V S C} (hf : findKid ks a = some k) (hm : m.key = k.key) :
    (setKid ks a m).map Model.key = ks.map Model.key := by
  unfold setKid
  rw [List.map_map]
  apply List.map_congr_left
  intro k2 hk2
  simp only [Function.comp, beq_iff_eq]
  split
  · rename_i hka
    have := eq_of_map_nodup hnd hk2 (findKid_mem hf).1 (hka.trans (findKid_mem hf).2.symm)
    rw [hm, this]
  · rfl

theorem Model.outputN_key (D : Dynamics T V S C) (n : Nat) (m : Model T V S C) (t : T) :
    (Model.outputN D n m t).state.key = m.key := by
  cases n with
  | zero => rfl
  | succ n =>
    cases m with
    | atomic a c st =>
      simp only [Model.outputN, AtomicModel.output]
      split <;> rfl
    | coupled a c st hp l ks =>
      simp only [Model.outputN, CoupledModel.output, applyPost]
      repeat' split
      all_goals rfl
    | executive a c st chi hp l ks =>
      simp only [Model.outputN, Executive.output, applyPost]
      repeat' split
      all_goals rfl

theorem Model.transitionN_heapid (D : Dynamics T V S C) (policy : Policy T V S C) (n : Nat)
    (m : Model T V S C) (t : T) :
    (Model.transitionN D policy n m t).state.core.heapid = m.core.heapid := by
  cases n with
  | zero => rfl
  | succ n =>
    cases m with
    | atomic a c st =>
      simp only [Model.transitionN, AtomicModel.transition]
      repeat' split
      all_goals rfl
    | coupled a c st hp l ks =>
      simp only [Model.transitionN, CoupledModel.transition, CoupledModel.route, applyPost]
      repeat' split
      all_goals rfl
    | executive a c st chi hp l ks =>
      simp only [Model.transitionN, Executive.transition, Executive.route, applyPost,
        Executive.finish]
      repeat' split
      all_goals rfl

/-! ### The heap and the children under the sequential policy -/

/-- The sequential policy keeps the heap in agreement with the children, and
neither the addresses of the children nor the elements of the heap change. -/
theorem TransitionPolicyDefault.policy_scheduled
    (tr : Model T V S C → T → Run (Model T V S C) T) (t : T)
    (htr : ∀ k, (tr k t).state.addr = k.addr ∧ (tr k t).state.core.heapid = k.core.heapid)
    (self : Nat) (own : Option (Option Nat × T)) :
    ∀ (bag : List Nat) (n : Net T V S C), n.heap.Scheduled self own (n.kids.map Model.key) →
      (TransitionPolicyDefault tr bag t n).fault = none →
      (TransitionPolicyDefault tr bag t n).state.heap.Scheduled self own
        ((TransitionPolicyDefault tr bag t n).state.kids.map Model.key) ∧
      (TransitionPolicyDefault tr bag t n).state.kids.map Model.addr = n.kids.map Model.addr ∧
      (TransitionPolicyDefault tr bag t n).state.heap.nodes.map (fun nd => nd.2.element)
        = n.heap.nodes.map (fun nd => nd.2.element)
  | [], n, h, _ => ⟨h, rfl, rfl⟩
  | a :: bag, n, h, hok => by
    unfold TransitionPolicyDefault at hok ⊢
    cases hf : findKid n.kids a with
    | none => simp only [hf] at hok; exact absurd hok (by simp)
    | some child =>
      simp only [hf] at hok ⊢
      cases hr : (tr child t).fault with
      | some f => simp only [hr] at hok; exact absurd hok (by simp)
      | none =>
        simp only [hr] at hok ⊢
        have hch := findKid_mem hf
        revert hok
        cases hs : n.heap.setTn
            ((tr child t).state.mapCore (fun c => { c with x := c.x.clear })).core.heapid
            ((tr child t).state.mapCore (fun c => { c with x := c.x.clear })).core.tn with
        | none => intro hok; simp only at hok; exact absurd hok (by simp)
        | some heap =>
          intro hok
          simp only at hok ⊢
          have hhid : ((tr child t).state.mapCore
              (fun c => { c with x := c.x.clear })).core.heapid = child.core.heapid := by
            rw [Model.core_mapCore]; exact (htr child).2
          have haddr1 : ((tr child t).state.mapCore
              (fun c => { c with x := c.x.clear })).addr = a := by
            rw [Model.addr_mapCore, (htr child).1, hch.2]
          rw [hhid] at hs
          have hkey : (a, child.core.heapid, child.core.tn) ∈ n.kids.map Model.key :=
            List.mem_map.2 ⟨child, hch.1, by simp [Model.key, hch.2]⟩
          have h1 := HeapType.scheduled_setTn_child h hkey hs
          have hkeys : (setKid n.kids a ((tr child t).state.mapCore
              (fun c => { c with x := c.x.clear }))).map Model.key
              = (n.kids.map Model.key).map (fun k => if k.1 = a then
                  (a, child.core.heapid, ((tr child t).state.mapCore
                    (fun c => { c with x := c.x.clear })).core.tn) else k) := by
            rw [map_key_setKid]
            apply List.map_congr_left
            intro k _
            split
            · simp only [Model.key, haddr1, hhid]
            · rfl
          have ih := TransitionPolicyDefault.policy_scheduled tr t htr self own bag
            ⟨heap, setKid n.kids a ((tr child t).state.mapCore
              (fun c => { c with x := c.x.clear }))⟩ (by rw [hkeys]; exact h1.1) hok
          refine ⟨ih.1, ?_, ?_⟩
          · rw [ih.2.1]; exact map_addr_setKid haddr1
          · rw [ih.2.2]; exact h1.2

/-! ### The heap and the children after `output` -/

theorem applyPost_kids_key (D : Dynamics T V S C) (a : Nat) (st : S) (c : Core T V)
    (ks : List (Model T V S C)) (out l : List Nat) :
    (applyPost D a st c ks out l).kids.map Model.key = ks.map Model.key := by
  simp only [applyPost, List.map_map]
  apply List.map_congr_left
  intro k _
  exact Model.key_mapCore _ k ⟨rfl, rfl⟩

theorem clearOutputs_key (lst : List Nat) (ks : List (Model T V S C)) :
    (clearOutputs lst ks).map Model.key = ks.map Model.key := by
  simp only [clearOutputs, List.map_map]
  apply List.map_congr_left
  intro k _
  simp only [Function.comp]
  split
  · exact Model.key_mapCore _ k ⟨rfl, rfl⟩
  · rfl

/-- The loop of `output` leaves the keys of the children as they are. -/
theorem outputChildren_key (D : Dynamics T V S C)
    (out : Model T V S C → T → Run (Model T V S C) T) (self : Option Nat) (st : S)
    (heap : HeapType T) (t : T) (hout : ∀ k, (out k t).state.key = k.key) :
    ∀ (its : List (HeapElement T)) (s : OutState T V S C), (s.kids.map Model.addr).Nodup →
      (outputChildren D out self st heap t its s).state.kids.map Model.key
        = s.kids.map Model.key
  | [], s, _ => rfl
  | it :: its, s, hnd => by
    simp only [outputChildren]
    split
    · rfl
    · split
      · rfl
      · split
        · exact outputChildren_key D out self st heap t hout its _ hnd
        · split
          · rfl
          · rename_i mdl hfind
            have hk := map_key_setKid_same hnd hfind (hout mdl)
            split
            · exact hk
            · rw [outputChildren_key D out self st heap t hout its _
                (by
                  show (List.map Model.addr (setKid s.kids _ _)).Nodup
                  rw [← map_fst_key, hk, map_fst_key]; exact hnd)]
              exact hk

theorem heapOk_coupled_congr {a : Nat} {c c2 : Core T V} {st st2 : S} {hp : HeapType T}
    {l l2 : List Nat} {ks ks2 : List (Model T V S C)}
    (h : Model.HeapOk (.coupled a c st hp l ks)) (hc : c2.tn = c.tn)
    (hk : ks2.map Model.key = ks.map Model.key) :
    Model.HeapOk (.coupled a c2 st2 hp l2 ks2) := by
  obtain ⟨h1, h2, h3⟩ := h
  refine ⟨by rw [hk]; exact h1, ?_, by rw [hc]; exact h3⟩
  intro k hkm
  have hka : k.addr ∈ ks.map Model.addr := by
    rw [← map_fst_key, ← hk, map_fst_key]
    exact List.mem_map_of_mem _ hkm
  obtain ⟨k0, hk0, hk0a⟩ := List.mem_map.1 hka
  obtain ⟨n, hn, hne⟩ := h2 k0 hk0
  exact ⟨n, hn, hne.trans hk0a⟩

theorem heapOk_executive_congr {a : Nat} {c c2 : Core T V} {st st2 : S} {chi : Chi T V C}
    {hp : HeapType T} {l l2 : List Nat} {ks ks2 : List (Model T V S C)}
    (h : Model.HeapOk (.executive a c st chi hp l ks)) (hc : c2.tn = c.tn)
    (hk : ks2.map Model.key = ks.map Model.key) :
    Model.HeapOk (.executive a c2 st2 chi hp l2 ks2) := by
  obtain ⟨h1, h3⟩ := h
  exact ⟨by rw [hk]; exact h1, by rw [hc]; exact h3⟩

theorem heapOk_addrs {m : Model T V S C} (h : m.HeapOk) : (m.kids.map Model.addr).Nodup := by
  cases m with
  | atomic a c st => exact List.nodup_nil
  | coupled a c st hp l ks => rw [← map_fst_key]; exact h.1.addrs
  | executive a c st chi hp l ks => rw [← map_fst_key]; exact h.1.addrs

/-- A call of `output` keeps the heap in agreement with the children. -/
theorem Model.outputN_heapOk (D : Dynamics T V S C) (t : T) (n : Nat) (m : Model T V S C)
    (h : m.HeapOk) : (Model.outputN D n m t).state.HeapOk := by
  cases n with
  | zero => exact h
  | succ n =>
    cases m with
    | atomic a c st =>
      simp only [Model.outputN, AtomicModel.output]
      split <;> exact True.intro
    | coupled a c st hp l ks =>
      have hnd := heapOk_addrs h
      have hloop := outputChildren_key D (Model.outputN D n) none st hp t
        (fun k => Model.outputN_key D n k t) (hp.outputEntries c.tn) ⟨c.y, ks, []⟩ hnd
      simp only [Model.outputN, CoupledModel.output]
      repeat' split
      all_goals first
        | exact h
        | exact heapOk_coupled_congr h rfl hloop
        | exact heapOk_coupled_congr h rfl
            ((clearOutputs_key _ _).trans ((applyPost_kids_key D _ _ _ _ _ _).trans hloop))
    | executive a c st chi hp l ks =>
      have hnd := heapOk_addrs h
      have hloop := outputChildren_key D (Model.outputN D n) (some a) st hp t
        (fun k => Model.outputN_key D n k t) (hp.outputEntries c.tn) ⟨c.y, ks, []⟩ hnd
      simp only [Model.outputN, Executive.output]
      repeat' split
      all_goals first
        | exact h
        | exact heapOk_executive_congr h rfl hloop
        | exact heapOk_executive_congr h rfl
            ((clearOutputs_key _ _).trans ((applyPost_kids_key D _ _ _ _ _ _).trans hloop))

/-! ### The heap and the children after `transition` -/

theorem CoupledModel.route_kids_key (D : Dynamics T V S C) (a : Nat) (c : Core T V) (st : S)
    (l : List Nat) (ks : List (Model T V S C)) :
    (CoupledModel.route D a c st l ks).kids.map Model.key = ks.map Model.key := by
  unfold CoupledModel.route
  split
  · rfl
  · exact applyPost_kids_key D _ _ _ _ _ _

theorem Executive.route_kids_key_executive (D : Dynamics T V S C) (a : Nat) (c : Core T V)
    (st : S) (l : List Nat) (ks : List (Model T V S C)) :
    (Executive.route D a c st l ks).kids.map Model.key = ks.map Model.key := by
  unfold Executive.route
  split
  · rfl
  · exact applyPost_kids_key D _ _ _ _ _ _

theorem CoupledModel.transition_heapOk_coupled (D : Dynamics T V S C)
    (tr : Model T V S C → T → Run (Model T V S C) T) (a : Nat) (c : Core T V) (st : S)
    (hp : HeapType T) (l : List Nat) (ks : List (Model T V S C)) (t : T)
    (htr : ∀ k, (tr k t).state.addr = k.addr ∧ (tr k t).state.core.heapid = k.core.heapid)
    (h : Model.HeapOk (.coupled a c st hp l ks))
    (hok : (CoupledModel.transition D TransitionPolicyDefault tr a c st hp l ks t).fault
      = none) :
    (CoupledModel.transition D TransitionPolicyDefault tr a c st hp l ks t).state.HeapOk := by
  unfold CoupledModel.transition at hok ⊢
  by_cases hg : ¬ (c.tl ≤ t ∧ t ≤ c.tn)
  · rw [if_pos hg] at hok; exact absurd hok (by simp)
  · rw [if_neg hg] at hok ⊢
    by_cases hn : t < c.tn ∧ c.x.is_empty = true
    · rw [if_pos hn]; exact h
    · rw [if_neg hn] at hok ⊢
      simp only at hok ⊢
      by_cases hb : a ∈ CoupledModel.bag hp t (CoupledModel.route D a c st l ks).last_output_list
      · rw [if_pos hb] at hok; exact absurd hok (by simp)
      · rw [if_neg hb] at hok ⊢
        cases hf : (TransitionPolicyDefault tr
            (CoupledModel.bag hp t (CoupledModel.route D a c st l ks).last_output_list) t
            ⟨hp, (CoupledModel.route D a c st l ks).kids⟩).fault with
        | some f => simp only [hf] at hok; exact absurd hok (by simp)
        | none =>
          simp only [hf] at hok ⊢
          obtain ⟨h1, h2, _⟩ := h
          have hrk := CoupledModel.route_kids_key D a c st l ks
          have hl := TransitionPolicyDefault.policy_scheduled tr t htr a none _
            ⟨hp, (CoupledModel.route D a c st l ks).kids⟩ (by rw [hrk]; exact h1) hf
          cases he : (TransitionPolicyDefault tr
              (CoupledModel.bag hp t (CoupledModel.route D a c st l ks).last_output_list) t
              ⟨hp, (CoupledModel.route D a c st l ks).kids⟩).state.heap.top with
          | none => simp only [he] at hok; exact absurd hok (by simp)
          | some e =>
            simp only [he]
            refine ⟨hl.1, ?_, ?_⟩
            · intro k hk
              have hka : k.addr ∈ ks.map Model.addr := by
                rw [← map_fst_key, ← hrk, map_fst_key, ← hl.2.1]
                exact List.mem_map_of_mem _ hk
              obtain ⟨k0, hk0, hk0a⟩ := List.mem_map.1 hka
              obtain ⟨nd, hnd, hne⟩ := h2 k0 hk0
              have : nd.2.element ∈ hp.nodes.map (fun nd => nd.2.element) :=
                List.mem_map.2 ⟨nd, hnd, rfl⟩
              rw [← hl.2.2] at this
              obtain ⟨nd2, hnd2, hne2⟩ := List.mem_map.1 this
              exact ⟨nd2, hnd2, hne2.trans (hne.trans hk0a)⟩
            · intro e2 he2
              rw [he] at he2
              simp only [Option.some.injEq] at he2
              rw [he2]

theorem map_key_mapKid (ks : List (Model T V S C)) (a : Nat) (f : Core T V → Core T V)
    (hf : ∀ c, (f c).heapid = c.heapid ∧ (f c).tn = c.tn) :
    (mapKid ks a f).map Model.key = ks.map Model.key := by
  unfold mapKid
  rw [List.map_map]
  apply List.map_congr_left
  intro k _
  simp only [Function.comp]
  split
  · exact Model.key_mapCore f k (hf _)
  · rfl

theorem Executive.insert_scheduled (start : Model T V S C → C → T → Run (Model T V S C) T)
    (self : Nat) (chi : Chi T V C) (mdl : Model T V S C) (n : ExecNet T V S C)
    (own : Option (Option Nat × T))
    (haddr : ∀ k, (start k chi.localcommon chi.chi_tl).state.addr = k.addr)
    (hs : n.heap.Scheduled self own (n.kids.map Model.key))
    (hnew : mdl.addr ∉ n.kids.map Model.addr) (hself : mdl.addr ≠ self)
    (hok : (Executive.insert start self chi mdl n).fault = none) :
    (Executive.insert start self chi mdl n).state.heap.Scheduled self own
      ((Executive.insert start self chi mdl n).state.kids.map Model.key) ∧
    (Executive.insert start self chi mdl n).state.kids.map Model.addr
      = n.kids.map Model.addr ++ [mdl.addr] := by
  have hnone : findKid n.kids mdl.addr = none := findKid_eq_none.2 hnew
  simp only [Executive.insert, hnone, Option.isSome_none, Option.getD_none] at hok ⊢
  have hra : (start (mdl.mapCore (fun c => { c with parent := some self })) chi.localcommon
      chi.chi_tl).state.addr = mdl.addr := by
    rw [haddr, Model.addr_mapCore]
  revert hok hra
  generalize start (mdl.mapCore (fun c => { c with parent := some self })) chi.localcommon
      chi.chi_tl = r
  intro hok hra
  cases hr : r.fault with
  | some f => simp only [hr] at hok; exact absurd hok (by simp)
  | none =>
    simp only [Bool.false_eq_true, ↓reduceIte]
    have ha1 : (r.state.mapCore (fun c =>
        { c with heapid := some (n.heap.emplace mdl.addr r.state.core.tn).2 })).addr
        = mdl.addr := by
      rw [Model.addr_mapCore, hra]
    have hkeys : (setKid (n.kids ++ [mdl]) mdl.addr
        (r.state.mapCore (fun c =>
          { c with heapid := some (n.heap.emplace mdl.addr r.state.core.tn).2 }))).map Model.key
        = n.kids.map Model.key ++ [(mdl.addr, some n.heap.next, r.state.core.tn)] := by
      rw [map_key_setKid, List.map_append, List.map_append]
      congr 1
      · conv_rhs => rw [← List.map_id (n.kids.map Model.key)]
        apply List.map_congr_left
        intro k hk
        have hne : ¬ k.1 = mdl.addr := by
          intro hka
          apply hnew
          rw [← map_fst_key]
          exact List.mem_map.2 ⟨k, hk, hka⟩
        simp [hne]
      · simp only [List.map_cons, List.map_nil, Model.key, ↓reduceIte, ha1,
          Model.core_mapCore, HeapType.emplace, Model.addr_mapCore, hra]
    have haddrs : (setKid (n.kids ++ [mdl]) mdl.addr
        (r.state.mapCore (fun c =>
          { c with heapid := some (n.heap.emplace mdl.addr r.state.core.tn).2 }))).map Model.addr
        = n.kids.map Model.addr ++ [mdl.addr] := by
      rw [map_addr_setKid ha1]
      simp
    refine ⟨?_, haddrs⟩
    refine HeapType.scheduled_emplace hs mdl.addr _ hself (by rw [map_fst_key]; exact hnew)
      ?_ ?_
    · intro k
      rw [hkeys, List.mem_append, List.mem_singleton]
    · rw [map_fst_key, haddrs]
      rw [List.nodup_append]
      refine ⟨by rw [← map_fst_key]; exact hs.addrs, List.nodup_singleton _, ?_⟩
      intro x hx hx2
      rw [List.mem_singleton] at hx2
      exact hnew (hx2 ▸ hx)

theorem Executive.erase_scheduled (a : Nat) (n : ExecNet T V S C) (self : Nat)
    (own : Option (Option Nat × T))
    (hs : n.heap.Scheduled self own (n.kids.map Model.key))
    (hok : (Executive.erase a n).fault = none) :
    (Executive.erase a n).state.heap.Scheduled self own
      ((Executive.erase a n).state.kids.map Model.key) ∧
    (Executive.erase a n).state.kids.map Model.addr = n.kids.map Model.addr := by
  simp only [Executive.erase] at hok ⊢
  cases hf : findKid n.kids a with
  | none => simp only [hf] at hok; exact absurd hok (by simp)
  | some mdl =>
    simp only [hf] at hok ⊢
    cases hh : mdl.core.heapid with
    | none => simp only [hh] at hok; exact absurd hok (by simp)
    | some id =>
      simp only [hh] at hok ⊢
      cases hd : n.heap.deref id with
      | none => simp only [hd] at hok; exact absurd hok (by simp)
      | some el =>
        simp only
        refine ⟨?_, map_addr_mapKid _ _ _⟩
        rw [map_key_mapKid n.kids a (fun c => { c with parent := none })
          (fun _ => ⟨rfl, rfl⟩)]
        have hm := findKid_mem hf
        have hkey : (a, some id, mdl.core.tn) ∈ n.kids.map Model.key :=
          List.mem_map.2 ⟨mdl, hm.1, by simp [Model.key, hm.2, hh]⟩
        exact HeapType.scheduled_erase hs hkey

/-- The structural operators of a disciplined `delta` keep the heap in agreement
with the children. -/
theorem Executive.structural_scheduled
    (start : Model T V S C → C → T → Run (Model T V S C) T) (self : Nat) (chi : Chi T V C)
    (own : Option (Option Nat × T))
    (haddr : ∀ k, (start k chi.localcommon chi.chi_tl).state.addr = k.addr) :
    ∀ (ops : List (Structural T V S C)) (n : ExecNet T V S C),
      ((ops.filterMap Structural.inserted).map Model.addr).Nodup →
      (∀ mdl ∈ ops.filterMap Structural.inserted,
        mdl.addr ∉ n.kids.map Model.addr ∧ mdl.addr ≠ self) →
      n.heap.Scheduled self own (n.kids.map Model.key) →
      (Executive.structural start self chi ops n).fault = none →
      (Executive.structural start self chi ops n).state.heap.Scheduled self own
        ((Executive.structural start self chi ops n).state.kids.map Model.key)
  | [], n, _, _, hs, _ => hs
  | .insert mdl :: ops, n, hnd, hins, hs, hok => by
    simp only [Executive.structural] at hok ⊢
    simp only [List.filterMap_cons, Structural.inserted, List.map_cons, List.nodup_cons]
      at hnd
    have hm := hins mdl (by simp [Structural.inserted])
    cases hr : (Executive.insert start self chi mdl n).fault with
    | some f => simp only [hr] at hok; exact absurd hok (by simp)
    | none =>
      simp only [hr] at hok ⊢
      have h1 := Executive.insert_scheduled start self chi mdl n own haddr hs hm.1 hm.2 hr
      refine Executive.structural_scheduled start self chi own haddr ops _ hnd.2 ?_ h1.1 hok
      intro m2 hm2
      have h2 := hins m2 (by simp [Structural.inserted, hm2])
      refine ⟨?_, h2.2⟩
      rw [h1.2, List.mem_append, List.mem_singleton]
      rintro (h | h)
      · exact h2.1 h
      · exact hnd.1 (h ▸ List.mem_map_of_mem _ hm2)
  | .erase a :: ops, n, hnd, hins, hs, hok => by
    simp only [Executive.structural] at hok ⊢
    simp only [List.filterMap_cons, Structural.inserted] at hnd hins
    cases hr : (Executive.erase a n).fault with
    | some f => simp only [hr] at hok; exact absurd hok (by simp)
    | none =>
      simp only [hr] at hok ⊢
      have h1 := Executive.erase_scheduled a n self own hs hr
      refine Executive.structural_scheduled start self chi own haddr ops _ hnd ?_ h1.1 hok
      intro m2 hm2
      rw [h1.2]
      exact hins m2 hm2

theorem Executive.finish_heapOk (a : Nat) (c : Core T V) (st : S) (chi : Chi T V C)
    (n : ExecNet T V S C) (t : T) (log : List (Event T))
    (hs : n.heap.Scheduled a (some (chi.chi_heapid, chi.chi_tn)) (n.kids.map Model.key))
    (hok : (Executive.finish a c st chi n t log).fault = none) :
    (Executive.finish a c st chi n t log).state.HeapOk := by
  obtain ⟨top, htop, heq⟩ := Executive.finish_ok a c st chi n t log hok
  rw [heq]
  refine ⟨hs, ?_⟩
  intro e he
  rw [htop] at he
  simp only [Option.some.injEq] at he
  rw [he]

theorem Executive.transition_heapOk_executive (D : Dynamics T V S C) (hS : D.Disciplined)
    (start : Model T V S C → C → T → Run (Model T V S C) T)
    (tr : Model T V S C → T → Run (Model T V S C) T) (a : Nat) (c : Core T V) (st : S)
    (chi : Chi T V C) (hp : HeapType T) (l : List Nat) (ks : List (Model T V S C)) (t : T)
    (haddr : ∀ k common, (start k common t).state.addr = k.addr)
    (htr : ∀ k, (tr k t).state.addr = k.addr ∧ (tr k t).state.core.heapid = k.core.heapid)
    (h : Model.HeapOk (.executive a c st chi hp l ks))
    (hok : (Executive.transition D TransitionPolicyDefault start tr a c st chi hp l ks t).fault
      = none) :
    (Executive.transition D TransitionPolicyDefault start tr a c st chi hp l ks
      t).state.HeapOk := by
  unfold Executive.transition at hok ⊢
  by_cases hg : ¬ (c.tl ≤ t ∧ t ≤ c.tn)
  · rw [if_pos hg] at hok; exact absurd hok (by simp)
  · rw [if_neg hg] at hok ⊢
    by_cases hn : t < c.tn ∧ c.x.is_empty = true
    · rw [if_pos hn]; exact h
    · rw [if_neg hn] at hok ⊢
      simp only at hok ⊢
      cases hf : (TransitionPolicyDefault tr
          (Executive.bag a hp t (Executive.route D a c st l ks).last_output_list) t
          ⟨hp, (Executive.route D a c st l ks).kids⟩).fault with
      | some f => simp only [hf] at hok; exact absurd hok (by simp)
      | none =>
        simp only [hf] at hok ⊢
        have hrk := Executive.route_kids_key_executive D a c st l ks
        have hl := TransitionPolicyDefault.policy_scheduled tr t htr a
          (some (chi.chi_heapid, chi.chi_tn)) _
          ⟨hp, (Executive.route D a c st l ks).kids⟩ (by rw [hrk]; exact h.1) hf
        by_cases hc : Executive.have_chi a hp t
            (Executive.route D a c st l ks).last_output_list = true
        · rw [if_pos hc] at hok ⊢
          have hdisc := hS a (t - chi.chi_tl) (Executive.route D a c st l ks).core.x st
            ((TransitionPolicyDefault tr
              (Executive.bag a hp t (Executive.route D a c st l ks).last_output_list) t
              ⟨hp, (Executive.route D a c st l ks).kids⟩).state.kids.map Model.addr)
          have hstr := Executive.structural_scheduled start a
            ({ chi with chi_tl := t } : Chi T V C) (some (chi.chi_heapid, chi.chi_tn))
            (fun k => haddr k _)
            (D.structural a (t - chi.chi_tl) (Executive.route D a c st l ks).core.x st
              ((TransitionPolicyDefault tr
                (Executive.bag a hp t (Executive.route D a c st l ks).last_output_list) t
                ⟨hp, (Executive.route D a c st l ks).kids⟩).state.kids.map Model.addr))
            ⟨(TransitionPolicyDefault tr
                (Executive.bag a hp t (Executive.route D a c st l ks).last_output_list) t
                ⟨hp, (Executive.route D a c st l ks).kids⟩).state.heap, [],
              (TransitionPolicyDefault tr
                (Executive.bag a hp t (Executive.route D a c st l ks).last_output_list) t
                ⟨hp, (Executive.route D a c st l ks).kids⟩).state.kids⟩
            hdisc.1 (fun mdl hm => ⟨(hdisc.2 mdl hm).2.1, (hdisc.2 mdl hm).2.2⟩) hl.1
          revert hok
          cases hs : (Executive.structural start a { chi with chi_tl := t }
              (D.structural a (t - chi.chi_tl) (Executive.route D a c st l ks).core.x st
                ((TransitionPolicyDefault tr
                  (Executive.bag a hp t (Executive.route D a c st l ks).last_output_list) t
                  ⟨hp, (Executive.route D a c st l ks).kids⟩).state.kids.map Model.addr))
              ⟨(TransitionPolicyDefault tr
                  (Executive.bag a hp t (Executive.route D a c st l ks).last_output_list) t
                  ⟨hp, (Executive.route D a c st l ks).kids⟩).state.heap, [],
                (TransitionPolicyDefault tr
                  (Executive.bag a hp t (Executive.route D a c st l ks).last_output_list) t
                  ⟨hp, (Executive.route D a c st l ks).kids⟩).state.kids⟩).fault with
          | some f => intro hok; simp only at hok; exact absurd hok (by simp)
          | none =>
            simp only
            have hstr2 := hstr hs
            split
            · intro hok; exact absurd hok (by simp)
            · rename_i heap2 hset
              intro hok
              exact Executive.finish_heapOk _ _ _ _ _ _ _
                (HeapType.scheduled_setTn_own hstr2 hset).1 hok
        · rw [if_neg hc] at hok ⊢
          exact Executive.finish_heapOk _ _ _ _ _ _ _ hl.1 hok

/-- A `transition` that returns normally keeps the heap in agreement with the
children, under the sequential policy and a disciplined use of `insert`. -/
theorem Model.transitionN_heapOk (D : Dynamics T V S C) (hS : D.Disciplined) (t : T) (n : Nat)
    (m : Model T V S C) (h : m.HeapOk)
    (hok : (Model.transitionN D TransitionPolicyDefault n m t).fault = none) :
    (Model.transitionN D TransitionPolicyDefault n m t).state.HeapOk := by
  cases n with
  | zero => exact h
  | succ n =>
    cases m with
    | atomic a c st =>
      simp only [Model.transitionN, AtomicModel.transition]
      repeat' split
      all_goals exact True.intro
    | coupled a c st hp l ks =>
      exact CoupledModel.transition_heapOk_coupled D _ a c st hp l ks t
        (fun k => ⟨Model.transitionN_addr D _ n k t, Model.transitionN_heapid D _ n k t⟩) h hok
    | executive a c st chi hp l ks =>
      exact Executive.transition_heapOk_executive D hS _ _ a c st chi hp l ks t
        (fun k common => Model.startN_addr D _ k common t)
        (fun k => ⟨Model.transitionN_addr D _ n k t, Model.transitionN_heapid D _ n k t⟩) h hok

/-! ### `start` builds a heap that agrees with the children -/

theorem mem_setKid_of_ne {ks : List (Model T V S C)} {a : Nat} {m k : Model T V S C}
    (hk : k ∈ ks) (hne : k.addr ≠ a) : k ∈ setKid ks a m := by
  unfold setKid
  rw [List.mem_map]
  exact ⟨k, hk, by rw [if_neg (by simpa using hne)]⟩

theorem mem_setKid_self {ks : List (Model T V S C)} {a : Nat} {m k : Model T V S C}
    (hk : k ∈ ks) (he : k.addr = a) : m ∈ setKid ks a m := by
  unfold setKid
  rw [List.mem_map]
  exact ⟨k, hk, by rw [if_pos (by simpa using he)]⟩

/-- The keys of the children that are not in the list `cs`. -/
theorem mem_keys_filter (ks : List (Model T V S C)) (cs : List Nat)
    (k : Nat × Option Nat × T) :
    k ∈ (ks.filter (fun m => decide (m.addr ∉ cs))).map Model.key ↔
      ∃ m ∈ ks, m.addr ∉ cs ∧ m.key = k := by
  simp only [List.mem_map, List.mem_filter, decide_eq_true_eq, and_assoc]

theorem nodup_keys_filter {ks : List (Model T V S C)} (h : (ks.map Model.addr).Nodup)
    (cs : List Nat) :
    (((ks.filter (fun m => decide (m.addr ∉ cs))).map Model.key).map Prod.fst).Nodup := by
  rw [map_fst_key]
  exact List.Nodup.sublist (List.Sublist.map _ (List.filter_sublist _)) h

/-- The loop of `start` over the children: each child started is scheduled at a
new handle, and the heap agrees with the children started so far. -/
theorem startChildren_scheduled (start : Model T V S C → C → T → Run (Model T V S C) T)
    (self : Nat) (common : C) (t : T) (own : Option (Option Nat × T))
    (haddr : ∀ k, (start k common t).state.addr = k.addr) :
    ∀ (cs : List Nat) (n : Net T V S C), cs.Nodup →
      (n.kids.map Model.addr).Nodup → self ∉ n.kids.map Model.addr →
      n.heap.Scheduled self own
        ((n.kids.filter (fun m => decide (m.addr ∉ cs))).map Model.key) →
      (∀ k ∈ n.kids, k.addr ∉ cs → ∃ nd ∈ n.heap.nodes, nd.2.element = k.addr) →
      (startChildren start self common t cs n).fault = none →
      (startChildren start self common t cs n).state.heap.Scheduled self own
        ((startChildren start self common t cs n).state.kids.map Model.key) ∧
      (∀ k ∈ (startChildren start self common t cs n).state.kids,
        ∃ nd ∈ (startChildren start self common t cs n).state.heap.nodes,
          nd.2.element = k.addr)
  | [], n, _, _, _, hs, hex, _ => by
    have hfil : n.kids.filter (fun m => decide (m.addr ∉ ([] : List Nat))) = n.kids := by
      rw [List.filter_eq_self]
      intro m _
      simp
    rw [hfil] at hs
    exact ⟨hs, fun k hk => hex k hk (List.not_mem_nil _)⟩
  | a :: cs, n, hnd, hka, hself, hs, hex, hok => by
    unfold startChildren at hok ⊢
    cases hf : findKid n.kids a with
    | none => simp only [hf] at hok; exact absurd hok (by simp)
    | some child =>
      simp only [hf] at hok ⊢
      have hchild := findKid_mem hf
      cases hr : (start (child.mapCore (fun c => { c with parent := some self })) common
          t).fault with
      | some f => simp only [hr] at hok; exact absurd hok (by simp)
      | none =>
        simp only [hr] at hok ⊢
        have ha1 : (start (child.mapCore (fun c => { c with parent := some self })) common
            t).state.addr = a := by
          rw [haddr, Model.addr_mapCore, hchild.2]
        have hnd2 := List.nodup_cons.1 hnd
        have hmap : (setKid n.kids a ((start (child.mapCore
            (fun c => { c with parent := some self })) common t).state.mapCore
            (fun c => { c with heapid := some (n.heap.emplace a (start (child.mapCore
              (fun c => { c with parent := some self })) common t).state.core.tn).2 }))).map
            Model.addr = n.kids.map Model.addr :=
          map_addr_setKid (by rw [Model.addr_mapCore, ha1])
        have ham : a ∈ n.kids.map Model.addr := List.mem_map.2 ⟨child, hchild.1, hchild.2⟩
        obtain ⟨hnodes, _⟩ := HeapType.emplace_nodes hs.bound a
          (start (child.mapCore (fun c => { c with parent := some self })) common
            t).state.core.tn
        refine startChildren_scheduled start self common t own haddr cs _ hnd2.2
          (by rw [hmap]; exact hka) (by rw [hmap]; exact hself) ?_ ?_ hok
        · refine HeapType.scheduled_emplace hs a _ (fun h => hself (h ▸ ham)) ?_ ?_
            (nodup_keys_filter (by rw [hmap]; exact hka) cs)
          · intro hin
            rw [map_fst_key, List.mem_map] at hin
            obtain ⟨m, hm, hma⟩ := hin
            rw [List.mem_filter, decide_eq_true_eq] at hm
            exact hm.2 (hma ▸ List.mem_cons_self _ _)
          · intro k
            rw [mem_keys_filter, mem_keys_filter]
            constructor
            · rintro ⟨m, hm, hmcs, rfl⟩
              rcases mem_setKid hm with ⟨rfl, _⟩ | ⟨hkold, hne⟩
              · right
                simp only [Model.key, Model.addr_mapCore, Model.core_mapCore, ha1]
                rfl
              · left
                refine ⟨m, hkold, ?_, rfl⟩
                intro hin
                rcases List.mem_cons.1 hin with h | h
                · exact hne h
                · exact hmcs h
            · rintro (⟨m, hm, hmcs, rfl⟩ | rfl)
              · have hne : m.addr ≠ a := fun h => hmcs (h ▸ List.mem_cons_self _ _)
                exact ⟨m, mem_setKid_of_ne hm hne,
                  fun h => hmcs (List.mem_cons_of_mem _ h), rfl⟩
              · refine ⟨_, mem_setKid_self hchild.1 hchild.2, ?_, ?_⟩
                · rw [Model.addr_mapCore, ha1]
                  exact hnd2.1
                · simp only [Model.key, Model.addr_mapCore, Model.core_mapCore, ha1]
                  rfl
        · intro k hk hkcs
          show ∃ nd ∈ ((n.heap.emplace a _).1.modify (n.heap.emplace a _).2 _).nodes, _
          rw [hnodes]
          rcases mem_setKid hk with ⟨rfl, _⟩ | ⟨hkold, hne⟩
          · refine ⟨_, List.mem_append_right _ (List.mem_singleton_self _), ?_⟩
            rw [Model.addr_mapCore, ha1]
          · obtain ⟨nd, hnd3, he⟩ := hex k hkold (by
              intro hin
              rcases List.mem_cons.1 hin with h | h
              · exact hne h
              · exact hkcs h)
            exact ⟨nd, List.mem_append_left _ hnd3, he⟩

theorem filter_not_mem_addrs (ks : List (Model T V S C)) :
    ks.filter (fun m => decide (m.addr ∉ ks.map Model.addr)) = [] := by
  rw [List.filter_eq_nil_iff]
  intro m hm
  simp only [decide_eq_true_eq, not_not]
  exact List.mem_map_of_mem _ hm

/-- After `start` on a freshly constructed model the heap agrees with the
children and the `tn` of the model is the `tn` of the top of the heap. -/
theorem Model.startN_heapOk (D : Dynamics T V S C) (common : C) (t : T) (n : Nat)
    (m : Model T V S C) (hfr : Fresh m) (hok : (Model.startN D n m common t).fault = none) :
    (Model.startN D n m common t).state.HeapOk := by
  cases n with
  | zero => simp only [Model.startN] at hok; exact absurd hok (by simp)
  | succ n =>
    cases hfr with
    | atomic a c st hc =>
      simp only [Model.startN, AtomicModel.start]
      exact True.intro
    | coupled a c st hp ks hc hh hnd hna hk =>
      simp only [Model.startN, CoupledModel.start] at hok ⊢
      have hloop := startChildren_scheduled (Model.startN D n) a common t none
        (fun k => Model.startN_addr D n k common t) (ks.map Model.addr) ⟨hp, ks⟩ hnd hnd hna
        (by rw [filter_not_mem_addrs]; exact HeapType.scheduled_empty hh a)
        (fun k hkm hkn => absurd (List.mem_map_of_mem _ hkm) hkn)
      revert hok
      cases hf : (startChildren (Model.startN D n) a common t (ks.map Model.addr)
          ⟨hp, ks⟩).fault with
      | some f => intro hok; simp only at hok; exact absurd hok (by simp)
      | none =>
        simp only
        cases htop : (startChildren (Model.startN D n) a common t (ks.map Model.addr)
            ⟨hp, ks⟩).state.heap.top with
        | none => intro hok; simp only at hok; exact absurd hok (by simp)
        | some e =>
          intro _
          refine ⟨(hloop hf).1, (hloop hf).2, ?_⟩
          intro e2 he2
          rw [htop] at he2
          simp only [Option.some.injEq] at he2
          rw [← he2]
    | executive a c st chi hp ks hc hh hnd hna hk =>
      simp only [Model.startN, Executive.start] at hok ⊢
      have hloop := startChildren_scheduled (Model.startN D n) a common t
        (some (some (hp.emplace a (t + (D.init a common t st).1)).2,
          t + (D.init a common t st).1))
        (fun k => Model.startN_addr D n k common t) (ks.map Model.addr)
        ⟨(hp.emplace a (t + (D.init a common t st).1)).1.modify
          (hp.emplace a (t + (D.init a common t st).1)).2
          (fun el => { el with
            heapid := some (hp.emplace a (t + (D.init a common t st).1)).2 }), ks⟩
        hnd hnd hna
        (by rw [filter_not_mem_addrs]; exact HeapType.scheduled_own hh a _)
        (fun k hkm hkn => absurd (List.mem_map_of_mem _ hkm) hkn)
      revert hok
      cases hf : (startChildren (Model.startN D n) a common t (ks.map Model.addr)
          ⟨(hp.emplace a (t + (D.init a common t st).1)).1.modify
            (hp.emplace a (t + (D.init a common t st).1)).2
            (fun el => { el with
              heapid := some (hp.emplace a (t + (D.init a common t st).1)).2 }),
            ks⟩).fault with
      | some f => intro hok; simp only at hok; exact absurd hok (by simp)
      | none =>
        simp only
        cases htop : (startChildren (Model.startN D n) a common t (ks.map Model.addr)
            ⟨(hp.emplace a (t + (D.init a common t st).1)).1.modify
              (hp.emplace a (t + (D.init a common t st).1)).2
              (fun el => { el with
                heapid := some (hp.emplace a (t + (D.init a common t st).1)).2 }),
              ks⟩).state.heap.top with
        | none => intro hok; simp only at hok; exact absurd hok (by simp)
        | some e =>
          intro _
          refine ⟨(hloop hf).1, ?_⟩
          intro e2 he2
          rw [htop] at he2
          simp only [Option.some.injEq] at he2
          rw [← he2]

theorem Model.heapOk_mapCore (f : Core T V → Core T V) {m : Model T V S C} (h : m.HeapOk)
    (hf : (f m.core).tn = m.core.tn) : (m.mapCore f).HeapOk := by
  cases m with
  | atomic a c st => exact True.intro
  | coupled a c st hp l ks => exact heapOk_coupled_congr h hf rfl
  | executive a c st chi hp l ks => exact heapOk_executive_congr h hf rfl

/-- In every simulation state the heap agrees with the children and the `tn` of
the model is the `tn` of the top of the heap. -/
theorem Reachable.reachable_heapOk (D : Dynamics T V S C) (hS : D.Disciplined)
    {m : Model T V S C} (h : Reachable D TransitionPolicyDefault m) : m.HeapOk := by
  induction h with
  | start m common t hfr hok => exact Model.startN_heapOk D common t _ m hfr hok
  | output m t _ _ ih => exact Model.outputN_heapOk D t _ m ih
  | transition m t _ hok ih => exact Model.transitionN_heapOk D hS t _ m ih hok
  | input m x _ ih => exact Model.heapOk_mapCore _ ih rfl

/-- The entry of a child in a heap that agrees with the children: its handle is
the `heapid` of the child and of the entry, its `tn` is the `tn` of the child. -/
theorem HeapType.scheduled_child_entry {hp : HeapType T} {me : Nat}
    {own : Option (Option Nat × T)} {ks : List (Model T V S C)}
    (h : hp.Scheduled me own (ks.map Model.key)) {k : Model T V S C} (hk : k ∈ ks)
    {n : Nat × HeapElement T} (hn : n ∈ hp.nodes) (he : n.2.element = k.addr) :
    n.2.heapid = some n.1 ∧ k.core.heapid = some n.1 ∧ k.core.tn = n.2.tn := by
  have hka : k.addr ∈ (ks.map Model.key).map Prod.fst := by
    rw [map_fst_key]; exact List.mem_map_of_mem _ hk
  obtain ⟨hid, hor⟩ := h.entry n hn
  rcases hor with ho | hkey
  · exact absurd (ho.1 ▸ he ▸ hka) h.notSelf
  · obtain ⟨k2, hk2, hkey2⟩ := List.mem_map.1 hkey
    have hnd : (ks.map Model.addr).Nodup := by rw [← map_fst_key]; exact h.addrs
    have haddr : k2.addr = k.addr := by
      have := congrArg Prod.fst hkey2
      exact this.trans he
    have hkk := eq_of_map_nodup hnd hk2 hk haddr
    subst hkk
    simp only [Model.key, Prod.mk.injEq] at hkey2
    exact ⟨hid, hkey2.2.1, hkey2.2.2⟩

/-- C6, the claim as stated fails: the sample network after `start(0)` and
`start(10)`, two calls that do not fail, has `tn = 2`, the `tn` of the top of its
heap, while its children have `tn = 12` and `tn = infinity`. -/
theorem C6_counterexample :
    (Model.start Sample.dynamics Sample.network () (.fin 0)).fault = none ∧
    (Model.start Sample.dynamics Sample.started () (.fin 10)).fault = none ∧
    Sample.restarted.core.tn = .fin 2 ∧
    Sample.restarted.heap.top.map (fun e => e.tn) = some (.fin 2) ∧
    Sample.restarted.kids.map (fun k => k.core.tn) = [.fin 12, .pinf] ∧
    ¬ ∃ k ∈ Sample.restarted.kids, k.core.tn = Sample.restarted.core.tn := by
  decide

/-- C6, amended. A coupled model with at least one child, in a state reached by
`start`, called once on the freshly constructed model, followed by any calls of
`output` and `transition` (sequential policy) that return normally: its heap is
not empty, its `tn` is the `tn` of the top of the heap, and that is the minimum
of the `tn` of its children (no child has a smaller `tn`, one child has it). -/
theorem C6_coupled_tn_min (D : Dynamics T V S C) (hS : D.Disciplined) (a : Nat)
    (c : Core T V) (st : S) (hp : HeapType T) (l : List Nat) (ks : List (Model T V S C))
    (hr : Reachable D TransitionPolicyDefault (.coupled a c st hp l ks)) (hne : ks ≠ []) :
    (∃ e, hp.top = some e ∧ c.tn = e.tn) ∧
    (∀ k ∈ ks, c.tn ≤ k.core.tn) ∧ ∃ k ∈ ks, k.core.tn = c.tn := by
  obtain ⟨h1, h2, h3⟩ := Reachable.reachable_heapOk D hS hr
  obtain ⟨k0, hk0⟩ := List.exists_mem_of_ne_nil ks hne
  obtain ⟨n0, hn0, _⟩ := h2 k0 hk0
  obtain ⟨e, he⟩ := HeapType.top_isSome (List.ne_nil_of_mem hn0)
  have hc := h3 e he
  refine ⟨⟨e, he, hc⟩, ?_, ?_⟩
  · intro k hk
    obtain ⟨n, hn, hne2⟩ := h2 k hk
    rw [hc, (HeapType.scheduled_child_entry h1 hk hn hne2).2.2]
    exact HeapType.top_le he n hn
  · obtain ⟨n, hn, hne2⟩ := HeapType.top_mem he
    obtain ⟨_, hor⟩ := h1.entry n hn
    rcases hor with ho | hkey
    · exact absurd ho.2 (by simp)
    · obtain ⟨k, hk, hkey2⟩ := List.mem_map.1 hkey
      simp only [Model.key, Prod.mk.injEq] at hkey2
      exact ⟨k, hk, by rw [hkey2.2.2, hne2, hc]⟩

/-- C6 amended, on the sample network after `start(0)` and `output(2)`: `tn = 2`,
the `tn` of the generator. -/
theorem C6_coupled_tn_min_witness :
    (∃ e, Sample.afterOutput.heap.top = some e ∧ Sample.afterOutput.core.tn = e.tn) ∧
    (∀ k ∈ Sample.afterOutput.kids, Sample.afterOutput.core.tn ≤ k.core.tn) ∧
    ∃ k ∈ Sample.afterOutput.kids, k.core.tn = Sample.afterOutput.core.tn :=
  C6_coupled_tn_min Sample.dynamics Sample.disciplined 0 Sample.afterOutput.core 0
    Sample.afterOutput.heap Sample.afterOutput.last_output_list Sample.afterOutput.kids
    Sample.reachable_afterOutput
    (fun h => absurd (congrArg List.length h) (by decide))

/-- C7, the claim as stated fails: in the sample network after `start(0)` and
`start(10)`, two calls that do not fail, the generator (address 1, `tn = 12`,
`heapid = 2`) has two heap entries, and the first has `tn = 2` and `heapid = 0`. -/
theorem C7_counterexample :
    (Model.start Sample.dynamics Sample.network () (.fin 0)).fault = none ∧
    (Model.start Sample.dynamics Sample.started () (.fin 10)).fault = none ∧
    (Sample.restarted.kids.map Model.key).head? = some (1, some 2, .fin 12) ∧
    (Sample.restarted.heap.nodes.filter (fun n => n.2.element == 1)).map
        (fun n => (n.2.heapid, n.2.tn))
      = [(some 0, .fin 2), (some 2, .fin 12)] := by
  decide

/-- C7, amended. A model in a state reached by `start`, called once on the
freshly constructed model, followed by any calls of `output` and `transition`
(sequential policy, the executives insert freshly constructed models that they do
not hold yet) that return normally: a child with a heap entry has no other heap
entry, the `heapid` of the entry is the handle of the entry and the `heapid` of
the child, and the `tn` of the entry is the `tn` of the child.  Every child of a
coupled model has a heap entry. -/
theorem C7_heap_entries (D : Dynamics T V S C) (hS : D.Disciplined) (m : Model T V S C)
    (hr : Reachable D TransitionPolicyDefault m) :
    (∀ k ∈ m.kids, ∀ n ∈ m.heap.nodes, n.2.element = k.addr →
      n.2.heapid = k.core.heapid ∧ n.2.heapid = some n.1 ∧ n.2.tn = k.core.tn ∧
      ∀ n2 ∈ m.heap.nodes, n2.2.element = k.addr → n2 = n) ∧
    (∀ a c st hp l ks, m = .coupled a c st hp l ks →
      ∀ k ∈ ks, ∃ n ∈ hp.nodes, n.2.element = k.addr) := by
  have h := Reachable.reachable_heapOk D hS hr
  cases m with
  | atomic a c st =>
    exact ⟨fun k hk => absurd hk (List.not_mem_nil _), fun _ _ _ _ _ _ hm => by cases hm⟩
  | coupled a c st hp l ks =>
    refine ⟨?_, ?_⟩
    · intro k hk n hn he
      obtain ⟨e1, e2, e3⟩ := HeapType.scheduled_child_entry h.1 hk hn he
      exact ⟨e1.trans e2.symm, e1, e3.symm,
        fun n2 hn2 he2 => eq_of_map_nodup h.1.elements hn2 hn (he2.trans he.symm)⟩
    · intro a2 c2 st2 hp2 l2 ks2 hm
      cases hm
      exact h.2.1
  | executive a c st chi hp l ks =>
    refine ⟨?_, fun _ _ _ _ _ _ hm => by cases hm⟩
    intro k hk n hn he
    obtain ⟨e1, e2, e3⟩ := HeapType.scheduled_child_entry h.1 hk hn he
    exact ⟨e1.trans e2.symm, e1, e3.symm,
      fun n2 hn2 he2 => eq_of_map_nodup h.1.elements hn2 hn (he2.trans he.symm)⟩

/-- C7 amended, on the sample network after `start(0)` and `output(2)`. -/
theorem C7_heap_entries_witness :
    (∀ k ∈ Sample.afterOutput.kids, ∀ n ∈ Sample.afterOutput.heap.nodes,
      n.2.element = k.addr →
      n.2.heapid = k.core.heapid ∧ n.2.heapid = some n.1 ∧ n.2.tn = k.core.tn ∧
      ∀ n2 ∈ Sample.afterOutput.heap.nodes, n2.2.element = k.addr → n2 = n) ∧
    (∀ a c st hp l ks, Sample.afterOutput = .coupled a c st hp l ks →
      ∀ k ∈ ks, ∃ n ∈ hp.nodes, n.2.element = k.addr) :=
  C7_heap_entries Sample.dynamics Sample.disciplined Sample.afterOutput
    Sample.reachable_afterOutput

/-! ### The output bundles after `output` -/

theorem PortList.clear_consistent {V : Type} (p : PortList V) : p.clear.Consistent :=
  fun _ => p.clear_allEmpty

/-- The loop of `output`: every model reached is in `lst` or has an empty `y`
after its `output`, and the flags of the bundles do not overstate. -/
theorem outputChildren_inspected (D : Dynamics T V S C)
    (hL : ∀ a st y, y.Consistent → (D.lambda a st y).Consistent)
    (out : Model T V S C → T → Run (Model T V S C) T) (self : Option Nat) (st : S)
    (heap : HeapType T) (t : T)
    (hout : ∀ k, (out k t).state.addr = k.addr ∧
      (k.core.y.Consistent → (out k t).state.core.y.Consistent)) :
    ∀ (its : List (HeapElement T)) (s : OutState T V S C) (A : Nat → Prop) (B : Prop),
      (∀ k ∈ s.kids, k.core.y.Consistent) → s.y.Consistent →
      (∀ k ∈ s.kids, A k.addr → k.addr ∈ s.lst ∨ k.core.y.is_empty = true) →
      (∀ a, self = some a → B → a ∈ s.lst ∨ s.y.is_empty = true) →
      (outputChildren D out self st heap t its s).fault = none →
      (∀ k ∈ (outputChildren D out self st heap t its s).state.kids, k.core.y.Consistent) ∧
      (outputChildren D out self st heap t its s).state.y.Consistent ∧
      (∀ k ∈ (outputChildren D out self st heap t its s).state.kids,
        (A k.addr ∨ (heap.Inspects its k.addr ∧ self ≠ some k.addr)) →
        k.addr ∈ (outputChildren D out self st heap t its s).state.lst ∨
          k.core.y.is_empty = true) ∧
      (∀ a, self = some a → (B ∨ heap.Inspects its a) →
        a ∈ (outputChildren D out self st heap t its s).state.lst ∨
          (outputChildren D out self st heap t its s).state.y.is_empty = true)
  | [], s, A, B, hk, hy, hA, hB, _ => by
    refine ⟨hk, hy, ?_, ?_⟩
    · rintro k hkm (h | ⟨⟨it, hit, _⟩, _⟩)
      · exact hA k hkm h
      · cases hit
    · rintro a ha (h | ⟨it, hit, _⟩)
      · exact hB a ha h
      · cases hit
  | it :: its, s, A, B, hk, hy, hA, hB, hok => by
    unfold outputChildren at hok ⊢
    cases hid : it.heapid with
    | none => simp only [hid] at hok; exact absurd hok (by simp)
    | some id =>
      simp only [hid] at hok ⊢
      cases hd : heap.deref id with
      | none => simp only [hd] at hok; exact absurd hok (by simp)
      | some el =>
        simp only [hd] at hok ⊢
        have hins : ∀ a, heap.Inspects (it :: its) a → a = el.element ∨ heap.Inspects its a := by
          rintro a ⟨it2, hit2, id2, el2, h1, h2, h3⟩
          rcases List.mem_cons.1 hit2 with rfl | hmem
          · left
            rw [hid] at h1
            simp only [Option.some.injEq] at h1
            subst h1
            rw [hd] at h2
            simp only [Option.some.injEq] at h2
            subst h2
            exact h3.symm
          · exact Or.inr ⟨it2, hmem, id2, el2, h1, h2, h3⟩
        by_cases hself : self = some el.element
        · rw [if_pos hself] at hok ⊢
          simp only at hok ⊢
          have ih := outputChildren_inspected D hL out self st heap t hout its
            ⟨D.lambda el.element st s.y, s.kids,
              if (D.lambda el.element st s.y).is_empty = true then s.lst
              else setInsert el.element s.lst⟩ A True hk (hL _ _ _ hy)
            (by
              intro k hkm hAk
              rcases hA k hkm hAk with h | h
              · left
                show k.addr ∈ (if _ then _ else _)
                split
                · exact h
                · exact mem_setInsert.2 (Or.inr h)
              · exact Or.inr h)
            (by
              intro a ha _
              rw [hself] at ha
              simp only [Option.some.injEq] at ha
              subst ha
              by_cases he : (D.lambda el.element st s.y).is_empty = true
              · exact Or.inr he
              · left
                show el.element ∈ (if _ then _ else _)
                rw [if_neg he]
                exact mem_setInsert.2 (Or.inl rfl))
            hok
          refine ⟨ih.1, ih.2.1, ?_, ?_⟩
          · rintro k hkm (h | ⟨h, hne⟩)
            · exact ih.2.2.1 k hkm (Or.inl h)
            · rcases hins _ h with h2 | h2
              · exact absurd (h2 ▸ hself) hne
              · exact ih.2.2.1 k hkm (Or.inr ⟨h2, hne⟩)
          · intro a ha _
            exact ih.2.2.2 a ha (Or.inl True.intro)
        · rw [if_neg hself] at hok ⊢
          cases hf : findKid s.kids el.element with
          | none => simp only [hf] at hok; exact absurd hok (by simp)
          | some mdl =>
            simp only [hf] at hok ⊢
            have hmdl := findKid_mem hf
            cases hr : (out mdl t).fault with
            | some f => simp only [hr] at hok; exact absurd hok (by simp)
            | none =>
              simp only [hr] at hok ⊢
              have hra : (out mdl t).state.addr = el.element := by
                rw [(hout mdl).1, hmdl.2]
              have ih := outputChildren_inspected D hL out self st heap t hout its
                ⟨s.y, setKid s.kids el.element (out mdl t).state,
                  if (out mdl t).state.core.y.is_empty = true then s.lst
                  else setInsert el.element s.lst⟩
                (fun a => A a ∨ a = el.element) B
                (by
                  intro k hkm
                  rcases mem_setKid hkm with ⟨rfl, _⟩ | ⟨hkold, _⟩
                  · exact (hout mdl).2 (hk mdl hmdl.1)
                  · exact hk k hkold)
                hy
                (by
                  intro k hkm hAk
                  rcases mem_setKid hkm with ⟨rfl, _⟩ | ⟨hkold, hne⟩
                  · by_cases he : (out mdl t).state.core.y.is_empty = true
                    · exact Or.inr he
                    · left
                      show _ ∈ (if _ then _ else _)
                      rw [if_neg he, hra]
                      exact mem_setInsert.2 (Or.inl rfl)
                  · rcases hAk with hAk | hAk
                    · rcases hA k hkold hAk with h | h
                      · left
                        show k.addr ∈ (if _ then _ else _)
                        split
                        · exact h
                        · exact mem_setInsert.2 (Or.inr h)
                      · exact Or.inr h
                    · exact absurd hAk hne)
                (by
                  intro a ha hb
                  rcases hB a ha hb with h | h
                  · left
                    show a ∈ (if _ then _ else _)
                    split
                    · exact h
                    · exact mem_setInsert.2 (Or.inr h)
                  · exact Or.inr h)
                hok
              refine ⟨ih.1, ih.2.1, ?_, ?_⟩
              · rintro k hkm (h | ⟨h, hne⟩)
                · exact ih.2.2.1 k hkm (Or.inl (Or.inl h))
                · rcases hins _ h with h2 | h2
                  · exact ih.2.2.1 k hkm (Or.inl (Or.inr h2))
                  · exact ih.2.2.1 k hkm (Or.inr ⟨h2, hne⟩)
              · rintro a ha (h | h)
                · exact ih.2.2.2 a ha (Or.inl h)
                · rcases hins _ h with h2 | h2
                  · exact absurd (h2 ▸ ha) hself
                  · exact ih.2.2.2 a ha (Or.inr h2)

theorem HeapType.empty_of_top {h : HeapType T} {e : HeapElement T} (he : h.top = some e) :
    h.empty = false := by
  obtain ⟨n, hn, _⟩ := HeapType.top_mem he
  unfold HeapType.empty
  cases hnodes : h.nodes with
  | nil => rw [hnodes] at hn; cases hn
  | cons _ _ => rfl

/-- When the `tn` of the top is `tn`, the loop `do .. while` of `output` visits
the entries that the loop `for` over the imminent entries visits. -/
theorem HeapType.outputEntries_eq_imminent {h : HeapType T} {e : HeapElement T} {tn : T}
    (he : h.top = some e) (htn : e.tn = tn) : h.outputEntries tn = h.imminent tn := by
  unfold HeapType.top at he
  unfold HeapType.outputEntries HeapType.imminent
  cases ho : h.ordered with
  | nil => rw [ho] at he; cases he
  | cons it rest =>
    rw [ho] at he
    simp only [List.head?_cons, Option.some.injEq] at he
    subst he
    rw [List.takeWhile_cons_of_pos (by simpa using htn)]

/-- The entries that the loop of `output` visits are the entries of the heap
whose `tn` is the `tn` of the top. -/
theorem HeapType.mem_outputEntries {h : HeapType T} {e0 : HeapElement T} {tn : T}
    (he : h.top = some e0) (htn : e0.tn = tn) (e : HeapElement T) :
    e ∈ h.outputEntries tn ↔ (∃ n ∈ h.nodes, n.2 = e) ∧ e.tn = tn := by
  rw [HeapType.outputEntries_eq_imminent he htn]
  apply HeapType.mem_imminent
  intro e1 he1
  rw [he] at he1
  simp only [Option.some.injEq] at he1
  rw [← he1, htn]

theorem outputChildren_y (D : Dynamics T V S C)
    (hL : ∀ a st y, y.Consistent → (D.lambda a st y).Consistent)
    (out : Model T V S C → T → Run (Model T V S C) T) (self : Option Nat) (st : S)
    (heap : HeapType T) (t : T) :
    ∀ (its : List (HeapElement T)) (s : OutState T V S C), s.y.Consistent →
      (outputChildren D out self st heap t its s).state.y.Consistent
  | [], s, hy => hy
  | it :: its, s, hy => by
    simp only [outputChildren]
    split
    · exact hy
    · split
      · exact hy
      · split
        · exact outputChildren_y D hL out self st heap t its _ (hL _ _ _ hy)
        · split
          · exact hy
          · split
            · exact hy
            · exact outputChildren_y D hL out self st heap t its _ hy

theorem CoupledModel.output_consistent_coupled (D : Dynamics T V S C) (hD : D.FlagsKept)
    (out : Model T V S C → T → Run (Model T V S C) T)
    (a : Nat) (c : Core T V) (st : S) (hp : HeapType T) (l : List Nat)
    (ks : List (Model T V S C)) (t : T) (hy : c.y.Consistent) :
    (CoupledModel.output D out a c st hp l ks t).state.core.y.Consistent := by
  have hloop := outputChildren_y D hD.1 out none st hp t (hp.outputEntries c.tn)
    ⟨c.y, ks, []⟩ hy
  simp only [CoupledModel.output]
  repeat' split
  all_goals first
    | exact hy
    | exact hloop
    | exact hD.2 _ _ _ _ _ _ hloop

theorem Executive.output_consistent_executive (D : Dynamics T V S C) (hD : D.FlagsKept)
    (out : Model T V S C → T → Run (Model T V S C) T)
    (a : Nat) (c : Core T V) (st : S) (chi : Chi T V C) (hp : HeapType T) (l : List Nat)
    (ks : List (Model T V S C)) (t : T) (hy : c.y.Consistent) :
    (Executive.output D out a c st chi hp l ks t).state.core.y.Consistent := by
  have hloop := outputChildren_y D hD.1 out (some a) st hp t (hp.outputEntries c.tn)
    ⟨c.y, ks, []⟩ hy
  simp only [Executive.output]
  repeat' split
  all_goals first
    | exact hy
    | exact hloop
    | exact PortList.clear_consistent _
    | exact hD.2 _ _ _ _ _ _ hloop

/-- A call of `output` leaves the flag of the output bundle of the model not
overstating. -/
theorem Model.outputN_consistent (D : Dynamics T V S C) (hD : D.FlagsKept) (n : Nat)
    (m : Model T V S C) (t : T) (hy : m.core.y.Consistent) :
    (Model.outputN D n m t).state.core.y.Consistent := by
  cases n with
  | zero => exact hy
  | succ n =>
    cases m with
    | atomic a c st =>
      simp only [Model.outputN, AtomicModel.output]
      split
      · exact hD.1 _ _ _ hy
      · exact hy
    | coupled a c st hp l ks => exact CoupledModel.output_consistent_coupled D hD _ a c st hp l ks t hy
    | executive a c st chi hp l ks =>
      exact Executive.output_consistent_executive D hD _ a c st chi hp l ks t hy

/-- After `post` and the loop `child->y.clear()` over `lst`, a model that is in
`lst` or had an empty `y` has an empty `y`. -/
theorem clearOutputs_applyPost_empty (D : Dynamics T V S C) (a : Nat) (st : S) (c : Core T V)
    (ks : List (Model T V S C)) (lst l : List Nat)
    (hk : ∀ k ∈ ks, k.core.y.Consistent) (e : Nat)
    (hdone : ∀ k ∈ ks, k.addr = e → k.addr ∈ lst ∨ k.core.y.is_empty = true) :
    ∀ k ∈ clearOutputs lst (applyPost D a st c ks lst l).kids, k.addr = e →
      k.core.y.is_empty = true ∧ k.core.y.allEmpty := by
  intro k hkm hke
  simp only [clearOutputs, applyPost, List.map_map, List.mem_map, Function.comp] at hkm
  obtain ⟨k0, hk0, rfl⟩ := hkm
  simp only [Model.addr_mapCore] at hke ⊢
  by_cases hin : k0.addr ∈ lst
  · rw [if_pos hin]
    simp only [Model.core_mapCore]
    exact ⟨rfl, PortList.clear_allEmpty _⟩
  · rw [if_neg hin] at hke ⊢
    simp only [Model.addr_mapCore] at hke
    simp only [Model.core_mapCore]
    rcases hdone k0 hk0 hke with h | h
    · exact absurd h hin
    · exact ⟨h, hk k0 hk0 h⟩

theorem HeapType.inspects_of_node {h : HeapType T} {top : HeapElement T} {tn : T}
    (he : h.top = some top) (htn : top.tn = tn) {n : Nat × HeapElement T} (hn : n ∈ h.nodes)
    (hntn : n.2.tn = tn) {id : Nat} {el : HeapElement T} (hid : n.2.heapid = some id)
    (hd : h.deref id = some el) : h.Inspects (h.outputEntries tn) el.element :=
  ⟨n.2, (HeapType.mem_outputEntries he htn n.2).2 ⟨⟨n, hn, rfl⟩, hntn⟩, id, el, hid, hd, rfl⟩

theorem CoupledModel.output_inspected_coupled (D : Dynamics T V S C) (hD : D.FlagsKept)
    (out : Model T V S C → T → Run (Model T V S C) T)
    (a : Nat) (c : Core T V) (st : S) (hp : HeapType T) (l : List Nat)
    (ks : List (Model T V S C)) (t : T)
    (hout : ∀ k, (out k t).state.addr = k.addr ∧
      (k.core.y.Consistent → (out k t).state.core.y.Consistent))
    (hk : ∀ k ∈ ks, k.core.y.Consistent) (hy : c.y.Consistent)
    (hok : (CoupledModel.output D out a c st hp l ks t).fault = none) (e : Nat)
    (hi : ∀ top, hp.top = some top → top.tn = c.tn → t = c.tn →
      hp.Inspects (hp.outputEntries c.tn) e) :
    ∀ k ∈ (CoupledModel.output D out a c st hp l ks t).state.kids, k.addr = e →
      k.core.y.is_empty = true ∧ k.core.y.allEmpty := by
  unfold CoupledModel.output at hok ⊢
  cases htop : hp.top with
  | none => simp only [htop] at hok; exact absurd hok (by simp)
  | some top =>
    simp only [htop] at hok ⊢
    by_cases g1 : ¬ (t = top.tn)
    · rw [if_pos g1] at hok; exact absurd hok (by simp)
    · rw [if_neg g1] at hok ⊢
      by_cases g2 : ¬ (c.tn = top.tn)
      · rw [if_pos g2] at hok; exact absurd hok (by simp)
      · rw [if_neg g2] at hok ⊢
        have g1b : t = top.tn := not_not.1 g1
        have g2b : c.tn = top.tn := not_not.1 g2
        have g3 : t = c.tn ∧ hp.empty = false :=
          ⟨g1b.trans g2b.symm, HeapType.empty_of_top htop⟩
        rw [if_pos g3] at hok ⊢
        have hloop := outputChildren_inspected D hD.1 out none st hp t hout
          (hp.outputEntries c.tn) ⟨c.y, ks, []⟩ (fun _ => False) False hk hy
          (fun _ _ h => absurd h id) (fun _ h => by cases h)
        revert hok
        cases hf : (outputChildren D out none st hp t (hp.outputEntries c.tn)
            ⟨c.y, ks, []⟩).fault with
        | some f => intro hok; simp only at hok; exact absurd hok (by simp)
        | none =>
          intro _
          simp only [Model.kids]
          have h := hloop hf
          refine clearOutputs_applyPost_empty D a st _ _ _ l h.1 e ?_
          intro k hkm hke
          exact h.2.2.1 k hkm
            (Or.inr ⟨hke ▸ hi top htop g2b.symm g3.1, fun hn => by cases hn⟩)

theorem Executive.output_inspected_executive (D : Dynamics T V S C) (hD : D.FlagsKept)
    (out : Model T V S C → T → Run (Model T V S C) T)
    (a : Nat) (c : Core T V) (st : S) (chi : Chi T V C) (hp : HeapType T) (l : List Nat)
    (ks : List (Model T V S C)) (t : T)
    (hout : ∀ k, (out k t).state.addr = k.addr ∧
      (k.core.y.Consistent → (out k t).state.core.y.Consistent))
    (hk : ∀ k ∈ ks, k.core.y.Consistent) (hy : c.y.Consistent)
    (hok : (Executive.output D out a c st chi hp l ks t).fault = none) (e : Nat)
    (hi : ∀ top, hp.top = some top → top.tn = c.tn → t = c.tn →
      hp.Inspects (hp.outputEntries c.tn) e) :
    (e ≠ a → ∀ k ∈ (Executive.output D out a c st chi hp l ks t).state.kids, k.addr = e →
      k.core.y.is_empty = true ∧ k.core.y.allEmpty) ∧
    (e = a → D.PostKeepsY a →
      (Executive.output D out a c st chi hp l ks t).state.core.y.is_empty = true ∧
      (Executive.output D out a c st chi hp l ks t).state.core.y.allEmpty) := by
  unfold Executive.output at hok ⊢
  cases htop : hp.top with
  | none => simp only [htop] at hok; exact absurd hok (by simp)
  | some top =>
    simp only [htop] at hok ⊢
    by_cases g1 : ¬ (t = top.tn)
    · rw [if_pos g1] at hok; exact absurd hok (by simp)
    · rw [if_neg g1] at hok ⊢
      by_cases g2 : ¬ (c.tn = top.tn)
      · rw [if_pos g2] at hok; exact absurd hok (by simp)
      · rw [if_neg g2] at hok ⊢
        have g1b : t = top.tn := not_not.1 g1
        have g2b : c.tn = top.tn := not_not.1 g2
        have g3 : t = c.tn ∧ hp.empty = false :=
          ⟨g1b.trans g2b.symm, HeapType.empty_of_top htop⟩
        rw [if_pos g3] at hok ⊢
        have hloop := outputChildren_inspected D hD.1 out (some a) st hp t hout
          (hp.outputEntries c.tn) ⟨c.y, ks, []⟩ (fun _ => False) False hk hy
          (fun _ _ h => absurd h id) (fun _ _ h => absurd h id)
        have hins := hi top htop g2b.symm g3.1
        revert hok
        cases hf : (outputChildren D out (some a) st hp t (hp.outputEntries c.tn)
            ⟨c.y, ks, []⟩).fault with
        | some f => intro hok; simp only at hok; exact absurd hok (by simp)
        | none =>
          intro _
          simp only [Model.kids, Model.core]
          have h := hloop hf
          constructor
          · intro hne
            refine clearOutputs_applyPost_empty D a st _ _ _ l h.1 e ?_
            intro k hkm hke
            exact h.2.2.1 k hkm
              (Or.inr ⟨hke ▸ hins, fun hn => hne (by
                simp only [Option.some.injEq] at hn
                rw [← hke, hn])⟩)
          · intro hea hpost
            subst hea
            by_cases hin : e ∈ (outputChildren D out (some e) st hp t
                (hp.outputEntries c.tn) ⟨c.y, ks, []⟩).state.lst
            · rw [if_pos hin]
              exact ⟨rfl, PortList.clear_allEmpty _⟩
            · rw [if_neg hin]
              simp only [applyPost]
              rw [hpost]
              rcases h.2.2.2 e rfl (Or.inr hins) with h2 | h2
              · exact absurd h2 hin
              · exact ⟨h2, h.2.1 h2⟩

theorem Sample.flagsKept : Sample.dynamics.FlagsKept := by
  constructor
  · intro a st y hy
    simp only [Sample.dynamics]
    split
    · intro h
      cases h
    · exact hy
  · intro a st self kids out lol hy
    simp only [Sample.dynamics]
    split <;> exact hy

/-- C10. A call `output(t)` of a coupled model or executive that returns without
error, when the hooks write the output bundles through the accessors of
`PortList` and the flags of the output bundles of the model and of its children
do not overstate on entry.  For every heap entry with `tn = t` (the entries that
the loop visits), `mdl` being the element of the entry that its `heapid`
designates: on return the child `mdl` has `y.is_empty()` and every list of its
`y` is empty, whatever `post` wrote into the bundles `x`; when `mdl` is the
executive itself the same holds of the executive, if its `post` does not write
its own `y`. -/
theorem C10_output_consumed (D : Dynamics T V S C) (hD : D.FlagsKept) (m : Model T V S C)
    (t : T) (hk : ∀ k ∈ m.kids, k.core.y.Consistent) (hy : m.core.y.Consistent)
    (hok : (Model.output D m t).fault = none)
    (n : Nat × HeapElement T) (hn : n ∈ m.heap.nodes) (htn : n.2.tn = t)
    (id : Nat) (el : HeapElement T) (hid : n.2.heapid = some id)
    (hd : m.heap.deref id = some el) :
    (m.selfEntry ≠ some el.element →
      ∀ k ∈ (Model.output D m t).state.kids, k.addr = el.element →
        k.core.y.is_empty = true ∧ k.core.y.allEmpty) ∧
    (m.selfEntry = some el.element → D.PostKeepsY el.element →
      (Model.output D m t).state.core.y.is_empty = true ∧
      (Model.output D m t).state.core.y.allEmpty) := by
  have hout : ∀ k : Model T V S C, (Model.outputN D m.depth k t).state.addr = k.addr ∧
      (k.core.y.Consistent → (Model.outputN D m.depth k t).state.core.y.Consistent) :=
    fun k => ⟨Model.outputN_addr D _ k t, Model.outputN_consistent D hD _ k t⟩
  cases m with
  | atomic a c st => cases hn
  | coupled a c st hp l ks =>
    refine ⟨fun _ => ?_, fun h => by cases h⟩
    exact CoupledModel.output_inspected_coupled D hD _ a c st hp l ks t hout hk hy hok el.element
      (fun top htop htt htc =>
        HeapType.inspects_of_node htop htt hn (htn.trans htc) hid hd)
  | executive a c st chi hp l ks =>
    have h := Executive.output_inspected_executive D hD _ a c st chi hp l ks t hout hk hy hok el.element
      (fun top htop htt htc =>
        HeapType.inspects_of_node htop htt hn (htn.trans htc) hid hd)
    constructor
    · intro hne
      exact h.1 (fun he => hne (by rw [he]; rfl))
    · intro he hpost
      simp only [Model.selfEntry, Option.some.injEq] at he
      exact h.2 he.symm (he ▸ hpost)

/-- C10, on the started sample network: `output(2)` reaches the generator
(address 1), whose `lambda` writes a value; on return the `y` of the generator is
empty and the accumulator has received the value. -/
theorem C10_output_consumed_witness :
    (∀ k ∈ Sample.afterOutput.kids, k.addr = 1 →
      k.core.y.is_empty = true ∧ k.core.y.allEmpty) ∧
    Sample.afterOutput.kids.map (fun k => k.core.x.ports) = [[[]], [[1]]] :=
  ⟨(C10_output_consumed Sample.dynamics Sample.flagsKept Sample.started (.fin 2)
      (by
        intro k hk
        simp only [PortList.Consistent, PortList.allEmpty]
        revert k
        decide)
      (by simp only [PortList.Consistent, PortList.allEmpty]; decide)
      (by decide) (0, ⟨1, .fin 2, some 0⟩)
      (by
        have h : Sample.started.heap.nodes
            = [(0, ⟨1, .fin 2, some 0⟩), (1, ⟨2, .pinf, some 1⟩)] := rfl
        rw [h]
        exact List.mem_cons_self _ _)
      rfl 0 ⟨1, .fin 2, some 0⟩ rfl rfl).1
      (by decide),
    by decide⟩

/-! ### The depth counter of `output` -/

theorem Model.depth_mapCore (f : Core T V → Core T V) (m : Model T V S C) :
    (m.mapCore f).depth = m.depth := by
  cases m <;> simp only [Model.mapCore, Model.depth]

theorem Model.depth_le_depthList {k : Model T V S C} :
    ∀ {ks : List (Model T V S C)}, k ∈ ks → k.depth ≤ Model.depthList ks
  | k0 :: ks, h => by
    simp only [Model.depthList]
    rcases List.mem_cons.1 h with rfl | h
    · exact le_max_left _ _
    · exact le_trans (Model.depth_le_depthList h) (le_max_right _ _)

theorem Model.depthList_le {d : Nat} :
    ∀ {ks : List (Model T V S C)}, (∀ k ∈ ks, k.depth ≤ d) → Model.depthList ks ≤ d
  | [], _ => Nat.zero_le _
  | k0 :: ks, h => by
    simp only [Model.depthList]
    exact max_le (h k0 (List.mem_cons_self _ _))
      (Model.depthList_le (fun k hk => h k (List.mem_cons_of_mem _ hk)))

theorem outputChildren_depth (D : Dynamics T V S C)
    (out : Model T V S C → T → Run (Model T V S C) T) (self : Option Nat) (st : S)
    (heap : HeapType T) (t : T) (d : Nat)
    (hout : ∀ k, k.depth ≤ d → (out k t).state.depth ≤ d) :
    ∀ (its : List (HeapElement T)) (s : OutState T V S C), (∀ k ∈ s.kids, k.depth ≤ d) →
      ∀ k ∈ (outputChildren D out self st heap t its s).state.kids, k.depth ≤ d
  | [], s, hk => hk
  | it :: its, s, hk => by
    unfold outputChildren
    cases hid : it.heapid with
    | none => exact hk
    | some id =>
      simp only
      cases hd : heap.deref id with
      | none => exact hk
      | some el =>
        simp only
        by_cases hself : self = some el.element
        · rw [if_pos hself]
          exact outputChildren_depth D out self st heap t d hout its _ hk
        · rw [if_neg hself]
          cases hf : findKid s.kids el.element with
          | none => exact hk
          | some mdl =>
            simp only
            have hset : ∀ k ∈ setKid s.kids el.element (out mdl t).state, k.depth ≤ d := by
              intro k hkm
              rcases mem_setKid hkm with ⟨rfl, _⟩ | ⟨hkold, _⟩
              · exact hout mdl (hk mdl (findKid_mem hf).1)
              · exact hk k hkold
            cases hr : (out mdl t).fault with
            | some f => exact hset
            | none => exact outputChildren_depth D out self st heap t d hout its _ hset

theorem clearOutputs_applyPost_depth (D : Dynamics T V S C) (a : Nat) (st : S) (c : Core T V)
    (ks : List (Model T V S C)) (lst out l : List Nat) (d : Nat)
    (hk : ∀ k ∈ ks, k.depth ≤ d) :
    ∀ k ∈ clearOutputs lst (applyPost D a st c ks out l).kids, k.depth ≤ d := by
  intro k hkm
  simp only [clearOutputs, applyPost, List.map_map, List.mem_map, Function.comp] at hkm
  obtain ⟨k0, hk0, rfl⟩ := hkm
  split
  · rw [Model.depth_mapCore, Model.depth_mapCore]
    exact hk k0 hk0
  · rw [Model.depth_mapCore]
    exact hk k0 hk0

/-- A call of `output` does not change the nesting of the objects. -/
theorem Model.outputN_depth (D : Dynamics T V S C) (t : T) :
    ∀ (n : Nat) (m : Model T V S C), (Model.outputN D n m t).state.depth ≤ m.depth
  | 0, m => Nat.le_refl _
  | n + 1, .atomic a c st => by
    simp only [Model.outputN, AtomicModel.output]
    split <;> exact Nat.le_refl _
  | n + 1, .coupled a c st hp l ks => by
    have hloop := outputChildren_depth D (Model.outputN D n) none st hp t
      (Model.depthList ks)
      (fun k hk => le_trans (Model.outputN_depth D t n k) hk) (hp.outputEntries c.tn)
      ⟨c.y, ks, []⟩ (fun k hk => Model.depth_le_depthList hk)
    simp only [Model.outputN, CoupledModel.output]
    repeat' split
    all_goals try simp only [Model.depth, Nat.add_le_add_iff_right, Nat.le_refl]
    all_goals first
      | exact Model.depthList_le hloop
      | exact Model.depthList_le (clearOutputs_applyPost_depth D _ _ _ _ _ _ _ _ hloop)
  | n + 1, .executive a c st chi hp l ks => by
    have hloop := outputChildren_depth D (Model.outputN D n) (some a) st hp t
      (Model.depthList ks)
      (fun k hk => le_trans (Model.outputN_depth D t n k) hk) (hp.outputEntries c.tn)
      ⟨c.y, ks, []⟩ (fun k hk => Model.depth_le_depthList hk)
    simp only [Model.outputN, Executive.output]
    repeat' split
    all_goals try simp only [Model.depth, Nat.add_le_add_iff_right, Nat.le_refl]
    all_goals first
      | exact Model.depthList_le hloop
      | exact Model.depthList_le (clearOutputs_applyPost_depth D _ _ _ _ _ _ _ _ hloop)

theorem findKid_setKid_ne {ks : List (Model T V S C)} {a b : Nat} {m : Model T V S C}
    (hm : m.addr = a) (hne : b ≠ a) : findKid (setKid ks a m) b = findKid ks b := by
  induction ks with
  | nil => rfl
  | cons k ks ih =>
    unfold findKid setKid at ih ⊢
    simp only [List.map_cons, List.find?_cons]
    by_cases hka : k.addr = a
    · have h1 : (k.addr == a) = true := by simpa using hka
      have h2 : (m.addr == b) = false := by
        rw [hm]; simpa using (Ne.symm hne)
      have h3 : (k.addr == b) = false := by
        rw [hka]; simpa using (Ne.symm hne)
      simp only [h1, if_true, h2, h3]
      exact ih
    · have h1 : (k.addr == a) = false := by simpa using hka
      simp only [h1, Bool.false_eq_true, if_false]
      cases hkb : (k.addr == b)
      · exact ih
      · rfl

theorem findKid_of_mem {ks : List (Model T V S C)} (hnd : (ks.map Model.addr).Nodup)
    {k : Model T V S C} (hk : k ∈ ks) : findKid ks k.addr = some k := by
  cases hf : findKid ks k.addr with
  | none => exact absurd (List.mem_map_of_mem _ hk) (findKid_eq_none.1 hf)
  | some k2 =>
    have h2 := findKid_mem hf
    rw [eq_of_map_nodup hnd h2.1 hk h2.2]

/-- The entries that the loop of `output` visits have distinct elements when the
entries of the heap have. -/
theorem HeapType.outputEntries_nodup {h : HeapType T} {top : HeapElement T} {tn : T}
    (he : h.top = some top) (htn : top.tn = tn)
    (hnd : (h.nodes.map (fun n => n.2.element)).Nodup) :
    ((h.outputEntries tn).map (fun it => it.element)).Nodup := by
  rw [HeapType.outputEntries_eq_imminent he htn]
  unfold HeapType.imminent
  have hperm : (h.ordered.map (fun it => it.element)).Perm
      (h.nodes.map (fun n => n.2.element)) := by
    unfold HeapType.ordered
    have := (List.perm_insertionSort (fun a b : HeapElement T => a.tn ≤ b.tn)
      (h.nodes.map (fun n => n.2))).map (fun it => it.element)
    rw [List.map_map] at this
    exact this
  have hord : (h.ordered.map (fun it => it.element)).Nodup := hperm.nodup_iff.2 hnd
  exact List.Nodup.sublist ((List.takeWhile_sublist _).map _) hord

/-- C12. A coupled model or executive whose heap is not empty: when `t` is not the
`tn` of the top of the heap, or the `tn` of the model is not, `output(t)` ends
with the synchronization error, having called nothing (no `output` of a child,
no `lambda`, no `post`: the log is empty) and leaving the model as it was. -/
theorem C12_output_out_of_sync (D : Dynamics T V S C) (m : Model T V S C) (t : T)
    (top : HeapElement T) (htop : m.heap.top = some top)
    (hsync : t ≠ top.tn ∨ m.core.tn ≠ top.tn) :
    Model.output D m t = ⟨m, [], some .synchronization⟩ := by
  cases m with
  | atomic a c st => cases htop
  | coupled a c st hp l ks =>
    simp only [Model.heap, Model.core] at htop hsync
    simp only [Model.output, Model.outputN, CoupledModel.output, htop]
    by_cases g1 : t = top.tn
    · have g2 : ¬ (c.tn = top.tn) := hsync.resolve_left (not_not.2 g1)
      rw [if_neg (not_not.2 g1), if_pos g2]
    · rw [if_pos g1]
  | executive a c st chi hp l ks =>
    simp only [Model.heap, Model.core] at htop hsync
    simp only [Model.output, Model.outputN, Executive.output, htop]
    by_cases g1 : t = top.tn
    · have g2 : ¬ (c.tn = top.tn) := hsync.resolve_left (not_not.2 g1)
      rw [if_neg (not_not.2 g1), if_pos g2]
    · rw [if_pos g1]

/-- C12, on the started sample network (`tn = 2`, the `tn` of the top of the
heap): `output(3)` ends with the synchronization error. -/
theorem C12_output_out_of_sync_witness :
    Model.output Sample.dynamics Sample.started (.fin 3)
      = ⟨Sample.started, [], some .synchronization⟩ :=
  C12_output_out_of_sync Sample.dynamics Sample.started (.fin 3) ⟨1, .fin 2, some 0⟩ rfl
    (Or.inl (by decide))

/-! ### The depth counter of `start` -/

theorem startChildren_depth (start : Model T V S C → C → T → Run (Model T V S C) T)
    (self : Nat) (common : C) (t : T) (d : Nat)
    (hst : ∀ k, k.depth ≤ d → (start k common t).state.depth ≤ d) :
    ∀ (cs : List Nat) (n : Net T V S C), (∀ k ∈ n.kids, k.depth ≤ d) →
      ∀ k ∈ (startChildren start self common t cs n).state.kids, k.depth ≤ d
  | [], n, hk => hk
  | a :: cs, n, hk => by
    unfold startChildren
    cases hf : findKid n.kids a with
    | none => exact hk
    | some child =>
      simp only
      have hc : (child.mapCore (fun c => { c with parent := some self })).depth ≤ d := by
        rw [Model.depth_mapCore]; exact hk child (findKid_mem hf).1
      cases hr : (start (child.mapCore (fun c => { c with parent := some self })) common
          t).fault with
      | some f =>
        simp only
        intro k hkm
        rcases mem_setKid hkm with ⟨rfl, _⟩ | ⟨hkold, _⟩
        · exact hst _ hc
        · exact hk k hkold
      | none =>
        simp only
        apply startChildren_depth start self common t d hst cs
        intro k hkm
        rcases mem_setKid hkm with ⟨rfl, _⟩ | ⟨hkold, _⟩
        · rw [Model.depth_mapCore]; exact hst _ hc
        · exact hk k hkold

/-- A call of `start` does not change the nesting of the objects. -/
theorem Model.startN_depth (D : Dynamics T V S C) (common : C) (t : T) :
    ∀ (n : Nat) (m : Model T V S C), (Model.startN D n m common t).state.depth ≤ m.depth
  | 0, m => Nat.le_refl _
  | n + 1, .atomic a c st => Nat.le_refl _
  | n + 1, .coupled a c st hp l ks => by
    have hloop := startChildren_depth (Model.startN D n) a common t (Model.depthList ks)
      (fun k hk => le_trans (Model.startN_depth D common t n k) hk) (ks.map Model.addr)
      ⟨hp, ks⟩ (fun k hk => Model.depth_le_depthList hk)
    simp only [Model.startN, CoupledModel.start]
    repeat' split
    all_goals try simp only [Model.depth, Nat.add_le_add_iff_right, Nat.le_refl]
    all_goals exact Model.depthList_le hloop
  | n + 1, .executive a c st chi hp l ks => by
    have hloop := startChildren_depth (Model.startN D n) a common t (Model.depthList ks)
      (fun k hk => le_trans (Model.startN_depth D common t n k) hk) (ks.map Model.addr)
      ⟨(hp.emplace a (t + (D.init a common t st).1)).1.modify
          (hp.emplace a (t + (D.init a common t st).1)).2
          (fun el => { el with
            heapid := some (hp.emplace a (t + (D.init a common t st).1)).2 }), ks⟩
      (fun k hk => Model.depth_le_depthList hk)
    simp only [Model.startN, Executive.start]
    repeat' split
    all_goals try simp only [Model.depth, Nat.add_le_add_iff_right, Nat.le_refl]
    all_goals exact Model.depthList_le hloop

/-- The loop of `start` depends on the virtual call only through the objects
held. -/
theorem startChildren_congr (start1 start2 : Model T V S C → C → T → Run (Model T V S C) T)
    (self : Nat) (common : C) (t : T) (d : Nat)
    (hagree : ∀ k, k.depth ≤ d → start1 k common t = start2 k common t)
    (hst : ∀ k, k.depth ≤ d → (start1 k common t).state.depth ≤ d) :
    ∀ (cs : List Nat) (n : Net T V S C), (∀ k ∈ n.kids, k.depth ≤ d) →
      startChildren start1 self common t cs n = startChildren start2 self common t cs n
  | [], n, _ => rfl
  | a :: cs, n, hk => by
    unfold startChildren
    cases hf : findKid n.kids a with
    | none => rfl
    | some child =>
      simp only
      have hc : (child.mapCore (fun c => { c with parent := some self })).depth ≤ d := by
        rw [Model.depth_mapCore]; exact hk child (findKid_mem hf).1
      rw [← hagree _ hc]
      cases hr : (start1 (child.mapCore (fun c => { c with parent := some self })) common
          t).fault with
      | some f => rfl
      | none =>
        simp only
        rw [startChildren_congr start1 start2 self common t d hagree hst cs _
          (by
            intro k hkm
            rcases mem_setKid hkm with ⟨rfl, _⟩ | ⟨hkold, _⟩
            · rw [Model.depth_mapCore]; exact hst _ hc
            · exact hk k hkold)]

/-- The depth counter of `start` is large enough once it exceeds the nesting
depth of the model: a larger counter gives the same run. -/
theorem Model.startN_fuel (D : Dynamics T V S C) (common : C) (t : T) :
    ∀ (n1 n2 : Nat) (m : Model T V S C), m.depth < n1 → m.depth < n2 →
      Model.startN D n1 m common t = Model.startN D n2 m common t
  | 0, _, _, h1, _ => absurd h1 (Nat.not_lt_zero _)
  | _ + 1, 0, _, _, h2 => absurd h2 (Nat.not_lt_zero _)
  | n1 + 1, n2 + 1, .atomic a c st, _, _ => rfl
  | n1 + 1, n2 + 1, .coupled a c st hp l ks, h1, h2 => by
    simp only [Model.depth, Nat.add_lt_add_iff_right] at h1 h2
    have hloop := startChildren_congr (Model.startN D n1) (Model.startN D n2) a common t
      (Model.depthList ks)
      (fun k hk => Model.startN_fuel D common t n1 n2 k (lt_of_le_of_lt hk h1)
        (lt_of_le_of_lt hk h2))
      (fun k hk => le_trans (Model.startN_depth D common t n1 k) hk) (ks.map Model.addr)
      ⟨hp, ks⟩ (fun k hk => Model.depth_le_depthList hk)
    simp only [Model.startN, CoupledModel.start, hloop]
  | n1 + 1, n2 + 1, .executive a c st chi hp l ks, h1, h2 => by
    simp only [Model.depth, Nat.add_lt_add_iff_right] at h1 h2
    have hloop := startChildren_congr (Model.startN D n1) (Model.startN D n2) a common t
      (Model.depthList ks)
      (fun k hk => Model.startN_fuel D common t n1 n2 k (lt_of_le_of_lt hk h1)
        (lt_of_le_of_lt hk h2))
      (fun k hk => le_trans (Model.startN_depth D common t n1 k) hk) (ks.map Model.addr)
      ⟨(hp.emplace a (t + (D.init a common t st).1)).1.modify
          (hp.emplace a (t + (D.init a common t st).1)).2
          (fun el => { el with
            heapid := some (hp.emplace a (t + (D.init a common t st).1)).2 }), ks⟩
      (fun k hk => Model.depth_le_depthList hk)
    simp only [Model.startN, Executive.start, hloop]

/-! ### The loop of `start` in closed form -/

theorem findKid_append_of_not_mem {done rest : List (Model T V S C)} {k : Model T V S C}
    (h : k.addr ∉ done.map Model.addr) : findKid (done ++ k :: rest) k.addr = some k := by
  unfold findKid
  rw [List.find?_append]
  have hnone : done.find? (fun m => m.addr == k.addr) = none := by
    rw [List.find?_eq_none]
    intro m hm hma
    exact h (List.mem_map.2 ⟨m, hm, by simpa using hma⟩)
  rw [hnone]
  simp

theorem setKid_append_cons {done rest : List (Model T V S C)} {k m : Model T V S C}
    (h1 : k.addr ∉ done.map Model.addr) (h2 : k.addr ∉ rest.map Model.addr) :
    setKid (done ++ k :: rest) k.addr m = done ++ m :: rest := by
  unfold setKid
  rw [List.map_append, List.map_cons]
  have hd : done.map (fun x => if x.addr == k.addr then m else x) = done := by
    conv_rhs => rw [← List.map_id done]
    apply List.map_congr_left
    intro x hx
    have : x.addr ≠ k.addr := fun he => h1 (List.mem_map.2 ⟨x, hx, he⟩)
    simp [this]
  have hr : rest.map (fun x => if x.addr == k.addr then m else x) = rest := by
    conv_rhs => rw [← List.map_id rest]
    apply List.map_congr_left
    intro x hx
    have : x.addr ≠ k.addr := fun he => h2 (List.mem_map.2 ⟨x, hx, he⟩)
    simp [this]
  rw [hd, hr]
  simp

theorem HeapType.emplace_eq {h : HeapType T} (hb : ∀ n ∈ h.nodes, n.1 < h.next) (a : Nat)
    (tn : T) :
    (h.emplace a tn).1.modify (h.emplace a tn).2
        (fun el => { el with heapid := some (h.emplace a tn).2 })
      = ⟨h.nodes ++ [(h.next, ⟨a, tn, some h.next⟩)], h.next + 1⟩ := by
  obtain ⟨h1, h2⟩ := HeapType.emplace_nodes hb a tn
  generalize (h.emplace a tn).1.modify (h.emplace a tn).2
    (fun el => { el with heapid := some (h.emplace a tn).2 }) = hp2 at h1 h2
  cases hp2
  simp only at h1 h2
  rw [h1, h2]

/-- The loop of `start` over children at distinct addresses whose `start` returns
normally, in closed form: every child is started once, in order, and scheduled at
a new handle. -/
theorem startChildren_closed (start : Model T V S C → C → T → Run (Model T V S C) T)
    (self : Nat) (common : C) (t : T)
    (haddr : ∀ k, (start k common t).state.addr = k.addr) :
    ∀ (todo done : List (Model T V S C)) (hp : HeapType T),
      ((done ++ todo).map Model.addr).Nodup →
      (∀ n ∈ hp.nodes, n.1 < hp.next) →
      (∀ k ∈ todo,
        (start (k.mapCore (fun c => { c with parent := some self })) common t).fault = none) →
      startChildren start self common t (todo.map Model.addr) ⟨hp, done ++ todo⟩
        = ⟨⟨⟨hp.nodes ++ startedEntries start self common t hp.next todo,
              hp.next + todo.length⟩,
            done ++ startedKids start self common t hp.next todo⟩,
          startedLog start self common t todo, none⟩
  | [], done, hp, _, _, _ => by
    simp [startChildren, startedEntries, startedKids, startedLog]
  | k :: rest, done, hp, hnd, hb, hok => by
    have hnd2 : (done.map Model.addr ++ (k.addr :: rest.map Model.addr)).Nodup := by
      simpa using hnd
    have hk1 : k.addr ∉ done.map Model.addr := by
      intro h
      exact (List.nodup_append.1 hnd2).2.2 h (List.mem_cons_self _ _)
    have hk2 : k.addr ∉ rest.map Model.addr :=
      (List.nodup_cons.1 (List.nodup_append.1 hnd2).2.1).1
    have hr := hok k (List.mem_cons_self _ _)
    simp only [List.map_cons]
    unfold startChildren
    simp only [findKid_append_of_not_mem hk1, hr]
    rw [setKid_append_cons hk1 hk2, HeapType.emplace_eq hb]
    have he2 : ∀ (a : Nat) (tn : T), (hp.emplace a tn).2 = hp.next := fun _ _ => rfl
    simp only [he2]
    have hca : ((start (k.mapCore (fun c => { c with parent := some self })) common
        t).state.mapCore (fun c => { c with heapid := some hp.next })).addr = k.addr := by
      rw [Model.addr_mapCore, haddr, Model.addr_mapCore]
    have ih := startChildren_closed start self common t haddr rest
      (done ++ [(start (k.mapCore (fun c => { c with parent := some self })) common
        t).state.mapCore (fun c => { c with heapid := some hp.next })])
      ⟨hp.nodes ++ [(hp.next, ⟨k.addr, (start (k.mapCore
        (fun c => { c with parent := some self })) common t).state.core.tn, some hp.next⟩)],
        hp.next + 1⟩
      (by
        simp only [List.map_append, List.map_cons, List.map_nil, hca, List.append_assoc,
          List.singleton_append]
        exact hnd2)
      (by
        intro n hn
        simp only [List.mem_append, List.mem_singleton] at hn
        rcases hn with hn | rfl
        · exact Nat.lt_succ_of_lt (hb n hn)
        · exact Nat.lt_succ_self _)
      (fun k2 hk2m => hok k2 (List.mem_cons_of_mem _ hk2m))
    simp only [List.append_assoc, List.singleton_append] at ih
    rw [ih]
    simp only [startedEntries, startedKids, startedLog, startedChild, List.enumFrom_cons,
      List.map_cons, List.length_cons, Model.core_mapCore, List.append_assoc,
      List.singleton_append]
    have : hp.next + 1 + rest.length = hp.next + (rest.length + 1) := by omega
    rw [this]

theorem Model.startN_parent (D : Dynamics T V S C) (common : C) (t : T) (n : Nat)
    (m : Model T V S C) : (Model.startN D n m common t).state.core.parent = m.core.parent := by
  cases n with
  | zero => rfl
  | succ n =>
    cases m with
    | atomic a c st => rfl
    | coupled a c st hp l ks =>
      simp only [Model.startN, CoupledModel.start]
      repeat' split
      all_goals rfl
    | executive a c st chi hp l ks =>
      simp only [Model.startN, Executive.start]
      repeat' split
      all_goals rfl

/-- A `start` that returns normally sets `tl = time`. -/
theorem Model.startN_tl (D : Dynamics T V S C) (common : C) (t : T) (n : Nat)
    (m : Model T V S C) (hok : (Model.startN D n m common t).fault = none) :
    (Model.startN D n m common t).state.core.tl = t := by
  cases n with
  | zero => simp only [Model.startN] at hok; exact absurd hok (by simp)
  | succ n =>
    cases m with
    | atomic a c st => rfl
    | coupled a c st hp l ks =>
      simp only [Model.startN, CoupledModel.start] at hok ⊢
      repeat' split
      all_goals first
        | rfl
        | (rename_i hf; simp only [hf] at hok; exact absurd hok (by simp))
    | executive a c st chi hp l ks =>
      simp only [Model.startN, Executive.start] at hok ⊢
      repeat' split
      all_goals first
        | rfl
        | (rename_i hf; simp only [hf] at hok; exact absurd hok (by simp))

/-- The loop of `start` run by the kernel is the loop over the virtual call
`child->start(common, time)`. -/
theorem startChildren_virtual (D : Dynamics T V S C) (self : Nat) (common : C) (t : T)
    (ks : List (Model T V S C)) (cs : List Nat) (hp : HeapType T) :
    startChildren (Model.startN D (Model.depthList ks + 1)) self common t cs ⟨hp, ks⟩
      = startChildren (Model.start D) self common t cs ⟨hp, ks⟩ :=
  startChildren_congr _ _ self common t (Model.depthList ks)
    (fun k hk => Model.startN_fuel D common t _ _ k (Nat.lt_succ_of_le hk) (Nat.lt_succ_self _))
    (fun k hk => le_trans (Model.startN_depth D common t _ k) hk) cs ⟨hp, ks⟩
    (fun _ hk => Model.depth_le_depthList hk)

/-- The entries that the loop of `start` makes are the entries of the children
it leaves: the element is the child, the key is the `tn` of the child, and the
handle is the `heapid` of the child and of the entry. -/
theorem startedEntries_eq (start : Model T V S C → C → T → Run (Model T V S C) T)
    (self : Nat) (common : C) (t : T)
    (haddr : ∀ k, (start k common t).state.addr = k.addr) :
    ∀ (ks : List (Model T V S C)) (next : Nat),
      startedEntries start self common t next ks
        = (startedKids start self common t next ks).map
            (fun k => (k.core.heapid.getD 0, ⟨k.addr, k.core.tn, k.core.heapid⟩)) ∧
      (startedKids start self common t next ks).map (fun k => k.core.heapid)
        = (List.range' next ks.length).map some ∧
      (startedKids start self common t next ks).map Model.addr = ks.map Model.addr
  | [], next => ⟨rfl, rfl, rfl⟩
  | k :: ks, next => by
    obtain ⟨h1, h2, h3⟩ := startedEntries_eq start self common t haddr ks (next + 1)
    simp only [startedEntries, startedKids] at h1 h2 h3 ⊢
    simp only [List.enumFrom_cons, List.map_cons, List.length_cons, List.range'_succ]
    rw [h1, h2, h3]
    simp only [startedChild, Model.core_mapCore, Model.addr_mapCore, haddr,
      Option.getD_some, and_self]

theorem startedKids_started (D : Dynamics T V S C) (self : Nat) (common : C) (t : T)
    (ks : List (Model T V S C)) (next : Nat)
    (hkids : ∀ k ∈ ks,
      (Model.start D (k.mapCore (fun c => { c with parent := some self })) common t).fault
        = none) :
    ∀ k ∈ startedKids (Model.start D) self common t next ks,
      k.core.parent = some self ∧ k.core.tl = t := by
  intro k hk
  simp only [startedKids, List.mem_map] at hk
  obtain ⟨p, hp, rfl⟩ := hk
  have hp2 : p.2 ∈ ks := by
    have := List.mem_map_of_mem Prod.snd hp
    rwa [List.enumFrom_map_snd] at this
  simp only [startedChild, Model.core_mapCore]
  constructor
  · unfold Model.start
    rw [Model.startN_parent, Model.core_mapCore]
  · exact Model.startN_tl D common t _ _ (hkids p.2 hp2)

theorem startedChild_atomic (D : Dynamics T V S C) (self : Nat) (common : C) (t : T)
    (id b : Nat) (cb : Core T V) (sb : S) :
    startedChild (Model.start D) self common t id (.atomic b cb sb)
      = .atomic b { cb with parent := some self, tl := t, tn := t + (D.init b common t sb).1,
                            heapid := some id } (D.init b common t sb).2 := rfl

/-- C11. A freshly constructed coupled model (empty heap) whose `children()`
returns a non-empty list of distinct children whose `start` returns normally.
`start(common, t)` returns normally; it has called `child->start(common, t)` once
on every child, in order; every child has `parent = this` and `tl = t` (an atomic
child is in the state `tl = t`, `tn = t + init(common, t)`); the heap holds one
entry for each child, whose element is the child, whose key is the `tn` of the
child and whose handle is the `heapid` of the child and of the entry, the handles
being distinct; `tl = t` and `tn` is the `tn` of the top of the heap. -/
theorem C11_coupled_start (D : Dynamics T V S C) (a : Nat) (c : Core T V) (st : S)
    (hp : HeapType T) (l : List Nat) (ks : List (Model T V S C)) (common : C) (t : T)
    (hne : ks ≠ []) (hh : hp.nodes = []) (hnd : (ks.map Model.addr).Nodup)
    (hkids : ∀ k ∈ ks,
      (Model.start D (k.mapCore (fun c => { c with parent := some a })) common t).fault
        = none) :
    ∃ top : HeapElement T,
      HeapType.top ⟨startedEntries (Model.start D) a common t hp.next ks,
        hp.next + ks.length⟩ = some top ∧
      Model.start D (.coupled a c st hp l ks) common t
        = ⟨.coupled a { c with tl := t, tn := top.tn } st
              ⟨startedEntries (Model.start D) a common t hp.next ks, hp.next + ks.length⟩ l
              (startedKids (Model.start D) a common t hp.next ks),
            startedLog (Model.start D) a common t ks, none⟩ ∧
      (∀ k ∈ startedKids (Model.start D) a common t hp.next ks,
        k.core.parent = some a ∧ k.core.tl = t) ∧
      (∀ id b cb sb, startedChild (Model.start D) a common t id (.atomic b cb sb)
        = .atomic b { cb with parent := some a, tl := t, tn := t + (D.init b common t sb).1,
                              heapid := some id } (D.init b common t sb).2) ∧
      startedEntries (Model.start D) a common t hp.next ks
        = (startedKids (Model.start D) a common t hp.next ks).map
            (fun k => (k.core.heapid.getD 0, ⟨k.addr, k.core.tn, k.core.heapid⟩)) ∧
      (startedKids (Model.start D) a common t hp.next ks).map (fun k => k.core.heapid)
        = (List.range' hp.next ks.length).map some ∧
      (startedKids (Model.start D) a common t hp.next ks).map Model.addr
        = ks.map Model.addr := by
  have haddr : ∀ k : Model T V S C, (Model.start D k common t).state.addr = k.addr :=
    fun k => Model.startN_addr D _ k common t
  have hclosed := startChildren_closed (Model.start D) a common t haddr ks [] hp
    (by simpa using hnd) (by intro n hn; rw [hh] at hn; cases hn) hkids
  simp only [List.nil_append, hh] at hclosed
  have hnonempty : (⟨startedEntries (Model.start D) a common t hp.next ks,
      hp.next + ks.length⟩ : HeapType T).nodes ≠ [] := by
    cases ks with
    | nil => exact absurd rfl hne
    | cons k ks => simp [startedEntries, List.enumFrom_cons]
  obtain ⟨top, htop⟩ := HeapType.top_isSome hnonempty
  refine ⟨top, htop, ?_, startedKids_started D a common t ks hp.next hkids,
    fun id b cb sb => startedChild_atomic D a common t id b cb sb,
    startedEntries_eq (Model.start D) a common t haddr ks hp.next⟩
  unfold Model.start
  simp only [Model.depth, Model.startN, CoupledModel.start]
  rw [startChildren_virtual, hclosed]
  simp only [htop]
  rfl

/-- C11, on the sample network: `start(common, 0)` on the freshly constructed
network of the generator and the accumulator. -/
theorem C11_coupled_start_witness :
    ∃ top : HeapElement ExtInt,
      Model.start Sample.dynamics Sample.network () (.fin 0)
        = ⟨.coupled 0 { (Core.new : Core ExtInt Nat) with tl := .fin 0, tn := top.tn } 0
              ⟨startedEntries (Model.start Sample.dynamics) 0 () (.fin 0) 0
                [Sample.generator, Sample.accumulator], 0 + 2⟩ []
              (startedKids (Model.start Sample.dynamics) 0 () (.fin 0) 0
                [Sample.generator, Sample.accumulator]),
            startedLog (Model.start Sample.dynamics) 0 () (.fin 0)
              [Sample.generator, Sample.accumulator], none⟩ :=
  (C11_coupled_start Sample.dynamics 0 Core.new 0 HeapType.new []
    [Sample.generator, Sample.accumulator] () (.fin 0) (by simp) rfl (by decide)
    (by decide)).elim (fun top h => ⟨top, h.2.1⟩)

/-- C17. A freshly constructed executive (empty heap) whose declared children are
distinct and have a `start` that returns normally.  `start(common, t)` returns
normally, having called `init(t)` and then `child->start(common, t)` once on every
child, in order; `chi_tl = t`, `chi_tn = t + init(t)`; the heap holds the entry of
the executive, keyed by `chi_tn`, whose handle is `chi_heapid`, and one entry for
each child, whose element is the child, whose key is the `tn` of the child and
whose handle is the `heapid` of the child and of the entry; every child has
`parent = this` and `tl = t`; `tl = t`, `x` is cleared, and `tn`, the `tn` of the
top of the heap, is the minimum of `chi_tn` and the `tn` of the children. -/
theorem C17_executive_start (D : Dynamics T V S C) (a : Nat) (c : Core T V) (st : S)
    (chi : Chi T V C) (hp : HeapType T) (l : List Nat) (ks : List (Model T V S C))
    (common : C) (t : T) (hh : hp.nodes = []) (hnd : (ks.map Model.addr).Nodup)
    (hkids : ∀ k ∈ ks,
      (Model.start D (k.mapCore (fun c => { c with parent := some a })) common t).fault
        = none) :
    ∃ top : HeapElement T,
      HeapType.top ⟨(hp.next, ⟨a, t + (D.init a common t st).1, some hp.next⟩) ::
          startedEntries (Model.start D) a common t (hp.next + 1) ks,
        hp.next + 1 + ks.length⟩ = some top ∧
      Model.start D (.executive a c st chi hp l ks) common t
        = ⟨.executive a { c with tl := t, tn := top.tn, x := c.x.clear }
              (D.init a common t st).2
              { chi with localcommon := common, chi_tl := t,
                         chi_tn := t + (D.init a common t st).1,
                         chi_heapid := some hp.next }
              ⟨(hp.next, ⟨a, t + (D.init a common t st).1, some hp.next⟩) ::
                  startedEntries (Model.start D) a common t (hp.next + 1) ks,
                hp.next + 1 + ks.length⟩ l
              (startedKids (Model.start D) a common t (hp.next + 1) ks),
            .init a t :: startedLog (Model.start D) a common t ks, none⟩ ∧
      (∀ k ∈ startedKids (Model.start D) a common t (hp.next + 1) ks,
        k.core.parent = some a ∧ k.core.tl = t) ∧
      startedEntries (Model.start D) a common t (hp.next + 1) ks
        = (startedKids (Model.start D) a common t (hp.next + 1) ks).map
            (fun k => (k.core.heapid.getD 0, ⟨k.addr, k.core.tn, k.core.heapid⟩)) ∧
      (startedKids (Model.start D) a common t (hp.next + 1) ks).map (fun k => k.core.heapid)
        = (List.range' (hp.next + 1) ks.length).map some ∧
      (startedKids (Model.start D) a common t (hp.next + 1) ks).map Model.addr
        = ks.map Model.addr ∧
      top.tn ≤ t + (D.init a common t st).1 ∧
      (∀ k ∈ startedKids (Model.start D) a common t (hp.next + 1) ks, top.tn ≤ k.core.tn) ∧
      (top.tn = t + (D.init a common t st).1 ∨
        ∃ k ∈ startedKids (Model.start D) a common t (hp.next + 1) ks, top.tn = k.core.tn) := by
  have haddr : ∀ k : Model T V S C, (Model.start D k common t).state.addr = k.addr :=
    fun k => Model.startN_addr D _ k common t
  have hb : ∀ n ∈ hp.nodes, n.1 < hp.next := by intro n hn; rw [hh] at hn; cases hn
  have hclosed := startChildren_closed (Model.start D) a common t haddr ks []
    ⟨hp.nodes ++ [(hp.next, ⟨a, t + (D.init a common t st).1, some hp.next⟩)], hp.next + 1⟩
    (by simpa using hnd)
    (by
      intro n hn
      simp only [hh, List.nil_append, List.mem_singleton] at hn
      subst hn
      exact Nat.lt_succ_self _)
    hkids
  simp only [List.nil_append, hh, List.singleton_append] at hclosed
  obtain ⟨top, htop⟩ := HeapType.top_isSome
    (h := (⟨(hp.next, ⟨a, t + (D.init a common t st).1, some hp.next⟩) ::
        startedEntries (Model.start D) a common t (hp.next + 1) ks,
      hp.next + 1 + ks.length⟩ : HeapType T)) (by simp)
  obtain ⟨he1, he2, he3⟩ := startedEntries_eq (Model.start D) a common t haddr ks (hp.next + 1)
  refine ⟨top, htop, ?_, startedKids_started D a common t ks (hp.next + 1) hkids, he1, he2,
    he3, ?_, ?_, ?_⟩
  · unfold Model.start
    simp only [Model.depth, Model.startN, Executive.start]
    rw [HeapType.emplace_eq hb]
    have he : ∀ (b : Nat) (tn : T), (hp.emplace b tn).2 = hp.next := fun _ _ => rfl
    simp only [he, hh, List.nil_append]
    rw [startChildren_virtual, hclosed]
    simp only [htop]
    rfl
  · exact HeapType.top_le htop _ (List.mem_cons_self _ _)
  · intro k hk
    have hmem : (k.core.heapid.getD 0, (⟨k.addr, k.core.tn, k.core.heapid⟩ : HeapElement T))
        ∈ startedEntries (Model.start D) a common t (hp.next + 1) ks := by
      rw [he1]
      exact List.mem_map.2 ⟨k, hk, rfl⟩
    exact HeapType.top_le htop _ (List.mem_cons_of_mem _ hmem)
  · obtain ⟨n, hn, hnt⟩ := HeapType.top_mem htop
    rcases List.mem_cons.1 hn with rfl | hn
    · left
      rw [← hnt]
    · right
      rw [he1] at hn
      obtain ⟨k, hk, rfl⟩ := List.mem_map.1 hn
      exact ⟨k, hk, by rw [← hnt]⟩

/-- C17, on the sample executive: `start(common, 0)` on the freshly constructed
executive with its two declared children; `chi_tn = 2` is the minimum. -/
theorem C17_executive_start_witness :
    Growth.started.core.tn = .fin 2 ∧
    ∃ top : HeapElement ExtInt,
      top.tn ≤ (.fin 0 : ExtInt) + (Growth.dynamics.init 10 () (.fin 0) 0).1 ∧
      (∀ k ∈ startedKids (Model.start Growth.dynamics) 10 () (.fin 0) (0 + 1)
          [Growth.child1, Growth.child2], top.tn ≤ k.core.tn) ∧
      (top.tn = (.fin 0 : ExtInt) + (Growth.dynamics.init 10 () (.fin 0) 0).1 ∨
        ∃ k ∈ startedKids (Model.start Growth.dynamics) 10 () (.fin 0) (0 + 1)
          [Growth.child1, Growth.child2], top.tn = k.core.tn) :=
  ⟨by decide,
    (C17_executive_start Growth.dynamics 10 Core.new 0
      ⟨.ninf, .pinf, none, PortList.new, PortList.new, ()⟩ HeapType.new []
      [Growth.child1, Growth.child2] () (.fin 0) rfl (by decide) (by decide)).elim
      (fun top h => ⟨top, h.2.2.2.2.2.2.1, h.2.2.2.2.2.2.2.1, h.2.2.2.2.2.2.2.2⟩)⟩

/-! ### The run of `Executive::transition` -/

/-- The run of an `Executive::transition(t)` that passes both guards and returns
normally, in closed form. -/
theorem Executive.transition_run (D : Dynamics T V S C) (policy : Policy T V S C)
    (start : Model T V S C → C → T → Run (Model T V S C) T)
    (tr : Model T V S C → T → Run (Model T V S C) T) (a : Nat) (c : Core T V) (st : S)
    (chi : Chi T V C) (hp : HeapType T) (l : List Nat) (ks : List (Model T V S C)) (t : T)
    (h1 : c.tl ≤ t) (h2 : t ≤ c.tn) (h3 : ¬ (t < c.tn ∧ c.x.is_empty = true))
    (hok : (Executive.transition D policy start tr a c st chi hp l ks t).fault = none) :
    ∀ rt, rt = Executive.route D a c st l ks →
    ∀ r, r = policy tr (Executive.bag a hp t rt.last_output_list) t ⟨hp, rt.kids⟩ →
    ∀ d, d = D.delta a (t - chi.chi_tl) rt.core.x st →
    ∀ sr, sr = Executive.structural start a { chi with chi_tl := t }
        (D.structural a (t - chi.chi_tl) rt.core.x st (r.state.kids.map Model.addr))
        ⟨r.state.heap, [], r.state.kids⟩ →
      r.fault = none ∧
      (Executive.have_chi a hp t rt.last_output_list = true →
        sr.fault = none ∧
        ∃ heap2 top, sr.state.heap.setTn chi.chi_heapid (t + d.1) = some heap2 ∧
          heap2.top = some top ∧
          Executive.transition D policy start tr a c st chi hp l ks t
            = ⟨.executive a { rt.core with tn := top.tn, tl := t, x := rt.core.x.clear } d.2
                  { chi with chi_tl := t, chi_tn := t + d.1 } heap2
                  sr.state.last_output_list sr.state.kids,
                rt.log ++ r.log ++ (.delta a (t - chi.chi_tl) :: sr.log), none⟩) ∧
      (Executive.have_chi a hp t rt.last_output_list = false →
        ∃ top, r.state.heap.top = some top ∧
          Executive.transition D policy start tr a c st chi hp l ks t
            = ⟨.executive a { rt.core with tn := top.tn, tl := t, x := rt.core.x.clear } st
                  chi r.state.heap [] r.state.kids,
                rt.log ++ r.log, none⟩) := by
  intro rt hrt r hr d hd sr hsr
  subst hrt hr hd hsr
  unfold Executive.transition at hok ⊢
  rw [if_neg (not_not.2 ⟨h1, h2⟩), if_neg h3] at hok ⊢
  simp only at hok ⊢
  cases hf : (policy tr (Executive.bag a hp t (Executive.route D a c st l ks).last_output_list)
      t ⟨hp, (Executive.route D a c st l ks).kids⟩).fault with
  | some f => simp only [hf] at hok; exact absurd hok (by simp)
  | none =>
    simp only [hf] at hok ⊢
    refine ⟨trivial, ?_, ?_⟩
    · intro hc
      rw [if_pos hc] at hok ⊢
      revert hok
      cases hs : (Executive.structural start a { chi with chi_tl := t }
          (D.structural a (t - chi.chi_tl) (Executive.route D a c st l ks).core.x st
            ((policy tr (Executive.bag a hp t
              (Executive.route D a c st l ks).last_output_list) t
              ⟨hp, (Executive.route D a c st l ks).kids⟩).state.kids.map Model.addr))
          ⟨(policy tr (Executive.bag a hp t
              (Executive.route D a c st l ks).last_output_list) t
              ⟨hp, (Executive.route D a c st l ks).kids⟩).state.heap, [],
            (policy tr (Executive.bag a hp t
              (Executive.route D a c st l ks).last_output_list) t
              ⟨hp, (Executive.route D a c st l ks).kids⟩).state.kids⟩).fault with
      | some f => intro hok; simp only at hok; exact absurd hok (by simp)
      | none =>
        simp only
        split
        · intro hok; exact absurd hok (by simp)
        · rename_i heap2 hset
          intro hok
          obtain ⟨top, htop, heq⟩ := Executive.finish_ok _ _ _ _ _ _ _ hok
          exact ⟨trivial, heap2, top, hset, htop, heq⟩
    · intro hc
      rw [if_neg (by simp [hc])] at hok ⊢
      obtain ⟨top, htop, heq⟩ := Executive.finish_ok _ _ _ _ _ _ _ hok
      exact ⟨top, htop, heq⟩

theorem Executive.route_log (D : Dynamics T V S C) (a : Nat) (c : Core T V) (st : S)
    (l : List Nat) (ks : List (Model T V S C)) :
    transitionCalls (Executive.route D a c st l ks).log = [] ∧
    deltaCalls (Executive.route D a c st l ks).log = [] ∧
    startCalls (Executive.route D a c st l ks).log = [] := by
  unfold Executive.route
  by_cases hx : c.x.is_empty = true
  · rw [if_pos hx]; exact ⟨rfl, rfl, rfl⟩
  · rw [if_neg hx]; exact ⟨rfl, rfl, rfl⟩

/-- The sequential policy calls no hook and no `start` itself. -/
theorem TransitionPolicyDefault.log_hooks (tr : Model T V S C → T → Run (Model T V S C) T)
    (time : T) : ∀ (bag : List Nat) (n : Net T V S C),
      deltaCalls (TransitionPolicyDefault tr bag time n).log = [] ∧
      startCalls (TransitionPolicyDefault tr bag time n).log = []
  | [], n => ⟨rfl, rfl⟩
  | a :: bag, n => by
    unfold TransitionPolicyDefault
    cases hk : findKid n.kids a with
    | none => exact ⟨rfl, rfl⟩
    | some child =>
      simp only
      cases hr : (tr child time).fault with
      | some f => exact ⟨rfl, rfl⟩
      | none =>
        simp only
        split
        · exact ⟨rfl, rfl⟩
        · rename_i heap hset
          have ih := TransitionPolicyDefault.log_hooks tr time bag
            ⟨heap, setKid n.kids a
              ((tr child time).state.mapCore (fun c => { c with x := c.x.clear }))⟩
          unfold deltaCalls startCalls at ih ⊢
          simp only [List.filterMap_cons, Event.deltaCall, Event.startCall]
          exact ih

theorem Executive.insert_log (start : Model T V S C → C → T → Run (Model T V S C) T)
    (self : Nat) (chi : Chi T V C) (mdl : Model T V S C) (n : ExecNet T V S C) :
    transitionCalls (Executive.insert start self chi mdl n).log = [] ∧
    deltaCalls (Executive.insert start self chi mdl n).log = [] ∧
    startCalls (Executive.insert start self chi mdl n).log = [(mdl.addr, chi.chi_tl)] := by
  simp only [Executive.insert]
  split <;> exact ⟨rfl, rfl, rfl⟩

theorem Executive.erase_log (a : Nat) (n : ExecNet T V S C) :
    (Executive.erase a n).log = [] := by
  simp only [Executive.erase]
  repeat' split
  all_goals rfl

/-- The structural operators call no `transition` and no `delta`; each `insert`
that the `delta` of the executive makes calls `mdl->start(localcommon, chi_tl)`. -/
theorem Executive.structural_log (start : Model T V S C → C → T → Run (Model T V S C) T)
    (self : Nat) (chi : Chi T V C) :
    ∀ (ops : List (Structural T V S C)) (n : ExecNet T V S C),
      transitionCalls (Executive.structural start self chi ops n).log = [] ∧
      deltaCalls (Executive.structural start self chi ops n).log = [] ∧
      ((Executive.structural start self chi ops n).fault = none →
        startCalls (Executive.structural start self chi ops n).log
          = (ops.filterMap Structural.inserted).map (fun m => (m.addr, chi.chi_tl)))
  | [], n => ⟨rfl, rfl, fun _ => rfl⟩
  | .insert mdl :: ops, n => by
    simp only [Executive.structural]
    have hi := Executive.insert_log start self chi mdl n
    cases hr : (Executive.insert start self chi mdl n).fault with
    | some f =>
      simp only
      exact ⟨hi.1, hi.2.1, fun h => absurd h (by simp)⟩
    | none =>
      simp only
      have ih := Executive.structural_log start self chi ops
        (Executive.insert start self chi mdl n).state
      unfold transitionCalls deltaCalls startCalls at hi ih ⊢
      simp only [List.filterMap_append, hi.1, hi.2.1, hi.2.2, ih.1, ih.2.1, List.nil_append,
        List.filterMap_cons, Structural.inserted, List.map_cons, List.singleton_append,
        true_and]
      intro h
      rw [ih.2.2 h]
  | .erase b :: ops, n => by
    simp only [Executive.structural]
    have he := Executive.erase_log b n
    cases hr : (Executive.erase b n).fault with
    | some f =>
      simp only
      rw [he]
      exact ⟨rfl, rfl, fun h => absurd h (by simp)⟩
    | none =>
      simp only
      have ih := Executive.structural_log start self chi ops (Executive.erase b n).state
      rw [he, List.nil_append]
      simp only [List.filterMap_cons, Structural.inserted]
      exact ih

theorem Executive.mem_bag (a : Nat) (hp : HeapType T) (t : T) (lol : List Nat) (k : Nat) :
    k ∈ Executive.bag a hp t lol ↔
      k ≠ a ∧ (k ∈ (hp.imminent t).map (fun e => e.element) ∨ k ∈ lol) := by
  unfold Executive.bag
  simp only [mem_setInsertAll, List.mem_filter, bne_iff_ne, ne_eq, List.not_mem_nil, or_false]
  tauto

theorem Executive.have_chi_iff (a : Nat) (hp : HeapType T) (t : T) (lol : List Nat) :
    Executive.have_chi a hp t lol = true ↔
      a ∈ (hp.imminent t).map (fun e => e.element) ∨ a ∈ lol := by
  unfold Executive.have_chi
  simp only [Bool.or_eq_true, List.any_eq_true, beq_iff_eq, List.mem_map]
  constructor
  · rintro (⟨e, he, rfl⟩ | ⟨b, hb, rfl⟩)
    · exact Or.inl ⟨e, he, rfl⟩
    · exact Or.inr hb
  · rintro (⟨e, he, rfl⟩ | hb)
    · exact Or.inl ⟨e, he, rfl⟩
    · exact Or.inr ⟨a, hb, rfl⟩

/-- An `Executive::transition(t)` under the sequential policy that passes
both guards and returns normally, on an executive whose heap agrees with its
children and whose `tn` is the `tn` of the top of the heap (data-model
invariants), the `delta` of the executive using `insert` as the kernel expects.
With `rt` the state after the external routing and `bag` the bag of children:

* the executive is not in `bag`, and the children on which `transition(t)` is
  called are the members of `bag`, one call each;
* `have_chi` holds iff the entry of the executive has `tn = t` on entry or the
  executive is in `last_output_list` after the external routing;
* if `have_chi`, the log is `pre ++ delta(t - chi_tl) :: post`, where `pre` holds
  the calls `transition(t)` on the bag and no `delta`, and `post` holds neither;
  on return `chi_tl = t`, `chi_tn = t + delta(t - chi_tl)`, and the entry of the
  executive in the heap, designated by `chi_heapid`, has `tn = chi_tn`;
* if not `have_chi`, no `delta` is called and the members `chi_..` are unchanged;
* on return `tl = t`, `tn` is the `tn` of the top of the heap, `x` is empty. -/
theorem Executive.transition_sequential (D : Dynamics T V S C) (hS : D.Disciplined) (a : Nat)
    (c : Core T V) (st : S) (chi : Chi T V C) (hp : HeapType T) (l : List Nat)
    (ks : List (Model T V S C)) (t : T)
    (h1 : c.tl ≤ t) (h2 : t ≤ c.tn) (h3 : ¬ (t < c.tn ∧ c.x.is_empty = true))
    (hinv : Model.HeapOk (.executive a c st chi hp l ks))
    (hok : (Model.transition D TransitionPolicyDefault (.executive a c st chi hp l ks) t).fault
      = none) :
    ∀ rt, rt = Executive.route D a c st l ks →
    ∀ bag, bag = Executive.bag a hp t rt.last_output_list →
    ∀ fin, fin = (Model.transition D TransitionPolicyDefault
        (.executive a c st chi hp l ks) t) →
      a ∉ bag ∧ bag.Nodup ∧
      transitionCalls fin.log = bag.map (fun k => (k, t)) ∧
      (Executive.have_chi a hp t rt.last_output_list = true ↔
        (∃ n ∈ hp.nodes, n.2.element = a ∧ n.2.tn = t) ∨ a ∈ rt.last_output_list) ∧
      (Executive.have_chi a hp t rt.last_output_list = true →
        (∃ pre post, fin.log = pre ++ Event.delta a (t - chi.chi_tl) :: post ∧
          transitionCalls pre = bag.map (fun k => (k, t)) ∧ deltaCalls pre = [] ∧
          transitionCalls post = [] ∧ deltaCalls post = []) ∧
        ∃ chi2, fin.state.chiOf = some chi2 ∧ chi2.chi_tl = t ∧
          chi2.chi_tn = t + (D.delta a (t - chi.chi_tl) rt.core.x st).1 ∧
          ∃ n ∈ fin.state.heap.nodes, n.2.element = a ∧ chi2.chi_heapid = some n.1 ∧
            n.2.tn = chi2.chi_tn) ∧
      (Executive.have_chi a hp t rt.last_output_list = false →
        deltaCalls fin.log = [] ∧ fin.state.chiOf = some chi) ∧
      fin.state.core.tl = t ∧
      (∃ top, fin.state.heap.top = some top ∧ fin.state.core.tn = top.tn) ∧
      fin.state.core.x.is_empty = true ∧ fin.state.core.x.allEmpty := by
  intro rt hrt bag hbag fin hfin
  have hdef : Model.transition D TransitionPolicyDefault (.executive a c st chi hp l ks) t
      = Executive.transition D TransitionPolicyDefault (Model.start D)
          (Model.transitionN D TransitionPolicyDefault
            (Model.executive a c st chi hp l ks).depth) a c st chi hp l ks t := rfl
  have hheap : fin.state.HeapOk := by
    rw [hfin]
    exact Model.transitionN_heapOk D hS t _ _ hinv hok
  rw [hdef] at hok hfin
  obtain ⟨hr, hyes, hno⟩ := Executive.transition_run D TransitionPolicyDefault (Model.start D)
    (Model.transitionN D TransitionPolicyDefault (Model.executive a c st chi hp l ks).depth)
    a c st chi hp l ks t h1 h2 h3 hok _ rfl _ rfl _ rfl _ rfl
  rw [← hrt, ← hbag] at hr hyes hno
  have hcalls := TransitionPolicyDefault.calls
    (Model.transitionN D TransitionPolicyDefault (Model.executive a c st chi hp l ks).depth)
    t bag ⟨hp, rt.kids⟩ hr
  have hhooks := TransitionPolicyDefault.log_hooks
    (Model.transitionN D TransitionPolicyDefault (Model.executive a c st chi hp l ks).depth)
    t bag ⟨hp, rt.kids⟩
  have hroute := Executive.route_log D a c st l ks
  rw [← hrt] at hroute
  have hslog := Executive.structural_log (Model.start D) a { chi with chi_tl := t }
    (D.structural a (t - chi.chi_tl) rt.core.x st
      ((TransitionPolicyDefault (Model.transitionN D TransitionPolicyDefault
        (Model.executive a c st chi hp l ks).depth) bag t ⟨hp, rt.kids⟩).state.kids.map
        Model.addr))
    ⟨(TransitionPolicyDefault (Model.transitionN D TransitionPolicyDefault
        (Model.executive a c st chi hp l ks).depth) bag t ⟨hp, rt.kids⟩).state.heap, [],
      (TransitionPolicyDefault (Model.transitionN D TransitionPolicyDefault
        (Model.executive a c st chi hp l ks).depth) bag t ⟨hp, rt.kids⟩).state.kids⟩
  have hpre : transitionCalls (rt.log ++ (TransitionPolicyDefault
      (Model.transitionN D TransitionPolicyDefault (Model.executive a c st chi hp l ks).depth)
      bag t ⟨hp, rt.kids⟩).log) = bag.map (fun k => (k, t)) ∧
      deltaCalls (rt.log ++ (TransitionPolicyDefault
      (Model.transitionN D TransitionPolicyDefault (Model.executive a c st chi hp l ks).depth)
      bag t ⟨hp, rt.kids⟩).log) = [] := by
    simp only [transitionCalls, deltaCalls] at hroute hcalls hhooks ⊢
    rw [List.filterMap_append, List.filterMap_append, hroute.1, hroute.2.1, hcalls.1,
      hhooks.1]
    exact ⟨rfl, rfl⟩
  have himm : a ∈ (hp.imminent t).map (fun e => e.element) ↔
      ∃ n ∈ hp.nodes, n.2.element = a ∧ n.2.tn = t := by
    have htop : ∀ e, hp.top = some e → t ≤ e.tn := fun e he => (hinv.2 e he) ▸ h2
    rw [List.mem_map]
    constructor
    · rintro ⟨e, he, rfl⟩
      obtain ⟨⟨n, hn, rfl⟩, het⟩ := (hp.mem_imminent t htop e).1 he
      exact ⟨n, hn, rfl, het⟩
    · rintro ⟨n, hn, rfl, hnt⟩
      exact ⟨n.2, (hp.mem_imminent t htop n.2).2 ⟨⟨n, hn, rfl⟩, hnt⟩, rfl⟩
  have hnotin : a ∉ bag := by
    rw [hbag, Executive.mem_bag]
    exact fun h => h.1 rfl
  have hnd : bag.Nodup := by
    rw [hbag]
    exact nodup_setInsertAll (nodup_setInsertAll List.nodup_nil)
  have hchi : Executive.have_chi a hp t rt.last_output_list = true ↔
      (∃ n ∈ hp.nodes, n.2.element = a ∧ n.2.tn = t) ∨ a ∈ rt.last_output_list := by
    rw [Executive.have_chi_iff, himm]
  by_cases hc : Executive.have_chi a hp t rt.last_output_list = true
  · obtain ⟨hsr, heap2, top, hset, htop, heq⟩ := hyes hc
    rw [heq] at hfin
    subst hfin
    simp only [Model.HeapOk] at hheap
    obtain ⟨n, hn, hne, hnp⟩ := hheap.1.ownEntry _ rfl
    simp only [Prod.mk.injEq] at hnp
    refine ⟨hnotin, hnd, ?_, hchi, fun _ => ⟨⟨_, _, rfl, hpre.1, hpre.2, hslog.1, hslog.2.1⟩,
      _, rfl, rfl, rfl, n, hn, hne, hnp.1, hnp.2.symm⟩, fun h => ?_, rfl, ⟨top, htop, rfl⟩,
      rfl, PortList.clear_allEmpty _⟩
    · simp only [transitionCalls] at hpre hslog ⊢
      simp only [List.filterMap_append, List.filterMap_cons, Event.transitionCall]
      simp only [List.filterMap_append] at hpre
      rw [hpre.1, hslog.1, List.append_nil]
    · rw [hc] at h
      cases h
  · have hc2 : Executive.have_chi a hp t rt.last_output_list = false := by simpa using hc
    obtain ⟨top, htop, heq⟩ := hno hc2
    rw [heq] at hfin
    subst hfin
    exact ⟨hnotin, hnd, hpre.1, hchi, fun h => absurd h hc, fun _ => ⟨hpre.2, rfl⟩, rfl,
      ⟨top, htop, rfl⟩, rfl, PortList.clear_allEmpty _⟩

theorem Growth.growth_disciplined : Growth.dynamics.Disciplined := by
  intro a e x st held
  simp only [Growth.dynamics]
  split
  · rename_i h
    refine ⟨by simp [Structural.inserted], ?_⟩
    intro mdl hm
    simp only [List.filterMap_cons, Structural.inserted, List.filterMap_nil,
      List.mem_singleton] at hm
    subst hm
    refine ⟨Fresh.atomic 13 _ 0 ⟨rfl, rfl⟩, h.2, ?_⟩
    rw [h.1]
    decide
  · exact ⟨List.nodup_nil, fun _ h => absurd h (List.not_mem_nil _)⟩

theorem Growth.fresh_executive : Fresh Growth.executive :=
  Fresh.executive 10 _ 0 _ _ _ ⟨rfl, rfl⟩ rfl (by decide) (by decide) (fun k hk => by
    simp only [List.mem_cons, List.mem_singleton, List.not_mem_nil, or_false] at hk
    rcases hk with rfl | rfl
    · exact Fresh.atomic 11 _ 0 ⟨rfl, rfl⟩
    · exact Fresh.atomic 12 _ 0 ⟨rfl, rfl⟩)

theorem Growth.reachable_growthStarted :
    Reachable Growth.dynamics TransitionPolicyDefault Growth.started :=
  Reachable.start Growth.executive () (.fin 0) Growth.fresh_executive (by decide)

theorem Growth.reachable_growthOutput :
    Reachable Growth.dynamics TransitionPolicyDefault Growth.afterOutput :=
  Reachable.output Growth.started (.fin 2) Growth.reachable_growthStarted (by decide)

theorem Growth.reachable_grown :
    Reachable Growth.dynamics TransitionPolicyDefault Growth.grown :=
  Reachable.transition Growth.afterOutput (.fin 2) Growth.reachable_growthOutput (by decide)

theorem Growth.reachable_grownOutput :
    Reachable Growth.dynamics TransitionPolicyDefault Growth.grownOutput :=
  Reachable.output Growth.grown (.fin 3) Growth.reachable_grown (by decide)

/-! ### The structural operators `insert` and `erase` -/

/-- The run of `insert(mdl)` on a model the executive does not hold, whose
`start` returns normally, in closed form. -/
theorem Executive.insert_closed (start : Model T V S C → C → T → Run (Model T V S C) T)
    (self : Nat) (chi : Chi T V C) (mdl : Model T V S C) (n : ExecNet T V S C)
    (hb : ∀ nd ∈ n.heap.nodes, nd.1 < n.heap.next)
    (hnew : mdl.addr ∉ n.kids.map Model.addr)
    (hstart : (start (mdl.mapCore (fun c => { c with parent := some self })) chi.localcommon
      chi.chi_tl).fault = none) :
    Executive.insert start self chi mdl n
      = ⟨⟨⟨n.heap.nodes ++ [(n.heap.next, ⟨mdl.addr,
              (startedChild start self chi.localcommon chi.chi_tl n.heap.next mdl).core.tn,
              some n.heap.next⟩)], n.heap.next + 1⟩,
          n.last_output_list,
          n.kids ++ [startedChild start self chi.localcommon chi.chi_tl n.heap.next mdl]⟩,
        [.start mdl.addr chi.chi_tl
          (start (mdl.mapCore (fun c => { c with parent := some self })) chi.localcommon
            chi.chi_tl).log], none⟩ := by
  have hnone : findKid n.kids mdl.addr = none := findKid_eq_none.2 hnew
  have hset : ∀ m : Model T V S C, setKid (n.kids ++ [mdl]) mdl.addr m = n.kids ++ [m] :=
    fun m => setKid_append_cons hnew (List.not_mem_nil _)
  have he2 : ∀ (a : Nat) (tn : T), (n.heap.emplace a tn).2 = n.heap.next := fun _ _ => rfl
  simp only [Executive.insert, hnone, Option.isSome_none, Option.getD_none, hstart,
    Bool.false_eq_true, if_false, hset]
  rw [HeapType.emplace_eq hb]
  simp only [he2, startedChild, Model.core_mapCore]

theorem Executive.transition_starts (D : Dynamics T V S C)
    (start : Model T V S C → C → T → Run (Model T V S C) T)
    (tr : Model T V S C → T → Run (Model T V S C) T) (a : Nat) (c : Core T V) (st : S)
    (chi : Chi T V C) (hp : HeapType T) (l : List Nat) (ks : List (Model T V S C)) (t : T)
    (h1 : c.tl ≤ t) (h2 : t ≤ c.tn) (h3 : ¬ (t < c.tn ∧ c.x.is_empty = true))
    (hok : (Executive.transition D TransitionPolicyDefault start tr a c st chi hp l ks t).fault
      = none) :
    ∀ p ∈ startCalls
      (Executive.transition D TransitionPolicyDefault start tr a c st chi hp l ks t).log,
      p.2 = t := by
  obtain ⟨hr, hyes, hno⟩ := Executive.transition_run D TransitionPolicyDefault start tr
    a c st chi hp l ks t h1 h2 h3 hok _ rfl _ rfl _ rfl _ rfl
  have hroute := (Executive.route_log D a c st l ks).2.2
  have hhooks := (TransitionPolicyDefault.log_hooks tr t
    (Executive.bag a hp t (Executive.route D a c st l ks).last_output_list)
    ⟨hp, (Executive.route D a c st l ks).kids⟩).2
  intro p hp2
  by_cases hc : Executive.have_chi a hp t (Executive.route D a c st l ks).last_output_list
      = true
  · obtain ⟨hsr, heap2, top, hset, htop, heq⟩ := hyes hc
    have hslog := (Executive.structural_log start a { chi with chi_tl := t } _ _).2.2 hsr
    rw [heq] at hp2
    simp only [startCalls] at hroute hhooks hslog hp2
    simp only [List.filterMap_append, List.filterMap_cons, Event.startCall, hroute, hhooks,
      hslog, List.nil_append, List.mem_map] at hp2
    obtain ⟨m, _, rfl⟩ := hp2
    rfl
  · have hc2 : Executive.have_chi a hp t (Executive.route D a c st l ks).last_output_list
        = false := by simpa using hc
    obtain ⟨top, htop, heq⟩ := hno hc2
    rw [heq] at hp2
    simp only [startCalls] at hroute hhooks hp2
    simp only [List.filterMap_append, hroute, hhooks, List.nil_append] at hp2
    cases hp2

/-- C14. `insert(mdl)` by the executive at `self`, on a model `mdl` that the
executive does not hold, whose `start` returns normally, the heap agreeing with
the children (data-model invariants).  With `m` the model after the call: the
call has set `parent = this`, called `mdl->start(localcommon, chi_tl)` once and
recorded the new handle in `heapid`; the heap has one more entry, the only entry
whose element is `mdl`, with `tn = m.tn` and the same handle, and the other
entries, `last_output_list` and the other children are as they were; an atomic
`mdl` ends with `tl = chi_tl` and `tn = chi_tl + init`.  And in an
`Executive::transition(t)` that passes both guards and returns normally (here on
the executive `a`), every `start` that the transition calls, which are those of
the `insert`s of its `delta`, is called at `t`: `chi_tl` is `t` already. -/
theorem C14_executive_insert (D : Dynamics T V S C) (self : Nat) (chi : Chi T V C)
    (mdl : Model T V S C) (n : ExecNet T V S C) (own : Option (Option Nat × T))
    (hs : n.heap.Scheduled self own (n.kids.map Model.key))
    (hnew : mdl.addr ∉ n.kids.map Model.addr) (hself : mdl.addr ≠ self)
    (hstart : (Model.start D (mdl.mapCore (fun c => { c with parent := some self }))
      chi.localcommon chi.chi_tl).fault = none)
    (a : Nat) (c : Core T V) (st : S) (chi0 : Chi T V C) (hp : HeapType T) (l : List Nat)
    (ks : List (Model T V S C)) (t : T)
    (h1 : c.tl ≤ t) (h2 : t ≤ c.tn) (h3 : ¬ (t < c.tn ∧ c.x.is_empty = true))
    (hok : (Model.transition D TransitionPolicyDefault (.executive a c st chi0 hp l ks)
      t).fault = none) :
    ∀ m, m = startedChild (Model.start D) self chi.localcommon chi.chi_tl n.heap.next mdl →
      Executive.insert (Model.start D) self chi mdl n
        = ⟨⟨⟨n.heap.nodes ++ [(n.heap.next, ⟨mdl.addr, m.core.tn, some n.heap.next⟩)],
              n.heap.next + 1⟩, n.last_output_list, n.kids ++ [m]⟩,
            [.start mdl.addr chi.chi_tl
              (Model.start D (mdl.mapCore (fun c => { c with parent := some self }))
                chi.localcommon chi.chi_tl).log], none⟩ ∧
      m.addr = mdl.addr ∧ m.core.parent = some self ∧ m.core.tl = chi.chi_tl ∧
      m.core.heapid = some n.heap.next ∧
      (∀ nd ∈ n.heap.nodes, nd.2.element ≠ mdl.addr ∧ nd.1 ≠ n.heap.next) ∧
      (∀ b cb sb, mdl = .atomic b cb sb →
        m = .atomic b { cb with parent := some self, tl := chi.chi_tl,
                                tn := chi.chi_tl + (D.init b chi.localcommon chi.chi_tl sb).1,
                                heapid := some n.heap.next }
              (D.init b chi.localcommon chi.chi_tl sb).2) ∧
      ∀ p ∈ startCalls
        (Model.transition D TransitionPolicyDefault (.executive a c st chi0 hp l ks) t).log,
        p.2 = t := by
  intro m hm
  subst hm
  refine ⟨Executive.insert_closed (Model.start D) self chi mdl n hs.bound hnew hstart, ?_, ?_,
    ?_, ?_, ?_, ?_, ?_⟩
  · simp only [startedChild, Model.addr_mapCore]
    exact (Model.startN_addr D _ _ _ _).trans (Model.addr_mapCore _ _)
  · simp only [startedChild, Model.core_mapCore]
    unfold Model.start
    rw [Model.startN_parent, Model.core_mapCore]
  · simp only [startedChild, Model.core_mapCore]
    exact Model.startN_tl D _ _ _ _ hstart
  · simp only [startedChild, Model.core_mapCore]
  · intro nd hnd
    refine ⟨?_, Nat.ne_of_lt (hs.bound nd hnd)⟩
    intro he
    rcases (hs.entry nd hnd).2 with ho | hkey
    · exact hself (he.symm.trans ho.1)
    · apply hnew
      rw [← map_fst_key]
      exact List.mem_map.2 ⟨_, hkey, he⟩
  · rintro b cb sb rfl
    rfl
  · exact Executive.transition_starts D (Model.start D) _ a c st chi0 hp l ks t h1 h2 h3 hok

/-- C14, on the sample executive: the `delta` run by `transition(2)` inserts the
new child (address 13, `init = 1`); it is started at `2` and ends with `tl = 2`,
`tn = 3`, `parent` the executive and the new handle `3`. -/
theorem C14_executive_insert_witness :
    startCalls
      (Model.transition Growth.dynamics TransitionPolicyDefault Growth.afterOutput (.fin 2)).log
      = [(13, .fin 2)] ∧
    (∀ p ∈ startCalls (Model.transition Growth.dynamics TransitionPolicyDefault
      Growth.afterOutput (.fin 2)).log, p.2 = .fin 2) ∧
    Growth.grown.kids.map (fun k => (k.addr, k.core.tl, k.core.tn, k.core.parent,
      k.core.heapid))
      = [(11, .fin 0, .pinf, some 10, some 1), (12, .fin 0, .pinf, some 10, some 2),
         (13, .fin 2, .fin 3, some 10, some 3)] :=
  have h := C14_executive_insert Growth.dynamics 10
    ⟨.fin 2, .fin 2, some 0, PortList.new, PortList.new, ()⟩ Growth.newChild
    ⟨Growth.afterOutput.heap, [], Growth.afterOutput.kids⟩
    (some (some 0, .fin 2))
    (Reachable.reachable_heapOk Growth.dynamics Growth.growth_disciplined
      Growth.reachable_growthOutput).1
    (by decide) (by decide) (by decide)
    10 Growth.afterOutput.core 0 ⟨.fin 0, .fin 2, some 0, PortList.new, PortList.new, ()⟩
    Growth.afterOutput.heap Growth.afterOutput.last_output_list Growth.afterOutput.kids
    (.fin 2) (by decide) (by decide) (by decide) (by decide) _ rfl
  ⟨by decide, h.2.2.2.2.2.2.2, by decide⟩

/-- The loop of `Executive::output` over entries whose `heapid` designates the
entry itself: `lambda()` for each entry of the executive, one call
`mdl->output(time)` for each other entry, in order, and no call of `post`. -/
theorem outputChildren_calls_executive (D : Dynamics T V S C)
    (out : Model T V S C → T → Run (Model T V S C) T) (a : Nat) (st : S) (heap : HeapType T)
    (t : T) :
    ∀ (its : List (HeapElement T)) (s : OutState T V S C),
      (∀ it ∈ its, ∃ id, it.heapid = some id ∧ heap.deref id = some it) →
      (outputChildren D out (some a) st heap t its s).fault = none →
      outputCalls (outputChildren D out (some a) st heap t its s).log
        = (its.filter (fun it => it.element != a)).map (fun it => (it.element, t)) ∧
      lambdaCalls (outputChildren D out (some a) st heap t its s).log
        = (its.filter (fun it => it.element == a)).map (fun it => it.element) ∧
      postCalls (outputChildren D out (some a) st heap t its s).log = []
  | [], s, _, _ => ⟨rfl, rfl, rfl⟩
  | it :: its, s, hent, hok => by
    obtain ⟨id, hid, hd⟩ := hent it (List.mem_cons_self _ _)
    unfold outputChildren at hok ⊢
    simp only [hid, hd] at hok ⊢
    by_cases hself : some a = some it.element
    · rw [if_pos hself] at hok ⊢
      simp only at hok ⊢
      have hia : it.element = a := by
        simp only [Option.some.injEq] at hself
        exact hself.symm
      have ih := outputChildren_calls_executive D out a st heap t its _
        (fun it2 h2 => hent it2 (List.mem_cons_of_mem _ h2)) hok
      have e1 : (it.element != a) = false := by simp [hia]
      have e2 : (it.element == a) = true := by simp [hia]
      simp only [outputCalls, lambdaCalls, postCalls] at ih ⊢
      simp only [List.filterMap_cons, Event.outputCall, Event.lambdaCall, Event.postCall,
        ih.1, ih.2.1, ih.2.2, List.filter_cons, e1, e2,
        Bool.false_eq_true, if_false, if_true, List.map_cons, and_self]
    · rw [if_neg hself] at hok ⊢
      have hia : it.element ≠ a := by
        intro h
        exact hself (by rw [h])
      cases hf : findKid s.kids it.element with
      | none => simp only [hf] at hok; exact absurd hok (by simp)
      | some mdl =>
        simp only [hf] at hok ⊢
        cases hr : (out mdl t).fault with
        | some f => simp only [hr] at hok; exact absurd hok (by simp)
        | none =>
          simp only [hr] at hok ⊢
          have ih := outputChildren_calls_executive D out a st heap t its _
            (fun it2 h2 => hent it2 (List.mem_cons_of_mem _ h2)) hok
          have e1 : (it.element != a) = true := bne_iff_ne.2 hia
          have e2 : (it.element == a) = false := by simpa using hia
          simp only [outputCalls, lambdaCalls, postCalls] at ih ⊢
          simp only [List.filterMap_cons, Event.outputCall, Event.lambdaCall, Event.postCall,
            ih.1, ih.2.1, ih.2.2, List.filter_cons, e1, e2, Bool.false_eq_true, if_false,
            if_true, List.map_cons, and_self]

theorem filter_beq_of_nodup {l : List Nat} (hnd : l.Nodup) (a : Nat) :
    (a ∈ l → l.filter (fun b => b == a) = [a]) ∧ (a ∉ l → l.filter (fun b => b == a) = []) := by
  constructor
  · intro ha
    induction l with
    | nil => cases ha
    | cons b l ih =>
      have hnd2 := List.nodup_cons.1 hnd
      by_cases hba : b = a
      · subst hba
        rw [List.filter_cons_of_pos (by simp)]
        have : l.filter (fun x => x == b) = [] := by
          rw [List.filter_eq_nil_iff]
          intro x hx hxb
          exact hnd2.1 ((beq_iff_eq.1 hxb) ▸ hx)
        rw [this]
      · rw [List.filter_cons_of_neg (by simpa using hba)]
        rcases List.mem_cons.1 ha with h | h
        · exact absurd h.symm hba
        · exact ih hnd2.2 h
  · intro ha
    rw [List.filter_eq_nil_iff]
    intro x hx hxa
    exact ha ((beq_iff_eq.1 hxa) ▸ hx)

theorem Executive.output_calls_executive (D : Dynamics T V S C)
    (out : Model T V S C → T → Run (Model T V S C) T)
    (a : Nat) (c : Core T V) (st : S) (chi : Chi T V C) (hp : HeapType T) (l : List Nat)
    (ks : List (Model T V S C)) (t : T) (top : HeapElement T)
    (htop : hp.top = some top) (ht : t = c.tn) (hc : c.tn = top.tn)
    (hent : ∀ it ∈ hp.outputEntries c.tn, ∃ id, it.heapid = some id ∧ hp.deref id = some it)
    (hok : (Executive.output D out a c st chi hp l ks t).fault = none) :
    ∃ lst outs,
      (Executive.output D out a c st chi hp l ks t).log = outs ++ [Event.post a lst l] ∧
      outputCalls outs = ((hp.outputEntries c.tn).filter (fun it => it.element != a)).map
        (fun it => (it.element, t)) ∧
      lambdaCalls outs = ((hp.outputEntries c.tn).filter (fun it => it.element == a)).map
        (fun it => it.element) ∧
      postCalls outs = [] := by
  unfold Executive.output at hok ⊢
  simp only [htop] at hok ⊢
  have g1 : ¬ ¬ (t = top.tn) := not_not.2 (ht.trans hc)
  have g2 : ¬ ¬ (c.tn = top.tn) := not_not.2 hc
  have g3 : t = c.tn ∧ hp.empty = false := ⟨ht, HeapType.empty_of_top htop⟩
  rw [if_neg g1, if_neg g2, if_pos g3] at hok ⊢
  have hloop := outputChildren_calls_executive D out a st hp t (hp.outputEntries c.tn)
    ⟨c.y, ks, []⟩ hent
  revert hok
  cases hf : (outputChildren D out (some a) st hp t (hp.outputEntries c.tn)
      ⟨c.y, ks, []⟩).fault with
  | some f => intro hok; simp only at hok; exact absurd hok (by simp)
  | none =>
    intro _
    simp only
    have h := hloop hf
    exact ⟨_, _, rfl, h.1, h.2.1, h.2.2⟩

theorem Executive.insert_start_ok (start : Model T V S C → C → T → Run (Model T V S C) T)
    (self : Nat) (chi : Chi T V C) (mdl : Model T V S C) (n : ExecNet T V S C)
    (hnew : mdl.addr ∉ n.kids.map Model.addr)
    (hok : (Executive.insert start self chi mdl n).fault = none) :
    (start (mdl.mapCore (fun c => { c with parent := some self })) chi.localcommon
      chi.chi_tl).fault = none := by
  have hnone : findKid n.kids mdl.addr = none := findKid_eq_none.2 hnew
  cases hst : (start (mdl.mapCore (fun c => { c with parent := some self })) chi.localcommon
      chi.chi_tl).fault with
  | none => rfl
  | some f =>
    simp only [Executive.insert, hnone, Option.isSome_none, Option.getD_none, hst] at hok
    exact absurd hok (by simp)

theorem Executive.erase_entries (a : Nat) (n : ExecNet T V S C) (self : Nat)
    (own : Option (Option Nat × T))
    (hs : n.heap.Scheduled self own (n.kids.map Model.key))
    (hok : (Executive.erase a n).fault = none) (b : Nat) (hb : b ≠ a)
    (hin : b ∈ n.heap.nodes.map (fun nd => nd.2.element)) :
    b ∈ (Executive.erase a n).state.heap.nodes.map (fun nd => nd.2.element) := by
  simp only [Executive.erase] at hok ⊢
  cases hf : findKid n.kids a with
  | none => simp only [hf] at hok; exact absurd hok (by simp)
  | some mdl =>
    simp only [hf] at hok ⊢
    cases hh : mdl.core.heapid with
    | none => simp only [hh] at hok; exact absurd hok (by simp)
    | some id =>
      simp only [hh] at hok ⊢
      cases hd : n.heap.deref id with
      | none => simp only [hd] at hok; exact absurd hok (by simp)
      | some el =>
        simp only
        obtain ⟨nd, hnd, rfl⟩ := List.mem_map.1 hin
        have hm := findKid_mem hf
        have hkey : mdl.key ∈ n.kids.map Model.key := List.mem_map_of_mem _ hm.1
        have hheld := (hs.held mdl.key hkey id hh).2
        refine List.mem_map.2 ⟨nd, ?_, rfl⟩
        unfold HeapType.erase
        rw [List.mem_filter]
        refine ⟨hnd, bne_iff_ne.2 ?_⟩
        intro hid
        apply hb
        rw [hheld nd hnd hid]
        exact hm.2

/-- A model that the structural operators of a disciplined `delta` insert and do
not erase has a heap entry when they are done, as has every model that had one
and is not erased. -/
theorem Executive.structural_entry
    (start : Model T V S C → C → T → Run (Model T V S C) T) (self : Nat) (chi : Chi T V C)
    (own : Option (Option Nat × T))
    (haddr : ∀ k, (start k chi.localcommon chi.chi_tl).state.addr = k.addr) (b : Nat) :
    ∀ (ops : List (Structural T V S C)) (n : ExecNet T V S C),
      ((ops.filterMap Structural.inserted).map Model.addr).Nodup →
      (∀ mdl ∈ ops.filterMap Structural.inserted,
        mdl.addr ∉ n.kids.map Model.addr ∧ mdl.addr ≠ self) →
      n.heap.Scheduled self own (n.kids.map Model.key) →
      (Executive.structural start self chi ops n).fault = none →
      (b ∈ n.heap.nodes.map (fun nd => nd.2.element) ∨
        b ∈ (ops.filterMap Structural.inserted).map Model.addr) →
      (∀ c, Structural.erase c ∈ ops → c ≠ b) →
      b ∈ (Executive.structural start self chi ops n).state.heap.nodes.map
        (fun nd => nd.2.element)
  | [], n, _, _, _, _, hb, _ => by
    rcases hb with hb | hb
    · exact hb
    · cases hb
  | .insert mdl :: ops, n, hnd, hins, hs, hok, hb, hne => by
    simp only [Executive.structural] at hok ⊢
    simp only [List.filterMap_cons, Structural.inserted, List.map_cons, List.nodup_cons]
      at hnd
    have hm := hins mdl (by simp [Structural.inserted])
    cases hr : (Executive.insert start self chi mdl n).fault with
    | some f => simp only [hr] at hok; exact absurd hok (by simp)
    | none =>
      simp only [hr] at hok ⊢
      have h1 := Executive.insert_scheduled start self chi mdl n own haddr hs hm.1 hm.2 hr
      have hcl := Executive.insert_closed start self chi mdl n hs.bound hm.1
        (Executive.insert_start_ok start self chi mdl n hm.1 hr)
      refine Executive.structural_entry start self chi own haddr b ops _ hnd.2 ?_ h1.1 hok ?_
        (fun c hc => hne c (List.mem_cons_of_mem _ hc))
      · intro m2 hm2
        have h2 := hins m2 (by simp [Structural.inserted, hm2])
        refine ⟨?_, h2.2⟩
        rw [h1.2, List.mem_append, List.mem_singleton]
        rintro (h | h)
        · exact h2.1 h
        · exact hnd.1 (h ▸ List.mem_map_of_mem _ hm2)
      · rw [hcl]
        simp only [List.map_append, List.map_cons, List.map_nil, List.mem_append,
          List.mem_singleton]
        rcases hb with hb | hb
        · exact Or.inl (Or.inl hb)
        · simp only [List.filterMap_cons, Structural.inserted, List.map_cons,
            List.mem_cons] at hb
          rcases hb with hb | hb
          · exact Or.inl (Or.inr hb)
          · exact Or.inr hb
  | .erase c :: ops, n, hnd, hins, hs, hok, hb, hne => by
    simp only [Executive.structural] at hok ⊢
    simp only [List.filterMap_cons, Structural.inserted] at hnd hins hb
    cases hr : (Executive.erase c n).fault with
    | some f => simp only [hr] at hok; exact absurd hok (by simp)
    | none =>
      simp only [hr] at hok ⊢
      have h1 := Executive.erase_scheduled c n self own hs hr
      have hcb : c ≠ b := hne c (List.mem_cons_self _ _)
      refine Executive.structural_entry start self chi own haddr b ops _ hnd ?_ h1.1 hok ?_
        (fun c2 hc2 => hne c2 (List.mem_cons_of_mem _ hc2))
      · intro m2 hm2
        rw [h1.2]
        exact hins m2 hm2
      · rcases hb with hb | hb
        · exact Or.inl (Executive.erase_entries c n self own hs hr b (Ne.symm hcb) hb)
        · exact Or.inr hb

/-- After an `Executive::transition(t)` whose `delta` runs, the state is the one
that the closed form gives, the heap agrees with the children, and a model that
`delta` has inserted and not erased has a heap entry. -/
theorem Executive.transition_inserted (D : Dynamics T V S C) (hS : D.Disciplined)
    (start : Model T V S C → C → T → Run (Model T V S C) T)
    (tr : Model T V S C → T → Run (Model T V S C) T) (a : Nat) (c : Core T V) (st : S)
    (chi : Chi T V C) (hp : HeapType T) (l : List Nat) (ks : List (Model T V S C)) (t : T)
    (haddr : ∀ k common, (start k common t).state.addr = k.addr)
    (htr : ∀ k, (tr k t).state.addr = k.addr ∧ (tr k t).state.core.heapid = k.core.heapid)
    (h1 : c.tl ≤ t) (h2 : t ≤ c.tn) (h3 : ¬ (t < c.tn ∧ c.x.is_empty = true))
    (hinv : Model.HeapOk (.executive a c st chi hp l ks))
    (hok : (Executive.transition D TransitionPolicyDefault start tr a c st chi hp l ks t).fault
      = none)
    (hc : Executive.have_chi a hp t (Executive.route D a c st l ks).last_output_list = true)
    (mdl : Model T V S C) :
    ∀ ops, ops = D.structural a (t - chi.chi_tl) (Executive.route D a c st l ks).core.x st
        ((TransitionPolicyDefault tr
          (Executive.bag a hp t (Executive.route D a c st l ks).last_output_list) t
          ⟨hp, (Executive.route D a c st l ks).kids⟩).state.kids.map Model.addr) →
      Structural.insert mdl ∈ ops → (∀ b, Structural.erase b ∈ ops → b ≠ mdl.addr) →
      mdl.addr ≠ a ∧
      mdl.addr ∈ (Executive.transition D TransitionPolicyDefault start tr a c st chi hp l ks
        t).state.heap.nodes.map (fun nd => nd.2.element) := by
  intro ops hops hins hne
  obtain ⟨hr, hyes, _⟩ := Executive.transition_run D TransitionPolicyDefault start tr
    a c st chi hp l ks t h1 h2 h3 hok _ rfl _ rfl _ rfl _ rfl
  obtain ⟨hsr, heap2, top, hset, htop, heq⟩ := hyes hc
  rw [← hops] at hsr hset heq
  have hrk := Executive.route_kids_key_executive D a c st l ks
  have hl := TransitionPolicyDefault.policy_scheduled tr t htr a
    (some (chi.chi_heapid, chi.chi_tn)) _
    ⟨hp, (Executive.route D a c st l ks).kids⟩ (by rw [hrk]; exact hinv.1) hr
  have hdisc := hS a (t - chi.chi_tl) (Executive.route D a c st l ks).core.x st
    ((TransitionPolicyDefault tr
      (Executive.bag a hp t (Executive.route D a c st l ks).last_output_list) t
      ⟨hp, (Executive.route D a c st l ks).kids⟩).state.kids.map Model.addr)
  rw [← hops] at hdisc
  have hmi : mdl ∈ ops.filterMap Structural.inserted :=
    List.mem_filterMap.2 ⟨_, hins, rfl⟩
  have hent := Executive.structural_entry start a ({ chi with chi_tl := t } : Chi T V C)
    (some (chi.chi_heapid, chi.chi_tn)) (fun k => haddr k _) mdl.addr ops
    ⟨(TransitionPolicyDefault tr
        (Executive.bag a hp t (Executive.route D a c st l ks).last_output_list) t
        ⟨hp, (Executive.route D a c st l ks).kids⟩).state.heap, [],
      (TransitionPolicyDefault tr
        (Executive.bag a hp t (Executive.route D a c st l ks).last_output_list) t
        ⟨hp, (Executive.route D a c st l ks).kids⟩).state.kids⟩
    hdisc.1 (fun m hm => ⟨(hdisc.2 m hm).2.1, (hdisc.2 m hm).2.2⟩) hl.1 hsr
    (Or.inr (List.mem_map_of_mem _ hmi)) hne
  have hstr := Executive.structural_scheduled start a
    ({ chi with chi_tl := t } : Chi T V C) (some (chi.chi_heapid, chi.chi_tn))
    (fun k => haddr k _) ops
    ⟨(TransitionPolicyDefault tr
        (Executive.bag a hp t (Executive.route D a c st l ks).last_output_list) t
        ⟨hp, (Executive.route D a c st l ks).kids⟩).state.heap, [],
      (TransitionPolicyDefault tr
        (Executive.bag a hp t (Executive.route D a c st l ks).last_output_list) t
        ⟨hp, (Executive.route D a c st l ks).kids⟩).state.kids⟩
    hdisc.1 (fun m hm => ⟨(hdisc.2 m hm).2.1, (hdisc.2 m hm).2.2⟩) hl.1 hsr
  have hel := (HeapType.scheduled_setTn_own hstr hset).2
  refine ⟨(hdisc.2 mdl hmi).2.2, ?_⟩
  rw [heq]
  show mdl.addr ∈ heap2.nodes.map (fun nd => nd.2.element)
  rw [hel]
  exact hent

/-- What `Executive::output` leaves as it was: the heap, the members `chi_..`,
the state, `tl`, `tn`, and the keys of the children. -/
theorem Executive.output_frame (D : Dynamics T V S C)
    (out : Model T V S C → T → Run (Model T V S C) T)
    (a : Nat) (c : Core T V) (st : S) (chi : Chi T V C) (hp : HeapType T) (l : List Nat)
    (ks : List (Model T V S C)) (t : T) (hout : ∀ k, (out k t).state.key = k.key)
    (hnd : (ks.map Model.addr).Nodup) :
    ∃ c2 l2 ks2, (Executive.output D out a c st chi hp l ks t).state
        = .executive a c2 st chi hp l2 ks2 ∧
      c2.tn = c.tn ∧ c2.tl = c.tl ∧ ks2.map Model.key = ks.map Model.key := by
  have hloop := outputChildren_key D out (some a) st hp t hout (hp.outputEntries c.tn)
    ⟨c.y, ks, []⟩ hnd
  simp only [Executive.output]
  repeat' split
  all_goals first
    | exact ⟨_, _, _, rfl, rfl, rfl, rfl⟩
    | exact ⟨_, _, _, rfl, rfl, rfl, hloop⟩
    | exact ⟨_, _, _, rfl, rfl, rfl,
        (clearOutputs_key _ _).trans ((applyPost_kids_key D _ _ _ _ _ _).trans hloop)⟩

theorem Executive.transition_guard (D : Dynamics T V S C) (policy : Policy T V S C)
    (start : Model T V S C → C → T → Run (Model T V S C) T)
    (tr : Model T V S C → T → Run (Model T V S C) T) (a : Nat) (c : Core T V) (st : S)
    (chi : Chi T V C) (hp : HeapType T) (l : List Nat) (ks : List (Model T V S C)) (t : T)
    (hok : (Executive.transition D policy start tr a c st chi hp l ks t).fault = none) :
    c.tl ≤ t ∧ t ≤ c.tn := by
  by_contra hg
  unfold Executive.transition at hok
  rw [if_pos hg] at hok
  exact absurd hok (by simp)

/-- The calls `child->transition(t)` of an `Executive::transition(t)` under the
sequential policy that passes both guards and returns normally. -/
theorem Executive.transition_calls_executive (D : Dynamics T V S C)
    (start : Model T V S C → C → T → Run (Model T V S C) T)
    (tr : Model T V S C → T → Run (Model T V S C) T) (a : Nat) (c : Core T V) (st : S)
    (chi : Chi T V C) (hp : HeapType T) (l : List Nat) (ks : List (Model T V S C)) (t : T)
    (h1 : c.tl ≤ t) (h2 : t ≤ c.tn) (h3 : ¬ (t < c.tn ∧ c.x.is_empty = true))
    (hok : (Executive.transition D TransitionPolicyDefault start tr a c st chi hp l ks t).fault
      = none) :
    transitionCalls
      (Executive.transition D TransitionPolicyDefault start tr a c st chi hp l ks t).log
      = (Executive.bag a hp t (Executive.route D a c st l ks).last_output_list).map
          (fun k => (k, t)) := by
  obtain ⟨hr, hyes, hno⟩ := Executive.transition_run D TransitionPolicyDefault start tr
    a c st chi hp l ks t h1 h2 h3 hok _ rfl _ rfl _ rfl _ rfl
  have hroute := (Executive.route_log D a c st l ks).1
  have hcalls := (TransitionPolicyDefault.calls tr t _ _ hr).1
  by_cases hc : Executive.have_chi a hp t (Executive.route D a c st l ks).last_output_list
      = true
  · obtain ⟨hsr, heap2, top, hset, htop, heq⟩ := hyes hc
    have hslog := (Executive.structural_log start a { chi with chi_tl := t }
      (D.structural a (t - chi.chi_tl) (Executive.route D a c st l ks).core.x st
        ((TransitionPolicyDefault tr
          (Executive.bag a hp t (Executive.route D a c st l ks).last_output_list) t
          ⟨hp, (Executive.route D a c st l ks).kids⟩).state.kids.map Model.addr))
      ⟨(TransitionPolicyDefault tr
          (Executive.bag a hp t (Executive.route D a c st l ks).last_output_list) t
          ⟨hp, (Executive.route D a c st l ks).kids⟩).state.heap, [],
        (TransitionPolicyDefault tr
          (Executive.bag a hp t (Executive.route D a c st l ks).last_output_list) t
          ⟨hp, (Executive.route D a c st l ks).kids⟩).state.kids⟩).1
    rw [heq]
    simp only [transitionCalls] at hroute hcalls hslog ⊢
    simp only [List.filterMap_append, List.filterMap_cons, Event.transitionCall, hroute,
      hcalls, hslog, List.nil_append, List.append_nil]
  · have hc2 : Executive.have_chi a hp t (Executive.route D a c st l ks).last_output_list
        = false := by simpa using hc
    obtain ⟨top, htop, heq⟩ := hno hc2
    rw [heq]
    simp only [transitionCalls] at hroute hcalls ⊢
    simp only [List.filterMap_append, hroute, hcalls, List.nil_append]

/-- The children on which an `Executive::output(t)` that returns normally calls
`output(t)`, when `t = tn = heap.top().tn` and the `heapid` of every entry
designates the entry: the elements of the entries that the loop visits, the
executive left out; every call is at `t`. -/
theorem Executive.output_called (D : Dynamics T V S C)
    (out : Model T V S C → T → Run (Model T V S C) T)
    (a : Nat) (c : Core T V) (st : S) (chi : Chi T V C) (hp : HeapType T) (l : List Nat)
    (ks : List (Model T V S C)) (t : T) (top : HeapElement T)
    (htop : hp.top = some top) (ht : t = c.tn) (hc : c.tn = top.tn)
    (hent : ∀ it ∈ hp.outputEntries c.tn, ∃ id, it.heapid = some id ∧ hp.deref id = some it)
    (hok : (Executive.output D out a c st chi hp l ks t).fault = none) :
    (outputCalls (Executive.output D out a c st chi hp l ks t).log).map Prod.fst
      = ((hp.outputEntries c.tn).map (fun it => it.element)).filter (fun b => b != a) ∧
    ∀ p ∈ outputCalls (Executive.output D out a c st chi hp l ks t).log, p.2 = t := by
  obtain ⟨lst, outs, h1, h2, _, _⟩ := Executive.output_calls_executive D out a c st chi hp l ks t top
    htop ht hc hent hok
  have hout : outputCalls (Executive.output D out a c st chi hp l ks t).log
      = ((hp.outputEntries c.tn).filter (fun it => it.element != a)).map
          (fun it => (it.element, t)) := by
    rw [h1]
    simp only [outputCalls] at h2 ⊢
    rw [List.filterMap_append, h2]
    simp [Event.outputCall]
  constructor
  · rw [hout, List.map_map, List.filter_map]
    rfl
  · intro p hp2
    rw [hout] at hp2
    obtain ⟨it, _, rfl⟩ := List.mem_map.1 hp2
    rfl

/-- An executive in a simulation state (sequential policy) whose `transition(t0)`
passes both guards, runs `delta` (`have_chi`) and returns normally, `delta` using `insert` as
the kernel expects, inserting `mdl` and not erasing it.  Let `s1` be the executive
after that call and `t` its next event time, `s1.tn`.  Then `mdl` is a child `k`
of `s1`, and, for an `output(t)` that returns normally: `output(t)` is called on
`mdl` iff `k.tn = t`, no child is called twice, every call is at `t`; and, for a
`transition(t)` on the state after `output(t)` that returns normally: `mdl` is
among the imminent entries iff `k.tn = t`, in which case `transition(t)` is called
on `mdl`, no child is called twice and every call is at `t`. -/
theorem Executive.inserted_imminent_sequential (D : Dynamics T V S C) (hS : D.Disciplined)
    (a : Nat)
    (c : Core T V) (st : S) (chi : Chi T V C) (hp : HeapType T) (l : List Nat)
    (ks : List (Model T V S C)) (t0 : T) (mdl : Model T V S C)
    (ops : List (Structural T V S C))
    (hr0 : Reachable D TransitionPolicyDefault (.executive a c st chi hp l ks))
    (h1 : c.tl ≤ t0) (h2 : t0 ≤ c.tn) (h3 : ¬ (t0 < c.tn ∧ c.x.is_empty = true))
    (hok0 : (Model.transition D TransitionPolicyDefault (.executive a c st chi hp l ks)
      t0).fault = none)
    (hc : Executive.have_chi a hp t0 (Executive.route D a c st l ks).last_output_list = true)
    (hops : ops = D.structural a (t0 - chi.chi_tl) (Executive.route D a c st l ks).core.x st
      ((TransitionPolicyDefault
        (Model.transitionN D TransitionPolicyDefault (Model.executive a c st chi hp l ks).depth)
        (Executive.bag a hp t0 (Executive.route D a c st l ks).last_output_list) t0
        ⟨hp, (Executive.route D a c st l ks).kids⟩).state.kids.map Model.addr))
    (hins : Structural.insert mdl ∈ ops) (hne : ∀ b, Structural.erase b ∈ ops → b ≠ mdl.addr) :
    ∀ s1, s1 = (Model.transition D TransitionPolicyDefault (.executive a c st chi hp l ks)
        t0).state →
    ∀ t, t = s1.core.tn →
      ∃ k ∈ s1.kids, k.addr = mdl.addr ∧
        ((Model.output D s1 t).fault = none →
          (mdl.addr ∈ (outputCalls (Model.output D s1 t).log).map Prod.fst ↔ k.core.tn = t) ∧
          ((outputCalls (Model.output D s1 t).log).map Prod.fst).Nodup ∧
          (∀ p ∈ outputCalls (Model.output D s1 t).log, p.2 = t) ∧
          ∀ s2, s2 = (Model.output D s1 t).state →
            (Model.transition D TransitionPolicyDefault s2 t).fault = none →
            (mdl.addr ∈ (s2.heap.imminent t).map (fun e => e.element) ↔ k.core.tn = t) ∧
            (k.core.tn = t → mdl.addr ∈
              (transitionCalls (Model.transition D TransitionPolicyDefault s2 t).log).map
                Prod.fst) ∧
            ((transitionCalls (Model.transition D TransitionPolicyDefault s2 t).log).map
              Prod.fst).Nodup ∧
            ∀ p ∈ transitionCalls (Model.transition D TransitionPolicyDefault s2 t).log,
              p.2 = t) := by
  intro s1 hs1 t ht
  have hdef0 : Model.transition D TransitionPolicyDefault (.executive a c st chi hp l ks) t0
      = Executive.transition D TransitionPolicyDefault (Model.start D)
          (Model.transitionN D TransitionPolicyDefault
            (Model.executive a c st chi hp l ks).depth) a c st chi hp l ks t0 := rfl
  have hinv0 := Reachable.reachable_heapOk D hS hr0
  have hheap1 : s1.HeapOk := by
    rw [hs1]
    exact Reachable.reachable_heapOk D hS (Reachable.transition _ t0 hr0 hok0)
  rw [hdef0] at hok0 hs1
  obtain ⟨hma, hent1⟩ := Executive.transition_inserted D hS (Model.start D)
    (Model.transitionN D TransitionPolicyDefault (Model.executive a c st chi hp l ks).depth)
    a c st chi hp l ks t0 (fun k common => Model.startN_addr D _ k common t0)
    (fun k => ⟨Model.transitionN_addr D _ _ k t0, Model.transitionN_heapid D _ _ k t0⟩)
    h1 h2 h3 hinv0 hok0 hc mdl ops hops hins hne
  obtain ⟨_, hyes, _⟩ := Executive.transition_run D TransitionPolicyDefault (Model.start D)
    (Model.transitionN D TransitionPolicyDefault (Model.executive a c st chi hp l ks).depth)
    a c st chi hp l ks t0 h1 h2 h3 hok0 _ rfl _ rfl _ rfl _ rfl
  obtain ⟨_, heap2, top0, _, _, heq⟩ := hyes hc
  have hform : ∃ c1 st1 chi1 hp1 l1 ks1, s1 = Model.executive a c1 st1 chi1 hp1 l1 ks1 :=
    ⟨_, _, _, _, _, _, by rw [hs1, heq]⟩
  obtain ⟨c1, st1, chi1, hp1, l1, ks1, hform⟩ := hform
  rw [← hs1, hform] at hent1
  subst hform
  simp only [Model.heap] at hent1
  simp only [Model.core] at ht
  obtain ⟨nd, hnd, hnde⟩ := List.mem_map.1 hent1
  have hkids1 : (ks1.map Model.addr).Nodup := by rw [← map_fst_key]; exact hheap1.1.addrs
  obtain ⟨k, hk, hkey⟩ : ∃ k ∈ ks1, k.key = (nd.2.element, some nd.1, nd.2.tn) := by
    rcases (hheap1.1.entry nd hnd).2 with ho | hkey
    · exact absurd (hnde.symm.trans ho.1) hma
    · obtain ⟨k, hk, hkey2⟩ := List.mem_map.1 hkey
      exact ⟨k, hk, hkey2⟩
  simp only [Model.key, Prod.mk.injEq] at hkey
  have hka : k.addr = mdl.addr := hkey.1.trans hnde
  obtain ⟨top, htop⟩ := HeapType.top_isSome (List.ne_nil_of_mem hnd)
  have hctop : c1.tn = top.tn := hheap1.2 top htop
  have hnodes : (∃ n ∈ hp1.nodes, n.2.tn = t ∧ n.2.element = mdl.addr) ↔ k.core.tn = t := by
    constructor
    · rintro ⟨n, hn, hnt, hne2⟩
      have : n = nd := eq_of_map_nodup hheap1.1.elements hn hnd (hne2.trans hnde.symm)
      rw [hkey.2.2, ← this, hnt]
    · intro hkt
      exact ⟨nd, hnd, by rw [← hkey.2.2, hkt], hnde⟩
  have hmemE : ∀ b, b ∈ (hp1.outputEntries c1.tn).map (fun e => e.element) ↔
      ∃ n ∈ hp1.nodes, n.2.tn = t ∧ n.2.element = b := by
    intro b
    rw [List.mem_map]
    constructor
    · rintro ⟨e, he, rfl⟩
      obtain ⟨⟨n, hn, rfl⟩, hetn⟩ := (HeapType.mem_outputEntries htop hctop.symm e).1 he
      exact ⟨n, hn, hetn.trans ht.symm, rfl⟩
    · rintro ⟨n, hn, hntn, rfl⟩
      exact ⟨n.2, (HeapType.mem_outputEntries htop hctop.symm n.2).2
        ⟨⟨n, hn, rfl⟩, hntn.trans ht⟩, rfl⟩
  have hentE : ∀ it ∈ hp1.outputEntries c1.tn,
      ∃ id, it.heapid = some id ∧ hp1.deref id = some it := by
    intro it hit
    obtain ⟨⟨n, hn, rfl⟩, _⟩ := (HeapType.mem_outputEntries htop hctop.symm it).1 hit
    exact ⟨n.1, (hheap1.1.entry n hn).1, HeapType.deref_of_mem hheap1.1.handles hn⟩
  refine ⟨k, hk, hka, ?_⟩
  intro hokO
  have hdefO : Model.output D (.executive a c1 st1 chi1 hp1 l1 ks1) t
      = Executive.output D (Model.outputN D (Model.executive a c1 st1 chi1 hp1 l1 ks1).depth)
          a c1 st1 chi1 hp1 l1 ks1 t := rfl
  rw [hdefO] at hokO ⊢
  obtain ⟨hfst, htimes⟩ := Executive.output_called D _ a c1 st1 chi1 hp1 l1 ks1 t top htop ht
    hctop hentE hokO
  refine ⟨?_, ?_, htimes, ?_⟩
  · rw [hfst, List.mem_filter, hmemE, hnodes, bne_iff_ne]
    exact ⟨fun h => h.1, fun h => ⟨h, hma⟩⟩
  · rw [hfst]
    exact (HeapType.outputEntries_nodup htop hctop.symm hheap1.1.elements).filter _
  · intro s2 hs2 hokT
    obtain ⟨c2, l2, ks2, hst2, hc2tn, _, hkeys2⟩ := Executive.output_frame D
      (Model.outputN D (Model.executive a c1 st1 chi1 hp1 l1 ks1).depth) a c1 st1 chi1 hp1 l1
      ks1 t (fun k2 => Model.outputN_key D _ k2 t) hkids1
    rw [hst2] at hs2
    subst hs2
    have hdefT : Model.transition D TransitionPolicyDefault
        (.executive a c2 st1 chi1 hp1 l2 ks2) t
        = Executive.transition D TransitionPolicyDefault (Model.start D)
            (Model.transitionN D TransitionPolicyDefault
              (Model.executive a c2 st1 chi1 hp1 l2 ks2).depth) a c2 st1 chi1 hp1 l2 ks2
            t := rfl
    rw [hdefT] at hokT ⊢
    have hg := Executive.transition_guard D _ _ _ a c2 st1 chi1 hp1 l2 ks2 t hokT
    have hg3 : ¬ (t < c2.tn ∧ c2.x.is_empty = true) := by
      rw [hc2tn, ← ht]
      exact fun h => lt_irrefl _ h.1
    have hcalls := Executive.transition_calls_executive D (Model.start D) _ a c2 st1 chi1 hp1
      l2 ks2 t hg.1 hg.2 hg3 hokT
    have himm : mdl.addr ∈ (hp1.imminent t).map (fun e => e.element) ↔ k.core.tn = t := by
      rw [← hnodes, List.mem_map]
      have htop2 : ∀ e, hp1.top = some e → t ≤ e.tn := by
        intro e he
        rw [htop] at he
        simp only [Option.some.injEq] at he
        rw [← he, ← hctop, ht]
      constructor
      · rintro ⟨e, he, hea⟩
        obtain ⟨⟨n, hn, rfl⟩, het⟩ := (hp1.mem_imminent t htop2 e).1 he
        exact ⟨n, hn, het, hea⟩
      · rintro ⟨n, hn, hnt, hna⟩
        exact ⟨n.2, (hp1.mem_imminent t htop2 n.2).2 ⟨⟨n, hn, rfl⟩, hnt⟩, hna⟩
    have hfstT : (transitionCalls (Executive.transition D TransitionPolicyDefault
        (Model.start D) (Model.transitionN D TransitionPolicyDefault
          (Model.executive a c2 st1 chi1 hp1 l2 ks2).depth) a c2 st1 chi1 hp1 l2 ks2
        t).log).map Prod.fst
        = Executive.bag a hp1 t (Executive.route D a c2 st1 l2 ks2).last_output_list := by
      rw [hcalls, List.map_map]
      exact List.map_id _
    refine ⟨himm, ?_, ?_, ?_⟩
    · intro hkt
      rw [hfstT, Executive.mem_bag]
      exact ⟨hma, Or.inl (himm.2 hkt)⟩
    · rw [hfstT]
      exact nodup_setInsertAll (nodup_setInsertAll List.nodup_nil)
    · intro p hp2
      rw [hcalls] at hp2
      obtain ⟨b, _, rfl⟩ := List.mem_map.1 hp2
      rfl

/-! ### The depth counter is never exhausted -/

theorem startChildren_no_fuel (start : Model T V S C → C → T → Run (Model T V S C) T)
    (self : Nat) (common : C) (t : T) (d : Nat)
    (hst : ∀ k, k.depth ≤ d → (start k common t).fault ≠ some .fuel)
    (hdep : ∀ k, k.depth ≤ d → (start k common t).state.depth ≤ d) :
    ∀ (cs : List Nat) (n : Net T V S C), (∀ k ∈ n.kids, k.depth ≤ d) →
      (startChildren start self common t cs n).fault ≠ some .fuel
  | [], n, _ => by simp [startChildren]
  | a :: cs, n, hk => by
    unfold startChildren
    cases hf : findKid n.kids a with
    | none => simp
    | some child =>
      simp only
      have hc : (child.mapCore (fun c => { c with parent := some self })).depth ≤ d := by
        rw [Model.depth_mapCore]; exact hk child (findKid_mem hf).1
      cases hr : (start (child.mapCore (fun c => { c with parent := some self })) common
          t).fault with
      | some f =>
        simp only
        have := hst _ hc
        rw [hr] at this
        exact this
      | none =>
        simp only
        apply startChildren_no_fuel start self common t d hst hdep cs
        intro k hkm
        rcases mem_setKid hkm with ⟨rfl, _⟩ | ⟨hkold, _⟩
        · rw [Model.depth_mapCore]; exact hdep _ hc
        · exact hk k hkold

/-- A `start` whose depth counter exceeds the nesting depth of the model does not
exhaust it. -/
theorem Model.startN_no_fuel (D : Dynamics T V S C) (common : C) (t : T) :
    ∀ (n : Nat) (m : Model T V S C), m.depth < n →
      (Model.startN D n m common t).fault ≠ some .fuel
  | 0, _, h => absurd h (Nat.not_lt_zero _)
  | n + 1, .atomic a c st, _ => by simp [Model.startN, AtomicModel.start]
  | n + 1, .coupled a c st hp l ks, h => by
    simp only [Model.depth, Nat.add_lt_add_iff_right] at h
    have hloop := startChildren_no_fuel (Model.startN D n) a common t (Model.depthList ks)
      (fun k hk => Model.startN_no_fuel D common t n k (lt_of_le_of_lt hk h))
      (fun k hk => le_trans (Model.startN_depth D common t n k) hk) (ks.map Model.addr)
      ⟨hp, ks⟩ (fun k hk => Model.depth_le_depthList hk)
    simp only [Model.startN, CoupledModel.start]
    cases hf : (startChildren (Model.startN D n) a common t (ks.map Model.addr)
        ⟨hp, ks⟩).fault with
    | some f =>
      simp only
      rw [hf] at hloop
      exact hloop
    | none =>
      simp only
      split <;> simp
  | n + 1, .executive a c st chi hp l ks, h => by
    simp only [Model.depth, Nat.add_lt_add_iff_right] at h
    have hloop := startChildren_no_fuel (Model.startN D n) a common t (Model.depthList ks)
      (fun k hk => Model.startN_no_fuel D common t n k (lt_of_le_of_lt hk h))
      (fun k hk => le_trans (Model.startN_depth D common t n k) hk) (ks.map Model.addr)
      ⟨(hp.emplace a (t + (D.init a common t st).1)).1.modify
          (hp.emplace a (t + (D.init a common t st).1)).2
          (fun el => { el with
            heapid := some (hp.emplace a (t + (D.init a common t st).1)).2 }), ks⟩
      (fun k hk => Model.depth_le_depthList hk)
    simp only [Model.startN, Executive.start]
    cases hf : (startChildren (Model.startN D n) a common t (ks.map Model.addr)
        ⟨(hp.emplace a (t + (D.init a common t st).1)).1.modify
          (hp.emplace a (t + (D.init a common t st).1)).2
          (fun el => { el with
            heapid := some (hp.emplace a (t + (D.init a common t st).1)).2 }), ks⟩).fault with
    | some f =>
      simp only
      rw [hf] at hloop
      exact hloop
    | none =>
      simp only
      split <;> simp

theorem outputChildren_no_fuel (D : Dynamics T V S C)
    (out : Model T V S C → T → Run (Model T V S C) T) (self : Option Nat) (st : S)
    (heap : HeapType T) (t : T) (d : Nat)
    (hout : ∀ k, k.depth ≤ d → (out k t).fault ≠ some .fuel)
    (hdep : ∀ k, k.depth ≤ d → (out k t).state.depth ≤ d) :
    ∀ (its : List (HeapElement T)) (s : OutState T V S C), (∀ k ∈ s.kids, k.depth ≤ d) →
      (outputChildren D out self st heap t its s).fault ≠ some .fuel
  | [], s, _ => by simp [outputChildren]
  | it :: its, s, hk => by
    unfold outputChildren
    cases hid : it.heapid with
    | none => simp
    | some id =>
      simp only
      cases hd : heap.deref id with
      | none => simp
      | some el =>
        simp only
        by_cases hself : self = some el.element
        · rw [if_pos hself]
          exact outputChildren_no_fuel D out self st heap t d hout hdep its _
            (by intro k hkm; exact hk k hkm)
        · rw [if_neg hself]
          cases hf : findKid s.kids el.element with
          | none => simp
          | some mdl =>
            simp only
            have hm := hk mdl (findKid_mem hf).1
            cases hr : (out mdl t).fault with
            | some f =>
              simp only
              have := hout mdl hm
              rw [hr] at this
              exact this
            | none =>
              simp only
              apply outputChildren_no_fuel D out self st heap t d hout hdep its
              intro k hkm
              rcases mem_setKid hkm with ⟨rfl, _⟩ | ⟨hkold, _⟩
              · exact hdep mdl hm
              · exact hk k hkold

/-- An `output` whose depth counter exceeds the nesting depth of the model does
not exhaust it. -/
theorem Model.outputN_no_fuel (D : Dynamics T V S C) (t : T) :
    ∀ (n : Nat) (m : Model T V S C), m.depth < n →
      (Model.outputN D n m t).fault ≠ some .fuel
  | 0, _, h => absurd h (Nat.not_lt_zero _)
  | n + 1, .atomic a c st, _ => by
    simp only [Model.outputN, AtomicModel.output]
    split <;> simp
  | n + 1, .coupled a c st hp l ks, h => by
    simp only [Model.depth, Nat.add_lt_add_iff_right] at h
    have hloop := outputChildren_no_fuel D (Model.outputN D n) none st hp t
      (Model.depthList ks)
      (fun k hk => Model.outputN_no_fuel D t n k (lt_of_le_of_lt hk h))
      (fun k hk => le_trans (Model.outputN_depth D t n k) hk) (hp.outputEntries c.tn)
      ⟨c.y, ks, []⟩ (fun k hk => Model.depth_le_depthList hk)
    simp only [Model.outputN, CoupledModel.output]
    repeat' split
    all_goals first
      | (simp; done)
      | (rename_i hf; rw [hf] at hloop; exact hloop)
  | n + 1, .executive a c st chi hp l ks, h => by
    simp only [Model.depth, Nat.add_lt_add_iff_right] at h
    have hloop := outputChildren_no_fuel D (Model.outputN D n) (some a) st hp t
      (Model.depthList ks)
      (fun k hk => Model.outputN_no_fuel D t n k (lt_of_le_of_lt hk h))
      (fun k hk => le_trans (Model.outputN_depth D t n k) hk) (hp.outputEntries c.tn)
      ⟨c.y, ks, []⟩ (fun k hk => Model.depth_le_depthList hk)
    simp only [Model.outputN, Executive.output]
    repeat' split
    all_goals first
      | (simp; done)
      | (rename_i hf; rw [hf] at hloop; exact hloop)

theorem TransitionPolicyDefault.no_fuel (tr : Model T V S C → T → Run (Model T V S C) T)
    (t : T) (d : Nat) (htr : ∀ k, k.depth ≤ d → (tr k t).fault ≠ some .fuel)
    (haddr : ∀ k, (tr k t).state.addr = k.addr) :
    ∀ (bag : List Nat) (n : Net T V S C), bag.Nodup →
      (∀ k ∈ n.kids, k.addr ∈ bag → k.depth ≤ d) →
      (TransitionPolicyDefault tr bag t n).fault ≠ some .fuel
  | [], n, _, _ => by simp [TransitionPolicyDefault]
  | a :: bag, n, hnd, hk => by
    unfold TransitionPolicyDefault
    cases hf : findKid n.kids a with
    | none => simp
    | some child =>
      simp only
      have hc := findKid_mem hf
      have hcd : child.depth ≤ d := hk child hc.1 (hc.2 ▸ List.mem_cons_self _ _)
      cases hr : (tr child t).fault with
      | some f =>
        simp only
        have := htr child hcd
        rw [hr] at this
        exact this
      | none =>
        simp only
        split
        · simp
        · have hnd2 := List.nodup_cons.1 hnd
          apply TransitionPolicyDefault.no_fuel tr t d htr haddr bag _ hnd2.2
          intro k hkm hkb
          rcases mem_setKid hkm with ⟨rfl, _⟩ | ⟨hkold, _⟩
          · rw [Model.addr_mapCore, haddr, hc.2] at hkb
            exact absurd hkb hnd2.1
          · exact hk k hkold (List.mem_cons_of_mem _ hkb)

theorem applyPost_kids_depth (D : Dynamics T V S C) (a : Nat) (st : S) (c : Core T V)
    (ks : List (Model T V S C)) (out l : List Nat) (d : Nat) (hk : ∀ k ∈ ks, k.depth ≤ d) :
    ∀ k ∈ (applyPost D a st c ks out l).kids, k.depth ≤ d := by
  intro k hkm
  simp only [applyPost, List.mem_map] at hkm
  obtain ⟨k0, hk0, rfl⟩ := hkm
  rw [Model.depth_mapCore]
  exact hk k0 hk0

theorem CoupledModel.route_kids_depth_coupled (D : Dynamics T V S C) (a : Nat) (c : Core T V) (st : S)
    (l : List Nat) (ks : List (Model T V S C)) (d : Nat) (hk : ∀ k ∈ ks, k.depth ≤ d) :
    ∀ k ∈ (CoupledModel.route D a c st l ks).kids, k.depth ≤ d := by
  unfold CoupledModel.route
  by_cases hx : c.x.is_empty = true
  · rw [if_pos hx]; exact hk
  · rw [if_neg hx]; exact applyPost_kids_depth D a st c ks [a] l d hk

theorem Executive.route_kids_depth_executive (D : Dynamics T V S C) (a : Nat) (c : Core T V) (st : S)
    (l : List Nat) (ks : List (Model T V S C)) (d : Nat) (hk : ∀ k ∈ ks, k.depth ≤ d) :
    ∀ k ∈ (Executive.route D a c st l ks).kids, k.depth ≤ d := by
  unfold Executive.route
  by_cases hx : c.x.is_empty = true
  · rw [if_pos hx]; exact hk
  · rw [if_neg hx]; exact applyPost_kids_depth D a st c ks [a] l d hk

theorem Executive.structural_no_fuel
    (start : Model T V S C → C → T → Run (Model T V S C) T) (self : Nat) (chi : Chi T V C)
    (hst : ∀ k, (start k chi.localcommon chi.chi_tl).fault ≠ some .fuel) :
    ∀ (ops : List (Structural T V S C)) (n : ExecNet T V S C),
      (Executive.structural start self chi ops n).fault ≠ some .fuel
  | [], n => by simp [Executive.structural]
  | .insert mdl :: ops, n => by
    simp only [Executive.structural]
    cases hr : (Executive.insert start self chi mdl n).fault with
    | some f =>
      simp only
      intro hf
      simp only [Executive.insert] at hr
      split at hr
      · rename_i f2 hf2
        simp only [Option.some.injEq] at hr hf
        rw [hf] at hr
        rw [hr] at hf2
        exact hst _ hf2
      · cases hr
    | none =>
      simp only
      exact Executive.structural_no_fuel start self chi hst ops _
  | .erase b :: ops, n => by
    simp only [Executive.structural]
    cases hr : (Executive.erase b n).fault with
    | some f =>
      simp only
      intro hf
      simp only [Executive.erase] at hr
      simp only [Option.some.injEq] at hf
      rw [hf] at hr
      repeat' split at hr
      all_goals simp at hr
    | none =>
      simp only
      exact Executive.structural_no_fuel start self chi hst ops _

theorem Executive.finish_no_fuel (a : Nat) (c : Core T V) (st : S) (chi : Chi T V C)
    (n : ExecNet T V S C) (t : T) (log : List (Event T)) :
    (Executive.finish a c st chi n t log).fault ≠ some .fuel := by
  unfold Executive.finish
  split <;> simp

theorem CoupledModel.transition_no_fuel_coupled (D : Dynamics T V S C)
    (tr : Model T V S C → T → Run (Model T V S C) T) (a : Nat) (c : Core T V) (st : S)
    (hp : HeapType T) (l : List Nat) (ks : List (Model T V S C)) (t : T) (d : Nat)
    (hd : ∀ k ∈ ks, k.depth ≤ d)
    (htr : ∀ k, k.depth ≤ d → (tr k t).fault ≠ some .fuel)
    (haddr : ∀ k, (tr k t).state.addr = k.addr) :
    (CoupledModel.transition D TransitionPolicyDefault tr a c st hp l ks t).fault
      ≠ some .fuel := by
  have hpol := TransitionPolicyDefault.no_fuel tr t d htr haddr
    (CoupledModel.bag hp t (CoupledModel.route D a c st l ks).last_output_list)
    ⟨hp, (CoupledModel.route D a c st l ks).kids⟩
    (nodup_setInsertAll (nodup_setInsertAll List.nodup_nil))
    (fun k hk _ => CoupledModel.route_kids_depth_coupled D a c st l ks d hd k hk)
  unfold CoupledModel.transition
  by_cases hg : ¬ (c.tl ≤ t ∧ t ≤ c.tn)
  · rw [if_pos hg]; simp
  · rw [if_neg hg]
    by_cases hn : t < c.tn ∧ c.x.is_empty = true
    · rw [if_pos hn]; simp
    · rw [if_neg hn]
      simp only
      by_cases hb : a ∈ CoupledModel.bag hp t (CoupledModel.route D a c st l ks).last_output_list
      · rw [if_pos hb]; simp
      · rw [if_neg hb]
        cases hf : (TransitionPolicyDefault tr
            (CoupledModel.bag hp t (CoupledModel.route D a c st l ks).last_output_list) t
            ⟨hp, (CoupledModel.route D a c st l ks).kids⟩).fault with
        | some f =>
          simp only
          rw [hf] at hpol
          exact hpol
        | none =>
          simp only
          split <;> simp

theorem Executive.transition_no_fuel_executive (D : Dynamics T V S C)
    (start : Model T V S C → C → T → Run (Model T V S C) T)
    (tr : Model T V S C → T → Run (Model T V S C) T) (a : Nat) (c : Core T V) (st : S)
    (chi : Chi T V C) (hp : HeapType T) (l : List Nat) (ks : List (Model T V S C)) (t : T)
    (d : Nat) (hd : ∀ k ∈ ks, k.depth ≤ d)
    (hst : ∀ k common time, (start k common time).fault ≠ some .fuel)
    (htr : ∀ k, k.depth ≤ d → (tr k t).fault ≠ some .fuel)
    (haddr : ∀ k, (tr k t).state.addr = k.addr) :
    (Executive.transition D TransitionPolicyDefault start tr a c st chi hp l ks t).fault
      ≠ some .fuel := by
  have hpol := TransitionPolicyDefault.no_fuel tr t d htr haddr
    (Executive.bag a hp t (Executive.route D a c st l ks).last_output_list)
    ⟨hp, (Executive.route D a c st l ks).kids⟩
    (nodup_setInsertAll (nodup_setInsertAll List.nodup_nil))
    (fun k hk _ => Executive.route_kids_depth_executive D a c st l ks d hd k hk)
  unfold Executive.transition
  by_cases hg : ¬ (c.tl ≤ t ∧ t ≤ c.tn)
  · rw [if_pos hg]; simp
  · rw [if_neg hg]
    by_cases hn : t < c.tn ∧ c.x.is_empty = true
    · rw [if_pos hn]; simp
    · rw [if_neg hn]
      simp only
      cases hf : (TransitionPolicyDefault tr
          (Executive.bag a hp t (Executive.route D a c st l ks).last_output_list) t
          ⟨hp, (Executive.route D a c st l ks).kids⟩).fault with
      | some f =>
        simp only
        rw [hf] at hpol
        exact hpol
      | none =>
        simp only
        by_cases hc : Executive.have_chi a hp t
            (Executive.route D a c st l ks).last_output_list = true
        · rw [if_pos hc]
          have hsn := Executive.structural_no_fuel start a
            ({ chi with chi_tl := t } : Chi T V C) (fun k => hst k _ _)
            (D.structural a (t - chi.chi_tl) (Executive.route D a c st l ks).core.x st
              ((TransitionPolicyDefault tr
                (Executive.bag a hp t (Executive.route D a c st l ks).last_output_list) t
                ⟨hp, (Executive.route D a c st l ks).kids⟩).state.kids.map Model.addr))
            ⟨(TransitionPolicyDefault tr
                (Executive.bag a hp t (Executive.route D a c st l ks).last_output_list) t
                ⟨hp, (Executive.route D a c st l ks).kids⟩).state.heap, [],
              (TransitionPolicyDefault tr
                (Executive.bag a hp t (Executive.route D a c st l ks).last_output_list) t
                ⟨hp, (Executive.route D a c st l ks).kids⟩).state.kids⟩
          revert hsn
          cases hs : (Executive.structural start a { chi with chi_tl := t }
              (D.structural a (t - chi.chi_tl) (Executive.route D a c st l ks).core.x st
                ((TransitionPolicyDefault tr
                  (Executive.bag a hp t (Executive.route D a c st l ks).last_output_list) t
                  ⟨hp, (Executive.route D a c st l ks).kids⟩).state.kids.map Model.addr))
              ⟨(TransitionPolicyDefault tr
                  (Executive.bag a hp t (Executive.route D a c st l ks).last_output_list) t
                  ⟨hp, (Executive.route D a c st l ks).kids⟩).state.heap, [],
                (TransitionPolicyDefault tr
                  (Executive.bag a hp t (Executive.route D a c st l ks).last_output_list) t
                  ⟨hp, (Executive.route D a c st l ks).kids⟩).state.kids⟩).fault with
          | some f => intro hsn; simp only; exact hsn
          | none =>
            intro _
            simp only
            split
            · simp
            · exact Executive.finish_no_fuel _ _ _ _ _ _ _
        · rw [if_neg hc]
          exact Executive.finish_no_fuel _ _ _ _ _ _ _

/-- A `transition` under the sequential policy whose depth counter exceeds the
nesting depth of the model does not exhaust it. -/
theorem Model.transitionN_no_fuel (D : Dynamics T V S C) (t : T) :
    ∀ (n : Nat) (m : Model T V S C), m.depth < n →
      (Model.transitionN D TransitionPolicyDefault n m t).fault ≠ some .fuel
  | 0, _, h => absurd h (Nat.not_lt_zero _)
  | n + 1, .atomic a c st, _ => by
    simp only [Model.transitionN, AtomicModel.transition]
    repeat' split
    all_goals simp
  | n + 1, .coupled a c st hp l ks, h => by
    simp only [Model.depth, Nat.add_lt_add_iff_right] at h
    exact CoupledModel.transition_no_fuel_coupled D _ a c st hp l ks t (Model.depthList ks)
      (fun k hk => Model.depth_le_depthList hk)
      (fun k hk => Model.transitionN_no_fuel D t n k (lt_of_le_of_lt hk h))
      (fun k => Model.transitionN_addr D _ n k t)
  | n + 1, .executive a c st chi hp l ks, h => by
    simp only [Model.depth, Nat.add_lt_add_iff_right] at h
    exact Executive.transition_no_fuel_executive D _ _ a c st chi hp l ks t (Model.depthList ks)
      (fun k hk => Model.depth_le_depthList hk)
      (fun k common time => Model.startN_no_fuel D common time _ k (Nat.lt_succ_self _))
      (fun k hk => Model.transitionN_no_fuel D t n k (lt_of_le_of_lt hk h))
      (fun k => Model.transitionN_addr D _ n k t)

/-- The engine never ends because the depth counter of the embedding is
exhausted: a fault of `run` under the sequential policy is an error of the
kernel. -/
theorem Engine.run_no_fuel (D : Dynamics T V S C) (root : Model T V S C) (t : T) :
    (Engine.run D TransitionPolicyDefault root t).fault ≠ some .fuel := by
  have ho : (Model.output D root t).fault ≠ some .fuel :=
    Model.outputN_no_fuel D t _ root (Nat.lt_succ_self _)
  have htr : (Model.transition D TransitionPolicyDefault (Model.output D root t).state
      t).fault ≠ some .fuel :=
    Model.transitionN_no_fuel D t _ (Model.output D root t).state (Nat.lt_succ_self _)
  cases hf : (Model.output D root t).fault with
  | some f =>
    rw [hf] at ho
    simp only [Engine.run, hf]
    exact ho
  | none =>
    cases hf2 : (Model.transition D TransitionPolicyDefault (Model.output D root t).state
        t).fault with
    | some f =>
      rw [hf2] at htr
      simp only [Engine.run, hf, hf2]
      exact htr
    | none =>
      simp only [Engine.run, hf, hf2]
      exact fun h => Option.noConfusion h

/-! ### The engine -/

/-- C19. `Engine::run(root, t)` with `root.tn = t`.  Whenever the call returns
normally, `root.output(t)` and then `root.transition(t)`, on the state that
`output` left, have returned normally, these are the two calls of the engine, in
this order, `root.x` is empty on return and the value returned is the `tn` that
`transition` left.  For an atomic root with `tl ≤ t` the call returns normally:
it calls `lambda()` once, then `delta(t - tl)` once, and returns
`t + delta(t - tl)`.  Under the sequential policy the call never ends because the
depth counter of the embedding is exhausted. -/
theorem C19_engine_run (D : Dynamics T V S C) (policy : Policy T V S C) (root : Model T V S C)
    (t : T) (ht : root.core.tn = t) :
    (∀ r, r = Engine.run D policy root t → r.fault = none →
      (Model.output D root t).fault = none ∧
      (Model.transition D policy (Model.output D root t).state t).fault = none ∧
      r.log = [.output root.addr t (Model.output D root t).log,
        .transition root.addr t
          (Model.transition D policy (Model.output D root t).state t).log] ∧
      r.state.1 = (Model.transition D policy (Model.output D root t).state t).state.mapCore
        (fun c => { c with x := c.x.clear }) ∧
      r.state.1.core.x.is_empty = true ∧ r.state.1.core.x.allEmpty ∧
      r.state.2
        = some (Model.transition D policy (Model.output D root t).state t).state.core.tn) ∧
    (∀ a c st, root = .atomic a c st → c.tl ≤ t →
      Engine.run D policy root t
        = ⟨(.atomic a { c with y := D.lambda a st c.y,
                               tn := t + (D.delta a (t - c.tl) c.x st).1, tl := t,
                               x := c.x.clear.clear } (D.delta a (t - c.tl) c.x st).2,
            some (t + (D.delta a (t - c.tl) c.x st).1)),
          [.output a t [.lambda a], .transition a t [.delta a (t - c.tl)]], none⟩) ∧
    (Engine.run D TransitionPolicyDefault root t).fault ≠ some .fuel := by
  refine ⟨?_, ?_, Engine.run_no_fuel D root t⟩
  · intro r hr hok
    subst hr
    cases ho : (Model.output D root t).fault with
    | some f =>
      have hrun : (Engine.run D policy root t).fault = some f := by
        simp only [Engine.run, ho]
      rw [hrun] at hok
      cases hok
    | none =>
      cases htr : (Model.transition D policy (Model.output D root t).state t).fault with
      | some f =>
        have hrun : (Engine.run D policy root t).fault = some f := by
          simp only [Engine.run, ho, htr]
        rw [hrun] at hok
        cases hok
      | none =>
        have hrun : Engine.run D policy root t
            = ⟨((Model.transition D policy (Model.output D root t).state t).state.mapCore
                  (fun c => { c with x := c.x.clear }),
                some ((Model.transition D policy (Model.output D root t).state
                  t).state.mapCore (fun c => { c with x := c.x.clear })).core.tn),
              [.output root.addr t (Model.output D root t).log,
                .transition root.addr t
                  (Model.transition D policy (Model.output D root t).state t).log],
              none⟩ := by
          simp only [Engine.run, ho, htr]
        rw [hrun]
        refine ⟨rfl, rfl, rfl, rfl, ?_, ?_, ?_⟩
        · simp only [Model.core_mapCore]
          rfl
        · simp only [Model.core_mapCore]
          exact PortList.clear_allEmpty _
        · simp only [Model.core_mapCore]
  · rintro a c st rfl htl
    simp only [Model.core] at ht
    have hg1 : ¬ ¬ (c.tl ≤ t ∧ t ≤ c.tn) := not_not.2 ⟨htl, le_of_eq ht.symm⟩
    have hg2 : ¬ (t < c.tn ∧ c.x.is_empty = true) := by
      rw [ht]
      exact fun h => lt_irrefl _ h.1
    simp only [Engine.run, Model.output, Model.outputN, AtomicModel.output, ht.symm,
      if_true, Model.transition, Model.transitionN, AtomicModel.transition, Model.addr,
      Model.mapCore]
    rw [ht] at hg1 hg2 ⊢
    simp only [if_neg hg1, if_neg hg2, Model.mapCore, Model.core]

/-- C19, on the started generator of the sample network (`tl = 0`, `tn = 2`):
`run(2)` calls `lambda()`, then `delta(2)`, and returns `4`. -/
theorem C19_engine_run_witness :
    Engine.run Sample.dynamics TransitionPolicyDefault Sample.startedGenerator (.fin 2)
      = ⟨(.atomic 1 { Sample.startedGenerator.core with
            y := Sample.dynamics.lambda 1 0 Sample.startedGenerator.core.y,
            tn := (.fin 2 : ExtInt) + (Sample.dynamics.delta 1 ((.fin 2 : ExtInt) - .fin 0)
              Sample.startedGenerator.core.x 0).1,
            tl := .fin 2, x := Sample.startedGenerator.core.x.clear.clear }
            (Sample.dynamics.delta 1 ((.fin 2 : ExtInt) - .fin 0)
              Sample.startedGenerator.core.x 0).2,
          some ((.fin 2 : ExtInt) + (Sample.dynamics.delta 1 ((.fin 2 : ExtInt) - .fin 0)
            Sample.startedGenerator.core.x 0).1)),
        [.output 1 (.fin 2) [.lambda 1], .transition 1 (.fin 2) [.delta 1 (.fin 2 - .fin 0)]],
        none⟩ ∧
    (Engine.run Sample.dynamics TransitionPolicyDefault Sample.startedGenerator
      (.fin 2)).state.2 = some (.fin 4) :=
  ⟨(C19_engine_run Sample.dynamics TransitionPolicyDefault Sample.startedGenerator (.fin 2)
      rfl).2.1 1 Sample.startedGenerator.core 0 rfl (by decide),
    by decide⟩

/-- C20, the claim as stated fails: on the started generator of the sample
network (`tl = 0`, `tn = 2`, `x` empty) `run(1)`, with `1 ≠ tn`, returns the
time `2` without any error: `Engine::run` has no assertion, `output(1)` does
nothing and `transition(1)` takes its no-op return. -/
theorem C20_counterexample :
    (.fin 1 : ExtInt) ≠ Sample.startedGenerator.core.tn ∧
    (Engine.run Sample.dynamics TransitionPolicyDefault Sample.startedGenerator
      (.fin 1)).fault = none ∧
    (Engine.run Sample.dynamics TransitionPolicyDefault Sample.startedGenerator
      (.fin 1)).state.2 = some (.fin 2) := by
  decide

/-- C20, amended. `Engine::run(root, t)` with `t ≠ root.tn` checks nothing
itself; it ends with the synchronization error when `root.output(t)` or
`root.transition(t)` does.  For a coupled or executive root whose heap is not
empty and whose `tn` is the `tn` of the top of the heap, `output(t)` does, and
nothing else is called.  For an atomic root `output(t)` does nothing, and
`transition(t)` ends with the synchronization error when `tl ≤ t ≤ tn` fails;
when `tl ≤ t < tn`, `run` returns normally: with `x` empty it calls no hook and
returns `tn`, with `x` not empty it calls `delta(t - tl)` and returns
`t + delta(t - tl)`. -/
theorem C20_engine_run_out_of_sync (D : Dynamics T V S C) (policy : Policy T V S C)
    (root : Model T V S C) (t : T) (hne : t ≠ root.core.tn) :
    (∀ top, root.heap.top = some top → root.core.tn = top.tn →
      Engine.run D policy root t
        = ⟨(root, none), [.output root.addr t []], some .synchronization⟩) ∧
    (∀ a c st, root = .atomic a c st → ¬ (c.tl ≤ t ∧ t ≤ c.tn) →
      Engine.run D policy root t
        = ⟨(root, none), [.output a t [], .transition a t []], some .synchronization⟩) ∧
    (∀ a c st, root = .atomic a c st → c.tl ≤ t → t < c.tn → c.x.is_empty = true →
      Engine.run D policy root t
        = ⟨(.atomic a { c with x := c.x.clear } st, some c.tn),
            [.output a t [], .transition a t []], none⟩) ∧
    (∀ a c st, root = .atomic a c st → c.tl ≤ t → t < c.tn → c.x.is_empty = false →
      Engine.run D policy root t
        = ⟨(.atomic a { c with tn := t + (D.delta a (t - c.tl) c.x st).1, tl := t,
                               x := c.x.clear.clear } (D.delta a (t - c.tl) c.x st).2,
            some (t + (D.delta a (t - c.tl) c.x st).1)),
          [.output a t [], .transition a t [.delta a (t - c.tl)]], none⟩) := by
  refine ⟨?_, ?_, ?_, ?_⟩
  · intro top htop hc
    have hsync : Model.output D root t = ⟨root, [], some .synchronization⟩ := by
      cases root with
      | atomic a c st => cases htop
      | coupled a c st hp l ks =>
        simp only [Model.heap, Model.core] at htop hc hne
        have g1 : ¬ (t = top.tn) := fun h => hne (h.trans hc.symm)
        simp only [Model.output, Model.outputN, CoupledModel.output, htop]
        rw [if_pos g1]
      | executive a c st chi hp l ks =>
        simp only [Model.heap, Model.core] at htop hc hne
        have g1 : ¬ (t = top.tn) := fun h => hne (h.trans hc.symm)
        simp only [Model.output, Model.outputN, Executive.output, htop]
        rw [if_pos g1]
    simp only [Engine.run, hsync]
  · rintro a c st rfl hg
    simp only [Model.core] at hne
    simp only [Engine.run, Model.output, Model.outputN, AtomicModel.output, if_neg hne,
      Model.transition, Model.transitionN, AtomicModel.transition, Model.addr, if_pos hg]
  · rintro a c st rfl h1 h2 hx
    simp only [Model.core] at hne
    have hg1 : ¬ ¬ (c.tl ≤ t ∧ t ≤ c.tn) := not_not.2 ⟨h1, le_of_lt h2⟩
    have hg2 : t < c.tn ∧ c.x.is_empty = true := ⟨h2, hx⟩
    simp only [Engine.run, Model.output, Model.outputN, AtomicModel.output, if_neg hne,
      Model.transition, Model.transitionN, AtomicModel.transition, Model.addr, if_neg hg1,
      if_pos hg2, Model.mapCore, Model.core]
  · rintro a c st rfl h1 h2 hx
    simp only [Model.core] at hne
    have hg1 : ¬ ¬ (c.tl ≤ t ∧ t ≤ c.tn) := not_not.2 ⟨h1, le_of_lt h2⟩
    have hg2 : ¬ (t < c.tn ∧ c.x.is_empty = true) := by
      rw [hx]
      exact fun h => absurd h.2 (by simp)
    simp only [Engine.run, Model.output, Model.outputN, AtomicModel.output, if_neg hne,
      Model.transition, Model.transitionN, AtomicModel.transition, Model.addr, if_neg hg1,
      if_neg hg2, Model.mapCore, Model.core]

/-- C20 amended, on the started sample network (`tn = 2`, the `tn` of the top of
its heap): `run(3)` ends with the synchronization error of `output(3)`. -/
theorem C20_engine_run_out_of_sync_witness :
    Engine.run Sample.dynamics TransitionPolicyDefault Sample.started (.fin 3)
      = ⟨(Sample.started, none), [.output 0 (.fin 3) []], some .synchronization⟩ :=
  (C20_engine_run_out_of_sync Sample.dynamics TransitionPolicyDefault Sample.started (.fin 3)
    (by decide)).1 ⟨1, .fin 2, some 0⟩ rfl rfl

/-! ### `Engine::pre` -/

/-- C21. `Engine::pre(root, t)` makes one call, `root.start(common, t)`, and
nothing else: the state it leaves is the one `start` leaves, it ends with a
fault exactly when `start` does (never because the depth counter of the embedding
is exhausted), and when `start` returns normally it returns the `tn` that
`start` left.  For an atomic root it returns normally: `init(common, t)` is
called once, `tl = t`, `tn = t + init(common, t)`, and this `tn` is returned. -/
theorem C21_engine_pre (D : Dynamics T V S C) (common : C) (root : Model T V S C) (t : T) :
    (Engine.pre D common root t).log
      = [.start root.addr t (Model.start D root common t).log] ∧
    startCalls (Engine.pre D common root t).log = [(root.addr, t)] ∧
    (Engine.pre D common root t).state.1 = (Model.start D root common t).state ∧
    (Engine.pre D common root t).fault = (Model.start D root common t).fault ∧
    (Engine.pre D common root t).fault ≠ some .fuel ∧
    ((Model.start D root common t).fault = none →
      (Engine.pre D common root t).state.2
        = some (Model.start D root common t).state.core.tn) ∧
    (∀ a c st, root = .atomic a c st →
      Engine.pre D common root t
        = ⟨(.atomic a { c with tl := t, tn := t + (D.init a common t st).1 }
              (D.init a common t st).2,
            some (t + (D.init a common t st).1)),
          [.start a t [.init a t]], none⟩) := by
  have hnf : (Model.start D root common t).fault ≠ some .fuel :=
    Model.startN_no_fuel D common t _ root (Nat.lt_succ_self _)
  cases hf : (Model.start D root common t).fault with
  | some f =>
    rw [hf] at hnf
    have hrun : Engine.pre D common root t
        = ⟨((Model.start D root common t).state, none),
            [.start root.addr t (Model.start D root common t).log], some f⟩ := by
      simp only [Engine.pre, hf]
    rw [hrun]
    refine ⟨rfl, rfl, rfl, rfl, hnf, fun h => Option.noConfusion h, ?_⟩
    rintro a c st rfl
    exact absurd hf (by simp [Model.start, Model.startN, AtomicModel.start])
  | none =>
    have hrun : Engine.pre D common root t
        = ⟨((Model.start D root common t).state,
              some (Model.start D root common t).state.core.tn),
            [.start root.addr t (Model.start D root common t).log], none⟩ := by
      simp only [Engine.pre, hf]
    rw [hrun]
    refine ⟨rfl, rfl, rfl, rfl, fun h => Option.noConfusion h, fun _ => rfl, ?_⟩
    rintro a c st rfl
    rfl

/-- C21, on the generator of the sample network: `pre(0)` calls `init` once,
sets `tl = 0`, `tn = 0 + 2` and returns `2` (one time unit). -/
theorem C21_engine_pre_witness :
    Engine.pre Sample.dynamics () Sample.generator (.fin 0)
      = ⟨(.atomic 1 { Sample.generator.core with tl := .fin 0, tn := .fin 2 } 0, some (.fin 2)),
          [.start 1 (.fin 0) [.init 1 (.fin 0)]], none⟩ :=
  (C21_engine_pre Sample.dynamics () Sample.generator (.fin 0)).2.2.2.2.2.2 1
    Sample.generator.core 0 rfl

/-! ### `Engine::run` at `infinity` -/

/-- A `transition(t)` that returns normally and does not take the no-op return
leaves `tl = t`. -/
theorem Model.transition_tl (D : Dynamics T V S C) (policy : Policy T V S C)
    (m : Model T V S C) (t : T) (h : (Model.transition D policy m t).fault = none)
    (hn : ¬ (t < m.core.tn ∧ m.core.x.is_empty = true)) :
    (Model.transition D policy m t).state.core.tl = t := by
  cases m with
  | atomic a c st => exact (AtomicModel.after_transition_atomic D a c st t h).2.2.1 hn
  | coupled a c st hp l ks =>
    exact (CoupledModel.after_transition_coupled D policy _ a c st hp l ks t h).2.2.1 hn
  | executive a c st chi hp l ks =>
    exact (Executive.after_transition_executive D policy _ _ a c st chi hp l ks t h).2.2.1 hn

/-- The run of `Engine::run(root, t)` on an atomic root with `tl ≤ t = tn`:
`lambda()`, then `delta(t - tl)`. -/
theorem Engine.run_atomic (D : Dynamics T V S C) (policy : Policy T V S C) (a : Nat)
    (c : Core T V) (st : S) (t : T) (ht : c.tn = t) (htl : c.tl ≤ t) :
    Engine.run D policy (.atomic a c st) t
      = ⟨(.atomic a { c with y := D.lambda a st c.y,
                             tn := t + (D.delta a (t - c.tl) c.x st).1, tl := t,
                             x := c.x.clear.clear } (D.delta a (t - c.tl) c.x st).2,
          some (t + (D.delta a (t - c.tl) c.x st).1)),
        [.output a t [.lambda a], .transition a t [.delta a (t - c.tl)]], none⟩ := by
  have hg1 : ¬ ¬ (c.tl ≤ t ∧ t ≤ c.tn) := not_not.2 ⟨htl, le_of_eq ht.symm⟩
  have hg2 : ¬ (t < c.tn ∧ c.x.is_empty = true) := by
    rw [ht]
    exact fun h => lt_irrefl _ h.1
  simp only [Engine.run, Model.output, Model.outputN, AtomicModel.output, ht.symm,
    if_true, Model.transition, Model.transitionN, AtomicModel.transition, Model.addr,
    Model.mapCore]
  rw [ht] at hg1 hg2 ⊢
  simp only [if_neg hg1, if_neg hg2, Model.mapCore, Model.core]

/-- C22, the claim as stated fails: on the started accumulator of the sample
network (`tl = 0`, `tn = infinity`) `run(infinity)` returns `infinity`, but it
calls `lambda()` and then `delta(infinity - 0)`, and it leaves `tl = infinity`
where `tl` was `0`. -/
theorem C22_counterexample :
    Sample.startedAccumulator.core.tn = .pinf ∧
    Sample.startedAccumulator.core.tl = .fin 0 ∧
    (Engine.run Sample.dynamics TransitionPolicyDefault Sample.startedAccumulator
      .pinf).state.2 = some .pinf ∧
    (Engine.run Sample.dynamics TransitionPolicyDefault Sample.startedAccumulator .pinf).log
      = [.output 2 .pinf [.lambda 2], .transition 2 .pinf [.delta 2 (.pinf - .fin 0)]] ∧
    (Engine.run Sample.dynamics TransitionPolicyDefault Sample.startedAccumulator
      .pinf).state.1.core.tl = .pinf := by
  refine ⟨rfl, rfl, rfl, rfl, rfl⟩

/-- C22, amended. Let the root be in a simulation state (the time advances of
`init` and `delta` are non-negative, the executives use `insert` as the kernel
expects) with `tn = infinity`.  When `Engine::run(root, infinity)` under the
sequential policy returns normally it returns `infinity` and leaves
`tn = infinity`, but it is not free of side effects: it leaves `tl = infinity`,
and for an atomic root, where it always returns normally, it calls `lambda()`
once and then `delta(infinity - tl)` once, `y` is what `lambda` wrote and the
user state is what `delta` returned. -/
theorem C22_run_at_infinity [LawfulTime T] (D : Dynamics T V S C) (hD : D.NonNegative)
    (hS : D.Disciplined) (root : Model T V S C)
    (hr : Reachable D TransitionPolicyDefault root)
    (ht : root.core.tn = TimeTrait.infinity) :
    ((Engine.run D TransitionPolicyDefault root TimeTrait.infinity).fault = none →
      (Engine.run D TransitionPolicyDefault root TimeTrait.infinity).state.2
        = some TimeTrait.infinity ∧
      (Engine.run D TransitionPolicyDefault root TimeTrait.infinity).state.1.core.tn
        = TimeTrait.infinity ∧
      (Engine.run D TransitionPolicyDefault root TimeTrait.infinity).state.1.core.tl
        = TimeTrait.infinity) ∧
    (∀ a c st, root = .atomic a c st →
      Engine.run D TransitionPolicyDefault root TimeTrait.infinity
        = ⟨(.atomic a { c with y := D.lambda a st c.y,
                               tn := TimeTrait.infinity, tl := TimeTrait.infinity,
                               x := c.x.clear.clear }
              (D.delta a (TimeTrait.infinity - c.tl) c.x st).2,
            some TimeTrait.infinity),
          [.output a TimeTrait.infinity [.lambda a],
            .transition a TimeTrait.infinity [.delta a (TimeTrait.infinity - c.tl)]],
          none⟩) := by
  have hmain : (Engine.run D TransitionPolicyDefault root TimeTrait.infinity).fault = none →
      (Engine.run D TransitionPolicyDefault root TimeTrait.infinity).state.2
        = some TimeTrait.infinity ∧
      (Engine.run D TransitionPolicyDefault root TimeTrait.infinity).state.1.core.tn
        = TimeTrait.infinity ∧
      (Engine.run D TransitionPolicyDefault root TimeTrait.infinity).state.1.core.tl
        = TimeTrait.infinity := by
    intro hok
    cases ho : (Model.output D root TimeTrait.infinity).fault with
    | some f =>
      have hrun : (Engine.run D TransitionPolicyDefault root TimeTrait.infinity).fault
          = some f := by
        simp only [Engine.run, ho]
      rw [hrun] at hok
      cases hok
    | none =>
      cases htr : (Model.transition D TransitionPolicyDefault
          (Model.output D root TimeTrait.infinity).state TimeTrait.infinity).fault with
      | some f =>
        have hrun : (Engine.run D TransitionPolicyDefault root TimeTrait.infinity).fault
            = some f := by
          simp only [Engine.run, ho, htr]
        rw [hrun] at hok
        cases hok
      | none =>
        have hr1 := Reachable.output root TimeTrait.infinity hr ho
        have hr2 := Reachable.transition _ TimeTrait.infinity hr1 htr
        have hle := (Reachable.reachable_timeOk D hD hS hr2).timeOk_tl_le_tn
        have hkey : (Model.output D root TimeTrait.infinity).state.core.tn
            = TimeTrait.infinity := by
          have h := Model.outputN_key D (root.depth + 1) root TimeTrait.infinity
          have h2 := congrArg (fun k => k.2.2) h
          exact h2.trans ht
        have htl := Model.transition_tl D TransitionPolicyDefault _ TimeTrait.infinity htr
          (by rw [hkey]; exact fun h => lt_irrefl _ h.1)
        rw [htl] at hle
        have htn := le_antisymm (LawfulTime.le_infinity _) hle
        have hrun : Engine.run D TransitionPolicyDefault root TimeTrait.infinity
            = ⟨((Model.transition D TransitionPolicyDefault
                    (Model.output D root TimeTrait.infinity).state
                    TimeTrait.infinity).state.mapCore (fun c => { c with x := c.x.clear }),
                some ((Model.transition D TransitionPolicyDefault
                    (Model.output D root TimeTrait.infinity).state
                    TimeTrait.infinity).state.mapCore
                  (fun c => { c with x := c.x.clear })).core.tn),
              [.output root.addr TimeTrait.infinity
                  (Model.output D root TimeTrait.infinity).log,
                .transition root.addr TimeTrait.infinity
                  (Model.transition D TransitionPolicyDefault
                    (Model.output D root TimeTrait.infinity).state
                    TimeTrait.infinity).log],
              none⟩ := by
          simp only [Engine.run, ho, htr]
        rw [hrun]
        simp only [Model.core_mapCore]
        exact ⟨congrArg some htn, htn, htl⟩
  refine ⟨hmain, ?_⟩
  rintro a c st rfl
  simp only [Model.core] at ht
  have hrun := Engine.run_atomic D TransitionPolicyDefault a c st TimeTrait.infinity ht
    (LawfulTime.le_infinity _)
  have h := (hmain (by rw [hrun])).1
  rw [hrun] at h
  simp only [Option.some.injEq] at h
  rw [hrun, h]

/-- C22 amended, on the started accumulator of the sample network. -/
theorem C22_run_at_infinity_witness :
    Engine.run Sample.dynamics TransitionPolicyDefault Sample.startedAccumulator .pinf
      = ⟨(.atomic 2 { Sample.startedAccumulator.core with
              y := Sample.dynamics.lambda 2 0 Sample.startedAccumulator.core.y,
              tn := .pinf, tl := .pinf, x := Sample.startedAccumulator.core.x.clear.clear }
            (Sample.dynamics.delta 2 (.pinf - .fin 0) Sample.startedAccumulator.core.x 0).2,
          some .pinf),
        [.output 2 .pinf [.lambda 2], .transition 2 .pinf [.delta 2 (.pinf - .fin 0)]],
        none⟩ :=
  (C22_run_at_infinity Sample.dynamics Sample.nonNegative Sample.disciplined
    Sample.startedAccumulator
    (Reachable.start Sample.accumulator () (.fin 0) (Fresh.atomic 2 _ 0 ⟨rfl, rfl⟩) rfl)
    rfl).2 2 Sample.startedAccumulator.core 0 rfl

/-! ### The flag `empty` of a port bundle -/

theorem PortList.use_empty {V : Type} (r : PortList V × Except PortFault Nat) (u : PortUse V) :
    (PortList.use r u).1.empty = r.1.empty := by
  unfold PortList.use
  split <;> rfl

/-- The flag after one operation: raised by `clear()`, lowered by a non-const
accessor, kept by the other members. -/
theorem PortList.step_empty {V : Type} (p : PortList V) (op : PortOp V) :
    (p.step op).1.empty
      = match op with
        | .clear => true
        | op => !op.accesses && p.empty := by
  cases op <;> simp [PortList.step, PortList.use_empty, PortList.index, PortList.at,
    PortList.byName, PortList.add, PortList.clear, PortOp.accesses]

theorem PortList.steps_empty {V : Type} (ops : List (PortOp V)) :
    ∀ (p q : PortList V), p.steps ops = some q →
      (q.empty = true ↔ PortList.accessed ops (!p.empty) = false) := by
  induction ops with
  | nil =>
    intro p q h
    simp only [PortList.steps, Option.some.injEq] at h
    subst h
    simp [PortList.accessed]
  | cons op ops ih =>
    intro p q h
    have hrest : (p.step op).1.steps ops = some q := by
      unfold PortList.steps at h
      split at h
      · cases h
      · exact h
    have h1 := ih _ q hrest
    rw [h1, PortList.step_empty]
    cases op <;> simp [PortList.accessed, PortOp.accesses]

theorem PortList.written_le_accessed {V : Type} (ops : List (PortOp V)) :
    ∀ (s s2 : Bool), (s = true → s2 = true) → PortList.written ops s = true →
      PortList.accessed ops s2 = true := by
  induction ops with
  | nil =>
    intro s s2 hs h
    exact hs h
  | cons op ops ih =>
    intro s s2 hs h
    cases op with
    | clear => exact ih false false (fun h => h) h
    | index i u =>
      cases u <;>
        exact ih _ _ (by simp [PortOp.accesses]) h
    | atIndex i u =>
      cases u <;>
        exact ih _ _ (by simp [PortOp.accesses]) h
    | byName name u =>
      cases u <;>
        exact ih _ _ (by simp [PortOp.accesses]) h
    | add name =>
      exact ih _ _ (by simpa [PortOp.accesses, PortOp.writes] using hs) h
    | indexConst i =>
      exact ih _ _ (by simpa [PortOp.accesses, PortOp.writes] using hs) h
    | atConst i =>
      exact ih _ _ (by simpa [PortOp.accesses, PortOp.writes] using hs) h
    | byNameConst name =>
      exact ih _ _ (by simpa [PortOp.accesses, PortOp.writes] using hs) h

theorem PortList.add_allEmpty {V : Type} (p : PortList V) (name : String) (h : p.allEmpty) :
    (p.add name).1.allEmpty := by
  intro l hl
  simp only [PortList.add, List.mem_append, List.mem_singleton] at hl
  rcases hl with hl | hl
  · exact h l hl
  · exact hl

theorem PortList.ofNames_fresh {V : Type} (lst : List String) :
    ∀ p : PortList V, p.allEmpty → p.empty = true →
      (lst.foldl (fun p name => (p.add name).1) p).allEmpty ∧
      (lst.foldl (fun p name => (p.add name).1) p).empty = true := by
  induction lst with
  | nil => exact fun p h1 h2 => ⟨h1, h2⟩
  | cons name lst ih => exact fun p h1 h2 => ih _ (PortList.add_allEmpty p name h1) h2

/-- Every operation keeps the flag from overstating. -/
theorem PortList.step_consistent {V : Type} (p : PortList V) (op : PortOp V)
    (h : p.Consistent) : (p.step op).1.Consistent := by
  intro he
  have hflag := PortList.step_empty p op
  cases op with
  | clear => exact PortList.clear_allEmpty p
  | add name => exact PortList.add_allEmpty p name (h he)
  | indexConst i => exact h he
  | atConst i => exact h he
  | byNameConst name => exact h he
  | index i u =>
    rw [show (p.step (.index i u)).1.is_empty = (p.step (.index i u)).1.empty from rfl,
      hflag] at he
    simp [PortOp.accesses] at he
  | atIndex i u =>
    rw [show (p.step (.atIndex i u)).1.is_empty = (p.step (.atIndex i u)).1.empty from rfl,
      hflag] at he
    simp [PortOp.accesses] at he
  | byName name u =>
    rw [show (p.step (.byName name u)).1.is_empty = (p.step (.byName name u)).1.empty
      from rfl, hflag] at he
    simp [PortOp.accesses] at he

theorem PortList.steps_consistent {V : Type} (ops : List (PortOp V)) :
    ∀ (p q : PortList V), p.Consistent → p.steps ops = some q → q.Consistent := by
  induction ops with
  | nil =>
    intro p q hc h
    simp only [PortList.steps, Option.some.injEq] at h
    exact h ▸ hc
  | cons op ops ih =>
    intro p q hc h
    have hrest : (p.step op).1.steps ops = some q := by
      unfold PortList.steps at h
      split at h
      · cases h
      · exact h
    exact ih _ q (PortList.step_consistent p op hc) hrest

/-- C30, the claim as stated fails: on the bundle `PortList({"p"})` one call of
the non-const `operator[](0)` whose result is only read leaves
`is_empty() = false`, although no port list has been written to. -/
theorem C30_counterexample :
    ∃ p : PortList Nat,
      (PortList.ofNames ["p"]).steps [.index 0 .read] = some p ∧
      p.is_empty = false ∧ p.ports = [[]] ∧
      PortList.written [(.index 0 .read : PortOp Nat)] false = false :=
  ⟨_, rfl, rfl, rfl, rfl⟩

/-- C30, amended. For a bundle constructed by `PortList()` or
`PortList({names})` and every sequence of operations on it (`add`, the const and
non-const `operator[](int)`, `at(int)` and `operator[](name)`, reads and writes
through the references returned, `clear`) in which the exceptions are caught and
no access is undefined: `is_empty()` returns true if and only if no non-const
accessor has been called since the last `clear()` (or since construction),
whether its result was written to or only read and whether it threw or not.
When `is_empty()` returns true, no port list has been written to since the last
`clear()` and every port list is empty. -/
theorem C30_is_empty {V : Type} (lst : List String) (ops : List (PortOp V)) (p : PortList V)
    (h : (PortList.ofNames lst).steps ops = some p) :
    (p.is_empty = true ↔ PortList.accessed ops false = false) ∧
    (p.is_empty = true → PortList.written ops false = false) ∧
    (p.is_empty = true → p.allEmpty) := by
  have hfresh := PortList.ofNames_fresh lst (PortList.new : PortList V)
    (fun l hl => absurd hl (List.not_mem_nil _)) rfl
  have hiff := PortList.steps_empty ops _ p h
  have hflag : (PortList.ofNames lst : PortList V).empty = true := hfresh.2
  rw [hflag] at hiff
  have hiff : p.is_empty = true ↔ PortList.accessed ops false = false := hiff
  refine ⟨hiff, ?_, ?_⟩
  · intro he
    have ha := hiff.1 he
    cases hw : PortList.written ops false with
    | false => rfl
    | true =>
      have := PortList.written_le_accessed ops false false (fun h => h) hw
      rw [ha] at this
      cases this
  · exact PortList.steps_consistent ops _ p (fun _ => hfresh.1) h

/-- C30 amended, on `PortList({"p"})`: after a write through `operator[](0)`, a
`clear()` and a read through the const `at(0)`, `is_empty()` returns true. -/
theorem C30_is_empty_witness :
    ∃ p : PortList Nat,
      (PortList.ofNames ["p"]).steps [.index 0 (.write [5]), .clear, .atConst 0] = some p ∧
      p.is_empty = true ∧
      PortList.accessed [(.index 0 (.write [5]) : PortOp Nat), .clear, .atConst 0] false
        = false :=
  ⟨_, rfl, (C30_is_empty ["p"] [.index 0 (.write [5]), .clear, .atConst 0] _ rfl).1.2 rfl,
    rfl⟩

/-! ### The routing of the generic coupled model -/

/-- The range that `post` looks up for the output port `i` of a model holds
every connection of the model, whatever its output port: `equalto_inputport`
compares the port of its first argument with itself. -/
theorem GenericCoupledModel.equal_range_eq (m_connections : GenericCoupledModel.edges)
    (a i : Nat) :
    GenericCoupledModel.equal_range m_connections (a, i)
      = m_connections.filter (fun c => c.1.1 == a) := by
  unfold GenericCoupledModel.equal_range GenericCoupledModel.equalto_inputport
  congr 1
  funext c
  simp

/-- C25, the code at the failing input.  The connections are
`(1, port 0) → (2, port 0)` and `(1, port 1) → (3, port 0)`; the model 1 holds
the value `7` on its output port `0` and nothing on its output port `1`.
`post({1}, in)` appends `7` to the input port `0` of the model 2 and also to the
input port `0` of the model 3, whose only connection comes from the empty output
port `1`; both models are inserted into `in`. -/
theorem C25_post_source_port :
    GenericCoupledModel.deliveries TwoPorts.connections
        [TwoPorts.self, TwoPorts.source, TwoPorts.first, TwoPorts.second] [1]
      = [(2, 0, [7]), (3, 0, [7])] ∧
    ((GenericCoupledModel.post TwoPorts.connections TwoPorts.self
        [TwoPorts.source, TwoPorts.first, TwoPorts.second] [1] []).kidX 2
        TwoPorts.first.x).ports = [[7]] ∧
    ((GenericCoupledModel.post TwoPorts.connections TwoPorts.self
        [TwoPorts.source, TwoPorts.first, TwoPorts.second] [1] []).kidX 3
        TwoPorts.second.x).ports = [[7]] ∧
    (GenericCoupledModel.post TwoPorts.connections TwoPorts.self
        [TwoPorts.source, TwoPorts.first, TwoPorts.second] [1] []).recipients = [2, 3] ∧
    GenericCoupledModel.equal_range TwoPorts.connections (1, 0) = TwoPorts.connections := by
  decide

/-! ### Extraction from a stream -/

theorem IStream.dropWhile_ws (ws rest : List Char) (hws : ∀ c ∈ ws, IStream.isspace c = true)
    (hr : ∀ c, rest.head? = some c → IStream.isspace c = false) :
    (ws ++ rest).dropWhile IStream.isspace = rest := by
  induction ws with
  | nil =>
    cases rest with
    | nil => rfl
    | cons c r =>
      have h := hr c rfl
      simp [List.dropWhile, h]
  | cons c ws ih =>
    have hc := hws c (List.mem_cons_self _ _)
    simp only [List.cons_append, List.dropWhile, hc]
    exact ih (fun c hc => hws c (List.mem_cons_of_mem _ hc))

theorem IStream.takeWhile_run (p : Char → Bool) (tok rest : List Char)
    (htok : ∀ c ∈ tok, p c = true) (hr : ∀ c, rest.head? = some c → p c = false) :
    (tok ++ rest).takeWhile p = tok ∧ (tok ++ rest).dropWhile p = rest := by
  induction tok with
  | nil =>
    cases rest with
    | nil => exact ⟨rfl, rfl⟩
    | cons c r =>
      have h := hr c rfl
      simp [List.takeWhile, List.dropWhile, h]
  | cons c tok ih =>
    have hc := htok c (List.mem_cons_self _ _)
    have h := ih (fun c hc => htok c (List.mem_cons_of_mem _ hc))
    rw [List.cons_append, List.takeWhile_cons, List.dropWhile_cons, hc]
    simp only [if_true, h.1, h.2, and_self]

/-- The sentry on a good stream whose text goes on, after whitespace, with a
character that is not whitespace. -/
theorem IStream.sentry_word (ws body : List Char) (hws : ∀ c ∈ ws, IStream.isspace c = true)
    (hb : body ≠ []) (hh : ∀ c, body.head? = some c → IStream.isspace c = false) :
    IStream.sentry ⟨ws ++ body, false, false⟩ = (⟨body, false, false⟩, true) := by
  have hd := IStream.dropWhile_ws ws body hws hh
  unfold IStream.sentry
  simp only [IStream.good, hd, Bool.not_false, Bool.and_self, Bool.true_eq_false, if_false]
  cases body with
  | nil => exact absurd rfl hb
  | cons c r => rfl

/-- The sentry on a good stream whose text is whitespace to its end. -/
theorem IStream.sentry_end (ws : List Char) (hws : ∀ c ∈ ws, IStream.isspace c = true) :
    IStream.sentry ⟨ws, false, false⟩ = (⟨[], true, true⟩, false) := by
  have hd := IStream.dropWhile_ws ws [] hws (fun c h => by cases h)
  rw [List.append_nil] at hd
  unfold IStream.sentry
  simp [IStream.good, hd]

/-- The extraction of a word. -/
theorem IStream.readString_word (tk : Token) (rest : List Char) (hw : tk.Word)
    (hr : Ends rest) :
    IStream.readString ⟨tk.text ++ rest, false, false⟩
      = (⟨rest, rest.isEmpty, false⟩, some (String.mk tk.chars)) := by
  obtain ⟨hws, hne, hch⟩ := hw
  have hs := IStream.sentry_word tk.ws (tk.chars ++ rest) hws
    (by cases h : tk.chars with
        | nil => exact absurd h hne
        | cons c r => simp)
    (by
      intro c hc
      cases h : tk.chars with
      | nil => exact absurd h hne
      | cons d r =>
        rw [h] at hc
        simp only [List.cons_append, List.head?_cons, Option.some.injEq] at hc
        subst hc
        exact hch d (by rw [h]; exact List.mem_cons_self _ _))
  have ht := IStream.takeWhile_run (fun c => !IStream.isspace c) tk.chars rest
    (fun c hc => by simp [hch c hc]) (fun c hc => by simp [hr c hc])
  unfold IStream.readString
  rw [Token.text, List.append_assoc, hs]
  simp only [Bool.true_eq_false, if_false, ht.1, ht.2]

/-- The extraction of a word from a stream whose text is whitespace to its end
fails. -/
theorem IStream.readString_end (ws : List Char) (hws : ∀ c ∈ ws, IStream.isspace c = true) :
    IStream.readString ⟨ws, false, false⟩ = (⟨[], true, true⟩, none) := by
  unfold IStream.readString
  rw [IStream.sentry_end ws hws]
  rfl

theorem IStream.isspace_cases (c : Char) (h : IStream.isspace c = true) :
    c = ' ' ∨ c = '\t' ∨ c = '\n' ∨ c = Char.ofNat 11 ∨ c = Char.ofNat 12 ∨ c = '\r' := by
  simpa [IStream.isspace, or_assoc] using h

theorem IStream.not_isdigit_of_isspace (c : Char) (h : IStream.isspace c = true) :
    IStream.isdigit c = false := by
  rcases IStream.isspace_cases c h with rfl | rfl | rfl | rfl | rfl | rfl <;> decide

theorem IStream.not_isspace_of_isdigit (c : Char) (h : IStream.isdigit c = true) :
    IStream.isspace c = false := by
  cases hs : IStream.isspace c with
  | false => rfl
  | true =>
    rw [IStream.not_isdigit_of_isspace c hs] at h
    cases h

theorem IStream.not_sign_of_isdigit (c : Char) (h : IStream.isdigit c = true) :
    c ≠ '-' ∧ c ≠ '+' := by
  constructor
  · rintro rfl
    exact absurd h (by decide)
  · rintro rfl
    exact absurd h (by decide)

/-- The extraction of a number. -/
theorem IStream.readSize_number (tk : Token) (rest : List Char) (hn : tk.Number)
    (hr : ∀ c, rest.head? = some c → IStream.isdigit c = false) :
    IStream.readSize ⟨tk.text ++ rest, false, false⟩
      = (⟨rest, rest.isEmpty, false⟩, some tk.value) := by
  obtain ⟨hws, hne, hd, hv⟩ := hn
  obtain ⟨d, r, hchars⟩ : ∃ d r, tk.chars = d :: r := by
    cases h : tk.chars with
    | nil => exact absurd h hne
    | cons d r => exact ⟨d, r, rfl⟩
  have hdd : IStream.isdigit d = true := hd d (by rw [hchars]; exact List.mem_cons_self _ _)
  have hs := IStream.sentry_word tk.ws (tk.chars ++ rest) hws (by rw [hchars]; simp)
    (by
      intro c hc
      rw [hchars] at hc
      simp only [List.cons_append, List.head?_cons, Option.some.injEq] at hc
      subst hc
      exact IStream.not_isspace_of_isdigit _ hdd)
  have ht := IStream.takeWhile_run IStream.isdigit tk.chars rest hd hr
  have hsign := IStream.not_sign_of_isdigit d hdd
  have hhead : (tk.chars ++ rest).head? = some d := by rw [hchars]; rfl
  have hneg : ((tk.chars ++ rest).head? == some '-') = false := by
    rw [hhead]
    simp [hsign.1]
  have hpos : ((tk.chars ++ rest).head? == some '+') = false := by
    rw [hhead]
    simp [hsign.2]
  have hemp : tk.chars.isEmpty = false := by rw [hchars]; rfl
  have hfit : decide (IStream.size_max < IStream.digitsValue tk.chars) = false := by
    simp only [decide_eq_false_iff_not, not_lt]
    exact hv
  unfold IStream.readSize
  rw [Token.text, List.append_assoc, hs]
  simp only [Bool.true_eq_false, if_false, hneg, hpos, Bool.or_self]
  simp only [Bool.false_eq_true, if_false, ht.1, ht.2, hemp, hfit, Bool.or_self, Token.value]

/-- The extraction of a number from a stream that is not good fails, and the
stream is not good afterwards. -/
theorem IStream.readSize_not_good (is : IStream) (h : is.good = false) :
    is.readSize.2 = none ∧ is.readSize.1.good = false := by
  have hs : is.sentry = ({ is with failbit := true }, false) := by
    unfold IStream.sentry
    rw [if_pos h]
  unfold IStream.readSize
  rw [hs]
  simp [IStream.good]

/-- After an extraction of a number that fails the stream is not good. -/
theorem IStream.readSize_none (is : IStream) (h : is.readSize.2 = none) :
    is.readSize.1.good = false := by
  unfold IStream.readSize at h ⊢
  by_cases hs : is.sentry.2 = false
  · rw [if_pos hs]
    unfold IStream.sentry at hs ⊢
    by_cases hg : is.good = false
    · rw [if_pos hg]
      simp [IStream.good]
    · rw [if_neg hg] at hs ⊢
      by_cases he : (is.chars.dropWhile IStream.isspace).isEmpty
      · rw [if_pos he]
        rfl
      · rw [if_neg he] at hs
        cases hs
  · rw [if_neg hs] at h ⊢
    simp only at h ⊢
    generalize (if (is.sentry.1.chars.head? == some '-' || is.sentry.1.chars.head? == some '+')
      = true then is.sentry.1.chars.tail else is.sentry.1.chars) = body at h ⊢
    by_cases hc : ((body.takeWhile IStream.isdigit).isEmpty ||
        decide (IStream.size_max < IStream.digitsValue (body.takeWhile IStream.isdigit))) = true
    · rw [if_pos hc]
      simp [IStream.good]
    · rw [if_neg hc] at h
      cases h

/-- The extraction of a number fails on a text that is whitespace to its end, or
goes on with a character that is no digit and no sign. -/
theorem IStream.readSize_stops (rest : List Char) (e : Bool) (hst : Stops rest) :
    (IStream.readSize ⟨rest, e, false⟩).2 = none := by
  cases e with
  | true => exact (IStream.readSize_not_good ⟨rest, true, false⟩ rfl).1
  | false =>
    obtain ⟨ws, body, rfl, hws, hb⟩ := hst
    cases body with
    | nil =>
      unfold IStream.readSize
      rw [List.append_nil, IStream.sentry_end ws hws]
      rfl
    | cons c r =>
      obtain ⟨h1, h2, h3, h4⟩ := hb c rfl
      have hs := IStream.sentry_word ws (c :: r) hws (by simp)
        (by
          intro d hd
          simp only [List.head?_cons, Option.some.injEq] at hd
          subst hd
          exact h1)
      unfold IStream.readSize
      rw [hs]
      simp [h2, h3, h4, List.takeWhile]

theorem Token.texts_append (a b : List Token) :
    Token.texts (a ++ b) = Token.texts a ++ Token.texts b := by
  induction a with
  | nil => rfl
  | cons tk a ih =>
    show tk.text ++ Token.texts (a ++ b) = tk.text ++ Token.texts a ++ Token.texts b
    rw [ih, List.append_assoc]

/-- A token after whitespace: the text before it ends there. -/
theorem Token.ends_text (tk : Token) (rest : List Char)
    (hws : ∀ c ∈ tk.ws, IStream.isspace c = true) (hne : tk.ws ≠ []) :
    Ends (tk.text ++ rest) := by
  intro c hc
  cases h : tk.ws with
  | nil => exact absurd h hne
  | cons d r =>
    rw [Token.text, h] at hc
    simp only [List.cons_append, List.head?_cons, Option.some.injEq] at hc
    subst hc
    exact hws d (by rw [h]; exact List.mem_cons_self _ _)

theorem Ends.not_digit_ends {rest : List Char} (h : Ends rest) :
    ∀ c, rest.head? = some c → IStream.isdigit c = false :=
  fun c hc => IStream.not_isdigit_of_isspace c (h c hc)

theorem Stops.not_digit_stops {rest : List Char} (h : Stops rest) :
    ∀ c, rest.head? = some c → IStream.isdigit c = false := by
  obtain ⟨ws, body, rfl, hws, hb⟩ := h
  intro c hc
  cases ws with
  | nil => exact (hb c hc).2.1
  | cons d r =>
    simp only [List.cons_append, List.head?_cons, Option.some.injEq] at hc
    subst hc
    exact IStream.not_isdigit_of_isspace _ (hws _ (List.mem_cons_self _ _))

theorem Token.text_ne_nil_of_number (tk : Token) (h : tk.Number) (rest : List Char) :
    tk.text ++ rest ≠ [] := by
  intro he
  have h2 := congrArg List.length he
  simp only [Token.text, List.length_append, List.length_nil] at h2
  have h3 : tk.chars.length = 0 := by omega
  exact h.2.1 (List.length_eq_zero.1 h3)

theorem IStream.isEmpty_false {l : List Char} (h : l ≠ []) : l.isEmpty = false := by
  cases l with
  | nil => exact absurd rfl h
  | cons c r => rfl

/-- The extraction of a quadruple of numbers. -/
theorem IStream.readQuad_numbers (q : Quad) (rest : List Char) (hq : q.Numbers)
    (hr : ∀ c, rest.head? = some c → IStream.isdigit c = false) :
    IStream.readQuad ⟨Token.texts q.tokens ++ rest, false, false⟩
      = (⟨rest, rest.isEmpty, false⟩,
          some (q.model_i.value, q.model_j.value, q.port_i.value, q.port_j.value)) := by
  obtain ⟨h1, h2, h3, h4, w2, w3, w4⟩ := hq
  have e : Token.texts q.tokens ++ rest
      = q.model_i.text ++ (q.model_j.text ++ (q.port_i.text ++ (q.port_j.text ++ rest))) := by
    simp only [Quad.tokens, Token.texts, List.append_nil, List.append_assoc]
  have r1 := IStream.readSize_number q.model_i
    (q.model_j.text ++ (q.port_i.text ++ (q.port_j.text ++ rest))) h1
    (Token.ends_text _ _ h2.1 w2).not_digit_ends
  have r2 := IStream.readSize_number q.model_j (q.port_i.text ++ (q.port_j.text ++ rest)) h2
    (Token.ends_text _ _ h3.1 w3).not_digit_ends
  have r3 := IStream.readSize_number q.port_i (q.port_j.text ++ rest) h3
    (Token.ends_text _ _ h4.1 w4).not_digit_ends
  have r4 := IStream.readSize_number q.port_j rest h4 hr
  rw [IStream.isEmpty_false (Token.text_ne_nil_of_number _ h2 _)] at r1
  rw [IStream.isEmpty_false (Token.text_ne_nil_of_number _ h3 _)] at r2
  rw [IStream.isEmpty_false (Token.text_ne_nil_of_number _ h4 _)] at r3
  unfold IStream.readQuad
  simp only [e, r1, r2, r3, r4]

theorem IStream.readQuad_none_1 (is : IStream) (h : is.readSize.2 = none) :
    is.readQuad.2 = none := by
  unfold IStream.readQuad
  simp only [h]

theorem IStream.readQuad_none_2 (is : IStream) (h : is.readSize.1.readSize.2 = none) :
    is.readQuad.2 = none := by
  unfold IStream.readQuad
  simp only [h]
  split <;> simp_all

theorem IStream.readQuad_none_3 (is : IStream)
    (h : is.readSize.1.readSize.1.readSize.2 = none) : is.readQuad.2 = none := by
  unfold IStream.readQuad
  simp only [h]
  split <;> simp_all

theorem IStream.readQuad_none_4 (is : IStream)
    (h : is.readSize.1.readSize.1.readSize.1.readSize.2 = none) : is.readQuad.2 = none := by
  unfold IStream.readQuad
  simp only [h]
  split <;> simp_all

/-- The extraction of a quadruple fails on at most three numbers followed by a
text that makes the extraction of a number fail. -/
theorem IStream.readQuad_partial (toks : List Token) (rest : List Char)
    (hlen : toks.length ≤ 3) (hn : ∀ tk ∈ toks, tk.Number ∧ tk.ws ≠ []) (hst : Stops rest) :
    (IStream.readQuad ⟨Token.texts toks ++ rest, false, false⟩).2 = none := by
  match toks, hlen, hn with
  | [], _, _ => exact IStream.readQuad_none_1 _ (IStream.readSize_stops rest false hst)
  | [a], _, hn =>
    have ha := (hn a (by simp)).1
    have r1 := IStream.readSize_number a rest ha hst.not_digit_stops
    have e : Token.texts [a] ++ rest = a.text ++ rest := by
      simp only [Token.texts, List.append_nil]
    rw [e]
    apply IStream.readQuad_none_2
    rw [r1]
    exact IStream.readSize_stops rest _ hst
  | [a, b], _, hn =>
    have ha := (hn a (by simp)).1
    have hb := hn b (by simp)
    have r1 := IStream.readSize_number a (b.text ++ rest) ha
      (Token.ends_text _ _ hb.1.1 hb.2).not_digit_ends
    have r2 := IStream.readSize_number b rest hb.1 hst.not_digit_stops
    rw [IStream.isEmpty_false (Token.text_ne_nil_of_number _ hb.1 _)] at r1
    have e : Token.texts [a, b] ++ rest = a.text ++ (b.text ++ rest) := by
      simp only [Token.texts, List.append_nil, List.append_assoc]
    rw [e]
    apply IStream.readQuad_none_3
    rw [r1, r2]
    exact IStream.readSize_stops rest _ hst
  | [a, b, c], _, hn =>
    have ha := (hn a (by simp)).1
    have hb := hn b (by simp)
    have hc := hn c (by simp)
    have r1 := IStream.readSize_number a (b.text ++ (c.text ++ rest)) ha
      (Token.ends_text _ _ hb.1.1 hb.2).not_digit_ends
    have r2 := IStream.readSize_number b (c.text ++ rest) hb.1
      (Token.ends_text _ _ hc.1.1 hc.2).not_digit_ends
    have r3 := IStream.readSize_number c rest hc.1 hst.not_digit_stops
    rw [IStream.isEmpty_false (Token.text_ne_nil_of_number _ hb.1 _)] at r1
    rw [IStream.isEmpty_false (Token.text_ne_nil_of_number _ hc.1 _)] at r2
    have e : Token.texts [a, b, c] ++ rest = a.text ++ (b.text ++ (c.text ++ rest)) := by
      simp only [Token.texts, List.append_nil, List.append_assoc]
    rw [e]
    apply IStream.readQuad_none_4
    rw [r1, r2, r3]
    exact IStream.readSize_stops rest _ hst
  | _ :: _ :: _ :: _ :: _, hlen, _ => exact absurd hlen (by simp)

/-! ### The loops of `read` -/

/-- The second loop of `read` on a stream that is not good: it ends. -/
theorem GenericCoupledModel.readConnections_not_good (m_children : List (Model T V S C))
    (fuel : Nat) (is : IStream) (conns : GenericCoupledModel.edges) (h : is.good = false) :
    GenericCoupledModel.readConnections m_children (fuel + 1) is conns = .ok (is, conns) := by
  unfold GenericCoupledModel.readConnections
  rw [if_pos h]

/-- The second loop of `read` when the extraction of a quadruple fails: it
ends. -/
theorem GenericCoupledModel.readConnections_stop (m_children : List (Model T V S C))
    (fuel : Nat) (is : IStream) (conns : GenericCoupledModel.edges)
    (h : is.readQuad.2 = none) :
    ∃ is1, GenericCoupledModel.readConnections m_children (fuel + 1) is conns
      = .ok (is1, conns) := by
  unfold GenericCoupledModel.readConnections
  by_cases hg : is.good = false
  · rw [if_pos hg]
    exact ⟨_, rfl⟩
  · rw [if_neg hg]
    have e : is.readQuad = (is.readQuad.1, none) := by rw [← h]
    rw [e]
    exact ⟨_, rfl⟩

/-- One turn of the second loop of `read` on a quadruple whose indices are in
range: the connection is recorded. -/
theorem GenericCoupledModel.readConnections_step (m_children : List (Model T V S C))
    (fuel : Nat) (q : Quad) (rest : List Char) (conns : GenericCoupledModel.edges)
    (hq : q.Numbers) (hr : ∀ c, rest.head? = some c → IStream.isdigit c = false)
    (hin : q.InRange m_children) :
    GenericCoupledModel.readConnections m_children (fuel + 1)
        ⟨Token.texts q.tokens ++ rest, false, false⟩ conns
      = GenericCoupledModel.readConnections m_children fuel ⟨rest, rest.isEmpty, false⟩
          (conns ++ [q.connection (m_children.map Model.addr)]) := by
  obtain ⟨src, dst, hs, hd, hp1, hp2⟩ := hin
  have hq1 := IStream.readQuad_numbers q rest hq hr
  have ha1 : (m_children.map Model.addr).getD q.model_i.value 0 = src.addr := by
    rw [List.getD_eq_getElem?_getD, List.getElem?_map, ← List.get?_eq_getElem?, hs]
    rfl
  have ha2 : (m_children.map Model.addr).getD q.model_j.value 0 = dst.addr := by
    rw [List.getD_eq_getElem?_getD, List.getElem?_map, ← List.get?_eq_getElem?, hd]
    rfl
  conv_lhs => unfold GenericCoupledModel.readConnections
  have hg : ¬ ((⟨Token.texts q.tokens ++ rest, false, false⟩ : IStream).good = false) := by
    simp [IStream.good]
  rw [if_neg hg, hq1]
  simp only [hs, hd, ge_iff_le, if_neg (not_le.2 hp1), if_neg (not_le.2 hp2), Quad.connection,
    ha1, ha2]

/-- The text after a quadruple does not go on with a digit. -/
theorem Quad.rest_not_digit {T V S C : Type} (m_children : List (Model T V S C))
    (qs : List Quad) (toks : List Token)
    (rest : List Char)
    (hqs : ∀ q ∈ qs, q.Numbers ∧ q.model_i.ws ≠ [] ∧ q.InRange m_children)
    (hn : ∀ tk ∈ toks, tk.Number ∧ tk.ws ≠ []) (hst : Stops rest) :
    ∀ c, (Token.texts (Quad.allTokens qs) ++ (Token.texts toks ++ rest)).head? = some c →
      IStream.isdigit c = false := by
  cases qs with
  | nil =>
    cases toks with
    | nil => exact hst.not_digit_stops
    | cons tk toks =>
      have h := hn tk (List.mem_cons_self _ _)
      have e : Token.texts (Quad.allTokens []) ++ (Token.texts (tk :: toks) ++ rest)
          = tk.text ++ (Token.texts toks ++ rest) := by
        simp only [Quad.allTokens, Token.texts, List.nil_append, List.append_assoc]
      rw [e]
      exact (Token.ends_text _ _ h.1.1 h.2).not_digit_ends
  | cons q qs =>
    have h := hqs q (List.mem_cons_self _ _)
    have e : Token.texts (Quad.allTokens (q :: qs)) ++ (Token.texts toks ++ rest)
        = q.model_i.text ++ (q.model_j.text ++ (q.port_i.text ++ (q.port_j.text ++
            (Token.texts (Quad.allTokens qs) ++ (Token.texts toks ++ rest))))) := by
      show Token.texts (q.tokens ++ Quad.allTokens qs) ++ (Token.texts toks ++ rest) = _
      rw [Token.texts_append]
      simp only [Quad.tokens, Token.texts, List.append_nil, List.append_assoc]
    rw [e]
    exact (Token.ends_text _ _ h.1.1.1 h.2.1).not_digit_ends

/-- The second loop of `read` on quadruples whose indices are in range, followed
by at most three numbers and a text that makes the extraction of a number fail:
it returns normally, with one connection for each quadruple. -/
theorem GenericCoupledModel.readConnections_quads (m_children : List (Model T V S C)) :
    ∀ (qs : List Quad) (toks : List Token) (rest : List Char)
      (conns : GenericCoupledModel.edges) (fuel : Nat),
      (∀ q ∈ qs, q.Numbers ∧ q.model_i.ws ≠ [] ∧ q.InRange m_children) →
      toks.length ≤ 3 → (∀ tk ∈ toks, tk.Number ∧ tk.ws ≠ []) → Stops rest →
      (Token.texts (Quad.allTokens qs) ++ (Token.texts toks ++ rest)).length < fuel →
      ∃ is1, GenericCoupledModel.readConnections m_children fuel
          ⟨Token.texts (Quad.allTokens qs) ++ (Token.texts toks ++ rest),
            (Token.texts (Quad.allTokens qs) ++ (Token.texts toks ++ rest)).isEmpty, false⟩
          conns
        = .ok (is1, conns ++ qs.map (Quad.connection (m_children.map Model.addr))) := by
  intro qs
  induction qs with
  | nil =>
    intro toks rest conns fuel _ hlen hn hst hfuel
    obtain ⟨f, rfl⟩ : ∃ f, fuel = f + 1 := ⟨fuel - 1, by omega⟩
    simp only [Quad.allTokens, Token.texts, List.nil_append, List.map_nil, List.append_nil]
    cases he : (Token.texts toks ++ rest).isEmpty with
    | true => exact ⟨_, GenericCoupledModel.readConnections_not_good m_children f _ conns rfl⟩
    | false =>
      exact GenericCoupledModel.readConnections_stop m_children f _ conns
        (IStream.readQuad_partial toks rest hlen hn hst)
  | cons q qs ih =>
    intro toks rest conns fuel hqs hlen hn hst hfuel
    have hq := hqs q (List.mem_cons_self _ _)
    have hqs2 : ∀ q ∈ qs, q.Numbers ∧ q.model_i.ws ≠ [] ∧ q.InRange m_children :=
      fun q h => hqs q (List.mem_cons_of_mem _ h)
    have e : Token.texts (Quad.allTokens (q :: qs)) ++ (Token.texts toks ++ rest)
        = Token.texts q.tokens
            ++ (Token.texts (Quad.allTokens qs) ++ (Token.texts toks ++ rest)) := by
      show Token.texts (q.tokens ++ Quad.allTokens qs) ++ (Token.texts toks ++ rest) = _
      rw [Token.texts_append, List.append_assoc]
    have hne : Token.texts q.tokens
        ++ (Token.texts (Quad.allTokens qs) ++ (Token.texts toks ++ rest)) ≠ [] := by
      have h := Token.text_ne_nil_of_number q.model_i hq.1.1
        (Token.texts [q.model_j, q.port_i, q.port_j]
          ++ (Token.texts (Quad.allTokens qs) ++ (Token.texts toks ++ rest)))
      simpa only [Quad.tokens, Token.texts, List.append_assoc, List.append_nil] using h
    have hlt : (Token.texts (Quad.allTokens qs) ++ (Token.texts toks ++ rest)).length
        < (Token.texts q.tokens
            ++ (Token.texts (Quad.allTokens qs) ++ (Token.texts toks ++ rest))).length := by
      have h1 : 0 < (Token.texts q.tokens).length := by
        have h2 : 0 < q.model_i.chars.length := List.length_pos.2 hq.1.1.2.1
        simp only [Quad.tokens, Token.texts, Token.text, List.length_append, List.length_nil]
        omega
      rw [List.length_append (Token.texts q.tokens)]
      omega
    rw [e] at hfuel ⊢
    obtain ⟨f, rfl⟩ : ∃ f, fuel = f + 1 := ⟨fuel - 1, by omega⟩
    rw [IStream.isEmpty_false hne,
      GenericCoupledModel.readConnections_step m_children f q _ conns hq.1
        (Quad.rest_not_digit m_children qs toks rest hqs2 hn hst) hq.2.2]
    obtain ⟨is1, h⟩ := ih toks rest (conns ++ [q.connection (m_children.map Model.addr)]) f
      hqs2 hlen hn hst (by omega)
    refine ⟨is1, ?_⟩
    rw [h, List.map_cons, List.append_assoc]
    rfl

/-- The first loop of `read` on a stream that is not good: it ends. -/
theorem GenericCoupledModel.readChildren_not_good (factory : Factory T V S C) (base fuel : Nat)
    (is : IStream) (cs : List (Model T V S C)) (h : is.good = false) :
    GenericCoupledModel.readChildren factory base (fuel + 1) is cs = .ok (is, cs) := by
  unfold GenericCoupledModel.readChildren
  rw [if_pos h]

/-- The first loop of `read` on a text that is whitespace to its end: the
extraction fails and `fileformat_error()` is thrown. -/
theorem GenericCoupledModel.readChildren_end (factory : Factory T V S C) (base fuel : Nat)
    (ws : List Char) (cs : List (Model T V S C)) (hws : ∀ c ∈ ws, IStream.isspace c = true) :
    GenericCoupledModel.readChildren factory base (fuel + 1) ⟨ws, false, false⟩ cs
      = .error .fileformat_error := by
  unfold GenericCoupledModel.readChildren
  have hg : ¬ ((⟨ws, false, false⟩ : IStream).good = false) := by simp [IStream.good]
  rw [if_neg hg, IStream.readString_end ws hws]

/-- One turn of the first loop of `read` on a name: the factory is asked for
the model. -/
theorem GenericCoupledModel.readChildren_name (factory : Factory T V S C) (base fuel : Nat)
    (tk : Token) (rest : List Char) (cs : List (Model T V S C)) (hw : tk.Word)
    (hh : tk.chars.head? ≠ some '#') (hr : Ends rest) :
    GenericCoupledModel.readChildren factory base (fuel + 1) ⟨tk.text ++ rest, false, false⟩ cs
      = match factory.get (String.mk tk.chars) (base + cs.length) with
        | .error e => .error e
        | .ok m =>
          GenericCoupledModel.readChildren factory base fuel ⟨rest, rest.isEmpty, false⟩
            (cs ++ [m]) := by
  conv_lhs => unfold GenericCoupledModel.readChildren
  have hg : ¬ ((⟨tk.text ++ rest, false, false⟩ : IStream).good = false) := by
    simp [IStream.good]
  have hemp : tk.chars.isEmpty = false := IStream.isEmpty_false hw.2.1
  rw [if_neg hg, IStream.readString_word tk rest hw hr]
  simp only [hemp, ne_eq, true_and]
  rw [if_pos hh]

/-- One turn of the first loop of `read` on a token that begins with `#`: the
loop ends. -/
theorem GenericCoupledModel.readChildren_sentinel (factory : Factory T V S C)
    (base fuel : Nat) (tk : Token) (rest : List Char) (cs : List (Model T V S C))
    (hw : tk.Word) (hh : tk.chars.head? = some '#') (hr : Ends rest) :
    GenericCoupledModel.readChildren factory base (fuel + 1) ⟨tk.text ++ rest, false, false⟩ cs
      = .ok (⟨rest, rest.isEmpty, false⟩, cs) := by
  unfold GenericCoupledModel.readChildren
  have hg : ¬ ((⟨tk.text ++ rest, false, false⟩ : IStream).good = false) := by
    simp [IStream.good]
  rw [if_neg hg, IStream.readString_word tk rest hw hr]
  simp only [ne_eq]
  rw [if_neg (fun h => h.2 hh)]

/-- The text after a name ends the name. -/
theorem Token.ends_texts (tks : List Token) (rest : List Char)
    (hw : ∀ tk ∈ tks, tk.Word) (hsep : ∀ tk ∈ tks, tk.ws ≠ []) (hr : Ends rest) :
    Ends (Token.texts tks ++ rest) := by
  cases tks with
  | nil => exact hr
  | cons tk tks =>
    show Ends (tk.text ++ Token.texts tks ++ rest)
    rw [List.append_assoc]
    exact Token.ends_text _ _ (hw tk (List.mem_cons_self _ _)).1 (hsep tk (List.mem_cons_self _ _))

theorem Token.texts_ne_nil (tk : Token) (h : tk.chars ≠ []) (rest : List Char) :
    tk.text ++ rest ≠ [] := by
  intro he
  have h2 := congrArg List.length he
  simp only [Token.text, List.length_append, List.length_nil] at h2
  have h3 : tk.chars.length = 0 := by omega
  exact h (List.length_eq_zero.1 h3)

/-- The first loop of `read` on names that the factory knows, followed by a text
that is not empty: one object for each name, at the next addresses. -/
theorem GenericCoupledModel.readChildren_names (factory : Factory T V S C) (base : Nat) :
    ∀ (names : List Token) (built cs : List (Model T V S C)) (fuel : Nat) (rest : List Char),
      (∀ tk ∈ names, tk.Word ∧ tk.chars.head? ≠ some '#') →
      (∀ tk ∈ names.tail, tk.ws ≠ []) → (names ≠ [] → Ends rest) → rest ≠ [] →
      (names.enumFrom cs.length).map
          (fun p => factory.get (String.mk p.2.chars) (base + p.1)) = built.map Except.ok →
      GenericCoupledModel.readChildren factory base (fuel + names.length)
          ⟨Token.texts names ++ rest, false, false⟩ cs
        = GenericCoupledModel.readChildren factory base fuel ⟨rest, false, false⟩
            (cs ++ built) := by
  intro names
  induction names with
  | nil =>
    intro built cs fuel rest _ _ _ _ hb
    cases built with
    | nil => simp only [Token.texts, List.nil_append, List.length_nil, Nat.add_zero,
        List.append_nil]
    | cons m b => cases hb
  | cons tk tks ih =>
    intro built cs fuel rest hw hsep hr hne hb
    cases built with
    | nil => cases hb
    | cons m b =>
      simp only [List.enumFrom_cons, List.map_cons, List.cons.injEq] at hb
      have hsep2 : ∀ t ∈ tks, t.ws ≠ [] := fun t ht => hsep t ht
      have hw2 : ∀ t ∈ tks, t.Word ∧ t.chars.head? ≠ some '#' :=
        fun t ht => hw t (List.mem_cons_of_mem _ ht)
      have hends : Ends (Token.texts tks ++ rest) :=
        Token.ends_texts tks rest (fun t ht => (hw2 t ht).1) hsep2
          (hr (List.cons_ne_nil _ _))
      have hne2 : Token.texts tks ++ rest ≠ [] := by
        intro he
        exact hne (List.append_eq_nil.1 he).2
      have e : Token.texts (tk :: tks) ++ rest = tk.text ++ (Token.texts tks ++ rest) := by
        show tk.text ++ Token.texts tks ++ rest = _
        rw [List.append_assoc]
      have hstep := GenericCoupledModel.readChildren_name factory base (fuel + tks.length) tk
        (Token.texts tks ++ rest) cs (hw tk (List.mem_cons_self _ _)).1
        (hw tk (List.mem_cons_self _ _)).2 hends
      rw [hb.1, IStream.isEmpty_false hne2] at hstep
      rw [e, List.length_cons, ← Nat.add_assoc, hstep]
      have hih := ih b (cs ++ [m]) fuel rest hw2
        (fun t ht => hsep2 t (List.mem_of_mem_tail ht)) (fun _ => hr (List.cons_ne_nil _ _))
        hne
        (by rw [List.length_append, List.length_singleton]; exact hb.2)
      show GenericCoupledModel.readChildren factory base (fuel + tks.length)
          ⟨Token.texts tks ++ rest, false, false⟩ (cs ++ [m]) = _
      rw [hih, List.append_assoc]
      rfl

theorem Token.length_le_texts_tokens (tks : List Token) (h : ∀ tk ∈ tks, tk.chars ≠ []) :
    tks.length ≤ (Token.texts tks).length := by
  induction tks with
  | nil => exact Nat.le_refl _
  | cons tk tks ih =>
    have h1 : 0 < tk.chars.length := List.length_pos.2 (h tk (List.mem_cons_self _ _))
    have h2 := ih (fun t ht => h t (List.mem_cons_of_mem _ ht))
    simp only [Token.texts, Token.text, List.length_append, List.length_cons]
    omega

/-- The text after the sentinel ends the sentinel. -/
theorem Quad.rest_ends {T V S C : Type} (m_children : List (Model T V S C))
    (qs : List Quad) (toks : List Token) (rest : List Char)
    (hqs : ∀ q ∈ qs, q.Numbers ∧ q.model_i.ws ≠ [] ∧ q.InRange m_children)
    (hn : ∀ tk ∈ toks, tk.Number ∧ tk.ws ≠ []) (hr : Ends rest) :
    Ends (Token.texts (Quad.allTokens qs) ++ (Token.texts toks ++ rest)) := by
  cases qs with
  | nil =>
    cases toks with
    | nil => exact hr
    | cons tk toks =>
      have h := hn tk (List.mem_cons_self _ _)
      have e : Token.texts (Quad.allTokens []) ++ (Token.texts (tk :: toks) ++ rest)
          = tk.text ++ (Token.texts toks ++ rest) := by
        simp only [Quad.allTokens, Token.texts, List.nil_append, List.append_assoc]
      rw [e]
      exact Token.ends_text _ _ h.1.1 h.2
  | cons q qs =>
    have h := hqs q (List.mem_cons_self _ _)
    have e : Token.texts (Quad.allTokens (q :: qs)) ++ (Token.texts toks ++ rest)
        = q.model_i.text ++ (q.model_j.text ++ (q.port_i.text ++ (q.port_j.text ++
            (Token.texts (Quad.allTokens qs) ++ (Token.texts toks ++ rest))))) := by
      show Token.texts (q.tokens ++ Quad.allTokens qs) ++ (Token.texts toks ++ rest) = _
      rw [Token.texts_append]
      simp only [Quad.tokens, Token.texts, List.append_nil, List.append_assoc]
    rw [e]
    exact Token.ends_text _ _ h.1.1.1 h.2.1

/-- The member `read` on a text made of names that the factory knows, a token
that begins with `#`, quadruples whose indices are in range, and then at most
three numbers followed by a text that makes the extraction of a number fail: it
returns normally, with the objects that the factory builds for the names, in
order, and one connection for each quadruple, in order. -/
theorem GenericCoupledModel.read_ok (factory : Factory T V S C) (base : Nat)
    (names : List Token) (sentinel : Token) (qs : List Quad) (toks : List Token)
    (rest : List Char) (m_children : List (Model T V S C))
    (hnames : ∀ tk ∈ names, tk.Word ∧ tk.chars.head? ≠ some '#')
    (hsent : sentinel.Word ∧ sentinel.chars.head? = some '#')
    (hsep : ∀ tk ∈ (names ++ [sentinel]).tail, tk.ws ≠ [])
    (hbuilt : (names.enumFrom 0).map (fun p => factory.get (String.mk p.2.chars) (base + p.1))
      = m_children.map Except.ok)
    (hqs : ∀ q ∈ qs, q.Numbers ∧ q.model_i.ws ≠ [] ∧ q.InRange m_children)
    (hlen : toks.length ≤ 3) (hn : ∀ tk ∈ toks, tk.Number ∧ tk.ws ≠ [])
    (hst : Stops rest) (hr : Ends rest) :
    GenericCoupledModel.read factory base
        ⟨Token.texts names ++ (sentinel.text
          ++ (Token.texts (Quad.allTokens qs) ++ (Token.texts toks ++ rest))), false, false⟩
      = .ok (m_children, qs.map (Quad.connection (m_children.map Model.addr))) := by
  have hY := Quad.rest_ends m_children qs toks rest hqs hn hr
  have hne : sentinel.text
      ++ (Token.texts (Quad.allTokens qs) ++ (Token.texts toks ++ rest)) ≠ [] :=
    Token.texts_ne_nil sentinel hsent.1.2.1 _
  have hsentEnds : names ≠ [] → Ends (sentinel.text
      ++ (Token.texts (Quad.allTokens qs) ++ (Token.texts toks ++ rest))) := by
    intro hnn
    cases names with
    | nil => exact absurd rfl hnn
    | cons tk tks => exact Token.ends_text _ _ hsent.1.1 (hsep sentinel (by simp))
  have hlenNames := Token.length_le_texts_tokens names (fun tk h => (hnames tk h).1.2.1)
  have hfuel : (Token.texts names ++ (sentinel.text
      ++ (Token.texts (Quad.allTokens qs) ++ (Token.texts toks ++ rest)))).length + 1
      = ((Token.texts names ++ (sentinel.text
          ++ (Token.texts (Quad.allTokens qs) ++ (Token.texts toks ++ rest)))).length
          - names.length + 1) + names.length := by
    rw [List.length_append]
    omega
  have hloop1b := GenericCoupledModel.readChildren_names factory base names m_children []
    ((Token.texts names ++ (sentinel.text
      ++ (Token.texts (Quad.allTokens qs) ++ (Token.texts toks ++ rest)))).length
      - names.length + 1) _
    hnames (fun tk h => hsep tk (by
      cases names with
      | nil => cases h
      | cons a l => exact List.mem_append_left _ h))
    hsentEnds hne hbuilt
  have hsentStep := GenericCoupledModel.readChildren_sentinel factory base
    ((Token.texts names ++ (sentinel.text
      ++ (Token.texts (Quad.allTokens qs) ++ (Token.texts toks ++ rest)))).length
      - names.length) sentinel
    (Token.texts (Quad.allTokens qs) ++ (Token.texts toks ++ rest)) ([] ++ m_children)
    hsent.1 hsent.2 hY
  obtain ⟨is1, hloop2⟩ := GenericCoupledModel.readConnections_quads m_children qs toks rest []
    ((Token.texts (Quad.allTokens qs) ++ (Token.texts toks ++ rest)).length + 1)
    hqs hlen hn hst (Nat.lt_succ_self _)
  unfold GenericCoupledModel.read
  simp only
  rw [hfuel, hloop1b, hsentStep]
  simp only [List.nil_append]
  rw [hloop2]
  simp only [List.nil_append]

/-! ### `read` on a well-formed text -/

theorem Stops.of_whitespace_stops (trail : List Char) (h : ∀ c ∈ trail, IStream.isspace c = true) :
    Stops trail :=
  ⟨trail, [], (List.append_nil _).symm, h, fun c hc => by cases hc⟩

theorem Ends.of_whitespace_ends (trail : List Char) (h : ∀ c ∈ trail, IStream.isspace c = true) :
    Ends trail := by
  intro c hc
  cases trail with
  | nil => cases hc
  | cons d r =>
    simp only [List.head?_cons, Option.some.injEq] at hc
    subst hc
    exact h _ (List.mem_cons_self _ _)

/-- C26. Let the text be made of names, none beginning with `#` and each known
to the factory (`m_children` lists the models that `Factory::get` returns for
them, the `i`-th allocated at the `i`-th address), a token beginning with `#`,
and quadruples of numbers `src dst src_port dst_port` whose indices are in
range for these children, the tokens separated by whitespace, with any
whitespace before the first token and after the last.  Then `read` returns
normally; `m_children` holds exactly those models, as many as names and in the
order of the names, `children()` returns their addresses in that order, and
`m_connections` holds exactly one connection
`(child[src], src_port) → (child[dst], dst_port)` for each quadruple. -/
theorem C26_read_well_formed (factory : Factory T V S C) (base : Nat)
    (names : List Token) (sentinel : Token) (qs : List Quad) (trail : List Char)
    (m_children : List (Model T V S C))
    (hnames : ∀ tk ∈ names, tk.Word ∧ tk.chars.head? ≠ some '#')
    (hsent : sentinel.Word ∧ sentinel.chars.head? = some '#')
    (hsep : ∀ tk ∈ (names ++ [sentinel]).tail, tk.ws ≠ [])
    (hknown : (names.enumFrom 0).map
        (fun p => factory.get (String.mk p.2.chars) (base + p.1)) = m_children.map Except.ok)
    (hqs : ∀ q ∈ qs, q.Numbers ∧ q.model_i.ws ≠ [] ∧ q.InRange m_children)
    (htrail : ∀ c ∈ trail, IStream.isspace c = true) :
    GenericCoupledModel.read factory base
        ⟨Token.texts names ++ (sentinel.text ++ (Token.texts (Quad.allTokens qs) ++ trail)),
          false, false⟩
      = .ok (m_children, qs.map (Quad.connection (m_children.map Model.addr))) ∧
    m_children.length = names.length ∧
    GenericCoupledModel.children m_children = m_children.map Model.addr ∧
    (qs.map (Quad.connection (m_children.map Model.addr))).length = qs.length := by
  have h := GenericCoupledModel.read_ok factory base names sentinel qs [] trail m_children
    hnames hsent hsep hknown hqs (by simp) (fun tk h => by cases h)
    (Stops.of_whitespace_stops trail htrail) (Ends.of_whitespace_ends trail htrail)
  simp only [Token.texts, List.nil_append] at h
  refine ⟨h, ?_, rfl, List.length_map _ _⟩
  have hl := congrArg List.length hknown
  simp only [List.length_map, List.enumFrom_length] at hl
  exact hl.symm

/-- C26, on the text of the sixth scenario, `Gen`, `Acc`, `#` and `0 1 0 0`, one
token or quadruple on each line: `read` produces two children, the generator and
the accumulator, in this order, and the single connection
`(Gen, 0) → (Acc, 0)`. -/
theorem C26_read_well_formed_witness :
    GenericCoupledModel.read Counter.factory 1 (IStream.ofString "Gen\nAcc\n#\n0 1 0 0\n")
      = .ok ([Counter.generator 1, Counter.accumulator 2], [((1, 0), (2, 0))]) :=
  (C26_read_well_formed Counter.factory 1
    [⟨[], ['G', 'e', 'n']⟩, ⟨['\n'], ['A', 'c', 'c']⟩] ⟨['\n'], ['#']⟩
    [⟨⟨['\n'], ['0']⟩, ⟨[' '], ['1']⟩, ⟨[' '], ['0']⟩, ⟨[' '], ['0']⟩⟩] ['\n']
    [Counter.generator 1, Counter.accumulator 2]
    (by decide) (by decide) (by decide) rfl
    (by
      intro q hq
      rw [List.mem_singleton] at hq
      subst hq
      exact ⟨by decide, by decide, Counter.generator 1, Counter.accumulator 2, rfl, rfl,
        by decide, by decide⟩)
    (by decide)).1

/-! ### `read` on a quadruple out of range -/

/-- The member `Factory::get` fails exactly when no constructor is registered
under the name. -/
theorem Factory.get_error_iff (factory : Factory T V S C) (dynamicsname : String)
    (addr : Nat) :
    (∃ e, factory.get dynamicsname addr = .error e) ↔
      ∀ p ∈ factory.functions, p.1 ≠ dynamicsname := by
  unfold Factory.get
  cases h : factory.functions.find? (fun p => p.1 == dynamicsname) with
  | none =>
    refine ⟨fun _ => ?_, fun _ => ⟨_, rfl⟩⟩
    intro p hp he
    have := List.find?_eq_none.1 h p hp
    simp [he] at this
  | some p =>
    have hp := List.find?_some h
    have hm := List.mem_of_find?_eq_some h
    simp only [beq_iff_eq] at hp
    constructor
    · rintro ⟨e, he⟩
      cases he
    · intro hall
      exact absurd hp (hall p hm)

/-- The member `read` surfaces the error of the factory for the first name that
the factory does not know. -/
theorem GenericCoupledModel.read_unknown (factory : Factory T V S C) (base : Nat)
    (names : List Token) (unknown : Token) (rest : List Char)
    (built : List (Model T V S C))
    (hnames : ∀ tk ∈ names, tk.Word ∧ tk.chars.head? ≠ some '#')
    (hunknown : unknown.Word ∧ unknown.chars.head? ≠ some '#')
    (hsep : ∀ tk ∈ (names ++ [unknown]).tail, tk.ws ≠ [])
    (hbuilt : (names.enumFrom 0).map (fun p => factory.get (String.mk p.2.chars) (base + p.1))
      = built.map Except.ok)
    (hnone : ∀ p ∈ factory.functions, p.1 ≠ String.mk unknown.chars)
    (hr : Ends rest) :
    GenericCoupledModel.read factory base
        ⟨Token.texts names ++ (unknown.text ++ rest), false, false⟩
      = .error (.factory_error (String.mk unknown.chars)) := by
  have hne : unknown.text ++ rest ≠ [] := Token.texts_ne_nil unknown hunknown.1.2.1 _
  have hEnds : names ≠ [] → Ends (unknown.text ++ rest) := by
    intro hnn
    cases names with
    | nil => exact absurd rfl hnn
    | cons tk tks => exact Token.ends_text _ _ hunknown.1.1 (hsep unknown (by simp))
  have hlenNames := Token.length_le_texts_tokens names (fun tk h => (hnames tk h).1.2.1)
  have hfuel : (Token.texts names ++ (unknown.text ++ rest)).length + 1
      = ((Token.texts names ++ (unknown.text ++ rest)).length - names.length + 1)
          + names.length := by
    rw [List.length_append]
    omega
  have hloop := GenericCoupledModel.readChildren_names factory base names built []
    ((Token.texts names ++ (unknown.text ++ rest)).length - names.length + 1) _
    hnames (fun tk h => hsep tk (by
      cases names with
      | nil => cases h
      | cons a l => exact List.mem_append_left _ h))
    hEnds hne hbuilt
  have hget : factory.get (String.mk unknown.chars) (base + ([] ++ built).length)
      = .error (.factory_error (String.mk unknown.chars)) := by
    unfold Factory.get
    cases h : factory.functions.find? (fun p => p.1 == String.mk unknown.chars) with
    | none => rfl
    | some p =>
      have hp := List.find?_some h
      simp only [beq_iff_eq] at hp
      exact absurd hp (hnone p (List.mem_of_find?_eq_some h))
  have hstep := GenericCoupledModel.readChildren_name factory base
    ((Token.texts names ++ (unknown.text ++ rest)).length - names.length) unknown rest
    ([] ++ built) hunknown.1 hunknown.2 hr
  rw [hget] at hstep
  unfold GenericCoupledModel.read
  simp only
  rw [hfuel, hloop, hstep]

/-- C29. `Factory::get(name)` returns the model produced by the constructor
registered under `name` when there is one, and fails, with
`factory_error(name)`, exactly when no constructor is registered under `name`.
`read` surfaces that error for the first name of its names section that the
factory does not know: the names before it are known, none begins with `#`, the
tokens are separated by whitespace, and the text after the unknown name is
arbitrary. -/
theorem C29_factory_lookup (factory : Factory T V S C) (dynamicsname : String) (addr : Nat) :
    (∀ p, factory.functions.find? (fun p => p.1 == dynamicsname) = some p →
      p.1 = dynamicsname ∧ p ∈ factory.functions ∧
      factory.get dynamicsname addr = .ok (p.2 addr)) ∧
    ((∃ p ∈ factory.functions, p.1 = dynamicsname) →
      ∃ p ∈ factory.functions, p.1 = dynamicsname ∧
        factory.get dynamicsname addr = .ok (p.2 addr)) ∧
    (factory.get dynamicsname addr = .error (.factory_error dynamicsname) ↔
      ∀ p ∈ factory.functions, p.1 ≠ dynamicsname) ∧
    (∀ e, factory.get dynamicsname addr = .error e → e = .factory_error dynamicsname) ∧
    (∀ (base : Nat) (names : List Token) (unknown : Token) (rest : List Char)
      (built : List (Model T V S C)),
      (∀ tk ∈ names, tk.Word ∧ tk.chars.head? ≠ some '#') →
      unknown.Word ∧ unknown.chars.head? ≠ some '#' →
      (∀ tk ∈ (names ++ [unknown]).tail, tk.ws ≠ []) →
      (names.enumFrom 0).map (fun p => factory.get (String.mk p.2.chars) (base + p.1))
        = built.map Except.ok →
      (∀ p ∈ factory.functions, p.1 ≠ String.mk unknown.chars) →
      Ends rest →
      GenericCoupledModel.read factory base
          ⟨Token.texts names ++ (unknown.text ++ rest), false, false⟩
        = .error (.factory_error (String.mk unknown.chars))) := by
  have hfind : ∀ p, factory.functions.find? (fun p => p.1 == dynamicsname) = some p →
      p.1 = dynamicsname ∧ p ∈ factory.functions ∧
      factory.get dynamicsname addr = .ok (p.2 addr) := by
    intro p h
    have hp := List.find?_some h
    simp only [beq_iff_eq] at hp
    refine ⟨hp, List.mem_of_find?_eq_some h, ?_⟩
    unfold Factory.get
    rw [h]
  have herr : ∀ e, factory.get dynamicsname addr = .error e →
      e = .factory_error dynamicsname := by
    intro e he
    unfold Factory.get at he
    cases h : factory.functions.find? (fun p => p.1 == dynamicsname) with
    | none =>
      rw [h] at he
      simp only [Except.error.injEq] at he
      exact he.symm
    | some p =>
      rw [h] at he
      cases he
  have hiff := Factory.get_error_iff factory dynamicsname addr
  refine ⟨hfind, ?_, ?_, herr, ?_⟩
  · rintro ⟨q, hq, hqn⟩
    cases h : factory.functions.find? (fun p => p.1 == dynamicsname) with
    | none =>
      have := List.find?_eq_none.1 h q hq
      simp [hqn] at this
    | some p =>
      obtain ⟨h1, h2, h3⟩ := hfind p h
      exact ⟨p, h2, h1, h3⟩
  · constructor
    · intro h
      exact hiff.1 ⟨_, h⟩
    · intro h
      obtain ⟨e, he⟩ := hiff.2 h
      rw [he, herr e he]
  · intro base names unknown rest built h1 h2 h3 h4 h5 h6
    exact GenericCoupledModel.read_unknown factory base names unknown rest built h1 h2 h3 h4
      h5 h6

/-- C29, on the factory of the generator and the accumulator: `get("Gen")`
returns the generator, `get("Foo")` fails with `factory_error("Foo")`, and
`read` on `Gen Foo # 0 1 0 0` fails with that error. -/
theorem C29_factory_lookup_witness :
    Counter.factory.get "Gen" 1 = .ok (Counter.generator 1) ∧
    Counter.factory.get "Foo" 1 = .error (.factory_error "Foo") ∧
    GenericCoupledModel.read Counter.factory 1 (IStream.ofString "Gen Foo # 0 1 0 0")
      = .error (.factory_error "Foo") :=
  ⟨((C29_factory_lookup Counter.factory "Gen" 1).1 ("Gen", Counter.generator) rfl).2.2,
    (C29_factory_lookup Counter.factory "Foo" 1).2.2.1.2 (by decide),
    (C29_factory_lookup Counter.factory "Foo" 1).2.2.2.2 1 [⟨[], ['G', 'e', 'n']⟩]
      ⟨[' '], ['F', 'o', 'o']⟩ [' ', '#', ' ', '0', ' ', '1', ' ', '0', ' ', '0']
      [Counter.generator 1] (by decide) (by decide) (by decide) rfl (by decide)
      (by
        intro c hc
        simp only [List.head?_cons, Option.some.injEq] at hc
        subst hc
        decide)⟩

/-! ### `read` on a malformed text -/

/-- The member `read` on names that the factory knows, followed by whitespace to
the end of the text: `fileformat_error()`. -/
theorem GenericCoupledModel.read_no_sentinel (factory : Factory T V S C) (base : Nat)
    (names : List Token) (trail : List Char) (built : List (Model T V S C))
    (hnames : ∀ tk ∈ names, tk.Word ∧ tk.chars.head? ≠ some '#')
    (hsep : ∀ tk ∈ names.tail, tk.ws ≠ [])
    (hbuilt : (names.enumFrom 0).map (fun p => factory.get (String.mk p.2.chars) (base + p.1))
      = built.map Except.ok)
    (htrail : ∀ c ∈ trail, IStream.isspace c = true) (hne : names = [] ∨ trail ≠ []) :
    GenericCoupledModel.read factory base ⟨Token.texts names ++ trail, false, false⟩
      = .error .fileformat_error := by
  unfold GenericCoupledModel.read
  simp only
  by_cases ht : trail = []
  · have hn : names = [] := hne.resolve_right (not_not.2 ht)
    subst hn
    subst ht
    rfl
  · have hlenNames := Token.length_le_texts_tokens names (fun tk h => (hnames tk h).1.2.1)
    have hfuel : (Token.texts names ++ trail).length + 1
        = ((Token.texts names ++ trail).length - names.length + 1) + names.length := by
      rw [List.length_append]
      omega
    have hloop := GenericCoupledModel.readChildren_names factory base names built []
      ((Token.texts names ++ trail).length - names.length + 1) trail hnames hsep
      (fun _ => Ends.of_whitespace_ends trail htrail) ht hbuilt
    rw [hfuel, hloop, GenericCoupledModel.readChildren_end factory base _ trail _ htrail]

/-- C28, the claim as stated fails: with the factory of the generator and the
accumulator, `read` returns a model, without any error, on `Gen Acc` (the names
section ends without a token beginning with `#`), on `Gen Acc # 0 1 x 0` (`x`
is no number; no connection is recorded) and on `Gen Acc # 0 1 0 0 0 1` (the
second quadruple is incomplete; the first one is recorded). -/
theorem C28_counterexample :
    GenericCoupledModel.read Counter.factory 1 (IStream.ofString "Gen Acc")
      = .ok ([Counter.generator 1, Counter.accumulator 2], []) ∧
    GenericCoupledModel.read Counter.factory 1 (IStream.ofString "Gen Acc # 0 1 x 0")
      = .ok ([Counter.generator 1, Counter.accumulator 2], []) ∧
    GenericCoupledModel.read Counter.factory 1 (IStream.ofString "Gen Acc # 0 1 0 0 0 1")
      = .ok ([Counter.generator 1, Counter.accumulator 2], [((1, 0), (2, 0))]) :=
  ⟨rfl, rfl, rfl⟩

/-- C28, amended. Let the names be known to the factory (`m_children` lists the
children built), none beginning with `#`, and separated by whitespace.  When
the text ends after them with whitespace and no token beginning with `#` (or is
empty, or all whitespace), `read` fails with the file-format error
`fileformat_error()`.  When a token beginning with `#` and quadruples of
numbers in range follow, a malformed end of the connection section raises no
error: at most three numbers (an incomplete quadruple) followed by the end of
the text, by whitespace to the end of the text, or by whitespace and a
character that is no digit and no sign, end the reading, and `read` returns the
model with the children and with the connections of the quadruples before. -/
theorem C28_read_malformed (factory : Factory T V S C) (base : Nat)
    (names : List Token) (m_children : List (Model T V S C))
    (hnames : ∀ tk ∈ names, tk.Word ∧ tk.chars.head? ≠ some '#')
    (hsep : ∀ tk ∈ names.tail, tk.ws ≠ [])
    (hknown : (names.enumFrom 0).map
        (fun p => factory.get (String.mk p.2.chars) (base + p.1)) = m_children.map Except.ok) :
    (∀ trail, (∀ c ∈ trail, IStream.isspace c = true) → names = [] ∨ trail ≠ [] →
      GenericCoupledModel.read factory base ⟨Token.texts names ++ trail, false, false⟩
        = .error .fileformat_error) ∧
    (∀ (sentinel : Token) (qs : List Quad) (toks : List Token) (rest : List Char),
      sentinel.Word ∧ sentinel.chars.head? = some '#' →
      (names ≠ [] → sentinel.ws ≠ []) →
      (∀ q ∈ qs, q.Numbers ∧ q.model_i.ws ≠ [] ∧ q.InRange m_children) →
      toks.length ≤ 3 → (∀ tk ∈ toks, tk.Number ∧ tk.ws ≠ []) →
      Stops rest → Ends rest →
      GenericCoupledModel.read factory base
          ⟨Token.texts names ++ (sentinel.text
            ++ (Token.texts (Quad.allTokens qs) ++ (Token.texts toks ++ rest))), false, false⟩
        = .ok (m_children, qs.map (Quad.connection (m_children.map Model.addr)))) := by
  constructor
  · intro trail htrail hne
    exact GenericCoupledModel.read_no_sentinel factory base names trail m_children hnames hsep
      hknown htrail hne
  · intro sentinel qs toks rest hsent hsw hqs hlen hn hst hr
    refine GenericCoupledModel.read_ok factory base names sentinel qs toks rest m_children
      hnames hsent ?_ hknown hqs hlen hn hst hr
    intro tk htk
    cases names with
    | nil => cases htk
    | cons a l =>
      simp only [List.cons_append, List.tail_cons, List.mem_append, List.mem_singleton] at htk
      rcases htk with h | h
      · exact hsep tk h
      · rw [h]
        exact hsw (List.cons_ne_nil _ _)

/-- C28 amended, on the factory of the generator and the accumulator: `read`
fails with `fileformat_error()` on `Gen Acc` followed by a line end, and returns
the two children and no connection on `Gen Acc # 0 1 x 0`. -/
theorem C28_read_malformed_witness :
    GenericCoupledModel.read Counter.factory 1 (IStream.ofString "Gen Acc\n")
      = .error .fileformat_error ∧
    GenericCoupledModel.read Counter.factory 1 (IStream.ofString "Gen Acc # 0 1 x 0")
      = .ok ([Counter.generator 1, Counter.accumulator 2], []) :=
  have h := C28_read_malformed Counter.factory 1
    [⟨[], ['G', 'e', 'n']⟩, ⟨[' '], ['A', 'c', 'c']⟩]
    [Counter.generator 1, Counter.accumulator 2] (by decide) (by decide) rfl
  ⟨h.1 ['\n'] (by decide) (Or.inr (by decide)),
    h.2 ⟨[' '], ['#']⟩ [] [⟨[' '], ['0']⟩, ⟨[' '], ['1']⟩] [' ', 'x', ' ', '0']
      (by decide) (fun _ => by decide) (fun q hq => by cases hq) (by decide) (by decide)
      ⟨[' '], ['x', ' ', '0'], rfl, by decide, by
        intro c hc
        simp only [List.head?_cons, Option.some.injEq] at hc
        subst hc
        decide⟩
      (by
        intro c hc
        simp only [List.head?_cons, Option.some.injEq] at hc
        subst hc
        decide)⟩

/-! ### The generator and the counter -/

theorem ExtInt.fin_le_fin (a b : Int) : (ExtInt.fin a ≤ ExtInt.fin b) ↔ a ≤ b := by
  show ExtInt.leb (.fin a) (.fin b) = true ↔ _
  simp [ExtInt.leb]

theorem ExtInt.fin_le_pinf (a : Int) : (ExtInt.fin a ≤ ExtInt.pinf) ↔ True := by
  show ExtInt.leb (.fin a) .pinf = true ↔ _
  simp [ExtInt.leb]

theorem ExtInt.pinf_le_fin (a : Int) : (ExtInt.pinf ≤ ExtInt.fin a) ↔ False := by
  show ExtInt.leb .pinf (.fin a) = true ↔ _
  simp [ExtInt.leb]

theorem ExtInt.fin_add_fin (a b : Int) : ExtInt.fin a + ExtInt.fin b = ExtInt.fin (a + b) :=
  rfl

theorem ExtInt.fin_add_pinf (a : Int) : ExtInt.fin a + ExtInt.pinf = ExtInt.pinf := rfl

theorem ExtInt.fin_sub_fin (a b : Int) : ExtInt.fin a - ExtInt.fin b = ExtInt.fin (a + -b) :=
  rfl

theorem ExtInt.fin_lt_fin (a b : Int) : (ExtInt.fin a < ExtInt.fin b) ↔ a < b := by
  show (ExtInt.leb (.fin a) (.fin b) = true ∧ ¬ ExtInt.leb (.fin b) (.fin a) = true) ↔ _
  simp [ExtInt.leb]
  omega

theorem ExtInt.fin_lt_pinf (a : Int) : (ExtInt.fin a < ExtInt.pinf) ↔ True := by
  show (ExtInt.leb (.fin a) .pinf = true ∧ ¬ ExtInt.leb .pinf (.fin a) = true) ↔ _
  simp [ExtInt.leb]

/-- The call `output(n + 1)` on the state after `n` steps: the generator emits
its value, which `post` appends to the input port of the accumulator. -/
theorem Counter.output_step (n : Nat) :
    Model.output Counter.dynamics (Counter.state n) (.fin (n + 1))
      = ⟨Counter.afterOutput n, [.output 1 (.fin (n + 1)) [.lambda 1], .post 0 [1] []], none⟩ := by
  simp [Counter.state, Counter.afterOutput, Model.output, Model.outputN, CoupledModel.output,
    HeapType.top, HeapType.ordered, List.insertionSort, List.orderedInsert,
    HeapType.outputEntries, HeapType.empty, outputChildren, HeapType.deref, findKid, setKid,
    AtomicModel.output, Counter.dynamics, PortList.append, PortList.index, PortList.assign,
    applyPost, GenericCoupledModel.post, GenericCoupledModel.deliveries,
    GenericCoupledModel.equal_range, GenericCoupledModel.equalto_inputport,
    Counter.connections, clearOutputs, setInsert, setInsertAll, Model.mapCore, Model.core,
    Model.addr, PortList.is_empty, PortList.slot, Model.ports, PortList.clear, PortList.new,
    ExtInt.fin_le_fin, ExtInt.fin_le_pinf, ExtInt.pinf_le_fin]
  exact ⟨rfl, rfl, rfl⟩

/-- The call `transition(n + 1)` after `output(n + 1)`: the generator and the
accumulator are in the bag; the accumulator counts the value. -/
theorem Counter.transition_step (n : Nat) :
    Model.transition Counter.dynamics TransitionPolicyDefault (Counter.afterOutput n)
        (.fin (n + 1))
      = ⟨Counter.state (n + 1),
          [.transition 1 (.fin (n + 1)) [.delta 1 (.fin (n + 1) - .fin n)],
            .transition 2 (.fin (n + 1)) [.delta 2 (.fin (n + 1) - .fin n)]], none⟩ := by
  simp [Counter.state, Counter.afterOutput, Model.transition, Model.transitionN,
    CoupledModel.transition, CoupledModel.route, CoupledModel.bag, HeapType.imminent,
    HeapType.top, HeapType.ordered, List.insertionSort, List.orderedInsert, HeapType.empty,
    HeapType.deref, findKid, setKid, TransitionPolicyDefault, HeapType.setTn, HeapType.modify,
    HeapType.update, AtomicModel.transition, Counter.dynamics, setInsert, setInsertAll,
    Model.mapCore, Model.core, Model.addr, PortList.is_empty, Model.ports, PortList.clear,
    PortList.new, ExtInt.fin_le_fin, ExtInt.fin_le_pinf, ExtInt.pinf_le_fin,
    ExtInt.fin_add_fin, ExtInt.fin_add_pinf, ExtInt.fin_lt_fin, ExtInt.fin_lt_pinf]

/-- One step `run(root, n + 1)` of the engine on the state after `n` steps. -/
theorem Counter.run_step (n : Nat) :
    Engine.run Counter.dynamics TransitionPolicyDefault (Counter.state n) (.fin (n + 1))
      = ⟨(Counter.state (n + 1), some (.fin (n + 2))),
          [.output 0 (.fin (n + 1)) [.output 1 (.fin (n + 1)) [.lambda 1], .post 0 [1] []],
            .transition 0 (.fin (n + 1))
              [.transition 1 (.fin (n + 1)) [.delta 1 (.fin (n + 1) - .fin n)],
                .transition 2 (.fin (n + 1)) [.delta 2 (.fin (n + 1) - .fin n)]]],
          none⟩ := by
  have ho := Counter.output_step n
  have htr := Counter.transition_step n
  unfold Engine.run
  simp only [ho, htr]
  simp [Counter.state, Model.mapCore, Model.core, Model.addr, PortList.clear, PortList.new]
  ring

/-- The coupled model of the first scenario: a generator whose `init` and
`delta` return `1` and whose `lambda` emits one value on its output port `0`,
connected by `GenericCoupledModel::post` to an accumulator whose `init` and
`delta` return `infinity` and whose `delta` adds the number of the values
received to its counter.  For every `n`, `pre(root, 0)` followed by `n` calls of
`run`, each at the time that the call before returned, under the sequential
policy, returns normally; the clock is then `n + 1` and the counter of the
accumulator is `n`. -/
theorem Counter.simulate_sequential (n : Nat) :
    (Engine.simulate Counter.dynamics TransitionPolicyDefault () Counter.root (.fin 0)
      n).fault = none ∧
    (Engine.simulate Counter.dynamics TransitionPolicyDefault () Counter.root (.fin 0)
      n).state = (Counter.state n, some (.fin (n + 1))) ∧
    (∃ c, findKid (Engine.simulate Counter.dynamics TransitionPolicyDefault () Counter.root
      (.fin 0) n).state.1.kids 2 = some (.atomic 2 c n)) := by
  have hmain : (Engine.simulate Counter.dynamics TransitionPolicyDefault () Counter.root
        (.fin 0) n).fault = none ∧
      (Engine.simulate Counter.dynamics TransitionPolicyDefault () Counter.root (.fin 0)
        n).state = (Counter.state n, some (.fin (n + 1))) := by
    induction n with
    | zero => exact ⟨rfl, rfl⟩
    | succ n ih =>
      unfold Engine.simulate
      simp only [ih.1, ih.2, Counter.run_step]
      refine ⟨trivial, ?_⟩
      simp only [Nat.cast_add, Nat.cast_one, Prod.mk.injEq, Option.some.injEq,
        ExtInt.fin.injEq, true_and]
      ring
  refine ⟨hmain.1, hmain.2, ?_⟩
  rw [hmain.2]
  exact ⟨_, rfl⟩

/-! ### The parallel policy with an empty pool -/

/-- With no sequence to interleave there is one order, the empty one. -/
theorem Interleaving.nil_only {α : Type} {sched : List α}
    (h : Interleaving ([] : List (List α)) sched) : sched = [] := by
  generalize hl : ([] : List (List α)) = ls at h
  cases h with
  | done => rfl
  | step before a l after rest _ => exact absurd hl (by simp)

/-- A pool of no worker has no job. -/
theorem TransitionPolicyThread.jobs_zero (size : Nat) : TransitionPolicyThread.jobs 0 size = [] :=
  rfl

/-- C23, the code at the failing input.  The sample network after `start(0)` and
`output(2)`: the generator (address 1) is imminent and the accumulator
(address 2) has received its value, so the bag of `transition(2)` has two
members.  A pool of size `0` has no job (the only order of the calls of the
workers is the empty one).  Under the sequential policy `transition(2)` calls
`transition(2)` on both members: the generator ends with `tl = 2`, `tn = 4` and
the network with `tn = 4`.  Under the parallel policy with the empty pool
`transition(2)` returns normally without a single call: the generator keeps
`tl = 0`, `tn = 2`, the network keeps `tn = 2`, and the input of the accumulator
is cleared unread.  (With a pool that is not empty the two policies leave the
same heap and children, see `TransitionPolicyThread.eq_default`.) -/
theorem C23_thread_pool_empty :
    TransitionPolicyThread.jobs 0 2 = [] ∧
    CoupledModel.bag Sample.afterOutput.heap (.fin 2) Sample.afterOutput.last_output_list
      = [1, 2] ∧
    (Model.transition Sample.dynamics TransitionPolicyDefault Sample.afterOutput
      (.fin 2)).fault = none ∧
    transitionCalls (Model.transition Sample.dynamics TransitionPolicyDefault
      Sample.afterOutput (.fin 2)).log = [(1, .fin 2), (2, .fin 2)] ∧
    (Model.transition Sample.dynamics TransitionPolicyDefault Sample.afterOutput
      (.fin 2)).state.kids.map (fun k => (k.addr, k.core.tl, k.core.tn))
      = [(1, .fin 2, .fin 4), (2, .fin 2, .pinf)] ∧
    (Model.transition Sample.dynamics TransitionPolicyDefault Sample.afterOutput
      (.fin 2)).state.core.tn = .fin 4 ∧
    (Model.transition Sample.dynamics (TransitionPolicyThread []) Sample.afterOutput
      (.fin 2)).fault = none ∧
    transitionCalls (Model.transition Sample.dynamics (TransitionPolicyThread [])
      Sample.afterOutput (.fin 2)).log = [] ∧
    (Model.transition Sample.dynamics (TransitionPolicyThread []) Sample.afterOutput
      (.fin 2)).state.kids.map (fun k => (k.addr, k.core.tl, k.core.tn))
      = [(1, .fin 0, .fin 2), (2, .fin 0, .pinf)] ∧
    (Model.transition Sample.dynamics (TransitionPolicyThread []) Sample.afterOutput
      (.fin 2)).state.core.tn = .fin 2 ∧
    (Model.transition Sample.dynamics (TransitionPolicyThread []) Sample.afterOutput
      (.fin 2)).state.kids.map (fun k => k.core.x.ports) = [[[]], [[]]] := by
  decide!

/-! ### The parallel policy with a pool that is not empty -/

theorem findKid_map {ks : List (Model T V S C)} (f : Model T V S C → Model T V S C)
    (hf : ∀ k, (f k).addr = k.addr) (a : Nat) :
    findKid (ks.map f) a = (findKid ks a).map f := by
  induction ks with
  | nil => rfl
  | cons k ks ih =>
    unfold findKid at ih ⊢
    simp only [List.map_cons, List.find?_cons, hf]
    cases h : (k.addr == a) with
    | true => rfl
    | false => exact ih

/-- One turn of the sequential policy that returns normally: the member is held,
its `transition` returns normally, its handle designates an entry of the heap,
and the policy goes on with the other members. -/
theorem TransitionPolicyDefault.cons_ok (tr : Model T V S C → T → Run (Model T V S C) T)
    (t : T) (b : Nat) (bag : List Nat) (heap : HeapType T) (kids : List (Model T V S C))
    (hok : (TransitionPolicyDefault tr (b :: bag) t ⟨heap, kids⟩).fault = none) :
    ∃ k heap1, findKid kids b = some k ∧ (tr k t).fault = none ∧
      heap.setTn (tr k t).state.core.heapid (tr k t).state.core.tn = some heap1 ∧
      (TransitionPolicyDefault tr bag t
        ⟨heap1, setKid kids b ((tr k t).state.mapCore (fun c => { c with x := c.x.clear }))⟩).fault
        = none ∧
      (TransitionPolicyDefault tr (b :: bag) t ⟨heap, kids⟩).state
        = (TransitionPolicyDefault tr bag t
            ⟨heap1, setKid kids b
              ((tr k t).state.mapCore (fun c => { c with x := c.x.clear }))⟩).state := by
  have heq : TransitionPolicyDefault tr (b :: bag) t ⟨heap, kids⟩
      = match findKid kids b with
        | none => ⟨⟨heap, kids⟩, [], some .undefined⟩
        | some child =>
          match (tr child t).fault with
          | some f =>
            ⟨⟨heap, setKid kids b (tr child t).state⟩, [.transition b t (tr child t).log], some f⟩
          | none =>
            match heap.setTn
                ((tr child t).state.mapCore (fun c => { c with x := c.x.clear })).core.heapid
                ((tr child t).state.mapCore (fun c => { c with x := c.x.clear })).core.tn with
            | none =>
              ⟨⟨heap, setKid kids b
                  ((tr child t).state.mapCore (fun c => { c with x := c.x.clear }))⟩,
                [.transition b t (tr child t).log], some .undefined⟩
            | some heap1 =>
              ⟨(TransitionPolicyDefault tr bag t ⟨heap1, setKid kids b
                  ((tr child t).state.mapCore (fun c => { c with x := c.x.clear }))⟩).state,
                .transition b t (tr child t).log :: (TransitionPolicyDefault tr bag t
                  ⟨heap1, setKid kids b
                    ((tr child t).state.mapCore (fun c => { c with x := c.x.clear }))⟩).log,
                (TransitionPolicyDefault tr bag t ⟨heap1, setKid kids b
                  ((tr child t).state.mapCore (fun c => { c with x := c.x.clear }))⟩).fault⟩ :=
    rfl
  rw [heq] at hok ⊢
  cases hk : findKid kids b with
  | none => rw [hk] at hok; exact absurd hok (by simp)
  | some k =>
    rw [hk] at hok
    simp only at hok ⊢
    cases hf : (tr k t).fault with
    | some f => rw [hf] at hok; exact absurd hok (by simp)
    | none =>
      rw [hf] at hok
      simp only [Model.core_mapCore] at hok ⊢
      cases hs : heap.setTn (tr k t).state.core.heapid (tr k t).state.core.tn with
      | none => rw [hs] at hok; exact absurd hok (by simp)
      | some heap1 =>
        rw [hs] at hok
        simp only at hok ⊢
        exact ⟨k, heap1, rfl, hf, hs, hok, rfl⟩

/-- The members of the bag for which the sequential policy returns normally are
held, and their `transition` returns normally. -/
theorem TransitionPolicyDefault.members_ok (tr : Model T V S C → T → Run (Model T V S C) T)
    (haddr : ∀ k t, (tr k t).state.addr = k.addr) (t : T) :
    ∀ (bag : List Nat) (heap : HeapType T) (kids : List (Model T V S C)), bag.Nodup →
      (TransitionPolicyDefault tr bag t ⟨heap, kids⟩).fault = none →
      ∀ a ∈ bag, ∃ k, findKid kids a = some k ∧ (tr k t).fault = none := by
  intro bag
  induction bag with
  | nil => exact fun _ _ _ _ a ha => absurd ha (List.not_mem_nil _)
  | cons b bag ih =>
    intro heap kids hnd hok a ha
    have hb : b ∉ bag := (List.nodup_cons.1 hnd).1
    obtain ⟨k, heap1, hk, hf, _, hrest, _⟩ :=
      TransitionPolicyDefault.cons_ok tr t b bag heap kids hok
    rcases List.mem_cons.1 ha with rfl | ha2
    · exact ⟨k, hk, hf⟩
    · obtain ⟨k2, hk2, hf2⟩ := ih _ _ (List.nodup_cons.1 hnd).2 hrest a ha2
      have hne : a ≠ b := fun h => hb (h ▸ ha2)
      have hm : ((tr k t).state.mapCore (fun c => { c with x := c.x.clear })).addr = b := by
        rw [Model.addr_mapCore, haddr]
        exact (findKid_mem hk).2
      rw [findKid_setKid_ne hm hne] at hk2
      exact ⟨k2, hk2, hf2⟩

/-- The last loop of the parallel policy, on the children after the calls of
the workers, leaves what the sequential policy leaves. -/
theorem TransitionPolicyThread.updates_eq (tr : Model T V S C → T → Run (Model T V S C) T)
    (haddr : ∀ k t, (tr k t).state.addr = k.addr) (t : T) :
    ∀ (bag : List Nat) (heap : HeapType T) (kids : List (Model T V S C)), bag.Nodup →
      (kids.map Model.addr).Nodup →
      (TransitionPolicyDefault tr bag t ⟨heap, kids⟩).fault = none →
      (TransitionPolicyThread.updates bag
          ⟨heap, kids.map (fun k => if k.addr ∈ bag then (tr k t).state else k)⟩).state
        = (TransitionPolicyDefault tr bag t ⟨heap, kids⟩).state ∧
      (TransitionPolicyThread.updates bag
          ⟨heap, kids.map (fun k => if k.addr ∈ bag then (tr k t).state else k)⟩).fault
        = (none : Option Fault) := by
  intro bag
  induction bag with
  | nil =>
    intro heap kids _ _ _
    simp [TransitionPolicyThread.updates, TransitionPolicyDefault]
  | cons b bag ih =>
    intro heap kids hnd hkids hok
    have hb : b ∉ bag := (List.nodup_cons.1 hnd).1
    obtain ⟨k, heap1, hk, hf, hs, hrest, hstate⟩ :=
      TransitionPolicyDefault.cons_ok tr t b bag heap kids hok
    have hka : k.addr = b := (findKid_mem hk).2
    have hfaddr : ∀ k2 : Model T V S C,
        (if k2.addr ∈ b :: bag then (tr k2 t).state else k2).addr = k2.addr := by
      intro k2
      split
      · exact haddr k2 t
      · rfl
    have hfind : findKid (kids.map (fun k => if k.addr ∈ b :: bag then (tr k t).state else k)) b
        = some (tr k t).state := by
      rw [findKid_map _ hfaddr, hk]
      simp only [Option.map_some', hka, List.mem_cons, true_or, if_true]
    have hm : ((tr k t).state.mapCore (fun c => { c with x := c.x.clear })).addr = b := by
      rw [Model.addr_mapCore, haddr]
      exact hka
    have hkids2 : (setKid (kids.map (fun k => if k.addr ∈ b :: bag then (tr k t).state else k)) b
          ((tr k t).state.mapCore (fun c => { c with x := c.x.clear })))
        = (setKid kids b ((tr k t).state.mapCore (fun c => { c with x := c.x.clear }))).map
            (fun k => if k.addr ∈ bag then (tr k t).state else k) := by
      unfold setKid
      rw [List.map_map, List.map_map]
      apply List.map_congr_left
      intro k2 _
      simp only [Function.comp]
      by_cases h2 : k2.addr = b
      · have e1 : (k2.addr == b) = true := by simpa using h2
        have e2 : ((if k2.addr ∈ b :: bag then (tr k2 t).state else k2).addr == b) = true := by
          rw [hfaddr]
          exact e1
        rw [e1, e2]
        simp only [if_true, hm, if_neg hb]
      · have e1 : (k2.addr == b) = false := by simpa using h2
        have e2 : ((if k2.addr ∈ b :: bag then (tr k2 t).state else k2).addr == b) = false := by
          rw [hfaddr]
          exact e1
        rw [e1, e2]
        simp only [Bool.false_eq_true, if_false, List.mem_cons, h2, false_or]
    have hnd2 : ((setKid kids b
        ((tr k t).state.mapCore (fun c => { c with x := c.x.clear }))).map Model.addr).Nodup := by
      rw [map_addr_setKid hm]
      exact hkids
    have hih := ih heap1 _ (List.nodup_cons.1 hnd).2 hnd2 hrest
    unfold TransitionPolicyThread.updates
    simp only [hfind, hs]
    rw [hkids2, hstate]
    exact hih

theorem eq_of_get?_nodup {l : List Nat} (h : l.Nodup) {i j a : Nat}
    (hi : l.get? i = some a) (hj : l.get? j = some a) : i = j := by
  have hil : i < l.length := (List.get?_eq_some.1 hi).1
  have hjl : j < l.length := (List.get?_eq_some.1 hj).1
  rcases Nat.lt_trichotomy i j with hlt | heq | hgt
  · exact absurd (hi.trans hj.symm) (List.nodup_iff_get?_ne_get?.1 h i j hlt hjl)
  · exact heq
  · exact absurd (hj.trans hi.symm) (List.nodup_iff_get?_ne_get?.1 h j i hgt hil)

/-- The calls of the workers, in any order of distinct positions of the bag:
each member called is replaced by the object that its `transition` leaves. -/
theorem TransitionPolicyThread.workers_closed
    (tr : Model T V S C → T → Run (Model T V S C) T)
    (haddr : ∀ k t, (tr k t).state.addr = k.addr) (bag : List Nat) (t : T)
    (hbag : bag.Nodup) :
    ∀ (sched : List Nat) (kids : List (Model T V S C)), (kids.map Model.addr).Nodup →
      sched.Nodup →
      (∀ i ∈ sched, ∃ a k, bag.get? i = some a ∧ findKid kids a = some k ∧
        (tr k t).fault = none) →
      (TransitionPolicyThread.workers tr bag t sched kids).fault = none ∧
      (TransitionPolicyThread.workers tr bag t sched kids).state
        = kids.map (fun k =>
            if k.addr ∈ sched.filterMap bag.get? then (tr k t).state else k) := by
  intro sched
  induction sched with
  | nil =>
    intro kids _ _ _
    simp [TransitionPolicyThread.workers]
  | cons i sched ih =>
    intro kids hkids hnd hall
    obtain ⟨a, k, hget, hk, hf⟩ := hall i (List.mem_cons_self _ _)
    have hi : i ∉ sched := (List.nodup_cons.1 hnd).1
    have hka : k.addr = a := (findKid_mem hk).2
    have hm : (tr k t).state.addr = a := by rw [haddr]; exact hka
    have hnotin : a ∉ sched.filterMap bag.get? := by
      intro h
      obtain ⟨j, hj, hgj⟩ := List.mem_filterMap.1 h
      exact hi (eq_of_get?_nodup hbag hget hgj ▸ hj)
    have hall2 : ∀ j ∈ sched, ∃ a2 k2, bag.get? j = some a2 ∧
        findKid (setKid kids a (tr k t).state) a2 = some k2 ∧ (tr k2 t).fault = none := by
      intro j hj
      obtain ⟨a2, k2, hg2, hk2, hf2⟩ := hall j (List.mem_cons_of_mem _ hj)
      have hne : a2 ≠ a := by
        rintro rfl
        exact hi (eq_of_get?_nodup hbag hget hg2 ▸ hj)
      exact ⟨a2, k2, hg2, by rw [findKid_setKid_ne hm hne]; exact hk2, hf2⟩
    have hkids2 : ((setKid kids a (tr k t).state).map Model.addr).Nodup := by
      rw [map_addr_setKid hm]
      exact hkids
    have hih := ih (setKid kids a (tr k t).state) hkids2 (List.nodup_cons.1 hnd).2 hall2
    have heq : TransitionPolicyThread.workers tr bag t (i :: sched) kids
        = ⟨(TransitionPolicyThread.workers tr bag t sched (setKid kids a (tr k t).state)).state,
            .transition a t (tr k t).log
              :: (TransitionPolicyThread.workers tr bag t sched
                    (setKid kids a (tr k t).state)).log,
            (TransitionPolicyThread.workers tr bag t sched
              (setKid kids a (tr k t).state)).fault⟩ := by
      rw [TransitionPolicyThread.workers]
      simp only [hget, hk, hf]
    rw [heq]
    refine ⟨hih.1, ?_⟩
    show (TransitionPolicyThread.workers tr bag t sched (setKid kids a (tr k t).state)).state = _
    rw [hih.2]
    unfold setKid
    rw [List.map_map]
    apply List.map_congr_left
    intro k2 hk2
    have hfm : (i :: sched).filterMap bag.get? = a :: sched.filterMap bag.get? := by
      rw [List.filterMap_cons, hget]
    rw [hfm]
    simp only [Function.comp]
    by_cases h2 : k2.addr = a
    · have e1 : (k2.addr == a) = true := by simpa using h2
      have hk2eq : k2 = k := by
        have h3 := findKid_of_mem hkids hk2
        rw [h2, hk] at h3
        exact (Option.some.inj h3).symm
      rw [e1]
      subst hk2eq
      simp only [if_true, hm, if_neg hnotin, h2, List.mem_cons, true_or]
    · have e1 : (k2.addr == a) = false := by simpa using h2
      rw [e1]
      simp only [Bool.false_eq_true, if_false, List.mem_cons, h2, false_or]

theorem flatten_eq_nil_of_all_nil {α : Type} (ls : List (List α)) (h : ∀ l ∈ ls, l = []) :
    ls.flatten = [] := by
  induction ls with
  | nil => rfl
  | cons l ls ih =>
    rw [List.flatten_cons, h l (List.mem_cons_self _ _),
      ih (fun l2 h2 => h l2 (List.mem_cons_of_mem _ h2))]
    rfl

/-- An interleaving of sequences holds the steps of the sequences, each once. -/
theorem Interleaving.perm {α : Type} {ls : List (List α)} {sched : List α}
    (h : Interleaving ls sched) : sched.Perm ls.flatten := by
  induction h with
  | done ls h => rw [flatten_eq_nil_of_all_nil ls h]
  | step before a l after rest _ ih =>
    have e1 : (before ++ (a :: l) :: after).flatten
        = before.flatten ++ a :: (l ++ after.flatten) := by
      simp only [List.flatten_append, List.flatten_cons, List.cons_append]
    have e2 : (before ++ l :: after).flatten = before.flatten ++ (l ++ after.flatten) := by
      simp only [List.flatten_append, List.flatten_cons]
    rw [e1]
    rw [e2] at ih
    exact (List.Perm.cons a ih).trans List.perm_middle.symm

/-- The positions that a worker handles. -/
theorem TransitionPolicyThread.mem_work (pool size : Nat) :
    ∀ (fuel idx j : Nat),
      j ∈ TransitionPolicyThread.work pool size fuel idx ↔
        ∃ k, k < fuel ∧ j = idx + k * pool ∧ j < size := by
  intro fuel
  induction fuel with
  | zero =>
    intro idx j
    simp [TransitionPolicyThread.work]
  | succ fuel ih =>
    intro idx j
    unfold TransitionPolicyThread.work
    by_cases hge : idx ≥ size
    · rw [if_pos hge]
      constructor
      · intro h
        cases h
      · rintro ⟨k, _, hj, hlt⟩
        have : idx ≤ j := by rw [hj]; exact Nat.le_add_right _ _
        omega
    · rw [if_neg hge, List.mem_cons, ih]
      constructor
      · rintro (rfl | ⟨k, hk, hj, hlt⟩)
        · exact ⟨0, Nat.succ_pos _, by simp, not_le.1 hge⟩
        · exact ⟨k + 1, Nat.succ_lt_succ hk, by rw [hj, Nat.succ_mul]; omega, hlt⟩
      · rintro ⟨k, hk, hj, hlt⟩
        cases k with
        | zero =>
          left
          simpa using hj
        | succ k =>
          right
          exact ⟨k, Nat.lt_of_succ_lt_succ hk, by rw [hj, Nat.succ_mul]; omega, hlt⟩

theorem TransitionPolicyThread.work_nodup (pool size : Nat) (hpool : 0 < pool) :
    ∀ (fuel idx : Nat), (TransitionPolicyThread.work pool size fuel idx).Nodup := by
  intro fuel
  induction fuel with
  | zero => exact fun _ => List.nodup_nil
  | succ fuel ih =>
    intro idx
    unfold TransitionPolicyThread.work
    by_cases hge : idx ≥ size
    · rw [if_pos hge]
      exact List.nodup_nil
    · rw [if_neg hge, List.nodup_cons]
      refine ⟨?_, ih _⟩
      intro h
      obtain ⟨k, _, hj, _⟩ := (TransitionPolicyThread.mem_work pool size fuel _ idx).1 h
      have : 0 ≤ k * pool := Nat.zero_le _
      omega

/-- The jobs of a pool that is not empty hold every position of the bag, once. -/
theorem TransitionPolicyThread.jobs_positions (pool size : Nat) (hpool : 0 < pool) :
    (TransitionPolicyThread.jobs pool size).flatten.Nodup ∧
    ∀ j, j ∈ (TransitionPolicyThread.jobs pool size).flatten ↔ j < size := by
  constructor
  · rw [List.nodup_flatten]
    constructor
    · intro l hl
      obtain ⟨idx, _, rfl⟩ := List.mem_map.1 hl
      exact TransitionPolicyThread.work_nodup pool size hpool _ _
    · unfold TransitionPolicyThread.jobs
      rw [List.pairwise_map]
      refine List.Pairwise.imp_of_mem ?_ (List.pairwise_lt_range pool)
      intro a b ha hb hab x hxa hxb
      obtain ⟨k1, _, h1, _⟩ := (TransitionPolicyThread.mem_work pool size _ _ _).1 hxa
      obtain ⟨k2, _, h2, _⟩ := (TransitionPolicyThread.mem_work pool size _ _ _).1 hxb
      have ha2 : a < pool := List.mem_range.1 ha
      have hb2 : b < pool := List.mem_range.1 hb
      have e1 : x % pool = a := by
        rw [h1, Nat.add_mul_mod_self_right, Nat.mod_eq_of_lt ha2]
      have e2 : x % pool = b := by
        rw [h2, Nat.add_mul_mod_self_right, Nat.mod_eq_of_lt hb2]
      omega
  · intro j
    rw [List.mem_flatten]
    constructor
    · rintro ⟨l, hl, hj⟩
      obtain ⟨idx, _, rfl⟩ := List.mem_map.1 hl
      exact ((TransitionPolicyThread.mem_work pool size _ _ _).1 hj).choose_spec.2.2
    · intro hj
      refine ⟨TransitionPolicyThread.work pool size size (j % pool),
        List.mem_map.2 ⟨j % pool, List.mem_range.2 (Nat.mod_lt _ hpool), rfl⟩, ?_⟩
      rw [TransitionPolicyThread.mem_work]
      refine ⟨j / pool, lt_of_le_of_lt (Nat.div_le_self _ _) hj, ?_, hj⟩
      exact (Nat.mod_add_div' j pool).symm

/-- An order of the calls of the workers of a pool that is not empty visits every
position of the bag, once. -/
theorem TransitionPolicyThread.schedule_positions (pool size : Nat) (hpool : 0 < pool)
    (sched : List Nat) (h : Interleaving (TransitionPolicyThread.jobs pool size) sched) :
    sched.Nodup ∧ ∀ j, j ∈ sched ↔ j < size := by
  have hp := h.perm
  have hj := TransitionPolicyThread.jobs_positions pool size hpool
  exact ⟨hp.nodup_iff.2 hj.1, fun j => (hp.mem_iff).trans (hj.2 j)⟩

/-- The parallel policy with a pool that is not empty, whatever the order in
which the calls of its workers take place, leaves the heap and the children that
the sequential policy leaves, whenever the sequential policy returns normally:
the members of the bag are distinct objects, and the `transition` of a child
works on that child alone. -/
theorem TransitionPolicyThread.eq_default (tr : Model T V S C → T → Run (Model T V S C) T)
    (haddr : ∀ k t, (tr k t).state.addr = k.addr) (pool : Nat) (hpool : 0 < pool)
    (sched bag : List Nat) (t : T) (heap : HeapType T) (kids : List (Model T V S C))
    (hsched : Interleaving (TransitionPolicyThread.jobs pool bag.length) sched)
    (hbag : bag.Nodup) (hkids : (kids.map Model.addr).Nodup)
    (hok : (TransitionPolicyDefault tr bag t ⟨heap, kids⟩).fault = none) :
    (TransitionPolicyThread sched tr bag t ⟨heap, kids⟩).state
      = (TransitionPolicyDefault tr bag t ⟨heap, kids⟩).state ∧
    (TransitionPolicyThread sched tr bag t ⟨heap, kids⟩).fault = none := by
  unfold TransitionPolicyThread
  by_cases h1 : bag.length = 1
  · rw [if_pos h1]
    exact ⟨rfl, hok⟩
  · rw [if_neg h1]
    have hpos := TransitionPolicyThread.schedule_positions pool bag.length hpool sched hsched
    have hmem := TransitionPolicyDefault.members_ok tr haddr t bag heap kids hbag hok
    have hall : ∀ i ∈ sched, ∃ a k, bag.get? i = some a ∧ findKid kids a = some k ∧
        (tr k t).fault = none := by
      intro i hi
      have hlt : i < bag.length := (hpos.2 i).1 hi
      have hget : bag.get? i = some (bag.get ⟨i, hlt⟩) := List.get?_eq_get hlt
      obtain ⟨k, hk, hf⟩ := hmem _ (List.get_mem bag i hlt)
      exact ⟨_, k, hget, hk, hf⟩
    have hw := TransitionPolicyThread.workers_closed tr haddr bag t hbag sched kids hkids
      hpos.1 hall
    have hset : ∀ a, a ∈ sched.filterMap bag.get? ↔ a ∈ bag := by
      intro a
      rw [List.mem_filterMap, List.mem_iff_get?]
      constructor
      · rintro ⟨i, _, hi⟩
        exact ⟨i, hi⟩
      · rintro ⟨i, hi⟩
        exact ⟨i, (hpos.2 i).2 (List.get?_eq_some.1 hi).1, hi⟩
    have hstate : (TransitionPolicyThread.workers tr bag t sched kids).state
        = kids.map (fun k => if k.addr ∈ bag then (tr k t).state else k) := by
      rw [hw.2]
      apply List.map_congr_left
      intro k _
      by_cases hk : k.addr ∈ bag
      · rw [if_pos hk, if_pos ((hset _).2 hk)]
      · rw [if_neg hk, if_neg (fun h => hk ((hset _).1 h))]
    have hu := TransitionPolicyThread.updates_eq tr haddr t bag heap kids hbag hkids hok
    simp only [hw.1, hstate]
    exact hu


/-! ### The port bundle: `clear`, `at`, lookup by name, `add` -/

/-- C31. After `clear()` every value list of the bundle is empty and
`is_empty()` is true; the number of ports, the name-to-index map and so every
lookup by name are as before; a second `clear()` changes nothing. -/
theorem C31_clear {V : Type} (p : PortList V) :
    (∀ l ∈ p.clear.ports, l = []) ∧
    p.clear.is_empty = true ∧
    p.clear.ports.length = p.ports.length ∧
    p.clear.accessor = p.accessor ∧
    (∀ name, p.clear.find name = p.find name) ∧
    (∀ i, p.clear.slot i = p.slot i) ∧
    p.clear.clear = p.clear := by
  refine ⟨PortList.clear_allEmpty p, rfl, ?_, rfl, fun _ => rfl, ?_, ?_⟩
  · simp [PortList.clear]
  · intro i
    simp [PortList.slot, PortList.clear]
  · simp [PortList.clear]

/-- C31, on `PortList({"p", "q"})` after a write of `5` to the port `"p"`:
`clear()` leaves two empty ports, the names as before, and `is_empty()` true. -/
theorem C31_clear_witness :
    ((PortList.ofNames ["p", "q"] : PortList Nat).step (.byName "p" (.write [5]))).1.ports
      = [[5], []] ∧
    ((PortList.ofNames ["p", "q"] : PortList Nat).step
      (.byName "p" (.write [5]))).1.clear.ports = [[], []] ∧
    ((PortList.ofNames ["p", "q"] : PortList Nat).step
      (.byName "p" (.write [5]))).1.clear.is_empty = true ∧
    ((PortList.ofNames ["p", "q"] : PortList Nat).step
      (.byName "p" (.write [5]))).1.clear.find "q" = some 1 :=
  have h := C31_clear ((PortList.ofNames ["p", "q"] : PortList Nat).step
    (.byName "p" (.write [5]))).1
  ⟨rfl, rfl, h.2.1, (h.2.2.2.2.1 "q").trans rfl⟩

/-- C32, the code.  With `n` ports, `at(i)` (const or not) throws
`model_port_error` for `i < 0` and for `i > n`, and returns the port `i` for
`0 ≤ i < n`; for `i = n` the test `i > ports.size()` does not hold and the
function evaluates `ports[n]`, past the end of the vector.  On the bundle
`PortList({"p"})`, with one port, `at(1)` is this access. -/
theorem C32_at_bounds {V : Type} (p : PortList V) (i : Int) :
    p.atConst i
      = (if i < 0 ∨ (p.ports.length : Int) < i then .error .model_port_error
         else if i = (p.ports.length : Int) then .error .undefined
         else .ok (p.ports.getD i.toNat [])) ∧
    (p.at i).2
      = (if i < 0 ∨ (p.ports.length : Int) < i then .error .model_port_error
         else if i = (p.ports.length : Int) then .error .undefined
         else .ok i.toNat) ∧
    (PortList.ofNames ["p"] : PortList V).ports.length = 1 ∧
    (PortList.ofNames ["p"] : PortList V).atConst 1 = .error .undefined ∧
    ((PortList.ofNames ["p"] : PortList V).at 1).2 = .error .undefined := by
  refine ⟨?_, ?_, rfl, rfl, rfl⟩
  · unfold PortList.atConst PortList.slot
    by_cases h1 : i < 0 ∨ (p.ports.length : Int) < i
    · rw [if_pos h1, if_pos h1]
    · rw [if_neg h1, if_neg h1]
      have h2 : 0 ≤ i ∧ i ≤ (p.ports.length : Int) := by omega
      by_cases h3 : i = (p.ports.length : Int)
      · rw [if_pos h3]
        have : ¬ (0 ≤ i ∧ i.toNat < p.ports.length) := by omega
        rw [if_neg this]
      · rw [if_neg h3]
        have : 0 ≤ i ∧ i.toNat < p.ports.length := by omega
        rw [if_pos this]
  · unfold PortList.at PortList.slot
    by_cases h1 : i < 0 ∨ (p.ports.length : Int) < i
    · simp only [if_pos h1]
    · simp only [if_neg h1]
      have h2 : 0 ≤ i ∧ i ≤ (p.ports.length : Int) := by omega
      by_cases h3 : i = (p.ports.length : Int)
      · rw [if_pos h3]
        have : ¬ (0 ≤ i ∧ i.toNat < p.ports.length) := by omega
        rw [if_neg this]
      · rw [if_neg h3]
        have : 0 ≤ i ∧ i.toNat < p.ports.length := by omega
        rw [if_pos this]

/-- The lookup finds nothing exactly for the names that are not keys of the
map. -/
theorem PortList.find_eq_none_iff {V : Type} (p : PortList V) (name : String) :
    p.find name = none ↔ name ∉ p.accessor.map Prod.fst := by
  unfold PortList.find
  rw [Option.map_eq_none', List.find?_eq_none]
  simp only [List.mem_map, not_exists, not_and, beq_iff_eq]

/-- C38. A bundle constructed by `PortList()` (the empty list of names) or by
`PortList({names})`, then any sequence of calls of `add`, of the accessors
`operator[]` and `at` (by index or by name, const or not, the caller reading or
writing the port returned in the expression of the call) and of `clear`: whenever
`is_empty()` is true afterwards every value list is empty, and every const
accessor that returns a port returns the empty list.  The converse does not
hold: after one read through `operator[](0)` of `PortList({"p"})` every list is
empty and `is_empty()` is false. -/
theorem C38_flag_sound {V : Type} (lst : List String) (ops : List (PortOp V)) (p : PortList V)
    (h : (PortList.ofNames lst).steps ops = some p) (he : p.is_empty = true) :
    (∀ l ∈ p.ports, l = []) ∧
    (∀ i l, p.indexConst i = .ok l → l = []) ∧
    (∀ i l, p.atConst i = .ok l → l = []) ∧
    (∀ name l, p.byNameConst name = .ok l → l = []) ∧
    (∃ q : PortList V, (PortList.ofNames ["p"]).steps [.index 0 .read] = some q ∧
      (∀ l ∈ q.ports, l = []) ∧ q.is_empty = false) := by
  have hfresh := PortList.ofNames_fresh lst (PortList.new : PortList V)
    (fun l hl => by cases hl) rfl
  have hall : ∀ l ∈ p.ports, l = [] :=
    PortList.steps_consistent ops _ p (fun _ => hfresh.1) h he
  have hget : ∀ k, p.ports.getD k [] = [] := by
    intro k
    rw [List.getD_eq_getElem?_getD]
    cases hk : p.ports[k]? with
    | none => rfl
    | some l => exact hall l (List.getElem?_mem hk)
  refine ⟨hall, ?_, ?_, ?_, ⟨_, rfl, ?_, rfl⟩⟩
  · intro i l hl
    unfold PortList.indexConst at hl
    split at hl
    · cases hl
    · simp only [Except.ok.injEq] at hl
      rw [← hl]
      exact hget _
  · intro i l hl
    unfold PortList.atConst at hl
    split at hl
    · cases hl
    · split at hl
      · cases hl
      · simp only [Except.ok.injEq] at hl
        rw [← hl]
        exact hget _
  · intro name l hl
    unfold PortList.byNameConst at hl
    split at hl
    · cases hl
    · split at hl
      · cases hl
      · simp only [Except.ok.injEq] at hl
        rw [← hl]
        exact hget _
  · intro l hl
    have hq : l ∈ ([[]] : List (List V)) := hl
    simpa using hq

/-- C38, on `PortList({"p", "q"})`: after a write through `operator[]("p")`, a
`clear()`, an `add("r")` and a read through `at(1) const`, `is_empty()` is true
and every list is empty. -/
theorem C38_flag_sound_witness :
    ∃ p : PortList Nat,
      (PortList.ofNames ["p", "q"]).steps
        [.byName "p" (.write [5]), .clear, .add "r", .atConst 1] = some p ∧
      p.is_empty = true ∧ p.ports = [[], [], []] ∧ (∀ l ∈ p.ports, l = []) :=
  ⟨_, rfl, rfl, rfl,
    (C38_flag_sound ["p", "q"] [.byName "p" (.write [5]), .clear, .add "r", .atConst 1] _
      rfl rfl).1⟩

/-- C39, the claim as stated fails: on `PortList({"p"})`, whose `is_empty()` is
true, the lookup `operator[]("q")` that is not const throws `model_port_error`
and leaves `is_empty()` false (`empty = false;` is its first statement). -/
theorem C39_counterexample :
    (PortList.ofNames ["p"] : PortList Nat).find "q" = none ∧
    (PortList.ofNames ["p"] : PortList Nat).is_empty = true ∧
    ((PortList.ofNames ["p"] : PortList Nat).byName "q").2 = .error .model_port_error ∧
    ((PortList.ofNames ["p"] : PortList Nat).byName "q").1.is_empty = false :=
  ⟨rfl, rfl, rfl, rfl⟩

/-- C39, amended. For a name that is not registered in the bundle, the lookup
by name throws `model_port_error`, const or not, whatever the caller meant to
do with the port; the ports, their values and the name-to-index map are as
before.  The const lookup leaves `is_empty()` as it was; after the lookup that
is not const `is_empty()` is false. -/
theorem C39_unknown_name {V : Type} (p : PortList V) (name : String)
    (h : name ∉ p.accessor.map Prod.fst) :
    p.byNameConst name = .error .model_port_error ∧
    p.step (.byNameConst name) = (p, some .model_port_error) ∧
    (p.byName name).2 = .error .model_port_error ∧
    (∀ u, p.step (.byName name u) = ((p.byName name).1, some .model_port_error)) ∧
    (p.byName name).1.ports = p.ports ∧
    (p.byName name).1.accessor = p.accessor ∧
    (p.byName name).1.is_empty = false := by
  have hf : p.find name = none := (PortList.find_eq_none_iff p name).2 h
  have h1 : p.byNameConst name = .error .model_port_error := by
    simp only [PortList.byNameConst, hf]
  have h2 : (p.byName name).2 = .error .model_port_error := by
    simp only [PortList.byName, hf]
  refine ⟨h1, ?_, h2, ?_, rfl, rfl, rfl⟩
  · simp only [PortList.step, h1]
  · intro u
    simp only [PortList.step, PortList.use, h2]

/-- C39 amended, on `PortList({"p"})` and the name `"q"`. -/
theorem C39_unknown_name_witness :
    (PortList.ofNames ["p"] : PortList Nat).byNameConst "q" = .error .model_port_error ∧
    ((PortList.ofNames ["p"] : PortList Nat).byName "q").2 = .error .model_port_error ∧
    ((PortList.ofNames ["p"] : PortList Nat).byName "q").1.ports
      = (PortList.ofNames ["p"] : PortList Nat).ports ∧
    ((PortList.ofNames ["p"] : PortList Nat).byName "q").1.is_empty = false :=
  have h := C39_unknown_name (PortList.ofNames ["p"] : PortList Nat) "q" (by decide)
  ⟨h.1, h.2.2.1, h.2.2.2.2.1, h.2.2.2.2.2.2⟩

/-- The lookups by name after `add(name)`: a name that was not registered
designates the new port, every other lookup is as before. -/
theorem PortList.find_add {V : Type} (p : PortList V) (name : String) :
    (p.find name = none → (p.add name).1.find name = some (p.ports.length : Int)) ∧
    (∀ j, p.find name = some j → (p.add name).1.find name = some j) ∧
    (∀ other, other ≠ name → (p.add name).1.find other = p.find other) := by
  have hlen : (((p.ports ++ [[]]).length : Nat) : Int) - 1 = (p.ports.length : Int) := by
    rw [List.length_append, List.length_singleton]
    push_cast
    omega
  by_cases hany : p.accessor.any (fun q => q.1 == name) = true
  · have hsame : (p.add name).1.accessor = p.accessor := by
      simp only [PortList.add, PortList.emplaceName, hany, if_true]
    have hfind : ∀ other, (p.add name).1.find other = p.find other := by
      intro other
      simp only [PortList.find, hsame]
    refine ⟨?_, fun j hj => (hfind name).trans hj, fun other _ => hfind other⟩
    intro hnone
    exfalso
    obtain ⟨q, hq, hqn⟩ := List.any_eq_true.1 hany
    have := (PortList.find_eq_none_iff p name).1 hnone
    exact this (List.mem_map.2 ⟨q, hq, beq_iff_eq.1 hqn⟩)
  · have hnew : (p.add name).1.accessor = p.accessor ++ [(name, (p.ports.length : Int))] := by
      simp only [PortList.add, PortList.emplaceName, hany, hlen]
      rfl
    have hnone : p.accessor.find? (fun q => q.1 == name) = none := by
      rw [List.find?_eq_none]
      intro q hq hqn
      exact hany (List.any_eq_true.2 ⟨q, hq, hqn⟩)
    refine ⟨?_, ?_, ?_⟩
    · intro _
      simp only [PortList.find, hnew, List.find?_append, hnone, Option.none_or]
      simp
    · intro j hj
      simp only [PortList.find, hnone] at hj
      cases hj
    · intro other hne
      simp only [PortList.find, hnew, List.find?_append]
      have : ([(name, (p.ports.length : Int))] : List (String × Int)).find?
          (fun q => q.1 == other) = none := by
        rw [List.find?_eq_none]
        intro q hq hqn
        simp only [List.mem_singleton] at hq
        subst hq
        exact hne (beq_iff_eq.1 hqn).symm
      rw [this, Option.or_none]

/-- The loop of the constructor `PortList({names})` on a bundle that registers
none of the names, which differ from each other: one new empty port for each
name, in order, designated by the name; the flag and the other lookups are as
before. -/
theorem PortList.foldl_add {V : Type} (lst : List String) :
    ∀ p : PortList V, lst.Nodup → (∀ name ∈ lst, p.find name = none) →
      (lst.foldl (fun p name => (p.add name).1) p).ports
        = p.ports ++ lst.map (fun _ => []) ∧
      (lst.foldl (fun p name => (p.add name).1) p).empty = p.empty ∧
      (∀ i name, lst.get? i = some name →
        (lst.foldl (fun p name => (p.add name).1) p).find name
          = some ((p.ports.length : Int) + (i : Int))) ∧
      (∀ name, name ∉ lst →
        (lst.foldl (fun p name => (p.add name).1) p).find name = p.find name) := by
  induction lst with
  | nil =>
    intro p _ _
    refine ⟨by simp, rfl, ?_, fun _ _ => rfl⟩
    intro i name h
    cases h
  | cons a lst ih =>
    intro p hnd hfree
    have hnd2 := List.nodup_cons.1 hnd
    have hadd := PortList.find_add p a
    have hfree1 : ∀ name ∈ lst, (p.add a).1.find name = none := by
      intro name hn
      have hne : name ≠ a := fun h => hnd2.1 (h ▸ hn)
      rw [hadd.2.2 name hne]
      exact hfree name (List.mem_cons_of_mem _ hn)
    obtain ⟨h1, h2, h3, h4⟩ := ih (p.add a).1 hnd2.2 hfree1
    have hports : (p.add a).1.ports = p.ports ++ [[]] := rfl
    simp only [List.foldl_cons]
    refine ⟨?_, ?_, ?_, ?_⟩
    · rw [h1, hports]
      simp
    · rw [h2]
      rfl
    · intro i name hi
      cases i with
      | zero =>
        simp only [List.get?_cons_zero, Option.some.injEq] at hi
        subst hi
        rw [h4 a hnd2.1, hadd.1 (hfree a (List.mem_cons_self _ _))]
        simp
      | succ i =>
        simp only [List.get?_cons_succ] at hi
        rw [h3 i name hi, hports, List.length_append, List.length_singleton]
        congr 1
        push_cast
        omega
    · intro name hn
      have hne : name ≠ a := fun h => hn (h ▸ List.mem_cons_self _ _)
      rw [h4 name (fun h => hn (List.mem_cons_of_mem _ h)), hadd.2.2 name hne]

/-- C40. With `n` ports, `add(name)` returns `n` and appends one empty port: the
bundle has `n + 1` ports, the ports before are as they were and `is_empty()` is
as before.  A name that was not registered designates the port `n` afterwards;
a name that was registered designates its earlier port; every other lookup is
as before.  A bundle constructed from `k` names that differ from each other has
`k` ports, all empty, and `is_empty()` true, and its `i`-th name designates the
port `i`.  (Sizes are counted in unbounded integers; an `int` holds the index
of every port of a bundle of at most `2 ^ 31` ports.) -/
theorem C40_add {V : Type} (p : PortList V) (name : String) :
    (p.add name).2 = (p.ports.length : Int) ∧
    (p.add name).1.ports = p.ports ++ [[]] ∧
    (p.add name).1.ports.length = p.ports.length + 1 ∧
    (∀ k l, p.ports.get? k = some l → (p.add name).1.ports.get? k = some l) ∧
    (p.add name).1.ports.get? p.ports.length = some [] ∧
    (p.add name).1.is_empty = p.is_empty ∧
    (name ∉ p.accessor.map Prod.fst →
      (p.add name).1.find name = some (p.ports.length : Int) ∧
      (p.add name).1.byNameConst name = .ok []) ∧
    (∀ j, p.find name = some j → (p.add name).1.find name = some j) ∧
    (∀ other, other ≠ name → (p.add name).1.find other = p.find other) ∧
    (∀ lst : List String, lst.Nodup →
      (PortList.ofNames lst : PortList V).ports.length = lst.length ∧
      (PortList.ofNames lst : PortList V).is_empty = true ∧
      (∀ l ∈ (PortList.ofNames lst : PortList V).ports, l = []) ∧
      ∀ i nm, lst.get? i = some nm →
        (PortList.ofNames lst : PortList V).find nm = some (i : Int) ∧
        (PortList.ofNames lst : PortList V).byNameConst nm = .ok []) := by
  have hadd := PortList.find_add p name
  have hports : (p.add name).1.ports = p.ports ++ [[]] := rfl
  refine ⟨?_, hports, ?_, ?_, ?_, rfl, ?_, hadd.2.1, hadd.2.2, ?_⟩
  · have h2 : (p.add name).2 = (((p.ports ++ [([] : List V)]).length : Nat) : Int) - 1 := rfl
    rw [h2, List.length_append, List.length_singleton]
    push_cast
    omega
  · rw [hports, List.length_append, List.length_singleton]
  · intro k l hk
    rw [hports]
    rw [List.get?_eq_getElem?] at hk ⊢
    rw [List.getElem?_append_left (List.getElem?_eq_some_iff.1 hk).1]
    exact hk
  · rw [hports, List.get?_eq_getElem?]
    simp
  · intro hn
    have hf := hadd.1 ((PortList.find_eq_none_iff p name).2 hn)
    refine ⟨hf, ?_⟩
    simp only [PortList.byNameConst, hf, PortList.slot, hports]
    simp
  · intro lst hnd
    have h := PortList.foldl_add lst (PortList.new : PortList V) hnd (fun _ _ => rfl)
    obtain ⟨h1, h2, h3, _⟩ := h
    have hp : (PortList.ofNames lst : PortList V).ports = lst.map (fun _ => []) := by
      rw [PortList.ofNames, h1]
      rfl
    have hall : ∀ l ∈ (PortList.ofNames lst : PortList V).ports, l = [] := by
      intro l hl
      rw [hp] at hl
      obtain ⟨_, _, rfl⟩ := List.mem_map.1 hl
      rfl
    refine ⟨?_, h2, hall, ?_⟩
    · rw [hp, List.length_map]
    · intro i nm hi
      have hf : (PortList.ofNames lst : PortList V).find nm = some (i : Int) := by
        rw [PortList.ofNames, h3 i nm hi]
        simp [PortList.new]
      refine ⟨hf, ?_⟩
      have hi2 : i < lst.length := by
        rw [List.get?_eq_getElem?] at hi
        exact (List.getElem?_eq_some_iff.1 hi).1
      have hslot : (PortList.ofNames lst : PortList V).slot (i : Int) = some i := by
        simp [PortList.slot, hp, hi2]
      simp only [PortList.byNameConst, hf, hslot]
      congr 1
      rw [List.getD_eq_getElem?_getD]
      cases hk : (PortList.ofNames lst : PortList V).ports[i]? with
      | none => rfl
      | some l => exact hall l (List.getElem?_mem hk)

/-- C40, on `PortList({"in", "out"})` and `add("aux")`: the call returns `2`,
the name `"aux"` designates the port `2`, the names of the constructor designate
the ports `0` and `1`. -/
theorem C40_add_witness :
    ((PortList.ofNames ["in", "out"] : PortList Nat).add "aux").2 = 2 ∧
    ((PortList.ofNames ["in", "out"] : PortList Nat).add "aux").1.find "aux" = some 2 ∧
    (PortList.ofNames ["in", "out"] : PortList Nat).ports.length = 2 ∧
    (PortList.ofNames ["in", "out"] : PortList Nat).find "out" = some 1 :=
  have h := C40_add (PortList.ofNames ["in", "out"] : PortList Nat) "aux"
  ⟨h.1, (h.2.2.2.2.2.2.1 (by decide)).1,
    (h.2.2.2.2.2.2.2.2.2 ["in", "out"] (by decide)).1,
    ((h.2.2.2.2.2.2.2.2.2 ["in", "out"] (by decide)).2.2.2 1 "out" rfl).1⟩

/-! ### The output of an atomic model -/

/-- C33. `AtomicModel::output(t)` returns normally; it calls `lambda()` once,
and nothing else, when `t = tn`, and calls nothing when `t ≠ tn`.  In both
cases `tl`, `tn`, the input bundle `x`, the address and the user state are as
before; the output bundle is what `lambda()` left when it was called and is as
before otherwise. -/
theorem C33_atomic_output (D : Dynamics T V S C) (a : Nat) (c : Core T V) (st : S) (t : T) :
    (Model.output D (.atomic a c st) t).fault = none ∧
    (Model.output D (.atomic a c st) t).log = (if t = c.tn then [.lambda a] else []) ∧
    lambdaCalls (Model.output D (.atomic a c st) t).log = (if t = c.tn then [a] else []) ∧
    (Model.output D (.atomic a c st) t).state
      = .atomic a { c with y := if t = c.tn then D.lambda a st c.y else c.y } st ∧
    (Model.output D (.atomic a c st) t).state.core.tl = c.tl ∧
    (Model.output D (.atomic a c st) t).state.core.tn = c.tn ∧
    (Model.output D (.atomic a c st) t).state.core.x = c.x := by
  have h0 : Model.output D (.atomic a c st) t = AtomicModel.output D a c st t := rfl
  rw [h0]
  unfold AtomicModel.output
  by_cases h : t = c.tn
  · rw [if_pos h, if_pos h, if_pos h, if_pos h]
    exact ⟨rfl, rfl, rfl, rfl, rfl, rfl, rfl⟩
  · rw [if_neg h, if_neg h, if_neg h, if_neg h]
    exact ⟨rfl, rfl, rfl, rfl, rfl, rfl, rfl⟩

/-- C33, on the started generator of the sample network (`tn = 2`): `output(2)`
calls `lambda()` once, `output(1)` calls nothing. -/
theorem C33_atomic_output_witness :
    (Model.output Sample.dynamics Sample.startedGenerator (.fin 2)).log = [.lambda 1] ∧
    (Model.output Sample.dynamics Sample.startedGenerator (.fin 1)).log = [] ∧
    (Model.output Sample.dynamics Sample.startedGenerator (.fin 1)).state.core.tn = .fin 2 :=
  ⟨(C33_atomic_output Sample.dynamics 1 Sample.startedGenerator.core 0 (.fin 2)).2.1,
    (C33_atomic_output Sample.dynamics 1 Sample.startedGenerator.core 0 (.fin 1)).2.1,
    (C33_atomic_output Sample.dynamics 1 Sample.startedGenerator.core 0
      (.fin 1)).2.2.2.2.2.1⟩

/-! ### The slices of the workers -/

/-- The loop of `work` of a pool that is not empty leaves by its own test: a
counter that covers the bag is never exhausted, and a larger counter gives the
same calls. -/
theorem TransitionPolicyThread.work_stable (pool size : Nat) (hpool : 0 < pool) :
    ∀ (fuel idx fuel2 : Nat), size ≤ idx + fuel → fuel ≤ fuel2 →
      TransitionPolicyThread.work pool size fuel2 idx
        = TransitionPolicyThread.work pool size fuel idx := by
  intro fuel
  induction fuel with
  | zero =>
    intro idx fuel2 h _
    cases fuel2 with
    | zero => rfl
    | succ f =>
      unfold TransitionPolicyThread.work
      rw [if_pos (by omega)]
  | succ fuel ih =>
    intro idx fuel2 h h2
    cases fuel2 with
    | zero => omega
    | succ f =>
      unfold TransitionPolicyThread.work
      by_cases hge : idx ≥ size
      · rw [if_pos hge, if_pos hge]
      · rw [if_neg hge, if_neg hge, ih (idx + pool) f (by omega) (by omega)]

/-- The positions that a worker handles are in increasing order. -/
theorem TransitionPolicyThread.work_sorted (pool size : Nat) (hpool : 0 < pool) :
    ∀ (fuel idx : Nat), (TransitionPolicyThread.work pool size fuel idx).Pairwise (· < ·) := by
  intro fuel
  induction fuel with
  | zero => exact fun _ => List.Pairwise.nil
  | succ fuel ih =>
    intro idx
    unfold TransitionPolicyThread.work
    by_cases hge : idx ≥ size
    · rw [if_pos hge]
      exact List.Pairwise.nil
    · rw [if_neg hge, List.pairwise_cons]
      refine ⟨?_, ih _⟩
      intro j hj
      obtain ⟨k, _, hjk, _⟩ := (TransitionPolicyThread.mem_work pool size fuel _ j).1 hj
      have : 0 ≤ k * pool := Nat.zero_le _
      omega

/-- The calls `transition(time)` of the workers, in the order in which they
take place: one call for each position of the order, on the member of the bag at
that position. -/
theorem TransitionPolicyThread.workers_calls (tr : Model T V S C → T → Run (Model T V S C) T)
    (bag : List Nat) (t : T) :
    ∀ (sched : List Nat) (kids : List (Model T V S C)),
      (TransitionPolicyThread.workers tr bag t sched kids).fault = none →
      transitionCalls (TransitionPolicyThread.workers tr bag t sched kids).log
        = sched.filterMap (fun i => (bag.get? i).map (fun a => (a, t))) ∧
      (TransitionPolicyThread.workers tr bag t sched kids).log.length = sched.length
  | [], _, _ => ⟨rfl, rfl⟩
  | i :: sched, kids, h => by
    unfold TransitionPolicyThread.workers at h ⊢
    cases hb : bag.get? i with
    | none => simp only [hb] at h; exact absurd h (by simp)
    | some a =>
      simp only [hb] at h ⊢
      cases hk : findKid kids a with
      | none => simp only [hk] at h; exact absurd h (by simp)
      | some child =>
        simp only [hk] at h ⊢
        cases hf : (tr child t).fault with
        | some f => simp only [hf] at h; exact absurd h (by simp)
        | none =>
          simp only [hf] at h ⊢
          have ih := TransitionPolicyThread.workers_calls tr bag t sched _ h
          refine ⟨?_, ?_⟩
          · simp only [transitionCalls] at ih ⊢
            rw [List.filterMap_cons, List.filterMap_cons]
            simp only [Event.transitionCall, hb, Option.map_some']
            rw [ih.1]
          · simp only [List.length_cons, ih.2]

/-- The members of a list, by their positions. -/
theorem filterMap_range_get? {α β : Type} (g : α → β) (l : List α) :
    (List.range l.length).filterMap (fun i => (l.get? i).map g) = l.map g := by
  induction l with
  | nil => rfl
  | cons a l ih =>
    rw [List.length_cons, List.range_succ_eq_map, List.filterMap_cons]
    simp only [List.get?_cons_zero, Option.map_some', List.filterMap_map, List.map_cons]
    congr 1

/-- C34. A pool of `P ≥ 1` workers and a bag of `n` members.  The loop of
`work(bag, time, idx)` leaves by its own test after at most `n` turns (a larger
counter of turns gives the same calls).  The worker `idx < P` calls
`transition(time)` on the members at the positions `i < n` with `i ≡ idx`
modulo `P`, in increasing order, each once; every position of the bag is in the
slice of exactly one worker, once; a worker with `idx ≥ n` calls nothing.  So
every order in which the calls of the workers take place is a permutation of
the positions of the bag, and when the workers return normally the calls of
`transition` that they made are, up to their order, one call for each member of
the bag. -/
theorem C34_work_partition (pool size : Nat) (hpool : 0 < pool) :
    (∀ idx fuel, size ≤ fuel →
      TransitionPolicyThread.work pool size fuel idx
        = TransitionPolicyThread.work pool size size idx) ∧
    (∀ idx j, idx < pool →
      (j ∈ TransitionPolicyThread.work pool size size idx ↔ j < size ∧ j % pool = idx)) ∧
    (∀ idx, (TransitionPolicyThread.work pool size size idx).Pairwise (· < ·)) ∧
    (∀ j, j < size →
      ∃! idx, idx < pool ∧ j ∈ TransitionPolicyThread.work pool size size idx) ∧
    (∀ j, j < size → (TransitionPolicyThread.jobs pool size).flatten.count j = 1) ∧
    (∀ idx, size ≤ idx → TransitionPolicyThread.work pool size size idx = []) ∧
    (TransitionPolicyThread.jobs pool size).length = pool ∧
    (∀ sched, Interleaving (TransitionPolicyThread.jobs pool size) sched →
      sched.Perm (List.range size)) ∧
    (∀ (tr : Model T V S C → T → Run (Model T V S C) T) (bag : List Nat) (t : T)
        (sched : List Nat) (kids : List (Model T V S C)),
      bag.length = size → Interleaving (TransitionPolicyThread.jobs pool size) sched →
      (TransitionPolicyThread.workers tr bag t sched kids).fault = none →
      (transitionCalls (TransitionPolicyThread.workers tr bag t sched kids).log).Perm
        (bag.map (fun a => (a, t)))) := by
  have hmem : ∀ idx j, idx < pool →
      (j ∈ TransitionPolicyThread.work pool size size idx ↔ j < size ∧ j % pool = idx) := by
    intro idx j hidx
    rw [TransitionPolicyThread.mem_work]
    constructor
    · rintro ⟨k, _, hj, hlt⟩
      refine ⟨hlt, ?_⟩
      rw [hj, Nat.add_mul_mod_self_right, Nat.mod_eq_of_lt hidx]
    · rintro ⟨hlt, hmod⟩
      refine ⟨j / pool, lt_of_le_of_lt (Nat.div_le_self _ _) hlt, ?_, hlt⟩
      rw [← hmod]
      exact (Nat.mod_add_div' j pool).symm
  have hjobs := TransitionPolicyThread.jobs_positions pool size hpool
  have hperm : ∀ sched, Interleaving (TransitionPolicyThread.jobs pool size) sched →
      sched.Perm (List.range size) := by
    intro sched hs
    have hp := TransitionPolicyThread.schedule_positions pool size hpool sched hs
    refine (List.perm_ext_iff_of_nodup hp.1 (List.nodup_range size)).2 ?_
    intro j
    rw [hp.2 j, List.mem_range]
  refine ⟨?_, hmem, ?_, ?_, ?_, ?_, ?_, hperm, ?_⟩
  · intro idx fuel hf
    exact TransitionPolicyThread.work_stable pool size hpool size idx fuel (by omega) hf
  · intro idx
    exact TransitionPolicyThread.work_sorted pool size hpool size idx
  · intro j hj
    refine ⟨j % pool, ⟨Nat.mod_lt _ hpool, (hmem _ j (Nat.mod_lt _ hpool)).2 ⟨hj, rfl⟩⟩, ?_⟩
    rintro idx ⟨hidx, hin⟩
    exact ((hmem idx j hidx).1 hin).2.symm
  · intro j hj
    exact List.count_eq_one_of_mem hjobs.1 ((hjobs.2 j).2 hj)
  · intro idx hidx
    cases size with
    | zero => rfl
    | succ n =>
      unfold TransitionPolicyThread.work
      rw [if_pos hidx]
  · simp [TransitionPolicyThread.jobs]
  · intro tr bag t sched kids hlen hs hok
    rw [(TransitionPolicyThread.workers_calls tr bag t sched kids hok).1,
      ← filterMap_range_get? (fun a => (a, t)) bag, hlen]
    exact (hperm sched hs).filterMap _

/-- C34, for a pool of two workers and a bag of five members: the worker `0`
handles the positions `0`, `2` and `4`, the worker `1` the positions `1` and
`3`. -/
theorem C34_work_partition_witness :
    TransitionPolicyThread.work 2 5 5 0 = [0, 2, 4] ∧
    TransitionPolicyThread.work 2 5 5 1 = [1, 3] ∧
    TransitionPolicyThread.work 2 5 100 1 = TransitionPolicyThread.work 2 5 5 1 ∧
    (3 ∈ TransitionPolicyThread.work 2 5 5 1 ↔ 3 < 5 ∧ 3 % 2 = 1) :=
  have h := C34_work_partition (T := ExtInt) (V := Nat) (S := Nat) (C := Unit) 2 5 (by decide)
  ⟨rfl, rfl, h.1 1 100 (by decide), h.2.1 1 3 (by decide)⟩

/-! ### What `GenericCoupledModel::post` writes -/

/-- The accesses of `post` to an output bundle lower its flag when the bundle
has a port, and write nothing else. -/
theorem GenericCoupledModel.reads_eq {V : Type} (y : PortList V) :
    GenericCoupledModel.reads y
      = if y.ports.length = 0 then y else { y with empty := false } := by
  have hfold : ∀ (l : List Nat) (z : PortList V),
      l.foldl (fun y (i : Nat) => (y.index i).1) z
        = if l.length = 0 then z else { z with empty := false } := by
    intro l
    induction l with
    | nil => intro z; rfl
    | cons i l ih =>
      intro z
      have hne : ¬ (i :: l).length = 0 := by simp
      rw [List.foldl_cons, ih, if_neg hne]
      by_cases hl : l.length = 0
      · rw [if_pos hl]
        rfl
      · rw [if_neg hl]
        rfl
  unfold GenericCoupledModel.reads
  rw [hfold, List.length_range]

/-- Every delivery of `post` follows a recorded connection whose source is a
model of `out`. -/
theorem GenericCoupledModel.mem_deliveries {V : Type} (m_connections : GenericCoupledModel.edges)
    (models : List (Ports V)) (out : List Nat) (d : Nat × Nat × List V)
    (hd : d ∈ GenericCoupledModel.deliveries m_connections models out) :
    ∃ c ∈ m_connections, c.1.1 ∈ out ∧ c.2.1 = d.1 ∧ c.2.2 = d.2.1 := by
  unfold GenericCoupledModel.deliveries at hd
  obtain ⟨a, ha, hd⟩ := List.mem_flatMap.1 hd
  cases hf : models.find? (fun m => m.addr == a) with
  | none =>
    rw [hf] at hd
    cases hd
  | some model =>
    rw [hf] at hd
    obtain ⟨i, _, hd⟩ := List.mem_flatMap.1 hd
    by_cases he : (model.y.ports.getD i []).isEmpty = true
    · rw [if_pos he] at hd
      cases hd
    · rw [if_neg he] at hd
      obtain ⟨c, hc, rfl⟩ := List.mem_map.1 hd
      rw [GenericCoupledModel.equal_range_eq] at hc
      obtain ⟨hc1, hc2⟩ := List.mem_filter.1 hc
      refine ⟨c, hc1, ?_, rfl, rfl⟩
      rw [beq_iff_eq.1 hc2]
      exact ha

/-- C37, the claim as stated fails: a model with one output port, nothing
written to it (`is_empty()` is true), that is a member of `out`.  After
`post(out, in)` the `is_empty()` of its output bundle is false: `post` tests
`model->y[i].empty()` through the accessor that is not const.  The same holds
of the own output bundle of the coupled model in the call `post({this}, ..)`
that `transition` makes. -/
theorem C37_counterexample :
    TwoPorts.first.y.ports = [[]] ∧
    TwoPorts.first.y.is_empty = true ∧
    (GenericCoupledModel.postedOf TwoPorts.connections
      [TwoPorts.self, TwoPorts.source, TwoPorts.first, TwoPorts.second] [2]
      TwoPorts.first).y.is_empty = false ∧
    (GenericCoupledModel.post TwoPorts.connections TwoPorts.first [] [2] []).selfY.is_empty
      = false :=
  ⟨rfl, rfl, rfl, rfl⟩

/-- C37, amended. `GenericCoupledModel::post(out, in)` and any model `m`.  The
values of the output ports of `m` and its name-to-index map are as before.  The
output bundle of `m` is as before altogether, `is_empty()` included, when `m`
is not a member of `out`, or has no output port, or has `is_empty()` false
before the call (as every member of the set that `output` passes has); for a
member of `out` with an output port `is_empty()` is false after the call.  A
delivery follows a recorded connection whose source is a member of `out`, and
the input bundle of a model that is the target of no recorded connection is as
before.  The routing function of the model writes the same bundles. -/
theorem C37_post_frame {V : Type} (m_connections : GenericCoupledModel.edges)
    (models : List (Ports V)) (out : List Nat) (m : Ports V) :
    (GenericCoupledModel.postedOf m_connections models out m).addr = m.addr ∧
    (GenericCoupledModel.postedOf m_connections models out m).y.ports = m.y.ports ∧
    (GenericCoupledModel.postedOf m_connections models out m).y.accessor = m.y.accessor ∧
    (m.y.is_empty = false →
      (GenericCoupledModel.postedOf m_connections models out m).y = m.y) ∧
    (m.addr ∉ out → (GenericCoupledModel.postedOf m_connections models out m).y = m.y) ∧
    (m.y.ports = [] → (GenericCoupledModel.postedOf m_connections models out m).y = m.y) ∧
    (m.addr ∈ out → m.y.ports ≠ [] →
      (GenericCoupledModel.postedOf m_connections models out m).y.is_empty = false) ∧
    (∀ d ∈ GenericCoupledModel.deliveries m_connections models out,
      ∃ c ∈ m_connections, c.1.1 ∈ out ∧ c.2.1 = d.1 ∧ c.2.2 = d.2.1) ∧
    (m.addr ∉ m_connections.map (fun c => c.2.1) →
      (GenericCoupledModel.postedOf m_connections models out m).x = m.x) ∧
    (∀ (kids : List (Ports V)) (inp : List Nat), models = m :: kids →
      (GenericCoupledModel.post m_connections m kids out inp).selfY
        = (GenericCoupledModel.postedOf m_connections models out m).y ∧
      ∀ k, (GenericCoupledModel.post m_connections m kids out inp).kidX k.addr k.x
        = (GenericCoupledModel.postedOf m_connections models out k).x) := by
  have hy : (GenericCoupledModel.postedOf m_connections models out m).y
      = if m.addr ∈ out then
          (if m.y.ports.length = 0 then m.y else { m.y with empty := false })
        else m.y := by
    simp only [GenericCoupledModel.postedOf, GenericCoupledModel.reads_eq]
  have hx : m.addr ∉ m_connections.map (fun c => c.2.1) →
      (GenericCoupledModel.postedOf m_connections models out m).x = m.x := by
    intro hn
    have hnil : (GenericCoupledModel.deliveries m_connections models out).filter
        (fun d => d.1 == m.addr) = [] := by
      rw [List.filter_eq_nil_iff]
      intro d hd hda
      obtain ⟨c, hc, _, hc2, _⟩ :=
        GenericCoupledModel.mem_deliveries m_connections models out d hd
      apply hn
      rw [← beq_iff_eq.1 hda, ← hc2]
      exact List.mem_map.2 ⟨c, hc, rfl⟩
    simp only [GenericCoupledModel.postedOf, hnil, List.foldl_nil]
  refine ⟨rfl, ?_, ?_, ?_, ?_, ?_, ?_,
    GenericCoupledModel.mem_deliveries m_connections models out, hx, ?_⟩
  · rw [hy]
    split
    · split <;> rfl
    · rfl
  · rw [hy]
    split
    · split <;> rfl
    · rfl
  · intro he
    rw [hy]
    have he2 : m.y.empty = false := he
    have heta : ({ m.y with empty := false } : PortList V) = m.y := by
      cases hmy : m.y with
      | mk ports accessor empty =>
        rw [hmy] at he2
        simp only at he2
        rw [he2]
    split
    · split
      · rfl
      · exact heta
    · rfl
  · intro hn
    rw [hy, if_neg hn]
  · intro hp
    have h0 : m.y.ports.length = 0 := by rw [hp]; rfl
    rw [hy, if_pos h0]
    split <;> rfl
  · intro hin hp
    rw [hy, if_pos hin, if_neg (by
      intro h0
      exact hp (List.length_eq_zero.1 h0))]
    rfl
  · rintro kids inp rfl
    refine ⟨rfl, fun k => rfl⟩

/-- C37 amended, on the model with two output ports, a member of `out` that
holds a value on its port `0`: its output bundle is as before; the model at
address 0, the target of no connection, keeps its input bundle. -/
theorem C37_post_frame_witness :
    (GenericCoupledModel.postedOf TwoPorts.connections
      [TwoPorts.self, TwoPorts.source, TwoPorts.first, TwoPorts.second] [1]
      TwoPorts.source).y = TwoPorts.source.y ∧
    (GenericCoupledModel.postedOf TwoPorts.connections
      [TwoPorts.self, TwoPorts.source, TwoPorts.first, TwoPorts.second] [1]
      TwoPorts.self).x = TwoPorts.self.x ∧
    (GenericCoupledModel.postedOf TwoPorts.connections
      [TwoPorts.self, TwoPorts.source, TwoPorts.first, TwoPorts.second] [1]
      TwoPorts.first).x.ports = [[7]] :=
  have h1 := C37_post_frame TwoPorts.connections
    [TwoPorts.self, TwoPorts.source, TwoPorts.first, TwoPorts.second] [1] TwoPorts.source
  have h2 := C37_post_frame TwoPorts.connections
    [TwoPorts.self, TwoPorts.source, TwoPorts.first, TwoPorts.second] [1] TwoPorts.self
  ⟨h1.2.2.2.1 rfl, h2.2.2.2.2.2.2.2.2.1 (by decide), rfl⟩

/-! ### The clock of the engine -/

/-- The loop of `Executive::output` over entries with distinct elements whose
`heapid` designates the entry itself.  When the executive has an entry in the
loop, the own output bundle after the loop is what `lambda()` left, and the
executive is in `lst` exactly when it was there or this bundle is not
`is_empty()`; otherwise the own output bundle and the membership are as
before. -/
theorem outputChildren_own (D : Dynamics T V S C)
    (out : Model T V S C → T → Run (Model T V S C) T) (a : Nat) (st : S) (heap : HeapType T)
    (t : T) :
    ∀ (its : List (HeapElement T)) (s : OutState T V S C),
      (∀ it ∈ its, ∃ id, it.heapid = some id ∧ heap.deref id = some it) →
      (its.map (fun it => it.element)).Nodup →
      (outputChildren D out (some a) st heap t its s).fault = none →
      (a ∈ its.map (fun it => it.element) →
        (outputChildren D out (some a) st heap t its s).state.y = D.lambda a st s.y ∧
        (a ∈ (outputChildren D out (some a) st heap t its s).state.lst ↔
          (a ∈ s.lst ∨ (D.lambda a st s.y).is_empty = false))) ∧
      (a ∉ its.map (fun it => it.element) →
        (outputChildren D out (some a) st heap t its s).state.y = s.y ∧
        (a ∈ (outputChildren D out (some a) st heap t its s).state.lst ↔ a ∈ s.lst))
  | [], s, _, _, _ => ⟨fun h => absurd h (List.not_mem_nil _), fun _ => ⟨rfl, Iff.rfl⟩⟩
  | it :: its, s, hent, hnd, hok => by
    obtain ⟨id, hid, hd⟩ := hent it (List.mem_cons_self _ _)
    have hnd2 := List.nodup_cons.1 (by simpa using hnd :
      (it.element :: its.map (fun it => it.element)).Nodup)
    unfold outputChildren at hok ⊢
    simp only [hid, hd] at hok ⊢
    by_cases hself : some a = some it.element
    · rw [if_pos hself] at hok ⊢
      simp only at hok ⊢
      have hia : it.element = a := by
        simp only [Option.some.injEq] at hself
        exact hself.symm
      have hnot : a ∉ its.map (fun it => it.element) := hia ▸ hnd2.1
      have ih := (outputChildren_own D out a st heap t its _
        (fun it2 h2 => hent it2 (List.mem_cons_of_mem _ h2)) hnd2.2 hok).2 hnot
      rw [hia] at ih ⊢
      refine ⟨fun _ => ⟨ih.1, ?_⟩, fun hn => ?_⟩
      · rw [ih.2]
        by_cases hy : (D.lambda a st s.y).is_empty = true
        · rw [if_pos hy]
          simp [hy]
        · rw [if_neg hy, mem_setInsert]
          simp [hy]
      · exfalso
        apply hn
        rw [List.map_cons, hia]
        exact List.mem_cons_self _ _
    · rw [if_neg hself] at hok ⊢
      have hia : it.element ≠ a := by
        intro h
        exact hself (by rw [h])
      cases hf : findKid s.kids it.element with
      | none => simp only [hf] at hok; exact absurd hok (by simp)
      | some mdl =>
        simp only [hf] at hok ⊢
        cases hr : (out mdl t).fault with
        | some f => simp only [hr] at hok; exact absurd hok (by simp)
        | none =>
          simp only [hr] at hok ⊢
          have ih := outputChildren_own D out a st heap t its _
            (fun it2 h2 => hent it2 (List.mem_cons_of_mem _ h2)) hnd2.2 hok
          have hlst : a ∈ (if (out mdl t).state.core.y.is_empty = true then s.lst
              else setInsert it.element s.lst) ↔ a ∈ s.lst := by
            split
            · exact Iff.rfl
            · rw [mem_setInsert]
              constructor
              · rintro (h | h)
                · exact absurd h.symm hia
                · exact h
              · exact Or.inr
          constructor
          · intro hin
            have hin2 : a ∈ its.map (fun it => it.element) := by
              rcases List.mem_cons.1 (by simpa using hin :
                a ∈ it.element :: its.map (fun it => it.element)) with h | h
              · exact absurd h.symm hia
              · exact h
            have h := ih.1 hin2
            exact ⟨h.1, by rw [h.2, hlst]⟩
          · intro hn
            have hn2 : a ∉ its.map (fun it => it.element) := by
              intro h
              apply hn
              simp only [List.map_cons, List.mem_cons]
              exact Or.inr h
            have h := ih.2 hn2
            exact ⟨h.1, by rw [h.2, hlst]⟩

/-- The operator `insert` reads `localcommon` and `chi_tl` of the executive, and
no other member `chi_..`. -/
theorem Executive.insert_chi (start : Model T V S C → C → T → Run (Model T V S C) T)
    (self : Nat) (chi chi2 : Chi T V C) (h1 : chi.localcommon = chi2.localcommon)
    (h2 : chi.chi_tl = chi2.chi_tl) (mdl : Model T V S C) (n : ExecNet T V S C) :
    Executive.insert start self chi mdl n = Executive.insert start self chi2 mdl n := by
  unfold Executive.insert
  rw [h1, h2]

/-- The structural operators read `localcommon` and `chi_tl` of the executive,
and no other member `chi_..`. -/
theorem Executive.structural_chi (start : Model T V S C → C → T → Run (Model T V S C) T)
    (self : Nat) (chi chi2 : Chi T V C) (h1 : chi.localcommon = chi2.localcommon)
    (h2 : chi.chi_tl = chi2.chi_tl) :
    ∀ (ops : List (Structural T V S C)) (n : ExecNet T V S C),
      Executive.structural start self chi ops n = Executive.structural start self chi2 ops n
  | [], _ => rfl
  | op :: ops, n => by
    unfold Executive.structural
    cases op with
    | insert mdl =>
      simp only [Executive.insert_chi start self chi chi2 h1 h2,
        Executive.structural_chi start self chi chi2 h1 h2 ops]
    | erase b =>
      simp only [Executive.structural_chi start self chi chi2 h1 h2 ops]

/-- The call `Executive::output` does not depend on the bundles `chi_x` and
`chi_y`, and leaves them as they are. -/
theorem Executive.output_chi_ports (D : Dynamics T V S C)
    (out : Model T V S C → T → Run (Model T V S C) T)
    (a : Nat) (c : Core T V) (st : S) (chi : Chi T V C) (hp : HeapType T) (l : List Nat)
    (ks : List (Model T V S C)) (t : T) (x y : PortList V) :
    Executive.output D out a c st { chi with chi_x := x, chi_y := y } hp l ks t
      = ⟨(Executive.output D out a c st chi hp l ks t).state.setChiPorts x y,
          (Executive.output D out a c st chi hp l ks t).log,
          (Executive.output D out a c st chi hp l ks t).fault⟩ := by
  simp only [Executive.output]
  repeat' split
  all_goals rfl

/-- The call `Executive::transition` does not depend on the bundles `chi_x` and
`chi_y`, and leaves them as they are. -/
theorem Executive.transition_chi_ports (D : Dynamics T V S C) (policy : Policy T V S C)
    (start : Model T V S C → C → T → Run (Model T V S C) T)
    (tr : Model T V S C → T → Run (Model T V S C) T)
    (a : Nat) (c : Core T V) (st : S) (chi : Chi T V C) (hp : HeapType T) (l : List Nat)
    (ks : List (Model T V S C)) (t : T) (x y : PortList V) :
    Executive.transition D policy start tr a c st { chi with chi_x := x, chi_y := y } hp l ks t
      = ⟨(Executive.transition D policy start tr a c st chi hp l ks t).state.setChiPorts x y,
          (Executive.transition D policy start tr a c st chi hp l ks t).log,
          (Executive.transition D policy start tr a c st chi hp l ks t).fault⟩ := by
  have hs : ∀ ops n,
      Executive.structural start a
          { chi_tl := t, chi_tn := chi.chi_tn, chi_heapid := chi.chi_heapid, chi_x := x,
            chi_y := y, localcommon := chi.localcommon } ops n
        = Executive.structural start a { chi with chi_tl := t } ops n :=
    fun ops n => Executive.structural_chi start a
      ⟨t, chi.chi_tn, chi.chi_heapid, x, y, chi.localcommon⟩ { chi with chi_tl := t }
      rfl rfl ops n
  simp only [Executive.transition, Executive.finish, hs]
  repeat' split
  all_goals rfl

/-- A call `Executive::output(t)` with `t = tn = heap.top().tn` that returns
normally: the loop returned normally, `post` is called last on the set `lst` of
the loop, and the own output bundle is what `post` left, cleared when the
executive is a member of `lst`. -/
theorem Executive.output_run (D : Dynamics T V S C)
    (out : Model T V S C → T → Run (Model T V S C) T)
    (a : Nat) (c : Core T V) (st : S) (chi : Chi T V C) (hp : HeapType T) (l : List Nat)
    (ks : List (Model T V S C)) (t : T) (top : HeapElement T)
    (htop : hp.top = some top) (ht : t = c.tn) (hc : c.tn = top.tn)
    (hok : (Executive.output D out a c st chi hp l ks t).fault = none) :
    ∀ r, r = outputChildren D out (some a) st hp t (hp.outputEntries c.tn) ⟨c.y, ks, []⟩ →
    ∀ eff, eff = D.post a st ⟨a, c.x, r.state.y⟩ (r.state.kids.map Model.ports) r.state.lst l →
      r.fault = none ∧
      (Executive.output D out a c st chi hp l ks t).log = r.log ++ [.post a r.state.lst l] ∧
      (Executive.output D out a c st chi hp l ks t).state.core.y
        = (if a ∈ r.state.lst then eff.selfY.clear else eff.selfY) ∧
      (Executive.output D out a c st chi hp l ks t).state.chiOf = some chi := by
  intro r hr eff heff
  subst hr heff
  unfold Executive.output at hok ⊢
  simp only [htop] at hok ⊢
  have g1 : ¬ ¬ (t = top.tn) := not_not.2 (ht.trans hc)
  have g2 : ¬ ¬ (c.tn = top.tn) := not_not.2 hc
  have g3 : t = c.tn ∧ hp.empty = false := ⟨ht, HeapType.empty_of_top htop⟩
  rw [if_neg g1, if_neg g2, if_pos g3] at hok ⊢
  revert hok
  cases hf : (outputChildren D out (some a) st hp t (hp.outputEntries c.tn)
      ⟨c.y, ks, []⟩).fault with
  | some f => intro hok; simp only at hok; exact absurd hok (by simp)
  | none =>
    intro _
    simp only [applyPost, Model.core, Model.chiOf]
    refine ⟨trivial, trivial, ?_, trivial⟩
    split <;> rfl

/-- What `Executive::transition` leaves of the bundles `chi_x` and `chi_y`:
they are as before. -/
theorem Executive.transition_chi_frame (D : Dynamics T V S C) (policy : Policy T V S C)
    (start : Model T V S C → C → T → Run (Model T V S C) T)
    (tr : Model T V S C → T → Run (Model T V S C) T)
    (a : Nat) (c : Core T V) (st : S) (chi : Chi T V C) (hp : HeapType T) (l : List Nat)
    (ks : List (Model T V S C)) (t : T) :
    ∃ chi2, (Executive.transition D policy start tr a c st chi hp l ks t).state.chiOf
        = some chi2 ∧
      chi2.chi_x = chi.chi_x ∧ chi2.chi_y = chi.chi_y := by
  simp only [Executive.transition, Executive.finish]
  repeat' split
  all_goals exact ⟨_, rfl, rfl, rfl⟩

/-- C36. An executive whose heap agrees with the children (data-model
invariants), with `t = tn = heap.top().tn`, whose own entry of the heap has
`tn = t`, and a call `output(t)` that returns normally.  The executive calls its
`lambda()` once, and `post(lst, last_output_list)` last.  The executive itself
is a member of `lst` exactly when its output bundle `y` is not `is_empty()`
right after `lambda()`; the call then returns with the own `y` cleared
(`is_empty()` true, every list empty), so nothing of what `lambda()` or `post`
wrote to it is left; when `y` is `is_empty()` after `lambda()`, the own `y` is
what `post` left.  `output` and `transition` leave the bundles `chi_x` and
`chi_y` as they are and do not depend on them: with other bundles in their
place the calls, the error and the state left are the same, these two bundles
apart. -/
theorem C36_executive_own_output (D : Dynamics T V S C) (a : Nat) (c : Core T V) (st : S)
    (chi : Chi T V C) (hp : HeapType T) (l : List Nat) (ks : List (Model T V S C)) (t : T)
    (top : HeapElement T) (htop : hp.top = some top) (ht : t = c.tn) (hc : c.tn = top.tn)
    (hinv : hp.Scheduled a (some (chi.chi_heapid, chi.chi_tn)) (ks.map Model.key))
    (hown : ∃ n ∈ hp.nodes, n.2.element = a ∧ n.2.tn = t)
    (hok : (Model.output D (.executive a c st chi hp l ks) t).fault = none) :
    lambdaCalls (Model.output D (.executive a c st chi hp l ks) t).log = [a] ∧
    (∃ (lst : List Nat) (outs : List (Event T)) (kids : List (Model T V S C)),
      (Model.output D (.executive a c st chi hp l ks) t).log = outs ++ [.post a lst l] ∧
      postCalls outs = [] ∧
      (a ∈ lst ↔ (D.lambda a st c.y).is_empty = false) ∧
      ((D.lambda a st c.y).is_empty = false →
        (Model.output D (.executive a c st chi hp l ks) t).state.core.y
          = (D.post a st ⟨a, c.x, D.lambda a st c.y⟩ (kids.map Model.ports) lst
              l).selfY.clear) ∧
      ((D.lambda a st c.y).is_empty = true →
        (Model.output D (.executive a c st chi hp l ks) t).state.core.y
          = (D.post a st ⟨a, c.x, D.lambda a st c.y⟩ (kids.map Model.ports) lst l).selfY)) ∧
    ((D.lambda a st c.y).is_empty = false →
      (Model.output D (.executive a c st chi hp l ks) t).state.core.y.is_empty = true ∧
      ∀ v ∈ (Model.output D (.executive a c st chi hp l ks) t).state.core.y.ports, v = []) ∧
    (Model.output D (.executive a c st chi hp l ks) t).state.chiOf = some chi ∧
    (∀ (policy : Policy T V S C) (t2 : T), ∃ chi2,
      (Model.transition D policy (.executive a c st chi hp l ks) t2).state.chiOf = some chi2 ∧
      chi2.chi_x = chi.chi_x ∧ chi2.chi_y = chi.chi_y) ∧
    (∀ (x y : PortList V) (t2 : T),
      Model.output D (.executive a c st { chi with chi_x := x, chi_y := y } hp l ks) t2
        = ⟨(Model.output D (.executive a c st chi hp l ks) t2).state.setChiPorts x y,
            (Model.output D (.executive a c st chi hp l ks) t2).log,
            (Model.output D (.executive a c st chi hp l ks) t2).fault⟩) ∧
    (∀ (policy : Policy T V S C) (x y : PortList V) (t2 : T),
      Model.transition D policy
          (.executive a c st { chi with chi_x := x, chi_y := y } hp l ks) t2
        = ⟨(Model.transition D policy (.executive a c st chi hp l ks) t2).state.setChiPorts
              x y,
            (Model.transition D policy (.executive a c st chi hp l ks) t2).log,
            (Model.transition D policy (.executive a c st chi hp l ks) t2).fault⟩) := by
  have hent : ∀ it ∈ hp.outputEntries c.tn,
      ∃ id, it.heapid = some id ∧ hp.deref id = some it := by
    intro it hit
    obtain ⟨⟨n, hn, rfl⟩, _⟩ := (HeapType.mem_outputEntries htop hc.symm it).1 hit
    exact ⟨n.1, (hinv.entry n hn).1, HeapType.deref_of_mem hinv.handles hn⟩
  have hnd := HeapType.outputEntries_nodup htop hc.symm hinv.elements
  have hmem : a ∈ (hp.outputEntries c.tn).map (fun it => it.element) := by
    obtain ⟨n, hn, hna, hnt⟩ := hown
    exact List.mem_map.2 ⟨n.2, (HeapType.mem_outputEntries htop hc.symm n.2).2
      ⟨⟨n, hn, rfl⟩, hnt.trans ht⟩, hna⟩
  have hrun := Executive.output_run D
    (Model.outputN D (Model.executive a c st chi hp l ks).depth) a c st chi hp l ks t top
    htop ht hc hok _ rfl _ rfl
  obtain ⟨hf, hlog, hy, hchi⟩ := hrun
  have hown2 := (outputChildren_own D
    (Model.outputN D (Model.executive a c st chi hp l ks).depth) a st hp t
    (hp.outputEntries c.tn) ⟨c.y, ks, []⟩ hent hnd hf).1 hmem
  have hcalls := outputChildren_calls_executive D
    (Model.outputN D (Model.executive a c st chi hp l ks).depth) a st hp t
    (hp.outputEntries c.tn) ⟨c.y, ks, []⟩ hent hf
  have hlst : a ∈ (outputChildren D
      (Model.outputN D (Model.executive a c st chi hp l ks).depth) (some a) st hp t
      (hp.outputEntries c.tn) ⟨c.y, ks, []⟩).state.lst ↔
      (D.lambda a st c.y).is_empty = false := by
    rw [hown2.2]
    simp
  have hlog2 : (Model.output D (.executive a c st chi hp l ks) t).log = _ := hlog
  have hy2 : (Model.output D (.executive a c st chi hp l ks) t).state.core.y = _ := hy
  rw [hown2.1] at hy2
  refine ⟨?_, ⟨_, _, (outputChildren D
      (Model.outputN D (Model.executive a c st chi hp l ks).depth) (some a) st hp t
      (hp.outputEntries c.tn) ⟨c.y, ks, []⟩).state.kids, hlog2, hcalls.2.2, hlst, ?_, ?_⟩,
    ?_, hchi, ?_, ?_, ?_⟩
  · rw [hlog2]
    have h3 := hcalls.2.1
    simp only [lambdaCalls] at h3 ⊢
    rw [List.filterMap_append, h3]
    have h4 : ((hp.outputEntries c.tn).filter (fun it => it.element == a)).map
        (fun it => it.element) = [a] := by
      rw [← (filter_beq_of_nodup hnd a).1 hmem, List.filter_map]
      rfl
    rw [h4]
    simp [Event.lambdaCall]
  · intro he
    rw [hy2, if_pos (hlst.2 he)]
  · intro he
    have hn : ¬ a ∈ (outputChildren D
        (Model.outputN D (Model.executive a c st chi hp l ks).depth) (some a) st hp t
        (hp.outputEntries c.tn) ⟨c.y, ks, []⟩).state.lst := by
      rw [hlst, he]
      simp
    rw [hy2, if_neg hn]
  · intro he
    rw [hy2, if_pos (hlst.2 he)]
    exact ⟨rfl, PortList.clear_allEmpty _⟩
  · intro policy t2
    exact Executive.transition_chi_frame D policy _ _ a c st chi hp l ks t2
  · intro x y t2
    exact Executive.output_chi_ports D _ a c st chi hp l ks t2 x y
  · intro policy x y t2
    exact Executive.transition_chi_ports D policy _ _ a c st chi hp l ks t2 x y

theorem Herald.herald_disciplined : Herald.dynamics.Disciplined := by
  intro a e x st held
  exact ⟨List.nodup_nil, fun _ h => absurd h (List.not_mem_nil _)⟩

theorem Herald.fresh_herald : Fresh Herald.executive :=
  Fresh.executive 20 _ 0 _ _ _ ⟨rfl, rfl⟩ rfl (by decide) (by decide)
    (fun k hk => absurd hk (List.not_mem_nil _))

theorem Herald.reachable_heraldStarted :
    Reachable Herald.dynamics TransitionPolicyDefault Herald.started :=
  Reachable.start Herald.executive () (.fin 0) Herald.fresh_herald (by decide)

/-- C36, on the executive that emits: at `output(1)` its `lambda()` writes the
value `9` to the output port `0`, the executive is in the set given to `post`,
and the call returns with the output bundle cleared; `chi_x` and `chi_y` are as
before. -/
theorem C36_executive_own_output_witness :
    (Herald.dynamics.lambda 20 0 Herald.started.core.y).ports = [[9]] ∧
    lambdaCalls (Model.output Herald.dynamics Herald.started (.fin 1)).log = [20] ∧
    postCalls (Model.output Herald.dynamics Herald.started (.fin 1)).log = [(20, [20], [])] ∧
    (Model.output Herald.dynamics Herald.started (.fin 1)).state.core.y.is_empty = true ∧
    (Model.output Herald.dynamics Herald.started (.fin 1)).state.core.y.ports = [[]] ∧
    (Model.output Herald.dynamics Herald.started (.fin 1)).state.chiOf
      = some ⟨.fin 0, .fin 1, some 0, PortList.ofNames ["cx"], PortList.ofNames ["cy"], ()⟩ :=
  have hs : Herald.started.heap.Scheduled 20 (some (some 0, .fin 1))
      (Herald.started.kids.map Model.key) :=
    (Reachable.reachable_heapOk Herald.dynamics Herald.herald_disciplined
      Herald.reachable_heraldStarted).1
  have h := C36_executive_own_output Herald.dynamics 20 Herald.started.core 0
    ⟨.fin 0, .fin 1, some 0, PortList.ofNames ["cx"], PortList.ofNames ["cy"], ()⟩
    Herald.started.heap Herald.started.last_output_list Herald.started.kids (.fin 1)
    ⟨20, .fin 1, some 0⟩ rfl rfl rfl hs
    ⟨(0, ⟨20, .fin 1, some 0⟩), List.mem_cons_self _ _, rfl, rfl⟩ (by decide)
  ⟨rfl, h.1, by decide, (h.2.2.1 rfl).1, rfl, h.2.2.2.1⟩

/-! ### A second `start`, an index that does not fit, an own output written by `post` -/

/-- C11, the claim as stated fails: the sample network, whose `children()`
returns the generator and the accumulator, after `start(0)` and a second call
`start(10)`, which returns normally.  The heap holds two entries for each
child, the entries of the first call, keyed by the `tn` that the children had
then (`2` for the generator, whose `tn` is now `12`), and the entries of the
second call; the `tn` of the network is `2`, the key of a stale entry. -/
theorem C11_counterexample :
    Sample.started.kids.map Model.addr = [1, 2] ∧
    (Model.start Sample.dynamics Sample.started () (.fin 10)).fault = none ∧
    (Model.start Sample.dynamics Sample.started () (.fin 10)).state.heap.nodes.map
        (fun n => (n.1, n.2.element, n.2.tn))
      = [(0, 1, .fin 2), (1, 2, .pinf), (2, 1, .fin 12), (3, 2, .pinf)] ∧
    (Model.start Sample.dynamics Sample.started () (.fin 10)).state.kids.map
        (fun k => (k.addr, k.core.heapid, k.core.tl, k.core.tn))
      = [(1, some 2, .fin 10, .fin 12), (2, some 3, .fin 10, .pinf)] ∧
    (Model.start Sample.dynamics Sample.started () (.fin 10)).state.core.tl = .fin 10 ∧
    (Model.start Sample.dynamics Sample.started () (.fin 10)).state.core.tn = .fin 2 := by
  decide

/-- C17, the claim as stated fails: the sample executive with its two declared
children after `start(0)` and a second call `start(10)`, which returns normally.
The heap holds two entries for the executive itself and two for each child;
`chi_tn` is `12` and the `tn` of both children is `infinity`, but `tn` is `2`,
the key of the entry of the executive that the first call made. -/
theorem C17_counterexample :
    (Model.start Growth.dynamics Growth.started () (.fin 10)).fault = none ∧
    (Model.start Growth.dynamics Growth.started () (.fin 10)).state.heap.nodes.map
        (fun n => (n.1, n.2.element, n.2.tn))
      = [(0, 10, .fin 2), (1, 11, .pinf), (2, 12, .pinf), (3, 10, .fin 12), (4, 11, .pinf),
         (5, 12, .pinf)] ∧
    (Model.start Growth.dynamics Growth.started () (.fin 10)).state.chiOf.map
        (fun chi => (chi.chi_tl, chi.chi_tn, chi.chi_heapid))
      = some (.fin 10, .fin 12, some 3) ∧
    (Model.start Growth.dynamics Growth.started () (.fin 10)).state.kids.map
        (fun k => (k.addr, k.core.tn))
      = [(11, .pinf), (12, .pinf)] ∧
    (Model.start Growth.dynamics Growth.started () (.fin 10)).state.core.tn = .fin 2 := by
  decide

theorem Relay.relay_flagsKept : Relay.dynamics.FlagsKept := by
  constructor
  · intro a st y hy
    exact hy
  · intro a st self kids out lol _ h
    cases h

/-- C10, the claim as stated fails: the executive whose `post` writes its own
output, after `start(0)`.  Its entry of the heap has `tn = 1`; the hooks write
through the accessors of `PortList` and the own `y` is `is_empty()` on entry.
`output(1)` returns normally: `lambda()` leaves `y` `is_empty()`, so the
executive is not in the set `lst` that is cleared, and `post`, called after the
set is fixed, appends `3` to the own port `0`; on return the own `y`, inspected
by the call, is not `is_empty()` and holds `3`. -/
theorem C10_counterexample :
    Relay.dynamics.FlagsKept ∧
    Relay.started.heap.nodes = [(0, ⟨40, .fin 1, some 0⟩)] ∧
    Relay.started.selfEntry = some 40 ∧
    Relay.started.core.y.is_empty = true ∧ Relay.started.core.y.ports = [[]] ∧
    (Model.output Relay.dynamics Relay.started (.fin 1)).fault = none ∧
    lambdaCalls (Model.output Relay.dynamics Relay.started (.fin 1)).log = [40] ∧
    postCalls (Model.output Relay.dynamics Relay.started (.fin 1)).log = [(40, [], [])] ∧
    (Model.output Relay.dynamics Relay.started (.fin 1)).state.core.y.is_empty = false ∧
    (Model.output Relay.dynamics Relay.started (.fin 1)).state.core.y.ports = [[3]] :=
  ⟨Relay.relay_flagsKept, rfl, by decide, by decide, by decide, by decide, by decide,
    by decide, by decide, by decide⟩

/-! ### The bag of a coupled model under both policies -/

/-- The last loop of the parallel policy calls nothing. -/
theorem TransitionPolicyThread.updates_log :
    ∀ (bag : List Nat) (n : Net T V S C), (TransitionPolicyThread.updates bag n).log = []
  | [], _ => rfl
  | a :: bag, n => by
    unfold TransitionPolicyThread.updates
    split
    · rfl
    · split
      · rfl
      · exact TransitionPolicyThread.updates_log bag _

/-- The workers of the parallel policy call no hook and no `start` themselves. -/
theorem TransitionPolicyThread.workers_hooks (tr : Model T V S C → T → Run (Model T V S C) T)
    (bag : List Nat) (t : T) :
    ∀ (sched : List Nat) (kids : List (Model T V S C)),
      deltaCalls (TransitionPolicyThread.workers tr bag t sched kids).log = [] ∧
      startCalls (TransitionPolicyThread.workers tr bag t sched kids).log = []
  | [], _ => ⟨rfl, rfl⟩
  | i :: sched, kids => by
    unfold TransitionPolicyThread.workers
    cases hb : bag.get? i with
    | none => exact ⟨rfl, rfl⟩
    | some a =>
      simp only
      cases hk : findKid kids a with
      | none => exact ⟨rfl, rfl⟩
      | some child =>
        simp only
        cases hf : (tr child t).fault with
        | some f => exact ⟨rfl, rfl⟩
        | none =>
          simp only
          have ih := TransitionPolicyThread.workers_hooks tr bag t sched
            (setKid kids a (tr child t).state)
          unfold deltaCalls startCalls at ih ⊢
          simp only [List.filterMap_cons, Event.deltaCall, Event.startCall]
          exact ih

/-- A run of the parallel policy with a pool that is not empty that ends
normally, in any order of the calls of its workers: it called `transition(time)`
on the members of the bag, one call per member, and nothing else. -/
theorem TransitionPolicyThread.calls_thread (tr : Model T V S C → T → Run (Model T V S C) T)
    (pool : Nat) (hpool : 0 < pool) (sched bag : List Nat) (t : T) (n : Net T V S C)
    (hsched : Interleaving (TransitionPolicyThread.jobs pool bag.length) sched)
    (hok : (TransitionPolicyThread sched tr bag t n).fault = none) :
    (transitionCalls (TransitionPolicyThread sched tr bag t n).log).Perm
      (bag.map (fun k => (k, t))) ∧
    deltaCalls (TransitionPolicyThread sched tr bag t n).log = [] ∧
    startCalls (TransitionPolicyThread sched tr bag t n).log = [] ∧
    (TransitionPolicyThread sched tr bag t n).log.length = bag.length := by
  unfold TransitionPolicyThread at hok ⊢
  by_cases hlen : bag.length = 1
  · rw [if_pos hlen] at hok ⊢
    have h := TransitionPolicyDefault.calls tr t bag n hok
    have h2 := TransitionPolicyDefault.log_hooks tr t bag n
    rw [h.1]
    exact ⟨List.Perm.refl _, h2.1, h2.2, h.2⟩
  · rw [if_neg hlen] at hok ⊢
    simp only at hok ⊢
    cases hw : (TransitionPolicyThread.workers tr bag t sched n.kids).fault with
    | some f =>
      rw [hw] at hok
      exact absurd hok (by simp)
    | none =>
      simp only [TransitionPolicyThread.updates_log, List.append_nil]
      have hc := TransitionPolicyThread.workers_calls tr bag t sched n.kids hw
      have hp := TransitionPolicyThread.schedule_positions pool bag.length hpool sched hsched
      have hperm : sched.Perm (List.range bag.length) := by
        refine (List.perm_ext_iff_of_nodup hp.1 (List.nodup_range _)).2 ?_
        intro j
        rw [hp.2 j, List.mem_range]
      have hlog := TransitionPolicyThread.workers_hooks tr bag t
      refine ⟨?_, (hlog sched n.kids).1, (hlog sched n.kids).2, ?_⟩
      · rw [hc.1, ← filterMap_range_get? (fun a => (a, t)) bag]
        exact hperm.filterMap _
      · rw [hc.2]
        exact (hperm.length_eq).trans (List.length_range _)

/-- A `CoupledModel::transition` that passes both guards and returns normally,
under any policy: the policy returned normally, the calls are those of the
external routing followed by those of the policy, and `last_output_list` is
empty on return. -/
theorem CoupledModel.transition_log (D : Dynamics T V S C) (policy : Policy T V S C)
    (tr : Model T V S C → T → Run (Model T V S C) T) (a : Nat) (c : Core T V) (st : S)
    (hp : HeapType T) (l : List Nat) (ks : List (Model T V S C)) (t : T)
    (h1 : c.tl ≤ t) (h2 : t ≤ c.tn) (h3 : ¬ (t < c.tn ∧ c.x.is_empty = true))
    (hok : (CoupledModel.transition D policy tr a c st hp l ks t).fault = none) :
    (policy tr (CoupledModel.bag hp t (CoupledModel.route D a c st l ks).last_output_list) t
      ⟨hp, (CoupledModel.route D a c st l ks).kids⟩).fault = none ∧
    (CoupledModel.transition D policy tr a c st hp l ks t).log
      = (CoupledModel.route D a c st l ks).log ++
        (policy tr (CoupledModel.bag hp t (CoupledModel.route D a c st l ks).last_output_list)
          t ⟨hp, (CoupledModel.route D a c st l ks).kids⟩).log ∧
    (CoupledModel.transition D policy tr a c st hp l ks t).state.last_output_list = [] := by
  unfold CoupledModel.transition at hok ⊢
  rw [if_neg (not_not.2 ⟨h1, h2⟩), if_neg h3] at hok ⊢
  simp only at hok ⊢
  by_cases hb : a ∈ CoupledModel.bag hp t (CoupledModel.route D a c st l ks).last_output_list
  · rw [if_pos hb] at hok; exact absurd hok (by simp)
  · rw [if_neg hb] at hok ⊢
    cases hf : (policy tr
        (CoupledModel.bag hp t (CoupledModel.route D a c st l ks).last_output_list) t
        ⟨hp, (CoupledModel.route D a c st l ks).kids⟩).fault with
    | some f => simp only [hf] at hok; exact absurd hok (by simp)
    | none =>
      simp only [hf] at hok ⊢
      cases he : (policy tr
          (CoupledModel.bag hp t (CoupledModel.route D a c st l ks).last_output_list) t
          ⟨hp, (CoupledModel.route D a c st l ks).kids⟩).state.heap.top with
      | none => simp only [he] at hok; exact absurd hok (by simp)
      | some e =>
        simp only [he]
        exact ⟨trivial, trivial, rfl⟩

/-- C4, with the code at the failing input.  A `CoupledModel::transition(t)`
that passes both guards, on a coupled model whose `tn` is the `tn` of the top of
its heap; `tr` is the virtual call `child->transition(t)`.  The bag, computed
from the state on entry before any child transitions, holds no child twice and
is the set of the elements of the heap entries with `tn = t` together with the
members of `last_output_list` after the external routing.  Under the sequential
policy, and under the parallel policy with a pool that is not empty, whatever
the order in which the calls of its workers take place, a call that returns
normally has called `transition(t)` on the members of the bag, one call each
(in the order of the bag under the sequential policy), and `last_output_list`
is empty on return.  The failing input: the parallel policy with an empty pool
(the only order of calls is the empty one) on the sample network after
`start(0)` and `output(2)`, whose bag holds the generator and the accumulator:
`transition(2)` passes the guards and returns normally with no call of
`transition` at all and the children left at `tl = 0`. -/
theorem C4_coupled_transition_bag :
    (∀ (D : Dynamics T V S C) (tr : Model T V S C → T → Run (Model T V S C) T) (a : Nat)
        (c : Core T V) (st : S) (hp : HeapType T) (l : List Nat) (ks : List (Model T V S C))
        (t : T),
      c.tl ≤ t → t ≤ c.tn → ¬ (t < c.tn ∧ c.x.is_empty = true) →
      (∀ e, hp.top = some e → c.tn = e.tn) →
      ∀ bag, bag = CoupledModel.bag hp t (CoupledModel.route D a c st l ks).last_output_list →
        bag.Nodup ∧
        (∀ k, k ∈ bag ↔
          (∃ n ∈ hp.nodes, n.2.tn = t ∧ n.2.element = k) ∨
          k ∈ (CoupledModel.route D a c st l ks).last_output_list) ∧
        (∀ k, k ∈ (CoupledModel.route D a c st l ks).last_output_list ↔
          k ∈ l ∨ (c.x.is_empty = false ∧
            k ∈ (D.post a st ⟨a, c.x, c.y⟩ (ks.map Model.ports) [a] l).recipients)) ∧
        ((CoupledModel.transition D TransitionPolicyDefault tr a c st hp l ks t).fault = none →
          transitionCalls (CoupledModel.transition D TransitionPolicyDefault tr a c st hp l ks
            t).log = bag.map (fun k => (k, t)) ∧
          (CoupledModel.transition D TransitionPolicyDefault tr a c st hp l ks
            t).state.last_output_list = []) ∧
        (∀ (pool : Nat) (sched : List Nat), 0 < pool →
          Interleaving (TransitionPolicyThread.jobs pool bag.length) sched →
          (CoupledModel.transition D (TransitionPolicyThread sched) tr a c st hp l ks t).fault
            = none →
          (transitionCalls (CoupledModel.transition D (TransitionPolicyThread sched) tr a c st
            hp l ks t).log).Perm (bag.map (fun k => (k, t))) ∧
          (CoupledModel.transition D (TransitionPolicyThread sched) tr a c st hp l ks
            t).state.last_output_list = []) ∧
        ∀ policy : Policy T V S C,
          Model.transition D policy (.coupled a c st hp l ks) t
            = CoupledModel.transition D policy
                (Model.transitionN D policy (Model.coupled a c st hp l ks).depth)
                a c st hp l ks t) ∧
    (TransitionPolicyThread.jobs 0 2 = [] ∧
      (∀ sched : List Nat, Interleaving (TransitionPolicyThread.jobs 0 2) sched → sched = []) ∧
      Sample.afterOutput.core.tl ≤ .fin 2 ∧ (.fin 2 : ExtInt) ≤ Sample.afterOutput.core.tn ∧
      ¬ ((.fin 2 : ExtInt) < Sample.afterOutput.core.tn ∧
        Sample.afterOutput.core.x.is_empty = true) ∧
      CoupledModel.bag Sample.afterOutput.heap (.fin 2) Sample.afterOutput.last_output_list
        = [1, 2] ∧
      (Model.transition Sample.dynamics (TransitionPolicyThread []) Sample.afterOutput
        (.fin 2)).fault = none ∧
      transitionCalls (Model.transition Sample.dynamics (TransitionPolicyThread [])
        Sample.afterOutput (.fin 2)).log = [] ∧
      (Model.transition Sample.dynamics (TransitionPolicyThread []) Sample.afterOutput
        (.fin 2)).state.kids.map (fun k => (k.addr, k.core.tl))
        = [(1, .fin 0), (2, .fin 0)] ∧
      (Model.transition Sample.dynamics (TransitionPolicyThread []) Sample.afterOutput
        (.fin 2)).state.last_output_list = []) := by
  refine ⟨?_, TransitionPolicyThread.jobs_zero 2, ?_, by decide, by decide, by decide,
    by decide, by decide!, by decide!, by decide!, by decide!⟩
  · intro D tr a c st hp l ks t h1 h2 h3 hinv bag hbag
    subst hbag
    have hmem : ∀ k, k ∈ CoupledModel.bag hp t (CoupledModel.route D a c st l ks).last_output_list ↔
        (∃ n ∈ hp.nodes, n.2.tn = t ∧ n.2.element = k) ∨
        k ∈ (CoupledModel.route D a c st l ks).last_output_list := by
      intro k
      unfold CoupledModel.bag
      rw [mem_setInsertAll, mem_setInsertAll, List.mem_map]
      have htop : ∀ e, hp.top = some e → t ≤ e.tn := fun e he => (hinv e he) ▸ h2
      constructor
      · rintro (hk | ⟨e, he, rfl⟩ | hk)
        · exact Or.inr hk
        · obtain ⟨⟨n, hn, rfl⟩, het⟩ := (hp.mem_imminent t htop e).1 he
          exact Or.inl ⟨n, hn, het, rfl⟩
        · cases hk
      · rintro (⟨n, hn, het, rfl⟩ | hk)
        · exact Or.inr (Or.inl ⟨n.2, (hp.mem_imminent t htop n.2).2 ⟨⟨n, hn, rfl⟩, het⟩, rfl⟩)
        · exact Or.inl hk
    have hlol : ∀ k, k ∈ (CoupledModel.route D a c st l ks).last_output_list ↔
        k ∈ l ∨ (c.x.is_empty = false ∧
          k ∈ (D.post a st ⟨a, c.x, c.y⟩ (ks.map Model.ports) [a] l).recipients) := by
      intro k
      unfold CoupledModel.route
      by_cases hx : c.x.is_empty = true
      · rw [if_pos hx]; simp [hx]
      · rw [if_neg hx]
        simp only [applyPost, mem_setInsertAll]
        have hx2 : c.x.is_empty = false := by simpa using hx
        simp only [hx2, true_and]
        tauto
    refine ⟨nodup_setInsertAll (nodup_setInsertAll List.nodup_nil), hmem, hlol, ?_, ?_,
      fun _ => rfl⟩
    · intro hok
      obtain ⟨hf, hlog, hl⟩ := CoupledModel.transition_log D TransitionPolicyDefault tr a c st
        hp l ks t h1 h2 h3 hok
      refine ⟨?_, hl⟩
      have hcalls := (TransitionPolicyDefault.calls tr t _ _ hf).1
      have hrt := CoupledModel.route_calls D a c st l ks
      rw [hlog]
      unfold transitionCalls at hcalls hrt ⊢
      rw [List.filterMap_append, hrt, hcalls, List.nil_append]
    · intro pool sched hpool hsched hok
      obtain ⟨hf, hlog, hl⟩ := CoupledModel.transition_log D (TransitionPolicyThread sched) tr
        a c st hp l ks t h1 h2 h3 hok
      refine ⟨?_, hl⟩
      have hcalls := (TransitionPolicyThread.calls_thread tr pool hpool sched _ t _ hsched hf).1
      have hrt := CoupledModel.route_calls D a c st l ks
      rw [hlog]
      unfold transitionCalls at hcalls hrt ⊢
      rw [List.filterMap_append, hrt, List.nil_append]
      exact hcalls
  · intro sched hs
    rw [TransitionPolicyThread.jobs_zero] at hs
    exact hs.nil_only

/-- C4, on the sample network after `start(0)` and `output(2)`: the generator is
imminent at `2` and the accumulator is in `last_output_list`.  Under the
sequential policy both are transitioned, once each, in the order of the bag;
under the parallel policy with two workers, the second of which runs first,
both are transitioned, once each. -/
theorem C4_coupled_transition_bag_witness :
    Sample.afterOutput.last_output_list = [2] ∧
    transitionCalls (Model.transition Sample.dynamics TransitionPolicyDefault
      Sample.afterOutput (.fin 2)).log = [(1, .fin 2), (2, .fin 2)] ∧
    (Model.transition Sample.dynamics TransitionPolicyDefault
      Sample.afterOutput (.fin 2)).state.last_output_list = [] ∧
    (transitionCalls (Model.transition Sample.dynamics (TransitionPolicyThread [1, 0])
      Sample.afterOutput (.fin 2)).log).Perm [(1, .fin 2), (2, .fin 2)] ∧
    transitionCalls (Model.transition Sample.dynamics (TransitionPolicyThread [1, 0])
      Sample.afterOutput (.fin 2)).log = [(2, .fin 2), (1, .fin 2)] :=
  have hinter : Interleaving (TransitionPolicyThread.jobs 2 2) [1, 0] :=
    Interleaving.step [[0]] 1 [] [] [0]
      (Interleaving.step [] 0 [] [[]] [] (Interleaving.done _ (by decide)))
  have h := (C4_coupled_transition_bag (T := ExtInt) (V := Nat) (S := Nat) (C := Unit)).1
    Sample.dynamics (Model.transitionN Sample.dynamics TransitionPolicyDefault 1) 0
    Sample.afterOutput.core 0 Sample.afterOutput.heap Sample.afterOutput.last_output_list
    Sample.afterOutput.kids (.fin 2) (by decide) (by decide) (by decide)
    (fun e he => by
      have h0 : Sample.afterOutput.heap.top = some ⟨1, .fin 2, some 0⟩ := rfl
      rw [h0] at he
      cases he
      rfl)
    [1, 2] (by decide)
  have h2 := (C4_coupled_transition_bag (T := ExtInt) (V := Nat) (S := Nat) (C := Unit)).1
    Sample.dynamics (Model.transitionN Sample.dynamics (TransitionPolicyThread [1, 0]) 1) 0
    Sample.afterOutput.core 0 Sample.afterOutput.heap Sample.afterOutput.last_output_list
    Sample.afterOutput.kids (.fin 2) (by decide) (by decide) (by decide)
    (fun e he => by
      have h0 : Sample.afterOutput.heap.top = some ⟨1, .fin 2, some 0⟩ := rfl
      rw [h0] at he
      cases he
      rfl)
    [1, 2] (by decide)
  ⟨rfl, (h.2.2.2.1 (by decide!)).1, (h.2.2.2.1 (by decide!)).2,
    (h2.2.2.2.2.1 2 [1, 0] (by decide) hinter (by decide!)).1, by decide!⟩

/-! ### The first scenario under the parallel policy -/

/-- The orders in which the calls of the workers of a pool that is not empty can
take place on a bag of two members. -/
theorem Interleaving.of_two (pool : Nat) (hpool : 0 < pool) (sched : List Nat)
    (h : Interleaving (TransitionPolicyThread.jobs pool 2) sched) :
    sched = [0, 1] ∨ sched = [1, 0] := by
  obtain ⟨hnd, hmem⟩ := TransitionPolicyThread.schedule_positions pool 2 hpool sched h
  have hperm : sched.Perm (List.range 2) := by
    refine (List.perm_ext_iff_of_nodup hnd (List.nodup_range _)).2 ?_
    intro j
    rw [hmem j, List.mem_range]
  have hlen : sched.length = 2 := hperm.length_eq
  obtain ⟨x, y, rfl⟩ := List.length_eq_two.1 hlen
  have hx : x < 2 := (hmem x).1 (List.mem_cons_self _ _)
  have hy : y < 2 := (hmem y).1 (List.mem_cons_of_mem _ (List.mem_cons_self _ _))
  have hxy : x ≠ y := by
    intro e
    rw [e] at hnd
    simp at hnd
  have hx2 : x = 0 ∨ x = 1 := by omega
  have hy2 : y = 0 ∨ y = 1 := by omega
  rcases hx2 with rfl | rfl <;> rcases hy2 with rfl | rfl
  · exact absurd rfl hxy
  · exact Or.inl rfl
  · exact Or.inr rfl
  · exact absurd rfl hxy

/-- The call `transition(n + 1)` after `output(n + 1)` under the parallel
policy, in both orders of the calls of the workers: the generator and the
accumulator are transitioned, and the state is the one that the sequential
policy leaves. -/
theorem Counter.transition_step_thread (n : Nat) (sched : List Nat)
    (hs : sched = [0, 1] ∨ sched = [1, 0]) :
    (Model.transition Counter.dynamics (TransitionPolicyThread sched) (Counter.afterOutput n)
        (.fin (n + 1))).state = Counter.state (n + 1) ∧
    (Model.transition Counter.dynamics (TransitionPolicyThread sched) (Counter.afterOutput n)
        (.fin (n + 1))).fault = none ∧
    (transitionCalls (Model.transition Counter.dynamics (TransitionPolicyThread sched)
        (Counter.afterOutput n) (.fin (n + 1))).log).Perm
      [(1, .fin (n + 1)), (2, .fin (n + 1))] := by
  rcases hs with rfl | rfl
  · simp [Counter.state, Counter.afterOutput, Model.transition, Model.transitionN,
      CoupledModel.transition, CoupledModel.route, CoupledModel.bag, HeapType.imminent,
      HeapType.top, HeapType.ordered, List.insertionSort, List.orderedInsert, HeapType.empty,
      HeapType.deref, findKid, setKid, TransitionPolicyThread, TransitionPolicyThread.workers,
      TransitionPolicyThread.updates, HeapType.setTn, HeapType.modify,
      HeapType.update, AtomicModel.transition, Counter.dynamics, setInsert, setInsertAll,
      Model.mapCore, Model.core, Model.addr, PortList.is_empty, Model.ports, PortList.clear,
      PortList.new, ExtInt.fin_le_fin, ExtInt.fin_le_pinf, ExtInt.pinf_le_fin,
      ExtInt.fin_add_fin, ExtInt.fin_add_pinf, ExtInt.fin_lt_fin, ExtInt.fin_lt_pinf,
      transitionCalls, Event.transitionCall]
  · simp [Counter.state, Counter.afterOutput, Model.transition, Model.transitionN,
      CoupledModel.transition, CoupledModel.route, CoupledModel.bag, HeapType.imminent,
      HeapType.top, HeapType.ordered, List.insertionSort, List.orderedInsert, HeapType.empty,
      HeapType.deref, findKid, setKid, TransitionPolicyThread, TransitionPolicyThread.workers,
      TransitionPolicyThread.updates, HeapType.setTn, HeapType.modify,
      HeapType.update, AtomicModel.transition, Counter.dynamics, setInsert, setInsertAll,
      Model.mapCore, Model.core, Model.addr, PortList.is_empty, Model.ports, PortList.clear,
      PortList.new, ExtInt.fin_le_fin, ExtInt.fin_le_pinf, ExtInt.pinf_le_fin,
      ExtInt.fin_add_fin, ExtInt.fin_add_pinf, ExtInt.fin_lt_fin, ExtInt.fin_lt_pinf,
      transitionCalls, Event.transitionCall]
    exact List.Perm.swap _ _ _

/-- One step `run(root, n + 1)` of the engine on the state after `n` steps,
under the parallel policy, in both orders of the calls of the workers. -/
theorem Counter.run_step_thread (n : Nat) (sched : List Nat)
    (hs : sched = [0, 1] ∨ sched = [1, 0]) :
    (Engine.run Counter.dynamics (TransitionPolicyThread sched) (Counter.state n)
        (.fin (n + 1))).state = (Counter.state (n + 1), some (.fin (n + 2))) ∧
    (Engine.run Counter.dynamics (TransitionPolicyThread sched) (Counter.state n)
        (.fin (n + 1))).fault = none := by
  have ho := Counter.output_step n
  obtain ⟨h1, h2, _⟩ := Counter.transition_step_thread n sched hs
  unfold Engine.run
  simp only [ho, h1, h2]
  simp [Counter.state, Model.mapCore, Model.core, Model.addr, PortList.clear, PortList.new]
  ring

/-- The first call `run(root, 1)` under the parallel policy with an empty pool:
`output(1)` routes the value of the generator, `transition(1)` calls no child
and clears the input of the accumulator; the clock stays at `1`. -/
theorem Counter.stuck_first :
    (Engine.run Counter.dynamics (TransitionPolicyThread []) (Counter.state 0) (.fin 1)).state
      = (Counter.stuck, some (.fin 1)) ∧
    (Engine.run Counter.dynamics (TransitionPolicyThread []) (Counter.state 0) (.fin 1)).fault
      = none := by
  have ho := Counter.output_step 0
  simp only [Nat.cast_zero, zero_add] at ho
  unfold Engine.run
  simp only [ho]
  simp [Counter.stuck, Counter.afterOutput, Model.transition, Model.transitionN,
    CoupledModel.transition, CoupledModel.route, CoupledModel.bag, HeapType.imminent,
    HeapType.top, HeapType.ordered, List.insertionSort, List.orderedInsert, HeapType.empty,
    HeapType.deref, findKid, setKid, TransitionPolicyThread, TransitionPolicyThread.workers,
    TransitionPolicyThread.updates, HeapType.setTn, HeapType.modify,
    HeapType.update, AtomicModel.transition, Counter.dynamics, setInsert, setInsertAll,
    Model.mapCore, Model.core, Model.addr, PortList.is_empty, Model.ports, PortList.clear,
    PortList.new, ExtInt.fin_le_fin, ExtInt.fin_le_pinf, ExtInt.pinf_le_fin,
    ExtInt.fin_add_fin, ExtInt.fin_add_pinf, ExtInt.fin_lt_fin, ExtInt.fin_lt_pinf]

/-- Under the parallel policy with an empty pool the state after the first call
of `run` is a fixed point: `run(root, 1)` emits and routes the value of the
generator again, calls `transition` on no child, clears the input of the
accumulator unread, and returns the time `1`. -/
theorem Counter.stuck_step :
    (Engine.run Counter.dynamics (TransitionPolicyThread []) Counter.stuck (.fin 1)).state
      = (Counter.stuck, some (.fin 1)) ∧
    (Engine.run Counter.dynamics (TransitionPolicyThread []) Counter.stuck (.fin 1)).fault
      = none ∧
    transitionCalls (Model.transition Counter.dynamics (TransitionPolicyThread [])
      (Model.output Counter.dynamics Counter.stuck (.fin 1)).state (.fin 1)).log = [] := by
  have ho : Model.output Counter.dynamics Counter.stuck (.fin 1)
      = ⟨.coupled 0 ⟨PortList.new, PortList.new, .fin 1, .fin 1, none, none⟩ 0
          ⟨[(0, ⟨1, .fin 1, some 0⟩), (1, ⟨2, .pinf, some 1⟩)], 2⟩ [2]
          [.atomic 1 ⟨PortList.new, ⟨[[]], [("out", 0)], true⟩, .fin 0, .fin 1, some 0,
              some 0⟩ 0,
           .atomic 2 ⟨⟨[[1]], [("in", 0)], false⟩, PortList.new, .fin 0, .pinf, some 0,
              some 1⟩ 0],
          [.output 1 (.fin 1) [.lambda 1], .post 0 [1] []], none⟩ := by
    simp [Counter.stuck, Model.output, Model.outputN, CoupledModel.output,
      HeapType.top, HeapType.ordered, List.insertionSort, List.orderedInsert,
      HeapType.outputEntries, HeapType.empty, outputChildren, HeapType.deref, findKid, setKid,
      AtomicModel.output, Counter.dynamics, PortList.append, PortList.index, PortList.assign,
      applyPost, GenericCoupledModel.post, GenericCoupledModel.deliveries,
      GenericCoupledModel.equal_range, GenericCoupledModel.equalto_inputport,
      Counter.connections, clearOutputs, setInsert, setInsertAll, Model.mapCore, Model.core,
      Model.addr, PortList.is_empty, PortList.slot, Model.ports, PortList.clear, PortList.new,
      ExtInt.fin_le_fin, ExtInt.fin_le_pinf, ExtInt.pinf_le_fin]
    exact ⟨rfl, rfl, rfl⟩
  unfold Engine.run
  simp only [ho]
  simp [Counter.stuck, Model.transition, Model.transitionN,
    CoupledModel.transition, CoupledModel.route, CoupledModel.bag, HeapType.imminent,
    HeapType.top, HeapType.ordered, List.insertionSort, List.orderedInsert, HeapType.empty,
    HeapType.deref, findKid, setKid, TransitionPolicyThread, TransitionPolicyThread.workers,
    TransitionPolicyThread.updates, HeapType.setTn, HeapType.modify,
    HeapType.update, AtomicModel.transition, Counter.dynamics, setInsert, setInsertAll,
    Model.mapCore, Model.core, Model.addr, PortList.is_empty, Model.ports, PortList.clear,
    PortList.new, ExtInt.fin_le_fin, ExtInt.fin_le_pinf, ExtInt.pinf_le_fin,
    ExtInt.fin_add_fin, ExtInt.fin_add_pinf, ExtInt.fin_lt_fin, ExtInt.fin_lt_pinf,
    transitionCalls, Event.transitionCall]

/-- The simulation of the first scenario under the parallel policy, for an order
of the calls of the workers of a pool that is not empty. -/
theorem Counter.simulate_thread (n : Nat) (sched : List Nat)
    (hs : sched = [0, 1] ∨ sched = [1, 0]) :
    (Engine.simulate Counter.dynamics (TransitionPolicyThread sched) () Counter.root (.fin 0)
      n).fault = none ∧
    (Engine.simulate Counter.dynamics (TransitionPolicyThread sched) () Counter.root (.fin 0)
      n).state = (Counter.state n, some (.fin (n + 1))) := by
  induction n with
  | zero => exact ⟨rfl, rfl⟩
  | succ n ih =>
    obtain ⟨h1, h2⟩ := Counter.run_step_thread n sched hs
    unfold Engine.simulate
    simp only [ih.1, ih.2, h1, h2]
    refine ⟨trivial, ?_⟩
    simp only [Nat.cast_add, Nat.cast_one, Prod.mk.injEq, Option.some.injEq,
      ExtInt.fin.injEq, true_and]
    ring

/-- The simulation of the first scenario under the parallel policy with an empty
pool: after the first call of `run` the state does not change any more. -/
theorem Counter.simulate_stuck (n : Nat) :
    (Engine.simulate Counter.dynamics (TransitionPolicyThread []) () Counter.root (.fin 0)
      (n + 1)).fault = none ∧
    (Engine.simulate Counter.dynamics (TransitionPolicyThread []) () Counter.root (.fin 0)
      (n + 1)).state = (Counter.stuck, some (.fin 1)) := by
  induction n with
  | zero =>
    obtain ⟨h1, h2⟩ := Counter.stuck_first
    have h0 : Engine.simulate Counter.dynamics (TransitionPolicyThread []) () Counter.root
        (.fin 0) 0 = ⟨(Counter.state 0, some (.fin 1)), _, none⟩ := rfl
    unfold Engine.simulate
    simp only [h0, h1, h2]
    exact ⟨trivial, trivial⟩
  | succ n ih =>
    obtain ⟨h1, h2, _⟩ := Counter.stuck_step
    unfold Engine.simulate
    simp only [ih.1, ih.2, h1, h2]
    exact ⟨trivial, trivial⟩

/-- C24. The coupled model of the first scenario: a generator `A` whose `init`
and `delta` return `1` and whose `lambda` emits one value on its output port `0`,
connected by `GenericCoupledModel::post` to an accumulator `B` whose `init` and
`delta` return `infinity` and whose `delta` adds the number of the values
received to its counter; `pre(root, 0)` followed by `n` calls of `run`, each at
the time that the call before returned.  `GenericCoupledModel` runs the parallel
policy `TransitionPolicyThread`.  First part: for a pool that is not empty and
every order of the calls of its workers, the simulation returns normally for
every `n`, the clock is then `n + 1` and the counter of `B` is `n`; each single
call of `run` does its step for every such order.  Second part: the same under
the sequential policy.  Third part: with a pool of size `0` (no job, one order:
the empty one) the simulation returns normally for every `n`, but the clock
stays at `1`, the counter of `B` stays at `0` and the generator keeps `tl = 0`,
`tn = 1`: the claim fails there for every `n ≥ 1`. -/
theorem C24_generator_counter :
    (∀ (n pool : Nat) (sched : List Nat), 0 < pool →
      Interleaving (TransitionPolicyThread.jobs pool 2) sched →
      (Engine.simulate Counter.dynamics (TransitionPolicyThread sched) () Counter.root (.fin 0)
        n).fault = none ∧
      (Engine.simulate Counter.dynamics (TransitionPolicyThread sched) () Counter.root (.fin 0)
        n).state = (Counter.state n, some (.fin (n + 1))) ∧
      (∃ c, findKid (Engine.simulate Counter.dynamics (TransitionPolicyThread sched) ()
        Counter.root (.fin 0) n).state.1.kids 2 = some (.atomic 2 c n)) ∧
      ∀ next, Interleaving (TransitionPolicyThread.jobs pool 2) next →
        (Engine.run Counter.dynamics (TransitionPolicyThread next) (Counter.state n)
          (.fin (n + 1))).state = (Counter.state (n + 1), some (.fin (n + 2))) ∧
        (Engine.run Counter.dynamics (TransitionPolicyThread next) (Counter.state n)
          (.fin (n + 1))).fault = none) ∧
    (∀ n : Nat,
      (Engine.simulate Counter.dynamics TransitionPolicyDefault () Counter.root (.fin 0)
        n).fault = none ∧
      (Engine.simulate Counter.dynamics TransitionPolicyDefault () Counter.root (.fin 0)
        n).state = (Counter.state n, some (.fin (n + 1))) ∧
      (∃ c, findKid (Engine.simulate Counter.dynamics TransitionPolicyDefault () Counter.root
        (.fin 0) n).state.1.kids 2 = some (.atomic 2 c n))) ∧
    (TransitionPolicyThread.jobs 0 2 = [] ∧
      (∀ sched : List Nat, Interleaving (TransitionPolicyThread.jobs 0 2) sched → sched = []) ∧
      ∀ n : Nat,
        (Engine.simulate Counter.dynamics (TransitionPolicyThread []) () Counter.root (.fin 0)
          n).fault = none ∧
        (Engine.simulate Counter.dynamics (TransitionPolicyThread []) () Counter.root (.fin 0)
          n).state.2 = some (.fin 1) ∧
        (∃ c, findKid (Engine.simulate Counter.dynamics (TransitionPolicyThread []) ()
          Counter.root (.fin 0) n).state.1.kids 2 = some (.atomic 2 c 0)) ∧
        (Engine.simulate Counter.dynamics (TransitionPolicyThread []) () Counter.root (.fin 0)
          n).state.1.kids.map (fun k => (k.addr, k.core.tl, k.core.tn))
          = [(1, .fin 0, .fin 1), (2, .fin 0, .pinf)]) := by
  refine ⟨?_, Counter.simulate_sequential, TransitionPolicyThread.jobs_zero 2, ?_, ?_⟩
  · intro n pool sched hpool hi
    have hs := Interleaving.of_two pool hpool sched hi
    obtain ⟨h1, h2⟩ := Counter.simulate_thread n sched hs
    refine ⟨h1, h2, ?_, ?_⟩
    · rw [h2]
      exact ⟨_, rfl⟩
    · intro next hn
      exact Counter.run_step_thread n next (Interleaving.of_two pool hpool next hn)
  · intro sched h
    rw [TransitionPolicyThread.jobs_zero 2] at h
    exact Interleaving.nil_only h
  · intro n
    cases n with
    | zero => exact ⟨rfl, rfl, ⟨_, rfl⟩, rfl⟩
    | succ n =>
      obtain ⟨h1, h2⟩ := Counter.simulate_stuck n
      refine ⟨h1, ?_, ?_, ?_⟩
      · rw [h2]
      · rw [h2]
        exact ⟨_, rfl⟩
      · rw [h2]
        rfl

/-- C24, for five steps, with a pool of two workers of which the second calls
first: the clock is `6` and the accumulator has counted `5` values. -/
theorem C24_generator_counter_witness :
    0 < 2 ∧ Interleaving (TransitionPolicyThread.jobs 2 2) [1, 0] ∧
    (Engine.simulate Counter.dynamics (TransitionPolicyThread [1, 0]) () Counter.root (.fin 0)
      5).fault = none ∧
    (Engine.simulate Counter.dynamics (TransitionPolicyThread [1, 0]) () Counter.root (.fin 0)
      5).state.2 = some (.fin 6) ∧
    (∃ c, findKid (Engine.simulate Counter.dynamics (TransitionPolicyThread [1, 0]) ()
      Counter.root (.fin 0) 5).state.1.kids 2 = some (.atomic 2 c 5)) :=
  have hinter : Interleaving (TransitionPolicyThread.jobs 2 2) [1, 0] :=
    Interleaving.step [[0]] 1 [] [] [0]
      (Interleaving.step [] 0 [] [[]] [] (Interleaving.done _ (by decide)))
  have h := C24_generator_counter.1 5 2 [1, 0] (by decide) hinter
  ⟨by decide, hinter, h.1, by rw [h.2.1]; rfl, h.2.2.1⟩

/-! ### The parallel policy with a pool that is not empty, in an executive -/

/-- The calls of the workers that end normally: every position of the order is
a position of the bag, the member there is held, and its `transition` returns
normally. -/
theorem TransitionPolicyThread.workers_members
    (tr : Model T V S C → T → Run (Model T V S C) T)
    (haddr : ∀ k t, (tr k t).state.addr = k.addr) (bag : List Nat) (t : T)
    (hbag : bag.Nodup) :
    ∀ (sched : List Nat) (kids : List (Model T V S C)), sched.Nodup →
      (TransitionPolicyThread.workers tr bag t sched kids).fault = none →
      ∀ i ∈ sched, ∃ a k, bag.get? i = some a ∧ findKid kids a = some k ∧
        (tr k t).fault = none := by
  intro sched
  induction sched with
  | nil => exact fun _ _ _ i hi => absurd hi (List.not_mem_nil _)
  | cons j sched ih =>
    intro kids hnd hok i hi
    have hj : j ∉ sched := (List.nodup_cons.1 hnd).1
    rw [TransitionPolicyThread.workers] at hok
    cases hget : bag.get? j with
    | none => simp only [hget] at hok; exact absurd hok (by simp)
    | some a =>
      simp only [hget] at hok
      cases hk : findKid kids a with
      | none => simp only [hk] at hok; exact absurd hok (by simp)
      | some k =>
        simp only [hk] at hok
        cases hf : (tr k t).fault with
        | some f => simp only [hf] at hok; exact absurd hok (by simp)
        | none =>
          simp only [hf] at hok
          rcases List.mem_cons.1 hi with rfl | hi2
          · exact ⟨a, k, hget, hk, hf⟩
          · obtain ⟨a2, k2, hg2, hk2, hf2⟩ := ih _ (List.nodup_cons.1 hnd).2 hok i hi2
            have hne : a2 ≠ a := by
              rintro rfl
              exact hj (eq_of_get?_nodup hbag hg2 hget ▸ hi2)
            have hm : (tr k t).state.addr = a := by
              rw [haddr]; exact (findKid_mem hk).2
            rw [findKid_setKid_ne hm hne] at hk2
            exact ⟨a2, k2, hg2, hk2, hf2⟩

/-- The last loop of the parallel policy that ends normally on the children
that the workers leave: the sequential policy returns normally too. -/
theorem TransitionPolicyThread.updates_default (tr : Model T V S C → T → Run (Model T V S C) T)
    (haddr : ∀ k t, (tr k t).state.addr = k.addr) (t : T) :
    ∀ (bag : List Nat) (heap : HeapType T) (kids : List (Model T V S C)), bag.Nodup →
      (kids.map Model.addr).Nodup →
      (∀ a ∈ bag, ∃ k, findKid kids a = some k ∧ (tr k t).fault = none) →
      (TransitionPolicyThread.updates bag
          ⟨heap, kids.map (fun k => if k.addr ∈ bag then (tr k t).state else k)⟩).fault
        = none →
      (TransitionPolicyDefault tr bag t ⟨heap, kids⟩).fault = none := by
  intro bag
  induction bag with
  | nil =>
    intro heap kids _ _ _ _
    rfl
  | cons b bag ih =>
    intro heap kids hnd hkids hmem hok
    have hb : b ∉ bag := (List.nodup_cons.1 hnd).1
    obtain ⟨k, hk, hf⟩ := hmem b (List.mem_cons_self _ _)
    have hka : k.addr = b := (findKid_mem hk).2
    have hfaddr : ∀ k2 : Model T V S C,
        (if k2.addr ∈ b :: bag then (tr k2 t).state else k2).addr = k2.addr := by
      intro k2
      split
      · exact haddr k2 t
      · rfl
    have hfind : findKid (kids.map (fun k => if k.addr ∈ b :: bag then (tr k t).state else k)) b
        = some (tr k t).state := by
      rw [findKid_map _ hfaddr, hk]
      simp only [Option.map_some', hka, List.mem_cons, true_or, if_true]
    have hm : ((tr k t).state.mapCore (fun c => { c with x := c.x.clear })).addr = b := by
      rw [Model.addr_mapCore, haddr]
      exact hka
    have hkids2 : (setKid (kids.map (fun k => if k.addr ∈ b :: bag then (tr k t).state else k)) b
          ((tr k t).state.mapCore (fun c => { c with x := c.x.clear })))
        = (setKid kids b ((tr k t).state.mapCore (fun c => { c with x := c.x.clear }))).map
            (fun k => if k.addr ∈ bag then (tr k t).state else k) := by
      unfold setKid
      rw [List.map_map, List.map_map]
      apply List.map_congr_left
      intro k2 _
      simp only [Function.comp]
      by_cases h2 : k2.addr = b
      · have e1 : (k2.addr == b) = true := by simpa using h2
        have e2 : ((if k2.addr ∈ b :: bag then (tr k2 t).state else k2).addr == b) = true := by
          rw [hfaddr]
          exact e1
        rw [e1, e2]
        simp only [if_true, hm, if_neg hb]
      · have e1 : (k2.addr == b) = false := by simpa using h2
        have e2 : ((if k2.addr ∈ b :: bag then (tr k2 t).state else k2).addr == b) = false := by
          rw [hfaddr]
          exact e1
        rw [e1, e2]
        simp only [Bool.false_eq_true, if_false, List.mem_cons, h2, false_or]
    have hnd2 : ((setKid kids b
        ((tr k t).state.mapCore (fun c => { c with x := c.x.clear }))).map Model.addr).Nodup := by
      rw [map_addr_setKid hm]
      exact hkids
    have hmem2 : ∀ a ∈ bag, ∃ k2, findKid (setKid kids b
        ((tr k t).state.mapCore (fun c => { c with x := c.x.clear }))) a = some k2 ∧
        (tr k2 t).fault = none := by
      intro a ha
      obtain ⟨k2, hk2, hf2⟩ := hmem a (List.mem_cons_of_mem _ ha)
      have hne : a ≠ b := fun h => hb (h ▸ ha)
      exact ⟨k2, by rw [findKid_setKid_ne hm hne]; exact hk2, hf2⟩
    unfold TransitionPolicyThread.updates at hok
    simp only [hfind] at hok
    cases hs : heap.setTn (tr k t).state.core.heapid (tr k t).state.core.tn with
    | none => simp only [hs] at hok; exact absurd hok (by simp)
    | some heap1 =>
      simp only [hs] at hok
      rw [hkids2] at hok
      have hih := ih heap1 _ (List.nodup_cons.1 hnd).2 hnd2 hmem2 hok
      rw [TransitionPolicyDefault]
      simp only [hk, hf, Model.core_mapCore, hs]
      exact hih

/-- The parallel policy with a pool that is not empty, whatever the order in
which the calls of its workers take place, returns normally only if the
sequential policy does; it then leaves the heap and the children that the
sequential policy leaves. -/
theorem TransitionPolicyThread.to_default (tr : Model T V S C → T → Run (Model T V S C) T)
    (haddr : ∀ k t, (tr k t).state.addr = k.addr) (pool : Nat) (hpool : 0 < pool)
    (sched bag : List Nat) (t : T) (heap : HeapType T) (kids : List (Model T V S C))
    (hsched : Interleaving (TransitionPolicyThread.jobs pool bag.length) sched)
    (hbag : bag.Nodup) (hkids : (kids.map Model.addr).Nodup)
    (hok : (TransitionPolicyThread sched tr bag t ⟨heap, kids⟩).fault = none) :
    (TransitionPolicyDefault tr bag t ⟨heap, kids⟩).fault = none ∧
    (TransitionPolicyThread sched tr bag t ⟨heap, kids⟩).state
      = (TransitionPolicyDefault tr bag t ⟨heap, kids⟩).state := by
  have hd : (TransitionPolicyDefault tr bag t ⟨heap, kids⟩).fault = none := by
    unfold TransitionPolicyThread at hok
    by_cases h1 : bag.length = 1
    · rw [if_pos h1] at hok
      exact hok
    · rw [if_neg h1] at hok
      simp only at hok
      have hpos := TransitionPolicyThread.schedule_positions pool bag.length hpool sched hsched
      cases hw : (TransitionPolicyThread.workers tr bag t sched kids).fault with
      | some f => simp only [hw] at hok; exact absurd hok (by simp)
      | none =>
        simp only [hw] at hok
        have hall := TransitionPolicyThread.workers_members tr haddr bag t hbag sched kids
          hpos.1 hw
        have hwc := TransitionPolicyThread.workers_closed tr haddr bag t hbag sched kids hkids
          hpos.1 hall
        have hset : ∀ a, a ∈ sched.filterMap bag.get? ↔ a ∈ bag := by
          intro a
          rw [List.mem_filterMap, List.mem_iff_get?]
          constructor
          · rintro ⟨i, _, hi⟩
            exact ⟨i, hi⟩
          · rintro ⟨i, hi⟩
            exact ⟨i, (hpos.2 i).2 (List.get?_eq_some.1 hi).1, hi⟩
        have hstate : (TransitionPolicyThread.workers tr bag t sched kids).state
            = kids.map (fun k => if k.addr ∈ bag then (tr k t).state else k) := by
          rw [hwc.2]
          apply List.map_congr_left
          intro k _
          by_cases hk : k.addr ∈ bag
          · rw [if_pos hk, if_pos ((hset _).2 hk)]
          · rw [if_neg hk, if_neg (fun h => hk ((hset _).1 h))]
        rw [hstate] at hok
        have hmem : ∀ a ∈ bag, ∃ k, findKid kids a = some k ∧ (tr k t).fault = none := by
          intro a ha
          obtain ⟨i, hi⟩ := List.mem_iff_get?.1 ha
          have his : i ∈ sched := (hpos.2 i).2 (List.get?_eq_some.1 hi).1
          obtain ⟨a2, k, hg, hk, hf⟩ := hall i his
          rw [hi] at hg
          cases hg
          exact ⟨k, hk, hf⟩
        exact TransitionPolicyThread.updates_default tr haddr t bag heap kids hbag hkids hmem hok
  exact ⟨hd, (TransitionPolicyThread.eq_default tr haddr pool hpool sched bag t heap kids hsched
    hbag hkids hd).1⟩

/-- An `Executive::transition` under the parallel policy with a pool that is
not empty, whatever the order of the calls of its workers, that passes both
guards and returns normally: under the sequential policy the call returns
normally too, and leaves the same executive. -/
theorem Executive.transition_to_default (D : Dynamics T V S C)
    (start : Model T V S C → C → T → Run (Model T V S C) T)
    (tr : Model T V S C → T → Run (Model T V S C) T)
    (haddr : ∀ k t, (tr k t).state.addr = k.addr) (a : Nat) (c : Core T V) (st : S)
    (chi : Chi T V C) (hp : HeapType T) (l : List Nat) (ks : List (Model T V S C)) (t : T)
    (h1 : c.tl ≤ t) (h2 : t ≤ c.tn) (h3 : ¬ (t < c.tn ∧ c.x.is_empty = true))
    (pool : Nat) (hpool : 0 < pool) (sched : List Nat)
    (hsched : Interleaving (TransitionPolicyThread.jobs pool
      (Executive.bag a hp t (Executive.route D a c st l ks).last_output_list).length) sched)
    (hkids : (ks.map Model.addr).Nodup)
    (hok : (Executive.transition D (TransitionPolicyThread sched) start tr a c st chi hp l ks
      t).fault = none) :
    (Executive.transition D TransitionPolicyDefault start tr a c st chi hp l ks t).fault = none ∧
    (Executive.transition D (TransitionPolicyThread sched) start tr a c st chi hp l ks t).state
      = (Executive.transition D TransitionPolicyDefault start tr a c st chi hp l ks t).state ∧
    (TransitionPolicyThread sched tr
      (Executive.bag a hp t (Executive.route D a c st l ks).last_output_list) t
      ⟨hp, (Executive.route D a c st l ks).kids⟩).state
      = (TransitionPolicyDefault tr
        (Executive.bag a hp t (Executive.route D a c st l ks).last_output_list) t
        ⟨hp, (Executive.route D a c st l ks).kids⟩).state := by
  have hrk : ((Executive.route D a c st l ks).kids.map Model.addr).Nodup := by
    rw [← map_fst_key, Executive.route_kids_key_executive, map_fst_key]
    exact hkids
  have hbag : (Executive.bag a hp t (Executive.route D a c st l ks).last_output_list).Nodup :=
    nodup_setInsertAll (nodup_setInsertAll List.nodup_nil)
  obtain ⟨hpol, hyes, hno⟩ := Executive.transition_run D _ start tr a c st chi hp l ks t h1 h2
    h3 hok _ rfl _ rfl _ rfl _ rfl
  obtain ⟨hd, hs⟩ := TransitionPolicyThread.to_default tr haddr pool hpool sched _ t hp _ hsched
    hbag hrk hpol
  refine ⟨?_, ?_, hs⟩
  · unfold Executive.transition
    rw [if_neg (not_not.2 ⟨h1, h2⟩), if_neg h3]
    simp only [hd]
    by_cases hc : Executive.have_chi a hp t (Executive.route D a c st l ks).last_output_list
        = true
    · obtain ⟨hsr, heap2, top, hset, htop, _⟩ := hyes hc
      rw [hs] at hsr hset
      rw [if_pos hc]
      simp only [hsr, hset, Executive.finish, htop]
    · have hc2 : Executive.have_chi a hp t (Executive.route D a c st l ks).last_output_list
          = false := by simpa using hc
      obtain ⟨top, htop, _⟩ := hno hc2
      rw [hs] at htop
      rw [if_neg hc]
      simp only [Executive.finish, htop]
  · by_cases hc : Executive.have_chi a hp t (Executive.route D a c st l ks).last_output_list
        = true
    · obtain ⟨hsr, heap2, top, hset, htop, heq⟩ := hyes hc
      rw [heq]
      rw [hs] at hsr hset ⊢
      unfold Executive.transition
      rw [if_neg (not_not.2 ⟨h1, h2⟩), if_neg h3]
      simp only [hd, if_pos hc, hsr, hset, Executive.finish, htop]
    · have hc2 : Executive.have_chi a hp t (Executive.route D a c st l ks).last_output_list
          = false := by simpa using hc
      obtain ⟨top, htop, heq⟩ := hno hc2
      rw [heq]
      rw [hs] at htop ⊢
      unfold Executive.transition
      rw [if_neg (not_not.2 ⟨h1, h2⟩), if_neg h3]
      simp only [hd, if_neg hc, Executive.finish, htop]

/-- An `Executive::transition(t)` under the parallel policy with a pool that
is not empty, whatever the order in which the calls of its workers take place,
that passes both guards and returns normally, on an executive whose heap agrees
with its children and whose `tn` is the `tn` of the top of the heap, the `delta`
of the executive using `insert` as the kernel expects.  What
`Executive.transition_sequential` states holds, the calls `transition(t)` on the
members of the bag being made in some order, one call each, all of them before
the call of `delta`. -/
theorem Executive.transition_parallel (D : Dynamics T V S C) (hS : D.Disciplined) (a : Nat)
    (c : Core T V) (st : S) (chi : Chi T V C) (hp : HeapType T) (l : List Nat)
    (ks : List (Model T V S C)) (t : T)
    (h1 : c.tl ≤ t) (h2 : t ≤ c.tn) (h3 : ¬ (t < c.tn ∧ c.x.is_empty = true))
    (hinv : Model.HeapOk (.executive a c st chi hp l ks))
    (pool : Nat) (hpool : 0 < pool) (sched : List Nat)
    (hsched : Interleaving (TransitionPolicyThread.jobs pool
      (Executive.bag a hp t (Executive.route D a c st l ks).last_output_list).length) sched)
    (hok : (Model.transition D (TransitionPolicyThread sched) (.executive a c st chi hp l ks)
      t).fault = none) :
    ∀ rt, rt = Executive.route D a c st l ks →
    ∀ bag, bag = Executive.bag a hp t rt.last_output_list →
    ∀ fin, fin = (Model.transition D (TransitionPolicyThread sched)
        (.executive a c st chi hp l ks) t) →
      a ∉ bag ∧ bag.Nodup ∧
      (transitionCalls fin.log).Perm (bag.map (fun k => (k, t))) ∧
      (Executive.have_chi a hp t rt.last_output_list = true ↔
        (∃ n ∈ hp.nodes, n.2.element = a ∧ n.2.tn = t) ∨ a ∈ rt.last_output_list) ∧
      (Executive.have_chi a hp t rt.last_output_list = true →
        (∃ pre post, fin.log = pre ++ Event.delta a (t - chi.chi_tl) :: post ∧
          (transitionCalls pre).Perm (bag.map (fun k => (k, t))) ∧ deltaCalls pre = [] ∧
          transitionCalls post = [] ∧ deltaCalls post = []) ∧
        ∃ chi2, fin.state.chiOf = some chi2 ∧ chi2.chi_tl = t ∧
          chi2.chi_tn = t + (D.delta a (t - chi.chi_tl) rt.core.x st).1 ∧
          ∃ n ∈ fin.state.heap.nodes, n.2.element = a ∧ chi2.chi_heapid = some n.1 ∧
            n.2.tn = chi2.chi_tn) ∧
      (Executive.have_chi a hp t rt.last_output_list = false →
        deltaCalls fin.log = [] ∧ fin.state.chiOf = some chi) ∧
      fin.state.core.tl = t ∧
      (∃ top, fin.state.heap.top = some top ∧ fin.state.core.tn = top.tn) ∧
      fin.state.core.x.is_empty = true ∧ fin.state.core.x.allEmpty := by
  intro rt hrt bag hbag fin hfin
  have hdef : Model.transition D (TransitionPolicyThread sched) (.executive a c st chi hp l ks) t
      = Executive.transition D (TransitionPolicyThread sched) (Model.start D)
          (Model.transitionN D (TransitionPolicyThread sched)
            (Model.executive a c st chi hp l ks).depth) a c st chi hp l ks t := rfl
  rw [hdef] at hok hfin
  have hkids : (ks.map Model.addr).Nodup := by
    rw [← map_fst_key]
    exact hinv.1.addrs
  obtain ⟨hokD, hstD, _⟩ := Executive.transition_to_default D (Model.start D)
    (Model.transitionN D (TransitionPolicyThread sched) (Model.executive a c st chi hp l ks).depth)
    (fun k t2 => Model.transitionN_addr D _ _ k t2) a c st chi hp l ks t h1 h2 h3 pool hpool
    sched hsched hkids hok
  have hheap : fin.state.HeapOk := by
    rw [hfin, hstD]
    exact Executive.transition_heapOk_executive D hS (Model.start D) _ a c st chi hp l ks t
      (fun k common => Model.startN_addr D _ k common t)
      (fun k => ⟨Model.transitionN_addr D _ _ k t, Model.transitionN_heapid D _ _ k t⟩)
      hinv hokD
  obtain ⟨hr, hyes, hno⟩ := Executive.transition_run D (TransitionPolicyThread sched)
    (Model.start D)
    (Model.transitionN D (TransitionPolicyThread sched) (Model.executive a c st chi hp l ks).depth)
    a c st chi hp l ks t h1 h2 h3 hok _ rfl _ rfl _ rfl _ rfl
  rw [← hrt, ← hbag] at hr hyes hno
  rw [← hrt, ← hbag] at hsched
  have hcalls := TransitionPolicyThread.calls_thread
    (Model.transitionN D (TransitionPolicyThread sched) (Model.executive a c st chi hp l ks).depth)
    pool hpool sched bag t ⟨hp, rt.kids⟩ hsched hr
  have hroute := Executive.route_log D a c st l ks
  rw [← hrt] at hroute
  have hslog := Executive.structural_log (Model.start D) a { chi with chi_tl := t }
    (D.structural a (t - chi.chi_tl) rt.core.x st
      ((TransitionPolicyThread sched (Model.transitionN D (TransitionPolicyThread sched)
        (Model.executive a c st chi hp l ks).depth) bag t ⟨hp, rt.kids⟩).state.kids.map
        Model.addr))
    ⟨(TransitionPolicyThread sched (Model.transitionN D (TransitionPolicyThread sched)
        (Model.executive a c st chi hp l ks).depth) bag t ⟨hp, rt.kids⟩).state.heap, [],
      (TransitionPolicyThread sched (Model.transitionN D (TransitionPolicyThread sched)
        (Model.executive a c st chi hp l ks).depth) bag t ⟨hp, rt.kids⟩).state.kids⟩
  have hpre : (transitionCalls (rt.log ++ (TransitionPolicyThread sched
      (Model.transitionN D (TransitionPolicyThread sched) (Model.executive a c st chi hp l ks).depth)
      bag t ⟨hp, rt.kids⟩).log)).Perm (bag.map (fun k => (k, t))) ∧
      deltaCalls (rt.log ++ (TransitionPolicyThread sched
      (Model.transitionN D (TransitionPolicyThread sched) (Model.executive a c st chi hp l ks).depth)
      bag t ⟨hp, rt.kids⟩).log) = [] := by
    simp only [transitionCalls, deltaCalls] at hroute hcalls ⊢
    rw [List.filterMap_append, List.filterMap_append, hroute.1, hroute.2.1, hcalls.2.1]
    exact ⟨hcalls.1, rfl⟩
  have himm : a ∈ (hp.imminent t).map (fun e => e.element) ↔
      ∃ n ∈ hp.nodes, n.2.element = a ∧ n.2.tn = t := by
    have htop : ∀ e, hp.top = some e → t ≤ e.tn := fun e he => (hinv.2 e he) ▸ h2
    rw [List.mem_map]
    constructor
    · rintro ⟨e, he, rfl⟩
      obtain ⟨⟨n, hn, rfl⟩, het⟩ := (hp.mem_imminent t htop e).1 he
      exact ⟨n, hn, rfl, het⟩
    · rintro ⟨n, hn, rfl, hnt⟩
      exact ⟨n.2, (hp.mem_imminent t htop n.2).2 ⟨⟨n, hn, rfl⟩, hnt⟩, rfl⟩
  have hnotin : a ∉ bag := by
    rw [hbag, Executive.mem_bag]
    exact fun h => h.1 rfl
  have hnd : bag.Nodup := by
    rw [hbag]
    exact nodup_setInsertAll (nodup_setInsertAll List.nodup_nil)
  have hchi : Executive.have_chi a hp t rt.last_output_list = true ↔
      (∃ n ∈ hp.nodes, n.2.element = a ∧ n.2.tn = t) ∨ a ∈ rt.last_output_list := by
    rw [Executive.have_chi_iff, himm]
  by_cases hc : Executive.have_chi a hp t rt.last_output_list = true
  · obtain ⟨hsr, heap2, top, hset, htop, heq⟩ := hyes hc
    rw [heq] at hfin
    subst hfin
    simp only [Model.HeapOk] at hheap
    obtain ⟨n, hn, hne, hnp⟩ := hheap.1.ownEntry _ rfl
    simp only [Prod.mk.injEq] at hnp
    refine ⟨hnotin, hnd, ?_, hchi, fun _ => ⟨⟨_, _, rfl, hpre.1, hpre.2, hslog.1, hslog.2.1⟩,
      _, rfl, rfl, rfl, n, hn, hne, hnp.1, hnp.2.symm⟩, fun h => ?_, rfl, ⟨top, htop, rfl⟩,
      rfl, PortList.clear_allEmpty _⟩
    · simp only [transitionCalls] at hpre hslog ⊢
      simp only [List.filterMap_append, List.filterMap_cons, Event.transitionCall]
      simp only [List.filterMap_append] at hpre
      rw [hslog.1, List.append_nil]
      exact hpre.1
    · rw [hc] at h
      cases h
  · have hc2 : Executive.have_chi a hp t rt.last_output_list = false := by simpa using hc
    obtain ⟨top, htop, heq⟩ := hno hc2
    rw [heq] at hfin
    subst hfin
    exact ⟨hnotin, hnd, hpre.1, hchi, fun h => absurd h hc, fun _ => ⟨hpre.2, rfl⟩, rfl,
      ⟨top, htop, rfl⟩, rfl, PortList.clear_allEmpty _⟩

/-- The calls `child->transition(t)` of an `Executive::transition(t)` under the
parallel policy with a pool that is not empty that passes both guards and
returns normally: the members of the bag, in some order, one call each. -/
theorem Executive.transition_calls_parallel (D : Dynamics T V S C)
    (start : Model T V S C → C → T → Run (Model T V S C) T)
    (tr : Model T V S C → T → Run (Model T V S C) T) (a : Nat) (c : Core T V) (st : S)
    (chi : Chi T V C) (hp : HeapType T) (l : List Nat) (ks : List (Model T V S C)) (t : T)
    (h1 : c.tl ≤ t) (h2 : t ≤ c.tn) (h3 : ¬ (t < c.tn ∧ c.x.is_empty = true))
    (pool : Nat) (hpool : 0 < pool) (sched : List Nat)
    (hsched : Interleaving (TransitionPolicyThread.jobs pool
      (Executive.bag a hp t (Executive.route D a c st l ks).last_output_list).length) sched)
    (hok : (Executive.transition D (TransitionPolicyThread sched) start tr a c st chi hp l ks
      t).fault = none) :
    (transitionCalls
      (Executive.transition D (TransitionPolicyThread sched) start tr a c st chi hp l ks
        t).log).Perm
      ((Executive.bag a hp t (Executive.route D a c st l ks).last_output_list).map
          (fun k => (k, t))) := by
  obtain ⟨hr, hyes, hno⟩ := Executive.transition_run D (TransitionPolicyThread sched) start tr
    a c st chi hp l ks t h1 h2 h3 hok _ rfl _ rfl _ rfl _ rfl
  have hroute := (Executive.route_log D a c st l ks).1
  have hcalls := (TransitionPolicyThread.calls_thread tr pool hpool sched _ t _ hsched hr).1
  by_cases hc : Executive.have_chi a hp t (Executive.route D a c st l ks).last_output_list = true
  · obtain ⟨_, heap2, top, _, _, heq⟩ := hyes hc
    rw [heq]
    have hslog := (Executive.structural_log start a { chi with chi_tl := t }
      (D.structural a (t - chi.chi_tl) (Executive.route D a c st l ks).core.x st
        ((TransitionPolicyThread sched tr
          (Executive.bag a hp t (Executive.route D a c st l ks).last_output_list) t
          ⟨hp, (Executive.route D a c st l ks).kids⟩).state.kids.map Model.addr))
      ⟨(TransitionPolicyThread sched tr
          (Executive.bag a hp t (Executive.route D a c st l ks).last_output_list) t
          ⟨hp, (Executive.route D a c st l ks).kids⟩).state.heap, [],
        (TransitionPolicyThread sched tr
          (Executive.bag a hp t (Executive.route D a c st l ks).last_output_list) t
          ⟨hp, (Executive.route D a c st l ks).kids⟩).state.kids⟩).1
    simp only [transitionCalls] at hroute hcalls hslog ⊢
    simp only [List.filterMap_append, List.filterMap_cons, Event.transitionCall]
    rw [hroute, hslog, List.append_nil, List.nil_append]
    exact hcalls
  · have hc2 : Executive.have_chi a hp t (Executive.route D a c st l ks).last_output_list
        = false := by simpa using hc
    obtain ⟨top, _, heq⟩ := hno hc2
    rw [heq]
    simp only [transitionCalls] at hroute hcalls ⊢
    rw [List.filterMap_append, hroute, List.nil_append]
    exact hcalls

/-- An executive whose heap agrees with its children and whose `transition(t0)`,
under the parallel policy with a pool that is not empty, passes both guards,
runs `delta` (`have_chi`) and returns normally, `delta` using `insert` as the
kernel expects, inserting `mdl` and not erasing it.  Let `s1` be the executive
after that call and `t` its next event time, `s1.tn`.  Then `mdl` is a child `k`
of `s1`, and, for an `output(t)` that returns normally: `output(t)` is called on
`mdl` iff `k.tn = t`, no child is called twice, every call is at `t`; and, for a
`transition(t)` on the state after `output(t)`, under the parallel policy with a
pool that is not empty, that returns normally: `mdl` is among the imminent
entries iff `k.tn = t`, in which case `transition(t)` is called on `mdl`, no
child is called twice and every call is at `t`.  The orders of the calls of the
workers in the two calls of `transition` are any. -/
theorem Executive.inserted_imminent_parallel (D : Dynamics T V S C) (hS : D.Disciplined)
    (a : Nat)
    (c : Core T V) (st : S) (chi : Chi T V C) (hp : HeapType T) (l : List Nat)
    (ks : List (Model T V S C)) (t0 : T) (mdl : Model T V S C)
    (ops : List (Structural T V S C))
    (hinv0 : Model.HeapOk (.executive a c st chi hp l ks))
    (h1 : c.tl ≤ t0) (h2 : t0 ≤ c.tn) (h3 : ¬ (t0 < c.tn ∧ c.x.is_empty = true))
    (pool0 : Nat) (hpool0 : 0 < pool0) (sched0 : List Nat)
    (hsched0 : Interleaving (TransitionPolicyThread.jobs pool0
      (Executive.bag a hp t0 (Executive.route D a c st l ks).last_output_list).length) sched0)
    (hok0 : (Model.transition D (TransitionPolicyThread sched0) (.executive a c st chi hp l ks)
      t0).fault = none)
    (hc : Executive.have_chi a hp t0 (Executive.route D a c st l ks).last_output_list = true)
    (hops : ops = D.structural a (t0 - chi.chi_tl) (Executive.route D a c st l ks).core.x st
      ((TransitionPolicyThread sched0
        (Model.transitionN D (TransitionPolicyThread sched0)
          (Model.executive a c st chi hp l ks).depth)
        (Executive.bag a hp t0 (Executive.route D a c st l ks).last_output_list) t0
        ⟨hp, (Executive.route D a c st l ks).kids⟩).state.kids.map Model.addr))
    (hins : Structural.insert mdl ∈ ops) (hne : ∀ b, Structural.erase b ∈ ops → b ≠ mdl.addr) :
    ∀ s1, s1 = (Model.transition D (TransitionPolicyThread sched0)
        (.executive a c st chi hp l ks) t0).state →
    ∀ t, t = s1.core.tn →
      ∃ k ∈ s1.kids, k.addr = mdl.addr ∧
        ((Model.output D s1 t).fault = none →
          (mdl.addr ∈ (outputCalls (Model.output D s1 t).log).map Prod.fst ↔ k.core.tn = t) ∧
          ((outputCalls (Model.output D s1 t).log).map Prod.fst).Nodup ∧
          (∀ p ∈ outputCalls (Model.output D s1 t).log, p.2 = t) ∧
          ∀ c2 st2 chi2 hp2 l2 ks2,
            (Model.output D s1 t).state = .executive a c2 st2 chi2 hp2 l2 ks2 →
          ∀ pool1 sched1, 0 < pool1 →
            Interleaving (TransitionPolicyThread.jobs pool1
              (Executive.bag a hp2 t
                (Executive.route D a c2 st2 l2 ks2).last_output_list).length) sched1 →
            (Model.transition D (TransitionPolicyThread sched1)
              (.executive a c2 st2 chi2 hp2 l2 ks2) t).fault = none →
            (mdl.addr ∈ (hp2.imminent t).map (fun e => e.element) ↔ k.core.tn = t) ∧
            (k.core.tn = t → mdl.addr ∈
              (transitionCalls (Model.transition D (TransitionPolicyThread sched1)
                (.executive a c2 st2 chi2 hp2 l2 ks2) t).log).map Prod.fst) ∧
            ((transitionCalls (Model.transition D (TransitionPolicyThread sched1)
              (.executive a c2 st2 chi2 hp2 l2 ks2) t).log).map Prod.fst).Nodup ∧
            ∀ p ∈ transitionCalls (Model.transition D (TransitionPolicyThread sched1)
              (.executive a c2 st2 chi2 hp2 l2 ks2) t).log, p.2 = t) := by
  intro s1 hs1 t ht
  have hdef0 : Model.transition D (TransitionPolicyThread sched0)
      (.executive a c st chi hp l ks) t0
      = Executive.transition D (TransitionPolicyThread sched0) (Model.start D)
          (Model.transitionN D (TransitionPolicyThread sched0)
            (Model.executive a c st chi hp l ks).depth) a c st chi hp l ks t0 := rfl
  rw [hdef0] at hok0 hs1
  have hkids0 : (ks.map Model.addr).Nodup := by
    rw [← map_fst_key]
    exact hinv0.1.addrs
  obtain ⟨hokD, hstD, hpolD⟩ := Executive.transition_to_default D (Model.start D)
    (Model.transitionN D (TransitionPolicyThread sched0)
      (Model.executive a c st chi hp l ks).depth)
    (fun k t2 => Model.transitionN_addr D _ _ k t2) a c st chi hp l ks t0 h1 h2 h3 pool0 hpool0
    sched0 hsched0 hkids0 hok0
  have hheap1 : s1.HeapOk := by
    rw [hs1, hstD]
    exact Executive.transition_heapOk_executive D hS (Model.start D) _ a c st chi hp l ks t0
      (fun k common => Model.startN_addr D _ k common t0)
      (fun k => ⟨Model.transitionN_addr D _ _ k t0, Model.transitionN_heapid D _ _ k t0⟩)
      hinv0 hokD
  rw [hpolD] at hops
  obtain ⟨hma, hent1⟩ := Executive.transition_inserted D hS (Model.start D)
    (Model.transitionN D (TransitionPolicyThread sched0)
      (Model.executive a c st chi hp l ks).depth)
    a c st chi hp l ks t0 (fun k common => Model.startN_addr D _ k common t0)
    (fun k => ⟨Model.transitionN_addr D _ _ k t0, Model.transitionN_heapid D _ _ k t0⟩)
    h1 h2 h3 hinv0 hokD hc mdl ops hops hins hne
  rw [← hstD] at hent1
  obtain ⟨_, hyes, _⟩ := Executive.transition_run D (TransitionPolicyThread sched0)
    (Model.start D)
    (Model.transitionN D (TransitionPolicyThread sched0)
      (Model.executive a c st chi hp l ks).depth)
    a c st chi hp l ks t0 h1 h2 h3 hok0 _ rfl _ rfl _ rfl _ rfl
  obtain ⟨_, heap2, top0, _, _, heq⟩ := hyes hc
  have hform : ∃ c1 st1 chi1 hp1 l1 ks1, s1 = Model.executive a c1 st1 chi1 hp1 l1 ks1 :=
    ⟨_, _, _, _, _, _, by rw [hs1, heq]⟩
  obtain ⟨c1, st1, chi1, hp1, l1, ks1, hform⟩ := hform
  rw [← hs1, hform] at hent1
  subst hform
  simp only [Model.heap] at hent1
  simp only [Model.core] at ht
  obtain ⟨nd, hnd, hnde⟩ := List.mem_map.1 hent1
  have hkids1 : (ks1.map Model.addr).Nodup := by rw [← map_fst_key]; exact hheap1.1.addrs
  obtain ⟨k, hk, hkey⟩ : ∃ k ∈ ks1, k.key = (nd.2.element, some nd.1, nd.2.tn) := by
    rcases (hheap1.1.entry nd hnd).2 with ho | hkey
    · exact absurd (hnde.symm.trans ho.1) hma
    · obtain ⟨k, hk, hkey2⟩ := List.mem_map.1 hkey
      exact ⟨k, hk, hkey2⟩
  simp only [Model.key, Prod.mk.injEq] at hkey
  have hka : k.addr = mdl.addr := hkey.1.trans hnde
  obtain ⟨top, htop⟩ := HeapType.top_isSome (List.ne_nil_of_mem hnd)
  have hctop : c1.tn = top.tn := hheap1.2 top htop
  have hnodes : (∃ n ∈ hp1.nodes, n.2.tn = t ∧ n.2.element = mdl.addr) ↔ k.core.tn = t := by
    constructor
    · rintro ⟨n, hn, hnt, hne2⟩
      have : n = nd := eq_of_map_nodup hheap1.1.elements hn hnd (hne2.trans hnde.symm)
      rw [hkey.2.2, ← this, hnt]
    · intro hkt
      exact ⟨nd, hnd, by rw [← hkey.2.2, hkt], hnde⟩
  have hmemE : ∀ b, b ∈ (hp1.outputEntries c1.tn).map (fun e => e.element) ↔
      ∃ n ∈ hp1.nodes, n.2.tn = t ∧ n.2.element = b := by
    intro b
    rw [List.mem_map]
    constructor
    · rintro ⟨e, he, rfl⟩
      obtain ⟨⟨n, hn, rfl⟩, hetn⟩ := (HeapType.mem_outputEntries htop hctop.symm e).1 he
      exact ⟨n, hn, hetn.trans ht.symm, rfl⟩
    · rintro ⟨n, hn, hntn, rfl⟩
      exact ⟨n.2, (HeapType.mem_outputEntries htop hctop.symm n.2).2
        ⟨⟨n, hn, rfl⟩, hntn.trans ht⟩, rfl⟩
  have hentE : ∀ it ∈ hp1.outputEntries c1.tn,
      ∃ id, it.heapid = some id ∧ hp1.deref id = some it := by
    intro it hit
    obtain ⟨⟨n, hn, rfl⟩, _⟩ := (HeapType.mem_outputEntries htop hctop.symm it).1 hit
    exact ⟨n.1, (hheap1.1.entry n hn).1, HeapType.deref_of_mem hheap1.1.handles hn⟩
  refine ⟨k, hk, hka, ?_⟩
  intro hokO
  have hdefO : Model.output D (.executive a c1 st1 chi1 hp1 l1 ks1) t
      = Executive.output D (Model.outputN D (Model.executive a c1 st1 chi1 hp1 l1 ks1).depth)
          a c1 st1 chi1 hp1 l1 ks1 t := rfl
  rw [hdefO] at hokO ⊢
  obtain ⟨hfst, htimes⟩ := Executive.output_called D _ a c1 st1 chi1 hp1 l1 ks1 t top htop ht
    hctop hentE hokO
  refine ⟨?_, ?_, htimes, ?_⟩
  · rw [hfst, List.mem_filter, hmemE, hnodes, bne_iff_ne]
    exact ⟨fun h => h.1, fun h => ⟨h, hma⟩⟩
  · rw [hfst]
    exact (HeapType.outputEntries_nodup htop hctop.symm hheap1.1.elements).filter _
  · intro c2 st2 chi2 hp2 l2 ks2 hform2 pool1 sched1 hpool1 hsched1 hokT
    obtain ⟨c2f, l2f, ks2f, hst2, hc2tn, _, hkeys2⟩ := Executive.output_frame D
      (Model.outputN D (Model.executive a c1 st1 chi1 hp1 l1 ks1).depth) a c1 st1 chi1 hp1 l1
      ks1 t (fun k2 => Model.outputN_key D _ k2 t) hkids1
    rw [hst2] at hform2
    cases hform2
    have hdefT : Model.transition D (TransitionPolicyThread sched1)
        (.executive a c2 st1 chi1 hp1 l2 ks2) t
        = Executive.transition D (TransitionPolicyThread sched1) (Model.start D)
            (Model.transitionN D (TransitionPolicyThread sched1)
              (Model.executive a c2 st1 chi1 hp1 l2 ks2).depth) a c2 st1 chi1 hp1 l2 ks2
            t := rfl
    rw [hdefT] at hokT ⊢
    have hg := Executive.transition_guard D _ _ _ a c2 st1 chi1 hp1 l2 ks2 t hokT
    have hg3 : ¬ (t < c2.tn ∧ c2.x.is_empty = true) := by
      rw [hc2tn, ← ht]
      exact fun h => lt_irrefl _ h.1
    have hcalls := Executive.transition_calls_parallel D (Model.start D) _ a c2 st1 chi1 hp1
      l2 ks2 t hg.1 hg.2 hg3 pool1 hpool1 sched1 hsched1 hokT
    have himm : mdl.addr ∈ (hp1.imminent t).map (fun e => e.element) ↔ k.core.tn = t := by
      rw [← hnodes, List.mem_map]
      have htop2 : ∀ e, hp1.top = some e → t ≤ e.tn := by
        intro e he
        rw [htop] at he
        simp only [Option.some.injEq] at he
        rw [← he, ← hctop, ht]
      constructor
      · rintro ⟨e, he, hea⟩
        obtain ⟨⟨n, hn, rfl⟩, het⟩ := (hp1.mem_imminent t htop2 e).1 he
        exact ⟨n, hn, het, hea⟩
      · rintro ⟨n, hn, hnt, hna⟩
        exact ⟨n.2, (hp1.mem_imminent t htop2 n.2).2 ⟨⟨n, hn, rfl⟩, hnt⟩, hna⟩
    have hfstT : ((transitionCalls (Executive.transition D (TransitionPolicyThread sched1)
        (Model.start D) (Model.transitionN D (TransitionPolicyThread sched1)
          (Model.executive a c2 st1 chi1 hp1 l2 ks2).depth) a c2 st1 chi1 hp1 l2 ks2
        t).log).map Prod.fst).Perm
        (Executive.bag a hp1 t (Executive.route D a c2 st1 l2 ks2).last_output_list) := by
      have hm := hcalls.map Prod.fst
      rw [List.map_map] at hm
      have hid : (Prod.fst ∘ fun k : Nat => (k, t)) = id := rfl
      rw [hid, List.map_id] at hm
      exact hm
    refine ⟨himm, ?_, ?_, ?_⟩
    · intro hkt
      rw [hfstT.mem_iff, Executive.mem_bag]
      exact ⟨hma, Or.inl (himm.2 hkt)⟩
    · exact hfstT.nodup_iff.2 (nodup_setInsertAll (nodup_setInsertAll List.nodup_nil))
    · intro p hp2
      have hp3 := hcalls.mem_iff.1 hp2
      obtain ⟨b, _, rfl⟩ := List.mem_map.1 hp3
      rfl

/-- A `transition` of an executive under the parallel policy with a pool that is
not empty that passes both guards and returns normally keeps the heap in
agreement with the children. -/
theorem Executive.transition_heapOk_parallel (D : Dynamics T V S C) (hS : D.Disciplined)
    (a : Nat) (c : Core T V) (st : S) (chi : Chi T V C) (hp : HeapType T) (l : List Nat)
    (ks : List (Model T V S C)) (t : T)
    (h1 : c.tl ≤ t) (h2 : t ≤ c.tn) (h3 : ¬ (t < c.tn ∧ c.x.is_empty = true))
    (hinv : Model.HeapOk (.executive a c st chi hp l ks))
    (pool : Nat) (hpool : 0 < pool) (sched : List Nat)
    (hsched : Interleaving (TransitionPolicyThread.jobs pool
      (Executive.bag a hp t (Executive.route D a c st l ks).last_output_list).length) sched)
    (hok : (Model.transition D (TransitionPolicyThread sched) (.executive a c st chi hp l ks)
      t).fault = none) :
    (Model.transition D (TransitionPolicyThread sched) (.executive a c st chi hp l ks)
      t).state.HeapOk := by
  have hdef : Model.transition D (TransitionPolicyThread sched) (.executive a c st chi hp l ks) t
      = Executive.transition D (TransitionPolicyThread sched) (Model.start D)
          (Model.transitionN D (TransitionPolicyThread sched)
            (Model.executive a c st chi hp l ks).depth) a c st chi hp l ks t := rfl
  rw [hdef] at hok ⊢
  have hkids : (ks.map Model.addr).Nodup := by
    rw [← map_fst_key]
    exact hinv.1.addrs
  obtain ⟨hokD, hstD, _⟩ := Executive.transition_to_default D (Model.start D)
    (Model.transitionN D (TransitionPolicyThread sched) (Model.executive a c st chi hp l ks).depth)
    (fun k t2 => Model.transitionN_addr D _ _ k t2) a c st chi hp l ks t h1 h2 h3 pool hpool
    sched hsched hkids hok
  rw [hstD]
  exact Executive.transition_heapOk_executive D hS (Model.start D) _ a c st chi hp l ks t
    (fun k common => Model.startN_addr D _ k common t)
    (fun k => ⟨Model.transitionN_addr D _ _ k t, Model.transitionN_heapid D _ _ k t⟩)
    hinv hokD

/-! ### The executive with two imminent children -/

theorem Crowd.crowd_disciplined : Crowd.dynamics.Disciplined := by
  intro a e x st held
  simp only [Crowd.dynamics]
  split
  · rename_i h
    refine ⟨by simp [Structural.inserted], ?_⟩
    intro mdl hm
    simp only [List.filterMap_cons, Structural.inserted, List.filterMap_nil,
      List.mem_singleton] at hm
    subst hm
    refine ⟨Fresh.atomic 53 _ 0 ⟨rfl, rfl⟩, h.2, ?_⟩
    rw [h.1]
    decide
  · exact ⟨List.nodup_nil, fun _ h => absurd h (List.not_mem_nil _)⟩

theorem Crowd.fresh_crowd : Fresh Crowd.executive :=
  Fresh.executive 50 _ 0 _ _ _ ⟨rfl, rfl⟩ rfl (by decide) (by decide) (fun k hk => by
    simp only [List.mem_cons, List.mem_singleton, List.not_mem_nil, or_false] at hk
    rcases hk with rfl | rfl
    · exact Fresh.atomic 51 _ 0 ⟨rfl, rfl⟩
    · exact Fresh.atomic 52 _ 0 ⟨rfl, rfl⟩)

/-- The executive after `start(0)` and `output(2)`, by its members. -/
theorem Crowd.afterOutput_form :
    Crowd.afterOutput = .executive 50 Crowd.afterOutput.core 0
      ⟨.fin 0, .fin 2, some 0, PortList.new, PortList.new, ()⟩ Crowd.afterOutput.heap
      Crowd.afterOutput.last_output_list Crowd.afterOutput.kids := rfl

/-- The executive after `transition(2)` and `output(3)`, by its members. -/
theorem Crowd.grownOutput_form :
    Crowd.grownOutput = .executive 50 Crowd.grownOutput.core 1
      ⟨.fin 2, .fin 3, some 0, PortList.new, PortList.new, ()⟩ Crowd.grownOutput.heap
      Crowd.grownOutput.last_output_list Crowd.grownOutput.kids := rfl

/-- The heap of the executive after `start(0)` and `output(2)` agrees with its
children. -/
theorem Crowd.heapOk_crowdOutput :
    Model.HeapOk (.executive 50 Crowd.afterOutput.core 0
      ⟨.fin 0, .fin 2, some 0, PortList.new, PortList.new, ()⟩ Crowd.afterOutput.heap
      Crowd.afterOutput.last_output_list Crowd.afterOutput.kids) := by
  rw [← Crowd.afterOutput_form]
  exact Reachable.reachable_heapOk Crowd.dynamics Crowd.crowd_disciplined
    (Reachable.output Crowd.started (.fin 2)
      (Reachable.start Crowd.executive () (.fin 0) Crowd.fresh_crowd (by decide!))
      (by decide!))

/-- At `transition(2)` the bag is empty: one worker has nothing to call. -/
theorem Crowd.interleaving_none :
    Interleaving (TransitionPolicyThread.jobs 1
      (Executive.bag 50 Crowd.afterOutput.heap (.fin 2)
        (Executive.route Crowd.dynamics 50 Crowd.afterOutput.core 0
          Crowd.afterOutput.last_output_list Crowd.afterOutput.kids).last_output_list).length)
      [] := by
  have e : (Executive.bag 50 Crowd.afterOutput.heap (.fin 2)
      (Executive.route Crowd.dynamics 50 Crowd.afterOutput.core 0
        Crowd.afterOutput.last_output_list Crowd.afterOutput.kids).last_output_list).length
      = 0 := by decide!
  rw [e]
  exact Interleaving.done _ (by decide)

/-- At `transition(3)` the bag has two members: the two workers of a pool of two,
the second calling first. -/
theorem Crowd.interleaving_swap :
    Interleaving (TransitionPolicyThread.jobs 2
      (Executive.bag 50 Crowd.grownOutput.heap (.fin 3)
        (Executive.route Crowd.dynamics 50 Crowd.grownOutput.core 1
          Crowd.grownOutput.last_output_list Crowd.grownOutput.kids).last_output_list).length)
      [1, 0] := by
  have e : (Executive.bag 50 Crowd.grownOutput.heap (.fin 3)
      (Executive.route Crowd.dynamics 50 Crowd.grownOutput.core 1
        Crowd.grownOutput.last_output_list Crowd.grownOutput.kids).last_output_list).length
      = 2 := by decide!
  rw [e]
  exact Interleaving.step [[0]] 1 [] [] [0]
    (Interleaving.step [] 0 [] [[]] [] (Interleaving.done _ (by decide)))

/-- The heap of the executive after `transition(2)` and `output(3)` agrees with
its children. -/
theorem Crowd.heapOk_grownOutput :
    Model.HeapOk (.executive 50 Crowd.grownOutput.core 1
      ⟨.fin 2, .fin 3, some 0, PortList.new, PortList.new, ()⟩ Crowd.grownOutput.heap
      Crowd.grownOutput.last_output_list Crowd.grownOutput.kids) := by
  have h0 := Executive.transition_heapOk_parallel Crowd.dynamics Crowd.crowd_disciplined 50
    Crowd.afterOutput.core 0 ⟨.fin 0, .fin 2, some 0, PortList.new, PortList.new, ()⟩
    Crowd.afterOutput.heap Crowd.afterOutput.last_output_list Crowd.afterOutput.kids (.fin 2)
    (by decide!) (by decide!) (by decide!) Crowd.heapOk_crowdOutput 1 Nat.one_pos
  have h := h0 [] Crowd.interleaving_none (by decide!)
  rw [← Crowd.afterOutput_form] at h
  rw [← Crowd.grownOutput_form]
  exact Model.outputN_heapOk Crowd.dynamics (.fin 3) _ Crowd.grown h

/-! ### `Executive::transition` under the two policies -/

/-- C13.  An `Executive::transition(t)` that passes both guards and returns
normally, on an executive whose heap agrees with its children and whose `tn` is
the `tn` of the top of the heap, the `delta` of the executive using `insert` as
the kernel expects.  First part, the sequential policy: the executive is not in
the bag, `transition(t)` is called once on each member of the bag; `have_chi`
holds iff the entry of the executive has `tn = t` on entry or the executive is
in `last_output_list` after the external routing; if `have_chi`,
`delta(t - chi_tl)` is called once, after the calls on the bag, and on return
`chi_tl = t`, `chi_tn = t + delta(..)` and the own entry has `tn = chi_tn`; if
not, `delta` is not called and the members `chi_..` are unchanged; on return
`tl = t`, `tn` is the `tn` of the top of the heap, `x` is empty.  Second part,
the parallel policy with a pool that is not empty, whatever the order in which
the calls of its workers take place: the same, the calls on the bag being made
in some order.  Third part, the parallel policy with a pool of size `0`, on the
sample executive (address 50) at its event `3`, where `have_chi` holds and the
bag is `{51, 53}`: `transition(3)` returns normally and calls `delta(3 - 2)`, but
`transition` on no child; the children keep their `tl` and their `tn = 3`, so
that on return `tn = 3`, the stale top of the heap.  The sequential policy calls
`transition(3)` on both children. -/
theorem C13_executive_transition :
    (∀ (D : Dynamics T V S C), D.Disciplined → ∀ (a : Nat) (c : Core T V) (st : S)
        (chi : Chi T V C) (hp : HeapType T) (l : List Nat) (ks : List (Model T V S C)) (t : T),
      c.tl ≤ t → t ≤ c.tn → ¬ (t < c.tn ∧ c.x.is_empty = true) →
      Model.HeapOk (.executive a c st chi hp l ks) →
      (Model.transition D TransitionPolicyDefault (.executive a c st chi hp l ks) t).fault
        = none →
      ∀ rt, rt = Executive.route D a c st l ks →
      ∀ bag, bag = Executive.bag a hp t rt.last_output_list →
      ∀ fin, fin = (Model.transition D TransitionPolicyDefault
          (.executive a c st chi hp l ks) t) →
        a ∉ bag ∧ bag.Nodup ∧
        transitionCalls fin.log = bag.map (fun k => (k, t)) ∧
        (Executive.have_chi a hp t rt.last_output_list = true ↔
          (∃ n ∈ hp.nodes, n.2.element = a ∧ n.2.tn = t) ∨ a ∈ rt.last_output_list) ∧
        (Executive.have_chi a hp t rt.last_output_list = true →
          (∃ pre post, fin.log = pre ++ Event.delta a (t - chi.chi_tl) :: post ∧
            transitionCalls pre = bag.map (fun k => (k, t)) ∧ deltaCalls pre = [] ∧
            transitionCalls post = [] ∧ deltaCalls post = []) ∧
          ∃ chi2, fin.state.chiOf = some chi2 ∧ chi2.chi_tl = t ∧
            chi2.chi_tn = t + (D.delta a (t - chi.chi_tl) rt.core.x st).1 ∧
            ∃ n ∈ fin.state.heap.nodes, n.2.element = a ∧ chi2.chi_heapid = some n.1 ∧
              n.2.tn = chi2.chi_tn) ∧
        (Executive.have_chi a hp t rt.last_output_list = false →
          deltaCalls fin.log = [] ∧ fin.state.chiOf = some chi) ∧
        fin.state.core.tl = t ∧
        (∃ top, fin.state.heap.top = some top ∧ fin.state.core.tn = top.tn) ∧
        fin.state.core.x.is_empty = true ∧ fin.state.core.x.allEmpty) ∧
    (∀ (D : Dynamics T V S C), D.Disciplined → ∀ (a : Nat) (c : Core T V) (st : S)
        (chi : Chi T V C) (hp : HeapType T) (l : List Nat) (ks : List (Model T V S C)) (t : T),
      c.tl ≤ t → t ≤ c.tn → ¬ (t < c.tn ∧ c.x.is_empty = true) →
      Model.HeapOk (.executive a c st chi hp l ks) →
      ∀ (pool : Nat), 0 < pool → ∀ (sched : List Nat),
      Interleaving (TransitionPolicyThread.jobs pool
        (Executive.bag a hp t (Executive.route D a c st l ks).last_output_list).length) sched →
      (Model.transition D (TransitionPolicyThread sched) (.executive a c st chi hp l ks)
        t).fault = none →
      ∀ rt, rt = Executive.route D a c st l ks →
      ∀ bag, bag = Executive.bag a hp t rt.last_output_list →
      ∀ fin, fin = (Model.transition D (TransitionPolicyThread sched)
          (.executive a c st chi hp l ks) t) →
        a ∉ bag ∧ bag.Nodup ∧
        (transitionCalls fin.log).Perm (bag.map (fun k => (k, t))) ∧
        (Executive.have_chi a hp t rt.last_output_list = true ↔
          (∃ n ∈ hp.nodes, n.2.element = a ∧ n.2.tn = t) ∨ a ∈ rt.last_output_list) ∧
        (Executive.have_chi a hp t rt.last_output_list = true →
          (∃ pre post, fin.log = pre ++ Event.delta a (t - chi.chi_tl) :: post ∧
            (transitionCalls pre).Perm (bag.map (fun k => (k, t))) ∧ deltaCalls pre = [] ∧
            transitionCalls post = [] ∧ deltaCalls post = []) ∧
          ∃ chi2, fin.state.chiOf = some chi2 ∧ chi2.chi_tl = t ∧
            chi2.chi_tn = t + (D.delta a (t - chi.chi_tl) rt.core.x st).1 ∧
            ∃ n ∈ fin.state.heap.nodes, n.2.element = a ∧ chi2.chi_heapid = some n.1 ∧
              n.2.tn = chi2.chi_tn) ∧
        (Executive.have_chi a hp t rt.last_output_list = false →
          deltaCalls fin.log = [] ∧ fin.state.chiOf = some chi) ∧
        fin.state.core.tl = t ∧
        (∃ top, fin.state.heap.top = some top ∧ fin.state.core.tn = top.tn) ∧
        fin.state.core.x.is_empty = true ∧ fin.state.core.x.allEmpty) ∧
    (TransitionPolicyThread.jobs 0 2 = [] ∧
      Crowd.grownOutput.core.tl ≤ .fin 3 ∧ .fin 3 ≤ Crowd.grownOutput.core.tn ∧
      Executive.have_chi 50 Crowd.grownOutput.heap (.fin 3) Crowd.grownOutput.last_output_list
        = true ∧
      Executive.bag 50 Crowd.grownOutput.heap (.fin 3) Crowd.grownOutput.last_output_list
        = [51, 53] ∧
      (Model.transition Crowd.dynamics (TransitionPolicyThread []) Crowd.grownOutput
        (.fin 3)).fault = none ∧
      transitionCalls (Model.transition Crowd.dynamics (TransitionPolicyThread [])
        Crowd.grownOutput (.fin 3)).log = [] ∧
      deltaCalls (Model.transition Crowd.dynamics (TransitionPolicyThread [])
        Crowd.grownOutput (.fin 3)).log = [(50, .fin 1)] ∧
      (Model.transition Crowd.dynamics (TransitionPolicyThread []) Crowd.grownOutput
        (.fin 3)).state.kids.map (fun k => (k.addr, k.core.tl, k.core.tn))
        = [(51, .fin 0, .fin 3), (52, .fin 0, .pinf), (53, .fin 2, .fin 3)] ∧
      (Model.transition Crowd.dynamics (TransitionPolicyThread []) Crowd.grownOutput
        (.fin 3)).state.core.tl = .fin 3 ∧
      (Model.transition Crowd.dynamics (TransitionPolicyThread []) Crowd.grownOutput
        (.fin 3)).state.core.tn = .fin 3 ∧
      transitionCalls (Model.transition Crowd.dynamics TransitionPolicyDefault
        Crowd.grownOutput (.fin 3)).log = [(51, .fin 3), (53, .fin 3)] ∧
      (Model.transition Crowd.dynamics TransitionPolicyDefault Crowd.grownOutput
        (.fin 3)).state.kids.map (fun k => (k.addr, k.core.tl, k.core.tn))
        = [(51, .fin 3, .pinf), (52, .fin 0, .pinf), (53, .fin 3, .pinf)]) :=
  ⟨fun D hS a c st chi hp l ks t h1 h2 h3 hinv hok =>
      Executive.transition_sequential D hS a c st chi hp l ks t h1 h2 h3 hinv hok,
    fun D hS a c st chi hp l ks t h1 h2 h3 hinv pool hpool sched hsched hok =>
      Executive.transition_parallel D hS a c st chi hp l ks t h1 h2 h3 hinv pool hpool sched
        hsched hok,
    TransitionPolicyThread.jobs_zero 2, by decide!, by decide!, by decide!, by decide!,
    by decide!, by decide!, by decide!, by decide!, by decide!, by decide!, by decide!,
    by decide!⟩

/-- C13, on the sample executives.  Sequential policy, the first executive after
`start(0)` and `output(2)`: at `transition(2)` the entry of the executive is
imminent, no child is in the bag, `delta(2 - 0)` is called once, and the
executive ends with `chi_tn = infinity` and `tn = 3`, the `tn` of the child that
`delta` has inserted.  Parallel policy with two workers of which the second
calls first, the second executive at its event `3`: `transition(3)` is called on
the child 53, then on the child 51, then `delta(3 - 2)` is called, and the
executive ends with `tl = 3`. -/
theorem C13_executive_transition_witness :
    (transitionCalls
      (Model.transition Growth.dynamics TransitionPolicyDefault Growth.afterOutput (.fin 2)).log
      = [] ∧
    deltaCalls
      (Model.transition Growth.dynamics TransitionPolicyDefault Growth.afterOutput (.fin 2)).log
      = [(10, .fin 2)] ∧
    Growth.grown.core.tl = .fin 2 ∧ Growth.grown.core.tn = .fin 3 ∧
    Growth.grown.chiOf.map (fun chi => (chi.chi_tl, chi.chi_tn)) = some (.fin 2, .pinf)) ∧
    ((transitionCalls (Model.transition Crowd.dynamics (TransitionPolicyThread [1, 0])
        Crowd.grownOutput (.fin 3)).log).Perm
        ([51, 53].map (fun k => (k, (.fin 3 : ExtInt)))) ∧
      transitionCalls (Model.transition Crowd.dynamics (TransitionPolicyThread [1, 0])
        Crowd.grownOutput (.fin 3)).log = [(53, .fin 3), (51, .fin 3)] ∧
      deltaCalls (Model.transition Crowd.dynamics (TransitionPolicyThread [1, 0])
        Crowd.grownOutput (.fin 3)).log = [(50, .fin 1)] ∧
      (Model.transition Crowd.dynamics (TransitionPolicyThread [1, 0]) Crowd.grownOutput
        (.fin 3)).state.core.tl = .fin 3) :=
  by
    have h := (C13_executive_transition (T := ExtInt) (V := Nat) (S := Nat) (C := Unit)).1
      Growth.dynamics Growth.growth_disciplined 10
      Growth.afterOutput.core 0 ⟨.fin 0, .fin 2, some 0, PortList.new, PortList.new, ()⟩
      Growth.afterOutput.heap Growth.afterOutput.last_output_list Growth.afterOutput.kids
      (.fin 2) (by decide) (by decide) (by decide)
      (Reachable.reachable_heapOk Growth.dynamics Growth.growth_disciplined
        Growth.reachable_growthOutput)
      (by decide) _ rfl _ rfl _ rfl
    have h1 := (C13_executive_transition (T := ExtInt) (V := Nat) (S := Nat) (C := Unit)).2.1
      Crowd.dynamics Crowd.crowd_disciplined 50
      Crowd.grownOutput.core 1 ⟨.fin 2, .fin 3, some 0, PortList.new, PortList.new, ()⟩
      Crowd.grownOutput.heap Crowd.grownOutput.last_output_list Crowd.grownOutput.kids
      (.fin 3) (by decide!) (by decide!) (by decide!) Crowd.heapOk_grownOutput 2 (by decide)
    have h2 := h1 [1, 0] Crowd.interleaving_swap (by decide!) _ rfl _ rfl _ rfl
    rw [← Crowd.grownOutput_form] at h2
    exact ⟨⟨h.2.2.1.trans (by decide), by decide, h.2.2.2.2.2.2.1, by decide, by decide⟩,
      h2.2.2.1.trans (by decide!), by decide!, by decide!, h2.2.2.2.2.2.2.1⟩

/-- C15.  An executive whose `transition(t0)` passes both guards, runs `delta`
(`have_chi`) and returns normally, `delta` using `insert` as the kernel expects,
inserting `mdl` and not erasing it.  Let `s1` be the executive after that call
and `t` its next event time, `s1.tn`.  First part, the sequential policy, the
executive being in a simulation state: `mdl` is a child `k` of `s1`, and, for an
`output(t)` that returns normally: `output(t)` is called on `mdl` iff `k.tn = t`,
no child is called twice, every call is at `t`; and, for a `transition(t)` on the
state after `output(t)` that returns normally: `mdl` is among the imminent
entries iff `k.tn = t`, in which case `transition(t)` is called on `mdl`, no
child is called twice and every call is at `t`.  Second part, the parallel
policy with pools that are not empty, whatever the orders in which the calls of
the workers take place in the two calls of `transition`, the heap of the
executive agreeing with its children: the same.  Third part, the parallel
policy with a pool of size `0`, on the sample executive (address 50, children 51
and 52) whose `delta` at `t0 = 2` inserts the child 53, whose `init` returns `1`:
at the next event `3` the new child has `tn = 3`, `output(3)` is called once on
it, it is among the imminent entries of `transition(3)` and in its bag
`{51, 53}`, and `transition(3)` returns normally without a call of `transition`
on it: the new child keeps `tl = 2` and `tn = 3`. -/
theorem C15_inserted_imminent :
    (∀ (D : Dynamics T V S C), D.Disciplined → ∀ (a : Nat) (c : Core T V) (st : S)
        (chi : Chi T V C) (hp : HeapType T) (l : List Nat) (ks : List (Model T V S C)) (t0 : T)
        (mdl : Model T V S C) (ops : List (Structural T V S C)),
      Reachable D TransitionPolicyDefault (.executive a c st chi hp l ks) →
      c.tl ≤ t0 → t0 ≤ c.tn → ¬ (t0 < c.tn ∧ c.x.is_empty = true) →
      (Model.transition D TransitionPolicyDefault (.executive a c st chi hp l ks)
        t0).fault = none →
      Executive.have_chi a hp t0 (Executive.route D a c st l ks).last_output_list = true →
      ops = D.structural a (t0 - chi.chi_tl) (Executive.route D a c st l ks).core.x st
        ((TransitionPolicyDefault
          (Model.transitionN D TransitionPolicyDefault (Model.executive a c st chi hp l ks).depth)
          (Executive.bag a hp t0 (Executive.route D a c st l ks).last_output_list) t0
          ⟨hp, (Executive.route D a c st l ks).kids⟩).state.kids.map Model.addr) →
      Structural.insert mdl ∈ ops → (∀ b, Structural.erase b ∈ ops → b ≠ mdl.addr) →
      ∀ s1, s1 = (Model.transition D TransitionPolicyDefault (.executive a c st chi hp l ks)
          t0).state →
      ∀ t, t = s1.core.tn →
        ∃ k ∈ s1.kids, k.addr = mdl.addr ∧
          ((Model.output D s1 t).fault = none →
            (mdl.addr ∈ (outputCalls (Model.output D s1 t).log).map Prod.fst ↔ k.core.tn = t) ∧
            ((outputCalls (Model.output D s1 t).log).map Prod.fst).Nodup ∧
            (∀ p ∈ outputCalls (Model.output D s1 t).log, p.2 = t) ∧
            ∀ s2, s2 = (Model.output D s1 t).state →
              (Model.transition D TransitionPolicyDefault s2 t).fault = none →
              (mdl.addr ∈ (s2.heap.imminent t).map (fun e => e.element) ↔ k.core.tn = t) ∧
              (k.core.tn = t → mdl.addr ∈
                (transitionCalls (Model.transition D TransitionPolicyDefault s2 t).log).map
                  Prod.fst) ∧
              ((transitionCalls (Model.transition D TransitionPolicyDefault s2 t).log).map
                Prod.fst).Nodup ∧
              ∀ p ∈ transitionCalls (Model.transition D TransitionPolicyDefault s2 t).log,
                p.2 = t)) ∧
    (∀ (D : Dynamics T V S C), D.Disciplined → ∀ (a : Nat) (c : Core T V) (st : S)
        (chi : Chi T V C) (hp : HeapType T) (l : List Nat) (ks : List (Model T V S C)) (t0 : T)
        (mdl : Model T V S C) (ops : List (Structural T V S C)),
      Model.HeapOk (.executive a c st chi hp l ks) →
      c.tl ≤ t0 → t0 ≤ c.tn → ¬ (t0 < c.tn ∧ c.x.is_empty = true) →
      ∀ (pool0 : Nat), 0 < pool0 → ∀ (sched0 : List Nat),
      Interleaving (TransitionPolicyThread.jobs pool0
        (Executive.bag a hp t0 (Executive.route D a c st l ks).last_output_list).length)
        sched0 →
      (Model.transition D (TransitionPolicyThread sched0) (.executive a c st chi hp l ks)
        t0).fault = none →
      Executive.have_chi a hp t0 (Executive.route D a c st l ks).last_output_list = true →
      ops = D.structural a (t0 - chi.chi_tl) (Executive.route D a c st l ks).core.x st
        ((TransitionPolicyThread sched0
          (Model.transitionN D (TransitionPolicyThread sched0)
            (Model.executive a c st chi hp l ks).depth)
          (Executive.bag a hp t0 (Executive.route D a c st l ks).last_output_list) t0
          ⟨hp, (Executive.route D a c st l ks).kids⟩).state.kids.map Model.addr) →
      Structural.insert mdl ∈ ops → (∀ b, Structural.erase b ∈ ops → b ≠ mdl.addr) →
      ∀ s1, s1 = (Model.transition D (TransitionPolicyThread sched0)
          (.executive a c st chi hp l ks) t0).state →
      ∀ t, t = s1.core.tn →
        ∃ k ∈ s1.kids, k.addr = mdl.addr ∧
          ((Model.output D s1 t).fault = none →
            (mdl.addr ∈ (outputCalls (Model.output D s1 t).log).map Prod.fst ↔ k.core.tn = t) ∧
            ((outputCalls (Model.output D s1 t).log).map Prod.fst).Nodup ∧
            (∀ p ∈ outputCalls (Model.output D s1 t).log, p.2 = t) ∧
            ∀ c2 st2 chi2 hp2 l2 ks2,
              (Model.output D s1 t).state = .executive a c2 st2 chi2 hp2 l2 ks2 →
            ∀ pool1 sched1, 0 < pool1 →
              Interleaving (TransitionPolicyThread.jobs pool1
                (Executive.bag a hp2 t
                  (Executive.route D a c2 st2 l2 ks2).last_output_list).length) sched1 →
              (Model.transition D (TransitionPolicyThread sched1)
                (.executive a c2 st2 chi2 hp2 l2 ks2) t).fault = none →
              (mdl.addr ∈ (hp2.imminent t).map (fun e => e.element) ↔ k.core.tn = t) ∧
              (k.core.tn = t → mdl.addr ∈
                (transitionCalls (Model.transition D (TransitionPolicyThread sched1)
                  (.executive a c2 st2 chi2 hp2 l2 ks2) t).log).map Prod.fst) ∧
              ((transitionCalls (Model.transition D (TransitionPolicyThread sched1)
                (.executive a c2 st2 chi2 hp2 l2 ks2) t).log).map Prod.fst).Nodup ∧
              ∀ p ∈ transitionCalls (Model.transition D (TransitionPolicyThread sched1)
                (.executive a c2 st2 chi2 hp2 l2 ks2) t).log, p.2 = t)) ∧
    (TransitionPolicyThread.jobs 0 2 = [] ∧
      Crowd.afterOutput.kids.map Model.addr = [51, 52] ∧
      (Model.transition Crowd.dynamics (TransitionPolicyThread []) Crowd.afterOutput
        (.fin 2)).fault = none ∧
      deltaCalls (Model.transition Crowd.dynamics (TransitionPolicyThread [])
        Crowd.afterOutput (.fin 2)).log = [(50, .fin 2)] ∧
      Crowd.grown.kids.map (fun k => (k.addr, k.core.tl, k.core.tn))
        = [(51, .fin 0, .fin 3), (52, .fin 0, .pinf), (53, .fin 2, .fin 3)] ∧
      Crowd.grown.core.tn = .fin 3 ∧
      (Model.output Crowd.dynamics Crowd.grown (.fin 3)).fault = none ∧
      outputCalls (Model.output Crowd.dynamics Crowd.grown (.fin 3)).log
        = [(51, .fin 3), (53, .fin 3)] ∧
      (Crowd.grownOutput.heap.imminent (.fin 3)).map (fun e => e.element) = [50, 51, 53] ∧
      Executive.bag 50 Crowd.grownOutput.heap (.fin 3) Crowd.grownOutput.last_output_list
        = [51, 53] ∧
      (Model.transition Crowd.dynamics (TransitionPolicyThread []) Crowd.grownOutput
        (.fin 3)).fault = none ∧
      transitionCalls (Model.transition Crowd.dynamics (TransitionPolicyThread [])
        Crowd.grownOutput (.fin 3)).log = [] ∧
      ((Model.transition Crowd.dynamics (TransitionPolicyThread []) Crowd.grownOutput
        (.fin 3)).state.kids.filter (fun k => k.addr == 53)).map
          (fun k => (k.core.tl, k.core.tn)) = [(.fin 2, .fin 3)] ∧
      transitionCalls (Model.transition Crowd.dynamics TransitionPolicyDefault
        Crowd.grownOutput (.fin 3)).log = [(51, .fin 3), (53, .fin 3)]) :=
  ⟨fun D hS a c st chi hp l ks t0 mdl ops hr0 h1 h2 h3 hok0 hc hops hins hne =>
      Executive.inserted_imminent_sequential D hS a c st chi hp l ks t0 mdl ops hr0 h1 h2 h3
        hok0 hc hops hins hne,
    fun D hS a c st chi hp l ks t0 mdl ops hinv0 h1 h2 h3 pool0 hpool0 sched0 hsched0 hok0 hc
        hops hins hne =>
      Executive.inserted_imminent_parallel D hS a c st chi hp l ks t0 mdl ops hinv0 h1 h2 h3
        pool0 hpool0 sched0 hsched0 hok0 hc hops hins hne,
    TransitionPolicyThread.jobs_zero 2, by decide!, by decide!, by decide!, by decide!,
    by decide!, by decide!, by decide!, by decide!, by decide!, by decide!, by decide!,
    by decide!, by decide!⟩

/-- C15, on the sample executives.  Sequential policy, the first executive: the
`delta` of `transition(2)` (time `1.0`) inserts the new child, whose `init`
returns `1` (`0.5`); at the next event, `3` (time `1.5`), `output(3)` and
`transition(3)` are each called once on the new child, and on no other child.
Parallel policy, the second executive, with one worker at `transition(2)` and
two workers at `transition(3)`, the second calling first: the new child 53 is
called once by `output(3)` and once by `transition(3)`, as is the child 51. -/
theorem C15_inserted_imminent_witness :
    ((∃ k ∈ Growth.grown.kids, k.addr = 13) ∧
    Growth.grown.core.tn = .fin 3 ∧
    outputCalls (Model.output Growth.dynamics Growth.grown (.fin 3)).log = [(13, .fin 3)] ∧
    transitionCalls
      (Model.transition Growth.dynamics TransitionPolicyDefault Growth.grownOutput (.fin 3)).log
      = [(13, .fin 3)]) ∧
    ((∃ k ∈ Crowd.grown.kids, k.addr = 53) ∧
      Crowd.grown.core.tn = .fin 3 ∧
      outputCalls (Model.output Crowd.dynamics Crowd.grown (.fin 3)).log
        = [(51, .fin 3), (53, .fin 3)] ∧
      53 ∈ (transitionCalls (Model.transition Crowd.dynamics (TransitionPolicyThread [1, 0])
        Crowd.grownOutput (.fin 3)).log).map Prod.fst ∧
      transitionCalls (Model.transition Crowd.dynamics (TransitionPolicyThread [1, 0])
        Crowd.grownOutput (.fin 3)).log = [(53, .fin 3), (51, .fin 3)]) :=
  by
    have hr0 : Reachable Growth.dynamics TransitionPolicyDefault
        (.executive 10 Growth.afterOutput.core 0
          ⟨.fin 0, .fin 2, some 0, PortList.new, PortList.new, ()⟩ Growth.afterOutput.heap
          Growth.afterOutput.last_output_list Growth.afterOutput.kids) :=
      Growth.reachable_growthOutput
    have h := (C15_inserted_imminent (T := ExtInt) (V := Nat) (S := Nat) (C := Unit)).1
      Growth.dynamics Growth.growth_disciplined 10
      Growth.afterOutput.core 0 ⟨.fin 0, .fin 2, some 0, PortList.new, PortList.new, ()⟩
      Growth.afterOutput.heap Growth.afterOutput.last_output_list Growth.afterOutput.kids
      (.fin 2) Growth.newChild [.insert Growth.newChild] hr0 (by decide) (by decide)
      (by decide) (by decide) (by decide) rfl (List.mem_cons_self _ _)
      (by
        intro b hb
        have h := List.mem_singleton.1 hb
        cases h)
      _ rfl _ rfl
    have h1 := (C15_inserted_imminent (T := ExtInt) (V := Nat) (S := Nat) (C := Unit)).2.1
      Crowd.dynamics Crowd.crowd_disciplined 50
      Crowd.afterOutput.core 0 ⟨.fin 0, .fin 2, some 0, PortList.new, PortList.new, ()⟩
      Crowd.afterOutput.heap Crowd.afterOutput.last_output_list Crowd.afterOutput.kids
      (.fin 2) Crowd.newChild [.insert Crowd.newChild] Crowd.heapOk_crowdOutput (by decide!)
      (by decide!) (by decide!) 1 Nat.one_pos
    have h2 := h1 [] Crowd.interleaving_none (by decide!) (by decide!) rfl
      (List.mem_cons_self _ _)
      (by
        intro b hb
        have h := List.mem_singleton.1 hb
        cases h)
      Crowd.grown rfl (.fin 3) (by decide!)
    obtain ⟨k, hk, hka, hout⟩ := h2
    obtain ⟨_, _, _, htr⟩ := hout (by decide!)
    have h3 := htr Crowd.grownOutput.core 1
      ⟨.fin 2, .fin 3, some 0, PortList.new, PortList.new, ()⟩ Crowd.grownOutput.heap
      Crowd.grownOutput.last_output_list Crowd.grownOutput.kids Crowd.grownOutput_form 2
    have h4 := h3 [1, 0] (by decide) Crowd.interleaving_swap (by decide!)
    rw [← Crowd.grownOutput_form] at h4
    exact ⟨⟨h.elim (fun k hk => ⟨k, hk.1, hk.2.1⟩), by decide, by decide, by decide!⟩,
      ⟨k, hk, hka⟩, by decide!, by decide!, h4.2.1 (h4.1.1 (by decide!)), by decide!⟩
end Theorems

end vle
